import Mathlib

/-!
# elf2macho: the ELF to Mach-O translator of Polyglot

A shallow embedding of `src/tools/elf2macho/elf2macho.cpp`, followed by one of the method
`entry::copy_content_to` of the archive converter, `src/tools/exar/exar.cpp`.

* Machine integers are natural numbers; every place where the C++ arithmetic can wrap
  carries an explicit reduction modulo `2^32` or `2^64` (`size_t` is 64 bits wide).
* An output stream is the list of bytes appended to it, a byte being a natural number.
* `convert` returns `Except Failure mach`: a thrown exception, a failed allocation and
  undefined behaviour are kept apart from one another.
* The `Elf` handle of libelf is modelled by the data the program reads through it.
* `Elf_File` is the file behind the handle: the names of the sections are strings of its
  section-name string table, itself one of the sections.
-/

namespace Elf2Macho

/-! ## Machine arithmetic -/

/-- Reduction to an unsigned 32-bit value. -/
def u32 (v : Nat) : Nat := v % 2 ^ 32

/-- Reduction to an unsigned 64-bit value. -/
def u64 (v : Nat) : Nat := v % 2 ^ 64

/-- Unsigned 64-bit subtraction `a - b`, wrapping around. -/
def sub64 (a b : Nat) : Nat := (a % 2 ^ 64 + (2 ^ 64 - b % 2 ^ 64)) % 2 ^ 64

/-- The constant `MACH_ALIGN` (line 61). -/
def MACH_ALIGN : Nat := 0x1000

/-- The expression `ROUND_TO_2POW(m, v)`, that is `((v) + (m) - 1) & -(m)`, evaluated
on unsigned 64-bit operands: the sum wraps and `-(m)` is the two's complement of `m`. -/
def ROUND_TO_2POW (m v : Nat) : Nat :=
  ((v + m - 1) % 2 ^ 64) &&& ((2 ^ 64 - m % 2 ^ 64) % 2 ^ 64)

/-- Floor of the binary logarithm, by halving at most `fuel` times. -/
def log2_floor : Nat → Nat → Nat
  | 0, _ => 0
  | fuel + 1, x => if x < 2 then 0 else log2_floor fuel (x / 2) + 1

/-- The expression `(int)log2(x)` stored in a `uint32_t`, for a 64-bit `x`. It is exact when
`x` is a power of two, the only values an ELF alignment takes besides 0. For other `x` the
embedding takes the floor (the C value passes through a `double`), and for `x = 0`, where
the C conversion of minus infinity is undefined, it takes 0. -/
def c_log2 (x : Nat) : Nat := u32 (log2_floor 64 x)

/-! ## Constants of `macho.hpp` and of `<elf.h>` -/

def CPU_ARCH_ABI64 : Nat := 0x01000000
def CPU_TYPE_VAX : Nat := 1
def CPU_TYPE_MC680x0 : Nat := 6
def CPU_TYPE_X86 : Nat := 7
def CPU_TYPE_X86_64 : Nat := CPU_TYPE_X86 ||| CPU_ARCH_ABI64
def CPU_TYPE_MIPS : Nat := 8
def CPU_TYPE_HPPA : Nat := 11
def CPU_TYPE_ARM : Nat := 12
def CPU_TYPE_ARM64 : Nat := CPU_TYPE_ARM ||| CPU_ARCH_ABI64
def CPU_TYPE_MC88000 : Nat := 13
def CPU_TYPE_SPARC : Nat := 14
def CPU_TYPE_I860 : Nat := 15
def CPU_TYPE_ALPHA : Nat := 16
def CPU_TYPE_POWERPC : Nat := 18
def CPU_TYPE_POWERPC64 : Nat := CPU_TYPE_POWERPC ||| CPU_ARCH_ABI64

def CPU_SUBTYPE_VAX_ALL : Nat := 0
def CPU_SUBTYPE_MC680x0_ALL : Nat := 1
def CPU_SUBTYPE_X86_ALL : Nat := 3
def CPU_SUBTYPE_X86_64_ALL : Nat := 3
def CPU_SUBTYPE_MIPS_ALL : Nat := 0
def CPU_SUBTYPE_HPPA_ALL : Nat := 0
def CPU_SUBTYPE_ARM_ALL : Nat := 0
def CPU_SUBTYPE_ARM64_ALL : Nat := 0
def CPU_SUBTYPE_MC88000_ALL : Nat := 0
def CPU_SUBTYPE_SPARC_ALL : Nat := 0
def CPU_SUBTYPE_I860_ALL : Nat := 0
def CPU_SUBTYPE_ALPHA_ALL : Nat := 0
def CPU_SUBTYPE_POWERPC_ALL : Nat := 0
def CPU_SUBTYPE_POWERPC64_ALL : Nat := 0

def MH_MAGIC : Nat := 0xfeedface
def MH_MAGIC_64 : Nat := 0xfeedfacf
def MH_EXECUTE : Nat := 0x2
def MH_NOUNDEFS : Nat := 0x1
def MH_SPLIT_SEGS : Nat := 0x20
def LC_SEGMENT : Nat := 0x01
def LC_UNIXTHREAD : Nat := 0x05
def LC_SEGMENT_64 : Nat := 0x19
def VM_PROT_READ : Nat := 0x01
def VM_PROT_WRITE : Nat := 0x02
def VM_PROT_EXECUTE : Nat := 0x04
def S_REGULAR : Nat := 0x00
def S_ZEROFILL : Nat := 0x01
def S_MOD_INIT_FUNC_POINTERS : Nat := 0x09
def S_MOD_TERM_FUNC_POINTERS : Nat := 0x0a
def PPC_THREAD_STATE : Nat := 1
def x86_THREAD_STATE32 : Nat := 1
def x86_THREAD_STATE64 : Nat := 4

def ELFCLASS32 : Nat := 1
def ELFCLASS64 : Nat := 2
def ELFDATA2LSB : Nat := 1
def ELFDATA2MSB : Nat := 2
def ET_EXEC : Nat := 2
def EM_SPARC : Nat := 2
def EM_386 : Nat := 3
def EM_68K : Nat := 4
def EM_88K : Nat := 5
def EM_860 : Nat := 7
def EM_MIPS : Nat := 8
def EM_PARISC : Nat := 15
def EM_PPC : Nat := 20
def EM_PPC64 : Nat := 21
def EM_ARM : Nat := 40
def EM_X86_64 : Nat := 62
def EM_VAX : Nat := 75
def EM_AARCH64 : Nat := 183
def EM_ALPHA : Nat := 0x9026
def SHT_NULL : Nat := 0
def SHT_PROGBITS : Nat := 1
def SHT_NOBITS : Nat := 8
def SHT_INIT_ARRAY : Nat := 14
def SHT_FINI_ARRAY : Nat := 15
def SHT_PREINIT_ARRAY : Nat := 16
def SHF_WRITE : Nat := 1
def SHF_ALLOC : Nat := 2
def SHF_EXECINSTR : Nat := 4

/-! ## The serializer -/

/-- The enumeration `mach_endianness`. -/
inductive mach_endianness where
  | MACH_MSB
  | MACH_LSB
  deriving DecidableEq, Repr

open mach_endianness

/-- The overload `byteswap(uint16_t)`. -/
def byteswap16 (v : Nat) : Nat :=
  ((v >>> 8) &&& 0x00ff) ||| ((v <<< 8) &&& 0xff00)

/-- The overload `byteswap(uint32_t)`. -/
def byteswap32 (v : Nat) : Nat :=
  ((v >>> 24) &&& 0x000000ff) ||| ((v >>> 8) &&& 0x0000ff00)
    ||| ((v <<< 8) &&& 0x00ff0000) ||| ((v <<< 24) &&& 0xff000000)

/-- The overload `byteswap(uint64_t)`. -/
def byteswap64 (v : Nat) : Nat :=
  ((v >>> 56) &&& 0x00000000000000ff) ||| ((v >>> 40) &&& 0x000000000000ff00)
    ||| ((v >>> 24) &&& 0x0000000000ff0000) ||| ((v >>> 8) &&& 0x00000000ff000000)
    ||| ((v <<< 8) &&& 0x000000ff00000000) ||| ((v <<< 24) &&& 0x0000ff0000000000)
    ||| ((v <<< 40) &&& 0x00ff000000000000) ||| ((v <<< 56) &&& 0xff00000000000000)

/-- The overloads of `byteswap`, selected by the width in bytes of the argument type. -/
def byteswap (nbytes v : Nat) : Nat :=
  if nbytes = 2 then byteswap16 v else if nbytes = 4 then byteswap32 v else byteswap64 v

/-- The expression `make_endian(e, v)`: which of `SWAP_MSB` and `SWAP_LSB` is `byteswap`
depends on the byte order `host` of the machine the translator is compiled for. -/
def make_endian (host e : mach_endianness) (nbytes v : Nat) : Nat :=
  match host with
  | MACH_LSB => if e = MACH_MSB then byteswap nbytes v else v
  | MACH_MSB => if e = MACH_MSB then v else byteswap nbytes v

/-- The `n` low bytes of `v`, least significant first. -/
def le_bytes : Nat → Nat → List Nat
  | 0, _ => []
  | n + 1, v => v % 256 :: le_bytes n (v / 256)

/-- The bytes an object of `nbytes` bytes holding `v` occupies in the memory of `host`. -/
def object_bytes (host : mach_endianness) (nbytes v : Nat) : List Nat :=
  match host with
  | MACH_LSB => le_bytes nbytes v
  | MACH_MSB => (le_bytes nbytes v).reverse

/-- The template `_write(os, e, value)` for an integer type of `nbytes` bytes: the bytes
appended to the stream. -/
def _write (host e : mach_endianness) (nbytes value : Nat) : List Nat :=
  object_bytes host nbytes (make_endian host e nbytes value)

/-- Decoding of a field of a file written in byte order `e`. -/
def decode (e : mach_endianness) (bytes : List Nat) : Nat :=
  match e with
  | MACH_LSB => bytes.foldr (fun b acc => b + 256 * acc) 0
  | MACH_MSB => bytes.foldl (fun acc b => 256 * acc + b) 0

/-- The overload `_write(os, str, size)` for a text field of `size` bytes. -/
def _write_str (str : List Nat) (size : Nat) : List Nat :=
  if str.length ≥ size then str.take size
  else str ++ List.replicate (size - str.length) 0

/-- The bytes of a `std::string`; the names the program writes are ASCII literals, one byte
per character. -/
def string_bytes (s : String) : List Nat := s.data.map Char.toNat

/-! ## The destination object model -/

/-- The struct `mach_cpu`. -/
structure mach_cpu where
  type : Nat
  subtype : Nat
  deriving DecidableEq, Repr

/-- The struct `mach_header`. The fields `ncmds` and `sizeofcmds` are assigned by
`mach::write` only; until then they hold no determined value. -/
structure mach_header where
  bits : Nat
  endian : mach_endianness
  cpu : mach_cpu
  filetype : Nat
  ncmds : Nat
  sizeofcmds : Nat
  flags : Nat
  deriving DecidableEq, Repr

/-- The method `mach_header::structsize`. -/
def mach_header.structsize (h : mach_header) : Nat := if h.bits = 32 then 28 else 32

/-- The method `mach_header::write`. -/
def mach_header.write (host : mach_endianness) (h : mach_header) : List Nat :=
  (if h.bits = 32 then _write host h.endian 4 MH_MAGIC else _write host h.endian 4 MH_MAGIC_64)
    ++ _write host h.endian 4 h.cpu.type
    ++ _write host h.endian 4 h.cpu.subtype
    ++ _write host h.endian 4 h.filetype
    ++ _write host h.endian 4 h.ncmds
    ++ _write host h.endian 4 h.sizeofcmds
    ++ _write host h.endian 4 h.flags
    ++ (if h.bits = 64 then _write host h.endian 4 0 else [])

/-- The struct `section` (a reserved word here, hence the longer name). An object made by
`new section()` is zero-initialized. -/
structure mach_section where
  bits : Nat := 0
  endian : mach_endianness := MACH_MSB
  sectname : String := ""
  segname : String := ""
  addr : Nat := 0
  size : Nat := 0
  offset : Nat := 0
  align : Nat := 0
  reloff : Nat := 0
  nreloc : Nat := 0
  flags : Nat := 0
  deriving DecidableEq, Repr

/-- The method `section::structsize`. -/
def mach_section.structsize (s : mach_section) : Nat := if s.bits = 32 then 68 else 80

/-- The method `section::write`; `none` stands for a failed `assert`. -/
def mach_section.write (host : mach_endianness) (s : mach_section) : Option (List Nat) :=
  if s.bits = 32 ∧ ¬ (s.addr ≤ 0xffffffff ∧ s.size ≤ 0xffffffff) then none
  else some (
    _write_str (string_bytes s.sectname) 16
      ++ _write_str (string_bytes s.segname) 16
      ++ (if s.bits = 32 then
            _write host s.endian 4 (s.addr &&& 0xffffffff)
              ++ _write host s.endian 4 (s.size &&& 0xffffffff)
          else _write host s.endian 8 s.addr ++ _write host s.endian 8 s.size)
      ++ _write host s.endian 4 s.offset
      ++ _write host s.endian 4 s.align
      ++ _write host s.endian 4 s.reloff
      ++ _write host s.endian 4 s.nreloc
      ++ _write host s.endian 4 s.flags
      ++ _write host s.endian 4 0
      ++ _write host s.endian 4 0
      ++ (if s.bits = 64 then _write host s.endian 4 0 else []))

/-- The struct `segment_command`. An object made by `new segment_command()` is
zero-initialized and has no section. -/
structure segment_command where
  bits : Nat := 0
  endian : mach_endianness := MACH_MSB
  segname : String := ""
  vmaddr : Nat := 0
  vmsize : Nat := 0
  fileoff : Nat := 0
  filesize : Nat := 0
  maxprot : Nat := 0
  initprot : Nat := 0
  flags : Nat := 0
  sections : List mach_section := []
  deriving DecidableEq, Repr

/-- The method `segment_command::structsize`. -/
def segment_command.structsize (c : segment_command) : Nat := if c.bits = 32 then 56 else 72

/-- The method `segment_command::cmdsize`, a sum of `uint32_t` values. -/
def segment_command.cmdsize (c : segment_command) : Nat :=
  c.sections.foldl (fun ts s => u32 (ts + s.structsize)) c.structsize

/-- The loop of `segment_command::write` over the sections: each section receives the name
of the segment before it is written. -/
def write_sections (host : mach_endianness) (segname : String) :
    List mach_section → Option (List Nat)
  | [] => some []
  | s :: rest =>
    match mach_section.write host { s with segname := segname } with
    | none => none
    | some b =>
      match write_sections host segname rest with
      | none => none
      | some bs => some (b ++ bs)

/-- The method `segment_command::write`; `none` stands for a failed `assert`. -/
def segment_command.write (host : mach_endianness) (c : segment_command) :
    Option (List Nat) :=
  if c.bits = 32 ∧ ¬ (c.vmaddr ≤ 0xffffffff ∧ c.vmsize ≤ 0xffffffff
      ∧ c.fileoff ≤ 0xffffffff ∧ c.filesize ≤ 0xffffffff) then none
  else
    match write_sections host c.segname c.sections with
    | none => none
    | some secs => some (
      (if c.bits = 32 then _write host c.endian 4 LC_SEGMENT
        else _write host c.endian 4 LC_SEGMENT_64)
        ++ _write host c.endian 4 c.cmdsize
        ++ _write_str (string_bytes c.segname) 16
        ++ (if c.bits = 32 then
              _write host c.endian 4 (c.vmaddr &&& 0xffffffff)
                ++ _write host c.endian 4 (c.vmsize &&& 0xffffffff)
                ++ _write host c.endian 4 (c.fileoff &&& 0xffffffff)
                ++ _write host c.endian 4 (c.filesize &&& 0xffffffff)
            else
              _write host c.endian 8 c.vmaddr ++ _write host c.endian 8 c.vmsize
                ++ _write host c.endian 8 c.fileoff ++ _write host c.endian 8 c.filesize)
        ++ _write host c.endian 4 c.maxprot
        ++ _write host c.endian 4 c.initprot
        ++ _write host c.endian 4 (u32 c.sections.length)
        ++ _write host c.endian 4 c.flags
        ++ secs)

/-- The struct `thread_state_x86`; `new thread_state_x86()` zero-initializes it. -/
structure thread_state_x86 where
  bits : Nat := 0
  endian : mach_endianness := MACH_MSB
  eax : Nat := 0
  ebx : Nat := 0
  ecx : Nat := 0
  edx : Nat := 0
  edi : Nat := 0
  esi : Nat := 0
  ebp : Nat := 0
  esp : Nat := 0
  eip : Nat := 0
  ss : Nat := 0
  eflags : Nat := 0
  cs : Nat := 0
  ds : Nat := 0
  es : Nat := 0
  fs : Nat := 0
  gs : Nat := 0
  deriving DecidableEq, Repr

/-- The method `thread_state_x86::write`. -/
def thread_state_x86.write (host : mach_endianness) (s : thread_state_x86) : List Nat :=
  _write host s.endian 4 s.eax ++ _write host s.endian 4 s.ebx
    ++ _write host s.endian 4 s.ecx ++ _write host s.endian 4 s.edx
    ++ _write host s.endian 4 s.edi ++ _write host s.endian 4 s.esi
    ++ _write host s.endian 4 s.ebp ++ _write host s.endian 4 s.esp
    ++ _write host s.endian 4 s.ss ++ _write host s.endian 4 s.eflags
    ++ _write host s.endian 4 s.eip ++ _write host s.endian 4 s.cs
    ++ _write host s.endian 4 s.ds ++ _write host s.endian 4 s.es
    ++ _write host s.endian 4 s.fs ++ _write host s.endian 4 s.gs

/-- The struct `thread_state_x86_64`; `new thread_state_x86_64()` zero-initializes it. -/
structure thread_state_x86_64 where
  bits : Nat := 0
  endian : mach_endianness := MACH_MSB
  rax : Nat := 0
  rbx : Nat := 0
  rcx : Nat := 0
  rdx : Nat := 0
  rdi : Nat := 0
  rsi : Nat := 0
  rbp : Nat := 0
  rsp : Nat := 0
  r8 : Nat := 0
  r9 : Nat := 0
  r10 : Nat := 0
  r11 : Nat := 0
  r12 : Nat := 0
  r13 : Nat := 0
  r14 : Nat := 0
  r15 : Nat := 0
  rip : Nat := 0
  rflags : Nat := 0
  cs : Nat := 0
  fs : Nat := 0
  gs : Nat := 0
  deriving DecidableEq, Repr

/-- The method `thread_state_x86_64::write`. -/
def thread_state_x86_64.write (host : mach_endianness) (s : thread_state_x86_64) :
    List Nat :=
  _write host s.endian 8 s.rax ++ _write host s.endian 8 s.rbx
    ++ _write host s.endian 8 s.rcx ++ _write host s.endian 8 s.rdx
    ++ _write host s.endian 8 s.rdi ++ _write host s.endian 8 s.rsi
    ++ _write host s.endian 8 s.rbp ++ _write host s.endian 8 s.rsp
    ++ _write host s.endian 8 s.r8 ++ _write host s.endian 8 s.r9
    ++ _write host s.endian 8 s.r10 ++ _write host s.endian 8 s.r11
    ++ _write host s.endian 8 s.r12 ++ _write host s.endian 8 s.r13
    ++ _write host s.endian 8 s.r14 ++ _write host s.endian 8 s.r15
    ++ _write host s.endian 8 s.rip ++ _write host s.endian 8 s.rflags
    ++ _write host s.endian 8 s.cs ++ _write host s.endian 8 s.fs
    ++ _write host s.endian 8 s.gs

/-- The struct `thread_state_powerpc`; `new thread_state_powerpc()` zero-initializes it,
the 32 elements of `gpr` included. -/
structure thread_state_powerpc where
  bits : Nat := 0
  endian : mach_endianness := MACH_MSB
  srr0 : Nat := 0
  srr1 : Nat := 0
  gpr : List Nat := List.replicate 32 0
  cr : Nat := 0
  xer : Nat := 0
  lr : Nat := 0
  ctr : Nat := 0
  mq : Nat := 0
  vrsave : Nat := 0
  deriving DecidableEq, Repr

/-- The method `thread_state_powerpc::write`; the loop writes `gpr[0]` to `gpr[31]`. -/
def thread_state_powerpc.write (host : mach_endianness) (s : thread_state_powerpc) :
    List Nat :=
  _write host s.endian 4 s.srr0 ++ _write host s.endian 4 s.srr1
    ++ ((List.range 32).map (fun i => _write host s.endian 4 (s.gpr.getD i 0))).flatten
    ++ _write host s.endian 4 s.cr ++ _write host s.endian 4 s.xer
    ++ _write host s.endian 4 s.lr ++ _write host s.endian 4 s.ctr
    ++ _write host s.endian 4 s.mq ++ _write host s.endian 4 s.vrsave

/-- The three classes derived from `thread_state`. -/
inductive thread_state where
  | x86 (s : thread_state_x86)
  | x86_64 (s : thread_state_x86_64)
  | powerpc (s : thread_state_powerpc)
  deriving DecidableEq, Repr

/-- The virtual method `flavor`. -/
def thread_state.flavor : thread_state → Nat
  | .x86 _ => x86_THREAD_STATE32
  | .x86_64 _ => x86_THREAD_STATE64
  | .powerpc _ => PPC_THREAD_STATE

/-- The virtual method `count`. -/
def thread_state.count : thread_state → Nat
  | .x86 _ => 16
  | .x86_64 _ => 42
  | .powerpc _ => 40

/-- The method `thread_state::structsize`. -/
def thread_state.structsize (s : thread_state) : Nat := u32 (s.count * 4)

/-- The byte order the payload was created with. -/
def thread_state.endian : thread_state → mach_endianness
  | .x86 s => s.endian
  | .x86_64 s => s.endian
  | .powerpc s => s.endian

/-- The virtual method `write` of a thread state. -/
def thread_state.write (host : mach_endianness) : thread_state → List Nat
  | .x86 s => s.write host
  | .x86_64 s => s.write host
  | .powerpc s => s.write host

/-- The struct `unixthread_command`; `state` is a null pointer until `add_state`. -/
structure unixthread_command where
  bits : Nat := 0
  endian : mach_endianness := MACH_MSB
  state : Option thread_state := none
  deriving DecidableEq, Repr

/-- The method `unixthread_command::structsize`. -/
def unixthread_command.structsize (_c : unixthread_command) : Nat := 16

/-- The method `unixthread_command::cmdsize`; `none` stands for the failed
`assert(state.get() != NULL)`. -/
def unixthread_command.cmdsize (c : unixthread_command) : Option Nat :=
  match c.state with
  | none => none
  | some s => some (u32 (c.structsize + s.structsize))

/-- The method `unixthread_command::write`; `none` stands for a failed `assert`. -/
def unixthread_command.write (host : mach_endianness) (c : unixthread_command) :
    Option (List Nat) :=
  match c.state, c.cmdsize with
  | some s, some n =>
    some (_write host c.endian 4 LC_UNIXTHREAD ++ _write host c.endian 4 n
      ++ _write host c.endian 4 s.flavor ++ _write host c.endian 4 s.count
      ++ s.write host)
  | _, _ => none

/-- The two classes derived from `load_command`. -/
inductive load_command where
  | segment (c : segment_command)
  | unixthread (c : unixthread_command)
  deriving DecidableEq, Repr

/-- The virtual method `cmdsize`. -/
def load_command.cmdsize : load_command → Option Nat
  | .segment c => some c.cmdsize
  | .unixthread c => c.cmdsize

/-- The virtual method `write` of a load command. -/
def load_command.write (host : mach_endianness) : load_command → Option (List Nat)
  | .segment c => c.write host
  | .unixthread c => c.write host

/-- The struct `mach_file_segment`: `content` is the buffer of `size` bytes it owns. -/
structure mach_file_segment where
  offset : Nat
  size : Nat
  content : List Nat
  deriving DecidableEq, Repr

/-- The method `mach_file_segment::write`, which sends the `size` bytes of the buffer. -/
def mach_file_segment.write (s : mach_file_segment) : List Nat := s.content.take s.size

/-- The struct `mach`. -/
structure mach where
  endian : mach_endianness
  bits : Nat
  header : mach_header
  load_commands : List load_command
  file_segments : List mach_file_segment
  deriving DecidableEq, Repr

/-- The loop of `mach::size_of_commands`, a sum of `uint32_t` values starting from `soc`. -/
def sum_cmdsize : List load_command → Nat → Option Nat
  | [], soc => some soc
  | c :: rest, soc =>
    match c.cmdsize with
    | none => none
    | some n => sum_cmdsize rest (u32 (soc + n))

/-- The method `mach::size_of_commands`. -/
def mach.size_of_commands (m : mach) : Option Nat := sum_cmdsize m.load_commands 0

/-- The method `mach::size_of_headers`. -/
def mach.size_of_headers (m : mach) : Option Nat :=
  match m.size_of_commands with
  | none => none
  | some soc => some (u32 (m.header.structsize + soc))

/-- The first loop of `mach::write`, over the load commands. -/
def write_commands (host : mach_endianness) : List load_command → Option (List Nat)
  | [] => some []
  | c :: rest =>
    match c.write host with
    | none => none
    | some b =>
      match write_commands host rest with
      | none => none
      | some bs => some (b ++ bs)

/-- The second loop of `mach::write`: `out` holds the bytes written since `startpos`, and
each content region must start where the stream stands. -/
def write_file_segments : List mach_file_segment → List Nat → Option (List Nat)
  | [], out => some out
  | s :: rest, out =>
    if s.offset = out.length then write_file_segments rest (out ++ s.write) else none

/-- The header as `mach::write` completes it before writing it. -/
def mach.written_header (m : mach) : Option mach_header :=
  match m.size_of_commands with
  | none => none
  | some soc => some { m.header with ncmds := u32 m.load_commands.length, sizeofcmds := soc }

/-- The method `mach::write` on a stream standing at position `startpos`: the bytes it
appends, or `none` when an `assert` fails. -/
def mach.write (host : mach_endianness) (m : mach) (startpos : Nat) : Option (List Nat) :=
  if m.load_commands.length = 0 ∨ m.file_segments.length = 0 then none
  else
    match m.written_header, write_commands host m.load_commands with
    | some h, some cmds =>
      match write_file_segments m.file_segments (h.write host ++ cmds) with
      | none => none
      | some out => if startpos + out.length ≥ 4096 then some out else none
    | _, _ => none

/-! ## The source image, as read through libelf -/

/-- The fields of `GElf_Ehdr` that `convert` reads; `ei_class` and `ei_data` are
`e_ident[EI_CLASS]` and `e_ident[EI_DATA]`. -/
structure GElf_Ehdr where
  e_type : Nat
  ei_class : Nat
  ei_data : Nat
  e_machine : Nat
  e_entry : Nat
  deriving DecidableEq, Repr

/-- One section as the reader exposes it: the fields of its `GElf_Shdr`, the string
`elf_strptr(elf, eh.e_shstrndx, esh.sh_name)` (`none` for a null pointer) and the data
descriptors successive calls of `elf_rawdata` return, each given by the `d_size` bytes at
`d_buf`. The string is a function of the whole file: `Elf_File.handle` reads it from the
section-name string table. -/
structure Elf_Scn where
  sh_type : Nat
  sh_flags : Nat
  name : Option String
  sh_addr : Nat
  sh_offset : Nat
  sh_size : Nat
  sh_addralign : Nat
  rawdata : List (List Nat)
  deriving DecidableEq, Repr

/-- The handle `Elf *`: the result of `gelf_getehdr` (`none` when it fails) and, for each
index below `e_shnum`, the result of `elf_getscn` followed by `gelf_getshdr` (`none` when
the section cannot be read). -/
structure Elf where
  ehdr : Option GElf_Ehdr
  sections : List (Option Elf_Scn)
  deriving DecidableEq, Repr

/-! ## The translation engine -/

/-- The ways a call of `convert` ends without returning an image. -/
inductive Failure where
  /-- The statement `throw new convert_exception(message)`. -/
  | thrown_ptr (message : String)
  /-- The statement `throw convert_exception(message)`, an exception thrown by value. -/
  | thrown_val (message : String)
  /-- The exception of `operator new[]`. -/
  | bad_alloc
  /-- A failed `assert`. -/
  | assertion (what : String)
  /-- Undefined behaviour; the embedding follows the execution no further. -/
  | undefined (what : String)
  deriving DecidableEq, Repr

/-- The statement `throw new convert_exception(message)`. -/
def throw_new {α : Type} (message : String) : Except Failure α :=
  .error (.thrown_ptr message)

/-- The function `elf_check_name`, applied to the result of `elf_strptr`. -/
def elf_check_name (name : Option String) (want : String) : Bool :=
  match name with
  | none => false
  | some n => decide (n = want)

/-- The switch on `eh.e_machine`; `none` is its `default` label. -/
def machine_cpu (e_machine : Nat) : Option mach_cpu :=
  if e_machine = EM_VAX then some ⟨CPU_TYPE_VAX, CPU_SUBTYPE_VAX_ALL⟩
  else if e_machine = EM_68K then some ⟨CPU_TYPE_MC680x0, CPU_SUBTYPE_MC680x0_ALL⟩
  else if e_machine = EM_386 then some ⟨CPU_TYPE_X86, CPU_SUBTYPE_X86_ALL⟩
  else if e_machine = EM_X86_64 then some ⟨CPU_TYPE_X86_64, CPU_SUBTYPE_X86_64_ALL⟩
  else if e_machine = EM_MIPS then some ⟨CPU_TYPE_MIPS, CPU_SUBTYPE_MIPS_ALL⟩
  else if e_machine = EM_PARISC then some ⟨CPU_TYPE_HPPA, CPU_SUBTYPE_HPPA_ALL⟩
  else if e_machine = EM_ARM then some ⟨CPU_TYPE_ARM, CPU_SUBTYPE_ARM_ALL⟩
  else if e_machine = EM_AARCH64 then some ⟨CPU_TYPE_ARM64, CPU_SUBTYPE_ARM64_ALL⟩
  else if e_machine = EM_88K then some ⟨CPU_TYPE_MC88000, CPU_SUBTYPE_MC88000_ALL⟩
  else if e_machine = EM_SPARC then some ⟨CPU_TYPE_SPARC, CPU_SUBTYPE_SPARC_ALL⟩
  else if e_machine = EM_860 then some ⟨CPU_TYPE_I860, CPU_SUBTYPE_I860_ALL⟩
  else if e_machine = EM_ALPHA then some ⟨CPU_TYPE_ALPHA, CPU_SUBTYPE_ALPHA_ALL⟩
  else if e_machine = EM_PPC then some ⟨CPU_TYPE_POWERPC, CPU_SUBTYPE_POWERPC_ALL⟩
  else if e_machine = EM_PPC64 then some ⟨CPU_TYPE_POWERPC64, CPU_SUBTYPE_POWERPC64_ALL⟩
  else none

/-- The switch on `m->header.cpu.type` (lines 772 to 794): the payload `add_state` creates,
with its program counter set to `eh.e_entry` converted to the type of the register;
`none` is the `default` label. -/
def entry_state (cpu_type bits : Nat) (endian : mach_endianness) (e_entry : Nat) :
    Option thread_state :=
  if cpu_type = CPU_TYPE_X86 then
    some (.x86 { bits := bits, endian := endian, eip := u32 e_entry })
  else if cpu_type = CPU_TYPE_X86_64 then
    some (.x86_64 { bits := bits, endian := endian, rip := u64 e_entry })
  else if cpu_type = CPU_TYPE_POWERPC then
    some (.powerpc { bits := bits, endian := endian, srr0 := u32 e_entry })
  else none

/-- The objects `convert` reaches through its local handles. The C++ code shares each of
them with the image `m` by pointer; here each is kept once, under the name of its handle,
and `convert_state.image` reads the image off them. `origin` is `none` as long as the
local variable of that name is uninitialized. -/
structure convert_state where
  endian : mach_endianness
  bits : Nat
  header : mach_header
  sg_pgzero : segment_command
  sg_text : segment_command
  sc_text : mach_section
  sg_rodata : segment_command
  sc_rodata : mach_section
  sg_data : segment_command
  sc_data : mach_section
  sc_pinit : mach_section
  sc_init : mach_section
  sc_fini : mach_section
  sg_bss : segment_command
  sc_bss : mach_section
  th_unix : unixthread_command
  origin : Option Nat
  deriving DecidableEq, Repr

/-- The image `m` seen from the handles: the six load commands in the order of the calls
of `add_load_command`, each segment with its sections in the order of the calls of
`add_section` (lines 719 to 731). -/
def convert_state.image (st : convert_state) (file_segments : List mach_file_segment) :
    mach :=
  { endian := st.endian
    bits := st.bits
    header := st.header
    load_commands :=
      [ .segment { st.sg_pgzero with sections := [] },
        .segment { st.sg_text with sections := [st.sc_text] },
        .segment { st.sg_rodata with sections := [st.sc_rodata] },
        .segment { st.sg_data with
          sections := [st.sc_data, st.sc_pinit, st.sc_init, st.sc_fini] },
        .segment { st.sg_bss with sections := [st.sc_bss] },
        .unixthread st.th_unix ]
    file_segments := file_segments }

/-- The state at line 795: the image allocated, named and protected (lines 695 to 770) and
the thread state attached (lines 772 to 794). -/
def initial_state (bits : Nat) (endian : mach_endianness) (cpu : mach_cpu)
    (state : thread_state) : convert_state :=
  { endian := endian
    bits := bits
    header := { bits := bits, endian := endian, cpu := cpu, filetype := MH_EXECUTE,
                ncmds := 0, sizeofcmds := 0, flags := MH_NOUNDEFS ||| MH_SPLIT_SEGS }
    sg_pgzero := { bits := bits, endian := endian, segname := "__PAGEZERO",
                   maxprot := 0, initprot := 0 }
    sg_text := { bits := bits, endian := endian, segname := "__TEXT",
                 maxprot := VM_PROT_READ ||| VM_PROT_WRITE ||| VM_PROT_EXECUTE,
                 initprot := VM_PROT_READ ||| VM_PROT_EXECUTE }
    sc_text := { bits := bits, endian := endian, sectname := "__text", flags := S_REGULAR }
    sg_rodata := { bits := bits, endian := endian, segname := "__RODATA",
                   maxprot := VM_PROT_READ ||| VM_PROT_EXECUTE, initprot := VM_PROT_READ }
    sc_rodata := { bits := bits, endian := endian, sectname := "__rodata" }
    sg_data := { bits := bits, endian := endian, segname := "__DATA",
                 maxprot := VM_PROT_READ ||| VM_PROT_WRITE ||| VM_PROT_EXECUTE,
                 initprot := VM_PROT_READ ||| VM_PROT_WRITE }
    sc_data := { bits := bits, endian := endian, sectname := "__data" }
    sc_pinit := { bits := bits, endian := endian, sectname := "__preinit_arr",
                  flags := S_MOD_INIT_FUNC_POINTERS }
    sc_init := { bits := bits, endian := endian, sectname := "__init_arr",
                 flags := S_MOD_INIT_FUNC_POINTERS }
    sc_fini := { bits := bits, endian := endian, sectname := "__fini_arr",
                 flags := S_MOD_TERM_FUNC_POINTERS }
    sg_bss := { bits := bits, endian := endian, segname := "__BSS",
                maxprot := VM_PROT_READ ||| VM_PROT_WRITE ||| VM_PROT_EXECUTE,
                initprot := VM_PROT_READ ||| VM_PROT_WRITE }
    sc_bss := { bits := bits, endian := endian, sectname := "__bss", flags := S_ZEROFILL }
    th_unix := { bits := bits, endian := endian, state := some state }
    origin := none }

/-- The body of the first loop of `convert` (lines 806 to 927) for the section header
`esh` at index `i`. -/
def layout_section (i : Nat) (esh : Elf_Scn) (st : convert_state) :
    Except Failure convert_state :=
  match i with
  | 0 =>
    if esh.sh_type ≠ SHT_NULL then throw_new "ELF section 0 is not NULL"
    else .ok st
  | 1 =>
    if esh.sh_type ≠ SHT_PROGBITS ∨ esh.sh_flags ≠ (SHF_ALLOC ||| SHF_EXECINSTR)
        ∨ elf_check_name esh.name ".text" = false then
      throw_new "ELF section 1 is not .text"
    else
      let origin := sub64 esh.sh_addr esh.sh_offset
      let vmsize := ROUND_TO_2POW MACH_ALIGN esh.sh_size
      .ok { st with
        origin := some origin
        sg_pgzero := { st.sg_pgzero with vmsize := origin }
        sg_text := { st.sg_text with vmaddr := origin, vmsize := vmsize, filesize := vmsize }
        sc_text := { st.sc_text with addr := esh.sh_addr, size := esh.sh_size,
                                     offset := u32 esh.sh_offset,
                                     align := c_log2 esh.sh_addralign } }
  | 2 =>
    if esh.sh_type ≠ SHT_PROGBITS ∨ esh.sh_flags ≠ SHF_ALLOC
        ∨ elf_check_name esh.name ".rodata" = false then
      throw_new "ELF section 2 is not .rodata"
    else
      let vmsize := ROUND_TO_2POW MACH_ALIGN esh.sh_size
      .ok { st with
        sg_rodata := { st.sg_rodata with vmaddr := esh.sh_addr, vmsize := vmsize,
                                         fileoff := esh.sh_offset, filesize := vmsize }
        sc_rodata := { st.sc_rodata with addr := esh.sh_addr, size := esh.sh_size,
                                         offset := u32 esh.sh_offset,
                                         align := c_log2 esh.sh_addralign } }
  | 3 =>
    if esh.sh_type ≠ SHT_PROGBITS ∨ esh.sh_flags ≠ (SHF_ALLOC ||| SHF_WRITE)
        ∨ elf_check_name esh.name ".data" = false then
      throw_new "ELF section 3 is not .data"
    else
      .ok { st with
        sg_data := { st.sg_data with vmaddr := esh.sh_addr, vmsize := esh.sh_size,
                                     fileoff := esh.sh_offset }
        sc_data := { st.sc_data with addr := esh.sh_addr, size := esh.sh_size,
                                     offset := u32 esh.sh_offset,
                                     align := c_log2 esh.sh_addralign } }
  | 4 =>
    if esh.sh_type ≠ SHT_PREINIT_ARRAY ∨ esh.sh_flags ≠ (SHF_ALLOC ||| SHF_WRITE)
        ∨ elf_check_name esh.name ".preinit_array" = false then
      throw_new "ELF section 4 is not .preinit_array"
    else
      .ok { st with
        sg_data := { st.sg_data with vmsize := u64 (st.sg_data.vmsize + esh.sh_size) }
        sc_pinit := { st.sc_pinit with addr := esh.sh_addr, size := esh.sh_size,
                                       offset := u32 esh.sh_offset,
                                       align := c_log2 esh.sh_addralign } }
  | 5 =>
    if esh.sh_type ≠ SHT_INIT_ARRAY ∨ esh.sh_flags ≠ (SHF_ALLOC ||| SHF_WRITE)
        ∨ elf_check_name esh.name ".init_array" = false then
      throw_new "ELF section 5 is not .init_array"
    else
      .ok { st with
        sg_data := { st.sg_data with vmsize := u64 (st.sg_data.vmsize + esh.sh_size) }
        sc_init := { st.sc_init with addr := esh.sh_addr, size := esh.sh_size,
                                     offset := u32 esh.sh_offset,
                                     align := c_log2 esh.sh_addralign } }
  | 6 =>
    if esh.sh_type ≠ SHT_FINI_ARRAY ∨ esh.sh_flags ≠ (SHF_ALLOC ||| SHF_WRITE)
        ∨ elf_check_name esh.name ".fini_array" = false then
      throw_new "ELF section 6 is not .fini_array"
    else
      let vmsize := ROUND_TO_2POW MACH_ALIGN (u64 (st.sg_data.vmsize + esh.sh_size))
      .ok { st with
        sg_data := { st.sg_data with vmsize := vmsize, filesize := vmsize }
        sc_fini := { st.sc_fini with addr := esh.sh_addr, size := esh.sh_size,
                                     offset := u32 esh.sh_offset,
                                     align := c_log2 esh.sh_addralign } }
  | 7 =>
    if esh.sh_type ≠ SHT_NOBITS ∨ esh.sh_flags ≠ (SHF_ALLOC ||| SHF_WRITE)
        ∨ elf_check_name esh.name ".bss" = false then
      throw_new "ELF section 7 is not .bss"
    else
      .ok { st with
        sg_bss := { st.sg_bss with vmaddr := esh.sh_addr, vmsize := esh.sh_size }
        sc_bss := { st.sc_bss with addr := esh.sh_addr, size := esh.sh_size,
                                   align := c_log2 esh.sh_addralign } }
  | _ =>
    if esh.sh_flags &&& SHF_ALLOC ≠ 0 then
      throw_new "unhandled ELF sections marked as allocated"
    else .ok st

/-- The first loop of `convert` (lines 797 to 928), from index `i` on, `secs` being the
sections from that index to `e_shnum - 1`. -/
def first_loop : Nat → List (Option Elf_Scn) → convert_state → Except Failure convert_state
  | _, [], st => .ok st
  | _, none :: _, _ => throw_new "unable to get ELF section"
  | i, some esh :: rest, st =>
    match layout_section i esh st with
    | .error e => .error e
    | .ok st1 => first_loop (i + 1) rest st1

/-- The largest object size, `PTRDIFF_MAX`. -/
def PTRDIFF_MAX : Nat := 2 ^ 63 - 1

/-- The call `memcpy(buf + pos, src, n)` on a buffer that holds the destination range:
the buffer afterwards. -/
def memcpy (buf : List Nat) (pos : Nat) (src : List Nat) : List Nat :=
  buf.take pos ++ src ++ buf.drop (pos + src.length)

/-- The constructor `mach_file_segment(offset, segment_size, content, content_size)`:
a zeroed buffer of `segment_size` bytes receives the content at its start. A request of
more than `PTRDIFF_MAX` bytes makes `new char[size]` throw; smaller requests are taken to
succeed. A content longer than the buffer would be written past its end. -/
def mach_file_segment.new (offset segment_size : Nat) (content : List Nat) :
    Except Failure mach_file_segment :=
  if segment_size > PTRDIFF_MAX then .error .bad_alloc
  else if content.length > segment_size then
    .error (.undefined "memcpy past the end of the buffer")
  else
    .ok { offset := offset, size := segment_size,
          content := memcpy (List.replicate segment_size 0) 0 content }

/-- The objects the second loop of `convert` builds: the content regions registered with
`add_file_segment` so far, and the local `fsg_data`. -/
structure content_state where
  file_segments : List mach_file_segment
  fsg_data : mach_file_segment
  deriving DecidableEq, Repr

/-- The statements shared by the cases 3, 4, 5 and 6 of the second loop, for the
destination section `sc`: the size check against `sg_data->vmsize - sc->offset`, then
`memcpy(fsg_data.content() + (sc->offset - sg_data->fileoff), ed->d_buf, ed->d_size)`.
A copy that does not fit in the buffer of `fsg_data` is undefined behaviour. -/
def copy_to_data (st : convert_state) (sc : mach_section) (ed : List Nat)
    (too_big : String) (cs : content_state) : Except Failure content_state :=
  if ed.length > sub64 st.sg_data.vmsize sc.offset then throw_new too_big
  else
    let pos := sub64 sc.offset st.sg_data.fileoff
    if pos + ed.length > cs.fsg_data.size then
      .error (.undefined "memcpy outside the buffer of fsg_data")
    else
      .ok { cs with fsg_data :=
              { cs.fsg_data with content := memcpy cs.fsg_data.content pos ed } }

/-- The body of the second loop of `convert` (lines 942 to 1060) for the section `es` at
index `i`; `soh` is the value of `m->size_of_headers()`. -/
def content_section (i : Nat) (es : Elf_Scn) (st : convert_state) (soh : Nat)
    (cs : content_state) : Except Failure content_state :=
  match i with
  | 1 =>
    let real_size := sub64 st.sg_text.vmsize soh
    match es.rawdata with
    | [] => throw_new "unable to get ELF section data"
    | ed :: more =>
      if ed.length > real_size then throw_new "ELF .text section too big"
      else
        match mach_file_segment.new st.sc_text.offset real_size ed with
        | .error e => .error e
        | .ok fs =>
          if more ≠ [] then throw_new "ELF .text section split"
          else .ok { cs with file_segments := cs.file_segments ++ [fs] }
  | 2 =>
    match es.rawdata with
    | [] => throw_new "unable to get ELF section data"
    | ed :: more =>
      if ed.length > st.sg_rodata.vmsize then throw_new "ELF .rodata section too big"
      else
        match mach_file_segment.new st.sg_rodata.fileoff st.sg_rodata.vmsize ed with
        | .error e => .error e
        | .ok fs =>
          if more ≠ [] then throw_new "ELF .rodata section split"
          else .ok { cs with file_segments := cs.file_segments ++ [fs] }
  | 3 =>
    match es.rawdata with
    | [] => throw_new "unable to get ELF section data"
    | ed :: more =>
      match copy_to_data st st.sc_data ed "ELF .data section too big" cs with
      | .error e => .error e
      | .ok cs1 =>
        if more ≠ [] then throw_new "ELF .data section split" else .ok cs1
  | 4 =>
    match es.rawdata with
    | [] => throw_new "unable to get ELF section data"
    | ed :: more =>
      match copy_to_data st st.sc_pinit ed "ELF .preinit_array section too big" cs with
      | .error e => .error e
      | .ok cs1 =>
        if more ≠ [] then throw_new "ELF .preinit_array section split" else .ok cs1
  | 5 =>
    match es.rawdata with
    | [] => throw_new "unable to get ELF section data"
    | ed :: more =>
      match copy_to_data st st.sc_init ed "ELF .init_array section too big" cs with
      | .error e => .error e
      | .ok cs1 =>
        if more ≠ [] then throw_new "ELF .init_array section split" else .ok cs1
  | 6 =>
    match es.rawdata with
    | [] => throw_new "unable to get ELF section data"
    | ed :: more =>
      match copy_to_data st st.sc_fini ed "ELF .fini_array section too big" cs with
      | .error e => .error e
      | .ok cs1 =>
        if more ≠ [] then throw_new "ELF .fini_array section split"
        else .ok { cs1 with file_segments := cs1.file_segments ++ [cs1.fsg_data] }
  | _ => .ok cs

/-- The second loop of `convert` (lines 932 to 1061), from index `i` on. -/
def second_loop : Nat → List (Option Elf_Scn) → convert_state → Nat → content_state →
    Except Failure content_state
  | _, [], _, _, cs => .ok cs
  | _, none :: _, _, _, _ => throw_new "unable to get ELF section"
  | i, some es :: rest, st, soh, cs =>
    match content_section i es st soh cs with
    | .error e => .error e
    | .ok cs1 => second_loop (i + 1) rest st soh cs1

/-- The switch on `eh.e_ident[EI_CLASS]`, once the unknown classes are set aside. -/
def class_bits (eh : GElf_Ehdr) : Nat := if eh.ei_class = ELFCLASS32 then 32 else 64

/-- The switch on `eh.e_ident[EI_DATA]`, once the unsupported orders are set aside. -/
def data_endian (eh : GElf_Ehdr) : mach_endianness :=
  if eh.ei_data = ELFDATA2LSB then MACH_LSB else MACH_MSB

/-- The function `convert` up to the end of its second loop (lines 671 to 1061): the
handles, the content regions and the value of `m->size_of_headers()`. -/
def translate (elf : Elf) : Except Failure (convert_state × content_state × Nat) :=
  match elf.ehdr with
  | none => throw_new "unable to get ELF header"
  | some eh =>
    if eh.e_type ≠ ET_EXEC then throw_new "ELF is not an executable"
    else if eh.ei_class ≠ ELFCLASS32 ∧ eh.ei_class ≠ ELFCLASS64 then
      throw_new "ELF has unknown class"
    else if eh.ei_data ≠ ELFDATA2LSB ∧ eh.ei_data ≠ ELFDATA2MSB then
      throw_new "ELF has unsupported byte order"
    else
      match machine_cpu eh.e_machine with
      | none => throw_new "Unsupported ELF machine"
      | some cpu =>
        match entry_state cpu.type (class_bits eh) (data_endian eh) eh.e_entry with
        | none => .error (.thrown_val "unimplemented CPU type support")
        | some state =>
          match first_loop 0 elf.sections
              (initial_state (class_bits eh) (data_endian eh) cpu state) with
          | .error e => .error e
          | .ok st =>
            match mach_file_segment.new st.sg_data.fileoff st.sg_data.vmsize [] with
            | .error e => .error e
            | .ok fsg_data =>
              match (st.image []).size_of_headers with
              | none => .error (.assertion "state.get() != NULL")
              | some soh =>
                match second_loop 0 elf.sections st soh ⟨[], fsg_data⟩ with
                | .error e => .error e
                | .ok cs => .ok (st, cs, soh)

/-- The function `convert`: the translation, then the check of lines 1063 to 1067 and the
return of the image. -/
def convert (elf : Elf) : Except Failure mach :=
  match translate elf with
  | .error e => .error e
  | .ok (st, cs, soh) =>
    match st.origin with
    | none => .error (.undefined "read of the uninitialized variable origin")
    | some origin =>
      if sub64 st.sc_text.addr origin ≠ soh then throw_new "Mach header misalignment"
      else .ok (st.image cs.file_segments)

/-! ## Auxiliary definitions -/

/-- A segment command without its geometry. -/
def segment_command.skeleton (c : segment_command) : segment_command :=
  { c with vmaddr := 0, vmsize := 0, fileoff := 0, filesize := 0 }

/-- A section without its geometry. -/
def mach_section.skeleton (s : mach_section) : mach_section :=
  { s with addr := 0, size := 0, offset := 0, align := 0 }

/-- The part of the state the two loops never assign: everything but the geometry of the
segments and sections and the variable `origin`. -/
def convert_state.skeleton (st : convert_state) : convert_state :=
  { st with
    sg_pgzero := st.sg_pgzero.skeleton, sg_text := st.sg_text.skeleton,
    sc_text := st.sc_text.skeleton, sg_rodata := st.sg_rodata.skeleton,
    sc_rodata := st.sc_rodata.skeleton, sg_data := st.sg_data.skeleton,
    sc_data := st.sc_data.skeleton, sc_pinit := st.sc_pinit.skeleton,
    sc_init := st.sc_init.skeleton, sc_fini := st.sc_fini.skeleton,
    sg_bss := st.sg_bss.skeleton, sc_bss := st.sc_bss.skeleton, origin := none }

/-- The position `sc->offset - sg_data->fileoff` at which the second loop copies the raw
bytes of the destination section `sc` into the buffer of the data segment. -/
def data_pos (st : convert_state) (sc : mach_section) : Nat :=
  sub64 sc.offset st.sg_data.fileoff

/-! ## Vocabulary of the specification -/

/-- The byte ranges `[p, p + a)` and `[q, q + b)` do not intersect. -/
def disjoint_ranges (p a q b : Nat) : Prop := p + a ≤ q ∨ q + b ≤ p

/-- The bytes of `buf` from position `pos` on are those of `d`. -/
def holds_at (buf : List Nat) (pos : Nat) (d : List Nat) : Prop :=
  ∀ j, j < d.length → buf[pos + j]? = d[j]?

/-- Position `j` lies in the byte range `[p, p + a)`. -/
def in_range (p a j : Nat) : Prop := p ≤ j ∧ j < p + a


/-- The expected type tag, flag bits and name of the sections 1 to 7. -/
def expected_shape : Nat → Option (Nat × Nat × String)
  | 1 => some (SHT_PROGBITS, SHF_ALLOC ||| SHF_EXECINSTR, ".text")
  | 2 => some (SHT_PROGBITS, SHF_ALLOC, ".rodata")
  | 3 => some (SHT_PROGBITS, SHF_ALLOC ||| SHF_WRITE, ".data")
  | 4 => some (SHT_PREINIT_ARRAY, SHF_ALLOC ||| SHF_WRITE, ".preinit_array")
  | 5 => some (SHT_INIT_ARRAY, SHF_ALLOC ||| SHF_WRITE, ".init_array")
  | 6 => some (SHT_FINI_ARRAY, SHF_ALLOC ||| SHF_WRITE, ".fini_array")
  | 7 => some (SHT_NOBITS, SHF_ALLOC ||| SHF_WRITE, ".bss")
  | _ => none

/-- Section `s` at position `i` deviates from what the position requires: section 0 is
not of type NULL, or the type tag, the flag bits or the name of a section 1 to 7 differs
from the expected one. -/
def deviates (i : Nat) (s : Elf_Scn) : Prop :=
  (i = 0 ∧ s.sh_type ≠ SHT_NULL) ∨
    ∃ t f n, expected_shape i = some (t, f, n) ∧
      (s.sh_type ≠ t ∨ s.sh_flags ≠ f ∨ s.name ≠ some n)

/-- Section `s` passes the check the first loop makes at position `i`: type NULL at
position 0, the expected type tag, flag bits and name at the positions 1 to 7, and no
ALLOC flag from position 8 on. -/
def conforms (i : Nat) (s : Elf_Scn) : Prop :=
  match i with
  | 0 => s.sh_type = SHT_NULL
  | k + 1 =>
    match expected_shape (k + 1) with
    | some (t, f, n) => s.sh_type = t ∧ s.sh_flags = f ∧ s.name = some n
    | none => s.sh_flags &&& SHF_ALLOC = 0

instance (i : Nat) (s : Elf_Scn) : Decidable (conforms i s) := by
  unfold conforms
  split
  · infer_instance
  · split <;> infer_instance

/-- The header passes the checks made before the first loop: an executable of class 32 or
64, of either byte order, for one of the three machines with a thread state. -/
def supported (eh : GElf_Ehdr) : Prop :=
  eh.e_type = ET_EXEC ∧ (eh.ei_class = ELFCLASS32 ∨ eh.ei_class = ELFCLASS64)
    ∧ (eh.ei_data = ELFDATA2LSB ∨ eh.ei_data = ELFDATA2MSB)
    ∧ (eh.e_machine = EM_386 ∨ eh.e_machine = EM_X86_64 ∨ eh.e_machine = EM_PPC)

instance (eh : GElf_Ehdr) : Decidable (supported eh) := by
  unfold supported
  infer_instance

/-- The error kind `UnexpectedExtraSection`. -/
def UnexpectedExtraSection : Failure :=
  .thrown_ptr "unhandled ELF sections marked as allocated"

/-! ## Sample images -/

/-- A readable section with the given header fields, aligned on 4 bytes, whose data is one
descriptor holding `data`. -/
def sample_section (type flags : Nat) (name : String) (addr offset : Nat)
    (data : List Nat) : Option Elf_Scn :=
  some { sh_type := type, sh_flags := flags, name := some name, sh_addr := addr,
         sh_offset := offset, sh_size := data.length, sh_addralign := 4, rawdata := [data] }

/-- The null section at index 0. -/
def sample_null : Option Elf_Scn :=
  some { sh_type := SHT_NULL, sh_flags := 0, name := some "", sh_addr := 0, sh_offset := 0,
         sh_size := 0, sh_addralign := 0, rawdata := [[]] }

/-- A `.bss` section of 16 bytes, which has no bytes in the file. -/
def sample_bss : Option Elf_Scn :=
  some { sh_type := SHT_NOBITS, sh_flags := 3, name := some ".bss", sh_addr := 0x4000,
         sh_offset := 0x3000, sh_size := 16, sh_addralign := 4, rawdata := [[]] }

/-- The eight sections of a small little-endian 32-bit x86 executable loaded at 0x1000:
the text starts at file offset 864, the size of the Mach-O headers for that target. -/
def sample_sections : List (Option Elf_Scn) :=
  [ sample_null,
    sample_section SHT_PROGBITS 6 ".text" 0x1360 0x360 [0x31, 0xc0, 0x40, 0xcd, 0x80],
    sample_section SHT_PROGBITS 2 ".rodata" 0x2000 0x1000 [104, 105, 0],
    sample_section SHT_PROGBITS 3 ".data" 0x3000 0x2000 [1, 2, 3, 4],
    sample_section SHT_PREINIT_ARRAY 3 ".preinit_array" 0x3004 0x2004 [],
    sample_section SHT_INIT_ARRAY 3 ".init_array" 0x3004 0x2004 [0x60, 0x13, 0, 0],
    sample_section SHT_FINI_ARRAY 3 ".fini_array" 0x3008 0x2008 [0x70, 0x13, 0, 0],
    sample_bss ]

/-- The header of the small x86 executable. -/
def sample_header : GElf_Ehdr :=
  { e_type := ET_EXEC, ei_class := ELFCLASS32, ei_data := ELFDATA2LSB, e_machine := EM_386,
    e_entry := 0x1360 }

/-- The small x86 executable. -/
def sample_elf : Elf := { ehdr := some sample_header, sections := sample_sections }

/-- A non-allocated section such as `.comment`. -/
def sample_comment : Option Elf_Scn :=
  sample_section SHT_PROGBITS 0 ".comment" 0 0x3000 [71, 67, 67]

/-- An allocated section beyond the fixed inventory. -/
def sample_extra : Option Elf_Scn :=
  sample_section SHT_PROGBITS 2 ".eh_frame" 0x5000 0x3000 [0, 0, 0, 0]

/-- The small executable with a ninth, allocated, section. -/
def sample_elf_extra : Elf :=
  { ehdr := some sample_header, sections := sample_sections ++ [sample_extra] }

/-- The same nine sections, the first of which is of type PROGBITS instead of NULL. -/
def sample_elf_extra_bad0 : Elf :=
  { ehdr := some sample_header,
    sections := sample_section SHT_PROGBITS 0 "" 0 0 [] :: sample_sections.tail
      ++ [sample_extra] }

/-- The small executable whose section 1 is writable, so that its flag bits are not
exactly ALLOC|EXECINSTR. -/
def sample_elf_writable_text : Elf :=
  { ehdr := some sample_header,
    sections := sample_null
      :: sample_section SHT_PROGBITS 7 ".text" 0x1360 0x360 [0x31, 0xc0, 0x40, 0xcd, 0x80]
      :: sample_sections.drop 2 }

/-- The small executable with its text at file offset 0x400 instead of 864. -/
def sample_elf_misaligned : Elf :=
  { ehdr := some sample_header,
    sections := sample_null
      :: sample_section SHT_PROGBITS 6 ".text" 0x1400 0x400 [0x31, 0xc0, 0x40, 0xcd, 0x80]
      :: sample_sections.drop 2 }

/-- The small executable without read-only data: `.rodata` is empty, so that `.data`
follows the text page at file offset 0x1000. The data segment takes 4096 bytes of the
file, from 0x1000 to 0x2000, and holds the four data sections, which follow one another. -/
def sample_elf_empty_rodata : Elf :=
  { ehdr := some sample_header,
    sections :=
      [ sample_null,
        sample_section SHT_PROGBITS 6 ".text" 0x1360 0x360 [0x31, 0xc0, 0x40, 0xcd, 0x80],
        sample_section SHT_PROGBITS 2 ".rodata" 0x2000 0x1000 [],
        sample_section SHT_PROGBITS 3 ".data" 0x2000 0x1000 [1, 2, 3, 4],
        sample_section SHT_PREINIT_ARRAY 3 ".preinit_array" 0x2004 0x1004 [],
        sample_section SHT_INIT_ARRAY 3 ".init_array" 0x2004 0x1004 [0x60, 0x13, 0, 0],
        sample_section SHT_FINI_ARRAY 3 ".fini_array" 0x2008 0x1008 [0x70, 0x13, 0, 0],
        sample_bss ] }

/-- The small executable with `.init_array` and `.fini_array` on the page after the one
that holds `.data`: the data segment takes 4096 bytes of the file, from 0x2000 to 0x3000,
and the two arrays lie behind it. -/
def sample_elf_stray_arrays : Elf :=
  { ehdr := some sample_header,
    sections :=
      [ sample_null,
        sample_section SHT_PROGBITS 6 ".text" 0x1360 0x360 [0x31, 0xc0, 0x40, 0xcd, 0x80],
        sample_section SHT_PROGBITS 2 ".rodata" 0x2000 0x1000 [104, 105, 0],
        sample_section SHT_PROGBITS 3 ".data" 0x3000 0x2000 [1, 2, 3, 4],
        sample_section SHT_PREINIT_ARRAY 3 ".preinit_array" 0x3004 0x2004 [],
        sample_section SHT_INIT_ARRAY 3 ".init_array" 0x4000 0x3000 [0x60, 0x13, 0, 0],
        sample_section SHT_FINI_ARRAY 3 ".fini_array" 0x4004 0x3004 [0x70, 0x13, 0, 0],
        sample_bss ] }

/-- A 64-bit-class executable for the x86 machine loaded at 4 GiB: its text starts at
file offset 1032, the size of the headers for that target, and its entry point is
0x100000408. -/
def sample_elf_high_entry : Elf :=
  { ehdr := some { e_type := ET_EXEC, ei_class := ELFCLASS64, ei_data := ELFDATA2LSB,
                   e_machine := EM_386, e_entry := 0x100000408 },
    sections :=
      [ sample_null,
        sample_section SHT_PROGBITS 6 ".text" 0x100000408 0x408 [0x31, 0xc0, 0x40, 0xcd, 0x80],
        sample_section SHT_PROGBITS 2 ".rodata" 0x100001000 0x1000 [104, 105, 0],
        sample_section SHT_PROGBITS 3 ".data" 0x100002000 0x2000 [1, 2, 3, 4],
        sample_section SHT_PREINIT_ARRAY 3 ".preinit_array" 0x100002004 0x2004 [],
        sample_section SHT_INIT_ARRAY 3 ".init_array" 0x100002004 0x2004 [0x60, 0x13, 0, 0],
        sample_section SHT_FINI_ARRAY 3 ".fini_array" 0x100002008 0x2008 [0x70, 0x13, 0, 0],
        sample_bss ] }

/-! ## Signed integers in the serializer -/

/-- The conversion of a signed value to the unsigned type of `nbytes` bytes, such as
`(uint32_t)v`: its two's complement bit pattern. -/
def to_unsigned (nbytes : Nat) (v : Int) : Nat := (v % 2 ^ (8 * nbytes)).toNat

/-- The conversion of an unsigned value to the signed type of `nbytes` bytes, such as
`(int32_t)u`: the value with that bit pattern. -/
def to_signed (nbytes : Nat) (u : Nat) : Int :=
  if u % 2 ^ (8 * nbytes) < 2 ^ (8 * nbytes - 1) then ((u % 2 ^ (8 * nbytes) : Nat) : Int)
  else ((u % 2 ^ (8 * nbytes) : Nat) : Int) - 2 ^ (8 * nbytes)

/-- The overloads `byteswap(int16_t)`, `byteswap(int32_t)` and `byteswap(int64_t)`, each of
which converts its argument, calls the unsigned overload and converts the result back. -/
def byteswap_signed (nbytes : Nat) (v : Int) : Int :=
  to_signed nbytes (byteswap nbytes (to_unsigned nbytes v))

/-- The expression `make_endian(e, v)` for a signed `v`. -/
def make_endian_signed (host e : mach_endianness) (nbytes : Nat) (v : Int) : Int :=
  match host with
  | MACH_LSB => if e = MACH_MSB then byteswap_signed nbytes v else v
  | MACH_MSB => if e = MACH_MSB then v else byteswap_signed nbytes v

/-- The template `_write(os, e, value)` for a signed integer type of `nbytes` bytes: the
object written holds the bit pattern of `make_endian(e, value)`. -/
def _write_signed (host e : mach_endianness) (nbytes : Nat) (value : Int) : List Nat :=
  object_bytes host nbytes (to_unsigned nbytes (make_endian_signed host e nbytes value))

/-! ## Vocabulary of the specification: bytes -/

/-- The byte of weight `256 ^ i` of `v`. -/
def byte_of (v i : Nat) : Nat := v / 256 ^ i % 256

/-- The `n` bytes of `v` from the least significant to the most significant. -/
def lsb_first (n v : Nat) : List Nat := (List.range n).map (fun i => byte_of v i)

/-- The `n` bytes of `v` from the most significant to the least significant. -/
def msb_first (n v : Nat) : List Nat := (List.range n).map (fun i => byte_of v (n - 1 - i))

/-! ## Images built through the constructors -/

/-- A segment as `add_load_command` and `add_section` build it: of word width 32 or 64,
with sections of its own word width and byte order. -/
def segment_command.consistent (c : segment_command) : Prop :=
  (c.bits = 32 ∨ c.bits = 64) ∧ ∀ s ∈ c.sections, s.bits = c.bits ∧ s.endian = c.endian

/-- A thread command as `add_load_command` and `add_state` build it. -/
def unixthread_command.consistent (c : unixthread_command) : Prop :=
  ∀ s, c.state = some s → s.endian = c.endian

/-- A load command as the constructors build it. -/
def load_command.consistent : load_command → Prop
  | .segment c => c.consistent
  | .unixthread c => c.consistent

/-- The word width of a load command. -/
def load_command.bits : load_command → Nat
  | .segment c => c.bits
  | .unixthread c => c.bits

/-- The byte order of a load command. -/
def load_command.endian : load_command → mach_endianness
  | .segment c => c.endian
  | .unixthread c => c.endian

/-- An image as the constructor `mach(endian, bits)` and `add_load_command` build it: of
word width 32 or 64, its header and its load commands carrying its word width and byte
order. -/
def mach.consistent (m : mach) : Prop :=
  (m.bits = 32 ∨ m.bits = 64) ∧ m.header.bits = m.bits ∧ m.header.endian = m.endian
    ∧ ∀ c ∈ m.load_commands, c.consistent ∧ c.bits = m.bits ∧ c.endian = m.endian

/-- A 32-bit segment with 63161284 sections, whose records take 2^32 + 72 bytes. -/
def sample_vast_segment : segment_command :=
  { bits := 32, endian := MACH_LSB, segname := "__DATA",
    sections := List.replicate 63161284 { bits := 32, endian := MACH_LSB } }

/-- The fields `segment_command::write` sends before the section records. -/
def segment_command.fixed_fields (host : mach_endianness) (c : segment_command) : List Nat :=
  (if c.bits = 32 then _write host c.endian 4 LC_SEGMENT
    else _write host c.endian 4 LC_SEGMENT_64)
    ++ _write host c.endian 4 c.cmdsize
    ++ _write_str (string_bytes c.segname) 16
    ++ (if c.bits = 32 then
          _write host c.endian 4 (c.vmaddr &&& 0xffffffff)
            ++ _write host c.endian 4 (c.vmsize &&& 0xffffffff)
            ++ _write host c.endian 4 (c.fileoff &&& 0xffffffff)
            ++ _write host c.endian 4 (c.filesize &&& 0xffffffff)
        else
          _write host c.endian 8 c.vmaddr ++ _write host c.endian 8 c.vmsize
            ++ _write host c.endian 8 c.fileoff ++ _write host c.endian 8 c.filesize)
    ++ _write host c.endian 4 c.maxprot
    ++ _write host c.endian 4 c.initprot
    ++ _write host c.endian 4 (u32 c.sections.length)
    ++ _write host c.endian 4 c.flags

/-- A 32-bit header, a section and a segment with two sections, as the constructors of the
object model leave them. -/
def sample_mach_header : mach_header :=
  { bits := 32, endian := MACH_LSB, cpu := { type := 7, subtype := 3 }, filetype := 2,
    ncmds := 0, sizeofcmds := 0, flags := 0x21 }

/-- A 64-bit section. -/
def sample_mach_section : mach_section :=
  { bits := 64, endian := MACH_MSB, sectname := "__text", segname := "__TEXT",
    addr := 0x100000000, size := 0x20 }

/-- A 32-bit segment with two sections which name other segments as their parents. -/
def sample_segment : segment_command :=
  { bits := 32, endian := MACH_LSB, segname := "__DATA", vmaddr := 0x3000, vmsize := 0x2000,
    sections := [{ bits := 32, endian := MACH_LSB, sectname := "__data", segname := "__ELSE" },
                 { bits := 32, endian := MACH_LSB, sectname := "__bss" }] }

/-- A thread command whose payload is that of the x86-64, program counter at 0x1000. -/
def sample_unixthread : unixthread_command :=
  { bits := 64, endian := MACH_LSB,
    state := some (.x86_64 { bits := 64, endian := MACH_LSB, rip := 0x1000 }) }

/-- A 32-bit segment whose virtual size is 2^32, and a 32-bit section whose address is. -/
def sample_segment_wide : segment_command :=
  { bits := 32, endian := MACH_LSB, segname := "__DATA", vmaddr := 0x3000,
    vmsize := 0x100000000 }

/-- A 32-bit section whose address is 2^32. -/
def sample_section_wide : mach_section :=
  { bits := 32, endian := MACH_LSB, sectname := "__data", addr := 0x100000000 }

/-- The segment `sample_segment_wide` with word width 64. -/
def sample_segment_64 : segment_command :=
  { sample_segment_wide with bits := 64,
                             sections := [{ sample_section_wide with bits := 64 }] }

/-- A 32-bit image whose only load command is `sample_vast_segment`, followed by an empty
content region where the load commands end. -/
def sample_vast_image : mach :=
  { endian := MACH_LSB, bits := 32, header := sample_mach_header,
    load_commands := [.segment sample_vast_segment],
    file_segments := [{ offset := 4294967396, size := 0, content := [] }] }

/-- A 64-bit image of two load commands and one content region of 8 bytes, whose header
holds arbitrary numbers in its two computed fields. -/
def sample_image : mach :=
  { endian := MACH_MSB, bits := 64,
    header := { bits := 64, endian := MACH_MSB, cpu := { type := 0x01000007, subtype := 3 },
                filetype := 2, ncmds := 77, sizeofcmds := 99, flags := 0x21 },
    load_commands := [.segment { bits := 64, endian := MACH_MSB, segname := "__PAGEZERO",
                                 vmsize := 0x1000 },
                      .unixthread { bits := 64, endian := MACH_MSB,
                                    state := some (.x86_64 { bits := 64, endian := MACH_MSB,
                                                             rip := 0x1000 }) }],
    file_segments := [{ offset := 288, size := 8, content := [1, 2, 3, 4, 5, 6, 7, 8] }] }

/-- The sum of the values `cmdsize()` of the load commands, as a natural number. -/
def cmdsize_total (cmds : List load_command) : Nat :=
  (cmds.map (fun c => c.cmdsize.getD 0)).sum

/-- The machine identifiers of the lookup table of `convert`, the `case` labels of its
switch on `eh.e_machine`. -/
def table_machines : List Nat :=
  [EM_VAX, EM_68K, EM_386, EM_X86_64, EM_MIPS, EM_PARISC, EM_ARM, EM_AARCH64, EM_88K,
    EM_SPARC, EM_860, EM_ALPHA, EM_PPC, EM_PPC64]

/-- The small executable with a class byte that is neither `ELFCLASS32` nor `ELFCLASS64`. -/
def sample_elf_no_class : Elf :=
  { sample_elf with ehdr := some { sample_header with ei_class := 0 } }

/-- The small executable with a data byte that names no byte order. -/
def sample_elf_no_order : Elf :=
  { sample_elf with ehdr := some { sample_header with ei_data := 0 } }

/-- The small executable with the machine identifier 243 (RISC-V), which the table lacks. -/
def sample_elf_riscv : Elf :=
  { sample_elf with ehdr := some { sample_header with e_machine := 243 } }

/-- The section `s` with the type tag of `t`. -/
def Elf_Scn.with_type (s t : Elf_Scn) : Elf_Scn := { s with sh_type := t.sh_type }

/-- The section `s` with the type tag, flag bits and name of `t`. -/
def Elf_Scn.with_shape (s t : Elf_Scn) : Elf_Scn :=
  { s with sh_type := t.sh_type, sh_flags := t.sh_flags, name := t.name }

/-- The image with the type tags of its sections 2 and 3 exchanged. -/
def exchange_types (elf : Elf) : Elf :=
  match elf.sections with
  | s0 :: s1 :: some s2 :: some s3 :: rest =>
    { elf with sections := s0 :: s1 :: some (s2.with_type s3) :: some (s3.with_type s2) :: rest }
  | _ => elf

/-- The image with the type tags, flag bits and names of its sections 2 and 3 exchanged. -/
def exchange_shapes (elf : Elf) : Elf :=
  match elf.sections with
  | s0 :: s1 :: some s2 :: some s3 :: rest =>
    { elf with
      sections := s0 :: s1 :: some (s2.with_shape s3) :: some (s3.with_shape s2) :: rest }
  | _ => elf

/-- The error kind `UnexpectedSectionShape`: the exceptions `convert` throws when the
section at one of the positions 0 to 7 is not of the shape the position requires. -/
def UnexpectedSectionShape : List Failure :=
  [ .thrown_ptr "ELF section 0 is not NULL", .thrown_ptr "ELF section 1 is not .text",
    .thrown_ptr "ELF section 2 is not .rodata", .thrown_ptr "ELF section 3 is not .data",
    .thrown_ptr "ELF section 4 is not .preinit_array",
    .thrown_ptr "ELF section 5 is not .init_array",
    .thrown_ptr "ELF section 6 is not .fini_array", .thrown_ptr "ELF section 7 is not .bss" ]


/-! ## The translation with an indeterminate origin -/

/-- The function `convert` in an execution where the read of the variable `origin` at line
1063, when no statement has assigned it, yields the value `garbage`. -/
def convert_reading (garbage : Nat) (elf : Elf) : Except Failure mach :=
  match translate elf with
  | .error e => .error e
  | .ok (st, cs, soh) =>
    if sub64 st.sc_text.addr (st.origin.getD garbage) ≠ soh then
      throw_new "Mach header misalignment"
    else .ok (st.image cs.file_segments)

/-! ## Sample images: no section headers and low addresses -/

/-- The small executable without any section header. -/
def sample_elf_no_sections : Elf := { ehdr := some sample_header, sections := [] }

/-- The small executable with its text at the address 0x100, below its file offset 0x360. -/
def sample_elf_low_text : Elf :=
  { ehdr := some sample_header,
    sections := sample_sections.set 1
      (sample_section SHT_PROGBITS 6 ".text" 0x100 0x360 [0x31, 0xc0, 0x40, 0xcd, 0x80]) }

/-- Every address, offset, size and alignment of the sections, and the entry point, is
below `bound`. -/
def fields_below (elf : Elf) (bound : Nat) : Prop :=
  (∀ eh, elf.ehdr = some eh → eh.e_entry < bound)
    ∧ ∀ s, some s ∈ elf.sections →
        s.sh_addr < bound ∧ s.sh_offset < bound ∧ s.sh_size < bound
          ∧ s.sh_addralign < bound ∧ s.sh_flags < bound

/-! ## The fat assembler -/

/-- The constant `FAT_MAGIC` (line 1073). -/
def FAT_MAGIC : Nat := 0xcafebabe

/-- The expression `FAT_HEADER_POS(i)`, that is `(2*4) + ((5*4) * (i))`. -/
def FAT_HEADER_POS (i : Nat) : Nat := 2 * 4 + 5 * 4 * i

/-- The largest value of the type `int`, the type of the loop counter of `make_fat`. -/
def INT_MAX : Nat := 2 ^ 31 - 1

/-- The content of the output file after `os.seekp(pos, os.beg)` and the write of `bytes`:
the bytes replace what the file held from `pos` on, and a position past the end of the file
leaves a hole, which reads as zero bytes. A write of no byte leaves the file as it is. -/
def stream_write (file : List Nat) (pos : Nat) (bytes : List Nat) : List Nat :=
  if bytes.length = 0 then file
  else
    (file ++ List.replicate (pos - file.length) 0).take pos ++ bytes
      ++ file.drop (pos + bytes.length)

/-- The five words `make_fat` writes at `FAT_HEADER_POS(i)` for the image `m` placed at
`last` with `size` bytes (lines 1104 to 1108), all for a big-endian target. -/
def fat_record (host : mach_endianness) (m : mach) (last size : Nat) : List Nat :=
  _write host MACH_MSB 4 m.header.cpu.type
    ++ _write host MACH_MSB 4 m.header.cpu.subtype
    ++ _write host MACH_MSB 4 (u32 last)
    ++ _write host MACH_MSB 4 (u32 size)
    ++ _write host MACH_MSB 4 0

/-- The loop of `make_fat` (lines 1096 to 1111) from the counter `i` on, `arches` being the
images from that index on, `last` the value of the variable of that name and `file` the
content of the output file. The image is written at `last`; `size`, the difference of the
stream position after the write and `last`, is the number of bytes written; the record is
written at `FAT_HEADER_POS(i)`, an `int` expression. -/
def fat_loop (host : mach_endianness) :
    List mach → Nat → Nat → List Nat → Except Failure (List Nat)
  | [], _, _, file => .ok file
  | m :: rest, i, last, file =>
    match m.write host last with
    | none => .error (.assertion "mach::write")
    | some body =>
      if INT_MAX < FAT_HEADER_POS i then
        .error (.undefined "signed integer overflow in FAT_HEADER_POS")
      else
        fat_loop host rest (i + 1) (ROUND_TO_2POW MACH_ALIGN (last + body.length))
          (stream_write (stream_write file last body) (FAT_HEADER_POS i)
            (fat_record host m last body.length))

/-- The ways a call of `make_fat` ends. -/
inductive fat_result where
  /-- An exception is thrown before the output file is opened. -/
  | not_opened (e : Failure)
  /-- The program stops after the output file has been opened. -/
  | aborted (e : Failure)
  /-- The output file is closed with this content. -/
  | written (file : List Nat)
  deriving DecidableEq, Repr

/-- The function `make_fat` (lines 1077 to 1117): the output file is opened, and truncated,
once the list is known not to be empty. -/
def make_fat (host : mach_endianness) (arches : List mach) : fat_result :=
  match arches with
  | [] => .not_opened (.thrown_ptr "no binares to merge")
  | [m] =>
    match m.write host 0 with
    | none => .aborted (.assertion "mach::write")
    | some out => .written out
  | _ =>
    match fat_loop host arches 0 MACH_ALIGN
        (_write host MACH_MSB 4 FAT_MAGIC ++ _write host MACH_MSB 4 (u32 arches.length)) with
    | .error e => .aborted e
    | .ok file => .written file

/-! ## The program -/

/-- The loop of `main` over the input files (lines 1206 to 1218): `arches` holds the images
translated so far and `r` the exit status. The handler catches the exceptions thrown as
pointers to `convert_exception`; any other failure of `convert` ends the program. An input
that `init` could not open reaches `convert` as a null handle, of which no header can be
read. -/
def translate_batch : List Elf → List mach → Nat → Except Failure (List mach × Nat)
  | [], arches, r => .ok (arches, r)
  | elf :: rest, arches, r =>
    match convert elf with
    | .ok m => translate_batch rest (arches ++ [m]) r
    | .error (.thrown_ptr _) => translate_batch rest arches 1
    | .error e => .error e

/-- The ways a run of the program ends. -/
inductive run_result where
  /-- The function `main` returns `status`; `arches` are the images it handed to
  `make_fat`, if it came to that, and `output` is the content of the output file, if one
  was written. -/
  | exited (status : Nat) (arches : Option (List mach)) (output : Option (List Nat))
  /-- The program ends in `std::terminate` or `abort`. -/
  | terminated (e : Failure)
  deriving DecidableEq, Repr

/-- The function `main` once the options are read, for the input files `inputs`. -/
def main (host : mach_endianness) (inputs : List Elf) : run_result :=
  if inputs.length = 0 then .exited 1 none none
  else
    match translate_batch inputs [] 0 with
    | .error e => .terminated e
    | .ok (arches, r) =>
      match make_fat host arches with
      | .not_opened (.thrown_ptr _) => .exited 1 (some arches) none
      | .not_opened e => .terminated e
      | .aborted e => .terminated e
      | .written file => .exited r (some arches) (some file)

/-! ## Vocabulary of the specification: placements -/

/-- The placements of `make_fat` for the images `arches` from the offset `last` on: for
each image the offset it is written at and the bytes written, the next offset being the
end of the image rounded up to a page. -/
def fat_placements (host : mach_endianness) :
    List mach → Nat → Option (List (Nat × List Nat))
  | [], _ => some []
  | m :: rest, last =>
    match m.write host last with
    | none => none
    | some body =>
      match fat_placements host rest (ROUND_TO_2POW MACH_ALIGN (last + body.length)) with
      | none => none
      | some ps => some ((last, body) :: ps)

/-- The images among the results of `convert` on the inputs, in the order of the inputs. -/
def translated (inputs : List Elf) : List mach :=
  inputs.filterMap (fun elf => match convert elf with
    | .ok m => some m
    | .error _ => none)

/-- The small executable with the machine identifier of the ARM, which the lookup table
holds and for which `convert` has no thread state. -/
def sample_elf_arm : Elf :=
  { sample_elf with ehdr := some { sample_header with e_machine := EM_ARM } }

/-- The image `sample_image` with a content region of 3808 zero bytes, which ends at the
position 4096. -/
def sample_image_page : mach :=
  { sample_image with
    file_segments := [{ offset := 288, size := 3808, content := List.replicate 3808 0 }] }

/-- A content region of 2^32 zero bytes at the offset 84. -/
def sample_wide_content : mach_file_segment :=
  { offset := 84, size := 4294967296, content := List.replicate 4294967296 0 }

/-- A 32-bit image of one segment whose content region has 2^32 zero bytes. -/
def sample_wide_image : mach :=
  { endian := MACH_LSB, bits := 32, header := sample_mach_header,
    load_commands := [.segment { bits := 32, endian := MACH_LSB, segname := "__DATA" }],
    file_segments := [sample_wide_content] }

/-- Every input is translated: `convert` returns an image for each. -/
def all_translated (inputs : List Elf) : Bool :=
  inputs.all (fun elf => match convert elf with
    | .ok _ => true
    | .error _ => false)


/-! ## Vocabulary of the specification: geometry and machines -/

/-- The destination section `c` carries the address and the size of the source section
`s`, and the exponent of its alignment whenever that alignment is a power of two that a
64-bit field holds. -/
def carries_geometry (c : mach_section) (s : Elf_Scn) : Prop :=
  c.addr = s.sh_addr ∧ c.size = s.sh_size
    ∧ ∀ k, k < 64 → s.sh_addralign = 2 ^ k → c.align = k

/-- The machine identifiers of the lookup table whose cpu type has no thread state in
`convert`. -/
def unimplemented_machines : List Nat :=
  [EM_VAX, EM_68K, EM_MIPS, EM_PARISC, EM_ARM, EM_AARCH64, EM_88K, EM_SPARC, EM_860,
    EM_ALPHA, EM_PPC64]

/-- The constant `ET_REL` of `<elf.h>`, the type of a relocatable object. -/
def ET_REL : Nat := 1

/-- A relocatable object for the ARM: the header of the small executable with the machine
identifier `EM_ARM` and the type `ET_REL`. -/
def sample_elf_arm_object : Elf :=
  { sample_elf with
    ehdr := some { sample_header with e_machine := EM_ARM, e_type := ET_REL } }

/-- The small executable with its read-only data at the file offset 0x1800, past the end
of the text page at 0x1000. -/
def sample_elf_gap : Elf :=
  { ehdr := some sample_header,
    sections := sample_sections.set 2
      (sample_section SHT_PROGBITS 2 ".rodata" 0x2800 0x1800 [104, 105, 0]) }

/-! ## The archive converter: `entry::copy_content_to` -/

/-- The fields of the struct `entry` of `exar.cpp` that `copy_content_to` reads: `stream`
stands for the bytes of the input stream, from its beginning. -/
structure entry where
  stream : List Nat
  content_offset : Nat
  content_size : Nat
  deriving DecidableEq, Repr

/-- The size of the local array `buf`, the value of `sizeof(buf)`. -/
def COPY_BUF_SIZE : Nat := 10240

/-- The first loop of `copy_content_to` (lines 220 to 226): `input` holds the bytes the
stream has yet to yield, `remain` and `len` the variables of those names (`len` is `none`
as long as it is uninitialized) and `out` the bytes appended to `os`. A call of
`stream->read(buf, n)` extracts `n` bytes, or all that is left when that is less, after
which the stream yields nothing more; `stream->gcount()` is the number of bytes extracted,
at most `remain`. The result is the state at the exit of the loop; `none` stands for a
loop still running when the fuel is spent. -/
def copy_loop : Nat → List Nat → Nat → Option Nat → List Nat →
    Option (Nat × Option Nat × List Nat)
  | 0, _, _, _, _ => none
  | fuel + 1, input, remain, len, out =>
    if remain = 0 then some (remain, len, out)
    else
      let got := input.take (min remain COPY_BUF_SIZE)
      if got.length = 0 then some (remain, some 0, out)
      else
        copy_loop fuel (input.drop (min remain COPY_BUF_SIZE)) (remain - got.length)
          (some got.length) (out ++ got)

/-- The second loop of `copy_content_to` (lines 229 to 232), on the zeroed buffer: each
turn appends `min(remain, sizeof(buf))` zero bytes and subtracts `len` from `remain`, an
unsigned 64-bit subtraction. -/
def fill_loop : Nat → Nat → Nat → List Nat → Option (List Nat)
  | 0, _, _, _ => none
  | fuel + 1, remain, len, out =>
    if remain = 0 then some out
    else
      fill_loop fuel (sub64 remain len) len
        (out ++ List.replicate (min remain COPY_BUF_SIZE) 0)

/-- The statements after the two loops (lines 234 to 237): the padding of
`content_size % alignment` zero bytes, written from `buf`. -/
def copy_padding (content_size alignment : Nat) (out : List Nat) :
    Except Failure (List Nat) :=
  if alignment = 0 then .error (.undefined "remainder of a division by zero")
  else if content_size % alignment = 0 then .ok out
  else if content_size % alignment > COPY_BUF_SIZE then
    .error (.undefined "memset past the end of buf")
  else .ok (out ++ List.replicate (content_size % alignment) 0)

/-- The method `entry::copy_content_to(os, alignment)` (lines 213 to 238): the bytes it
appends to `os`. The stream is positioned at `content_offset` first. The result is `none`
when a loop is still running after `fuel` turns. -/
def entry.copy_content_to (fuel : Nat) (e : entry) (alignment : Nat) :
    Option (Except Failure (List Nat)) :=
  match copy_loop fuel (e.stream.drop e.content_offset) e.content_size none [] with
  | none => none
  | some (remain, len, out) =>
    if remain = 0 then some (copy_padding e.content_size alignment out)
    else
      match len with
      | none => some (.error (.undefined "read of the uninitialized variable len"))
      | some l =>
        match fill_loop fuel remain l out with
        | none => none
        | some out1 => some (copy_padding e.content_size alignment out1)

/-- An entry of five bytes at the offset 2 of a stream of eight bytes. -/
def sample_entry : entry :=
  { stream := [1, 2, 3, 4, 5, 6, 7, 8], content_offset := 2, content_size := 5 }

/-- An entry that declares five bytes at the offset 6 of a stream of eight bytes: the
stream yields two bytes only. -/
def sample_entry_short : entry :=
  { stream := [1, 2, 3, 4, 5, 6, 7, 8], content_offset := 6, content_size := 5 }


/-! ## The source file and the names of its sections -/

/-- The constant `SHT_STRTAB` of `<elf.h>`, the type of a string table. -/
def SHT_STRTAB : Nat := 3

/-- One section of the source file as libelf reads it: the fields of its `GElf_Shdr`, among
them `sh_name`, an offset in the section-name string table, and the data descriptors. -/
structure File_Scn where
  sh_name : Nat
  sh_type : Nat
  sh_flags : Nat
  sh_addr : Nat
  sh_offset : Nat
  sh_size : Nat
  sh_addralign : Nat
  rawdata : List (List Nat)
  deriving DecidableEq, Repr

/-- The source file behind the handle `Elf *`: the result of `gelf_getehdr`, the field
`e_shstrndx` of the header, and the sections of the indices below `e_shnum` (`none` for a
section that cannot be read). -/
structure Elf_File where
  ehdr : Option GElf_Ehdr
  e_shstrndx : Nat
  sections : List (Option File_Scn)
  deriving DecidableEq, Repr

/-- The C string that starts at the offset `off` of `bytes`: the characters up to the first
zero byte; there is none when the offset lies past the bytes or no zero byte follows. -/
def c_string (bytes : List Nat) (off : Nat) : Option String :=
  if off < bytes.length ∧ 0 ∈ bytes.drop off then
    some (String.mk (((bytes.drop off).takeWhile (fun b => b ≠ 0)).map Char.ofNat))
  else none

/-- The library function `elf_strptr(elf, ndx, off)`, which `elf_check_name` calls (line
665): the string at the offset `off` of the data of the section `ndx`, and a null pointer
(`none`) when that section does not exist or cannot be read, when it is not of type
`SHT_STRTAB`, and when the offset names no string of its data. -/
def elf_strptr (f : Elf_File) (ndx off : Nat) : Option String :=
  match f.sections[ndx]? with
  | some (some t) =>
    if t.sh_type = SHT_STRTAB then c_string t.rawdata.flatten off else none
  | _ => none

/-- What `convert` reads of the section `s` of the file `f`: the fields of the header, the
string `elf_strptr(elf, eh.e_shstrndx, esh.sh_name)` and the data descriptors. -/
def File_Scn.read (f : Elf_File) (s : File_Scn) : Elf_Scn :=
  { sh_type := s.sh_type, sh_flags := s.sh_flags,
    name := elf_strptr f f.e_shstrndx s.sh_name, sh_addr := s.sh_addr,
    sh_offset := s.sh_offset, sh_size := s.sh_size, sh_addralign := s.sh_addralign,
    rawdata := s.rawdata }

/-- The handle of the file `f`, as `convert` reads it through libelf. -/
def Elf_File.handle (f : Elf_File) : Elf :=
  { ehdr := f.ehdr, sections := f.sections.map (Option.map (File_Scn.read f)) }

/-! ## Sample files -/

/-- A section of the file with its name at the offset `name` of the string table, aligned
on 4 bytes, whose data is one descriptor holding `data`. -/
def sample_file_section (name type flags addr offset : Nat) (data : List Nat) :
    Option File_Scn :=
  some { sh_name := name, sh_type := type, sh_flags := flags, sh_addr := addr,
         sh_offset := offset, sh_size := data.length, sh_addralign := 4, rawdata := [data] }

/-- The bytes of a section-name string table: the empty name at the offset 0, then
`.text` at 1, `.rodata` at 7, `.data` at 15, `.preinit_array` at 21, `.init_array` at 36,
`.fini_array` at 48, `.bss` at 60, `.shstrtab` at 65 and `.comment` at 75. -/
def sample_strings : List Nat :=
  [0] ++ string_bytes ".text" ++ [0] ++ string_bytes ".rodata" ++ [0]
    ++ string_bytes ".data" ++ [0] ++ string_bytes ".preinit_array" ++ [0]
    ++ string_bytes ".init_array" ++ [0] ++ string_bytes ".fini_array" ++ [0]
    ++ string_bytes ".bss" ++ [0] ++ string_bytes ".shstrtab" ++ [0]
    ++ string_bytes ".comment" ++ [0]

/-- The section-name string table `.shstrtab`, a section without the ALLOC flag. -/
def sample_shstrtab : Option File_Scn :=
  sample_file_section 65 SHT_STRTAB 0 0 0x3000 sample_strings

/-- The eight sections of the small executable as the file holds them. -/
def sample_file_sections : List (Option File_Scn) :=
  [ some { sh_name := 0, sh_type := SHT_NULL, sh_flags := 0, sh_addr := 0, sh_offset := 0,
           sh_size := 0, sh_addralign := 0, rawdata := [[]] },
    sample_file_section 1 SHT_PROGBITS 6 0x1360 0x360 [0x31, 0xc0, 0x40, 0xcd, 0x80],
    sample_file_section 7 SHT_PROGBITS 2 0x2000 0x1000 [104, 105, 0],
    sample_file_section 15 SHT_PROGBITS 3 0x3000 0x2000 [1, 2, 3, 4],
    sample_file_section 21 SHT_PREINIT_ARRAY 3 0x3004 0x2004 [],
    sample_file_section 36 SHT_INIT_ARRAY 3 0x3004 0x2004 [0x60, 0x13, 0, 0],
    sample_file_section 48 SHT_FINI_ARRAY 3 0x3008 0x2008 [0x70, 0x13, 0, 0],
    some { sh_name := 60, sh_type := SHT_NOBITS, sh_flags := 3, sh_addr := 0x4000,
           sh_offset := 0x3000, sh_size := 16, sh_addralign := 4, rawdata := [[]] } ]

/-- The file of the small executable: its eight sections, then the section-name string
table at the index 8, which `e_shstrndx` names. -/
def sample_file : Elf_File :=
  { ehdr := some sample_header, e_shstrndx := 8,
    sections := sample_file_sections ++ [sample_shstrtab] }

/-- The file of the small executable without its section-name string table, the section 8;
`ndx` is the value left in `e_shstrndx`. -/
def sample_file_stripped (ndx : Nat) : Elf_File :=
  { ehdr := some sample_header, e_shstrndx := ndx, sections := sample_file_sections }

/-- The file of the small executable followed by two sections `.comment`, without the ALLOC
flag. -/
def sample_file_comments : Elf_File :=
  { ehdr := some sample_header, e_shstrndx := 8,
    sections := sample_file_sections ++ [sample_shstrtab]
      ++ [sample_file_section 75 SHT_PROGBITS 0 0 0x3100 [71, 67, 67],
          sample_file_section 75 SHT_PROGBITS 0 0 0x3103 [71, 67, 67]] }

/-- A file of three sections: the null section, the text and the section-name string
table. -/
def sample_file_three : Elf_File :=
  { ehdr := some sample_header, e_shstrndx := 2,
    sections := sample_file_sections.take 2 ++ [sample_shstrtab] }

/-- The file of the small executable without any section header: `e_shnum` is 0. -/
def sample_file_no_sections : Elf_File :=
  { ehdr := some sample_header, e_shstrndx := 0, sections := [] }

/-- The file of the small executable with the null section as its only section: `e_shnum`
is 1. -/
def sample_file_null_only : Elf_File :=
  { ehdr := some sample_header, e_shstrndx := 0, sections := sample_file_sections.take 1 }


/-! ## Properties of the first loop -/

theorem sample_elf_ok : ∃ m, convert sample_elf = .ok m := ⟨_, rfl⟩


theorem elf_check_name_eq_true {name : Option String} {want : String} :
    elf_check_name name want = true ↔ name = some want := by
  cases name <;> simp [elf_check_name]

theorem elf_check_name_eq_false {name : Option String} {want : String} :
    elf_check_name name want = false ↔ name ≠ some want := by
  cases name <;> simp [elf_check_name]

theorem layout_section_error {i : Nat} {esh : Elf_Scn} {st : convert_state} {e : Failure}
    (h : layout_section i esh st = .error e) : ∃ msg, e = .thrown_ptr msg := by
  unfold layout_section at h
  split at h <;> split at h <;> simp [throw_new] at h <;> exact ⟨_, h.symm⟩

theorem first_loop_error {secs : List (Option Elf_Scn)} {i : Nat} {st : convert_state}
    {e : Failure} (h : first_loop i secs st = .error e) : ∃ msg, e = .thrown_ptr msg := by
  induction secs generalizing i st with
  | nil => simp [first_loop] at h
  | cons x rest ih =>
    cases x with
    | none => simp [first_loop, throw_new] at h; exact ⟨_, h.symm⟩
    | some esh =>
      simp only [first_loop] at h
      split at h
      · next e1 h1 =>
        cases h
        exact layout_section_error h1
      · next st1 h1 => exact ih h

theorem layout_section_deviates {i : Nat} {s : Elf_Scn} (st : convert_state)
    (h : deviates i s) : ∃ msg, layout_section i s st = .error (.thrown_ptr msg) := by
  rcases h with ⟨rfl, h⟩ | ⟨t, f, n, he, h⟩
  · simp [layout_section, throw_new, h]
  · unfold expected_shape at he
    split at he <;> simp at he <;> obtain ⟨rfl, rfl, rfl⟩ := he <;>
      simp only [layout_section, elf_check_name_eq_false, throw_new] <;>
      rw [if_pos (by tauto)] <;> exact ⟨_, rfl⟩

theorem first_loop_deviates {secs : List (Option Elf_Scn)} {k j : Nat} {s : Elf_Scn}
    (st : convert_state) (hs : secs[j]? = some (some s)) (h : deviates (k + j) s) :
    ∃ msg, first_loop k secs st = .error (.thrown_ptr msg) := by
  induction secs generalizing k j st with
  | nil => simp at hs
  | cons x rest ih =>
    cases x with
    | none => simp [first_loop, throw_new]
    | some esh =>
      simp only [first_loop]
      cases j with
      | zero =>
        simp at hs
        subst hs
        obtain ⟨msg, hm⟩ := layout_section_deviates st h
        rw [Nat.add_zero] at hm
        exact ⟨msg, by rw [hm]⟩
      | succ j =>
        simp at hs
        cases h1 : layout_section k esh st with
        | error e =>
          obtain ⟨msg, rfl⟩ := layout_section_error h1
          exact ⟨msg, rfl⟩
        | ok st1 =>
          exact ih st1 hs (by rw [show k + 1 + j = k + (j + 1) by omega]; exact h)

/-- Up to the end of the first loop `convert` fails by a thrown exception only. -/
theorem translate_error_of_first_loop {elf : Elf}
    (h : ∀ st, ∃ msg, first_loop 0 elf.sections st = .error (.thrown_ptr msg)) :
    ∃ msg, translate elf = .error (.thrown_ptr msg)
      ∨ translate elf = .error (.thrown_val msg) := by
  unfold translate
  simp only [throw_new]
  split
  · exact ⟨_, Or.inl rfl⟩
  split
  · exact ⟨_, Or.inl rfl⟩
  split
  · exact ⟨_, Or.inl rfl⟩
  split
  · exact ⟨_, Or.inl rfl⟩
  split
  · exact ⟨_, Or.inl rfl⟩
  split
  · exact ⟨_, Or.inr rfl⟩
  generalize initial_state _ _ _ _ = st0
  obtain ⟨msg, hm⟩ := h st0
  rw [hm]
  exact ⟨msg, Or.inl rfl⟩

theorem convert_error_of_translate {elf : Elf} {e : Failure}
    (h : translate elf = .error e) : convert elf = .error e := by
  simp [convert, h]

/-! ## The claims -/

/-- C1: for every source image and every position `i` it contains, if section `i`
deviates from what the position requires (section 0 not of type NULL; for 1 to 7 a type
tag, flag bits compared for equality, or a name other than the expected triple), `convert`
throws an exception and returns no image. -/
theorem convert_rejects_deviating_section (elf : Elf) (i : Nat) (s : Elf_Scn)
    (hs : elf.sections[i]? = some (some s)) (hdev : deviates i s) :
    ∃ msg, convert elf = .error (.thrown_ptr msg)
      ∨ convert elf = .error (.thrown_val msg) := by
  have h := @translate_error_of_first_loop elf
    (fun st => first_loop_deviates st hs (by rw [Nat.zero_add]; exact hdev))
  obtain ⟨msg, h | h⟩ := h
  · exact ⟨msg, Or.inl (convert_error_of_translate h)⟩
  · exact ⟨msg, Or.inr (convert_error_of_translate h)⟩

/-- A witness of C1: the small executable whose text section is also writable. -/
theorem convert_rejects_deviating_section_witness :
    sample_elf_writable_text.sections[1]?
        = some (sample_section SHT_PROGBITS 7 ".text" 0x1360 0x360 [0x31, 0xc0, 0x40, 0xcd, 0x80])
      ∧ ∃ msg, convert sample_elf_writable_text = .error (.thrown_ptr msg)
          ∨ convert sample_elf_writable_text = .error (.thrown_val msg) :=
  ⟨rfl, convert_rejects_deviating_section sample_elf_writable_text 1 _ rfl
    (Or.inr ⟨_, _, _, rfl, Or.inr (Or.inl (by decide))⟩)⟩

/-! ### Allocated sections beyond the inventory -/

theorem layout_section_extra {i : Nat} {s : Elf_Scn} (st : convert_state) (hi : 8 ≤ i) :
    layout_section i s st =
      if s.sh_flags &&& SHF_ALLOC ≠ 0 then .error UnexpectedExtraSection else .ok st := by
  obtain ⟨k, rfl⟩ : ∃ k, i = k + 8 := ⟨i - 8, by omega⟩
  simp [layout_section, throw_new, UnexpectedExtraSection]

theorem first_loop_extra {secs : List (Option Elf_Scn)} {k j : Nat} {s : Elf_Scn}
    (st : convert_state) (hs : secs[j]? = some (some s)) (hj : 8 ≤ k + j)
    (ha : s.sh_flags &&& SHF_ALLOC ≠ 0) :
    ∃ msg, first_loop k secs st = .error (.thrown_ptr msg) := by
  induction secs generalizing k j st with
  | nil => simp at hs
  | cons x rest ih =>
    cases x with
    | none => simp [first_loop, throw_new]
    | some esh =>
      simp only [first_loop]
      cases j with
      | zero =>
        simp at hs
        subst hs
        rw [layout_section_extra st (by omega), if_pos ha]
        exact ⟨_, rfl⟩
      | succ j =>
        simp at hs
        cases h1 : layout_section k esh st with
        | error e =>
          obtain ⟨msg, rfl⟩ := layout_section_error h1
          exact ⟨msg, rfl⟩
        | ok st1 => exact ih st1 hs (by omega)

theorem conforms_ge_eight {i : Nat} {s : Elf_Scn} (hi : 8 ≤ i) :
    conforms i s ↔ s.sh_flags &&& SHF_ALLOC = 0 := by
  obtain ⟨k, rfl⟩ : ∃ k, i = k + 8 := ⟨i - 8, by omega⟩
  simp [conforms, expected_shape]

theorem layout_section_conforms {i : Nat} {s : Elf_Scn} (st : convert_state)
    (h : conforms i s) : ∃ st1, layout_section i s st = .ok st1 := by
  by_cases hi : 8 ≤ i
  · rw [layout_section_extra st hi, if_neg (by simpa using (conforms_ge_eight hi).1 h)]
    exact ⟨_, rfl⟩
  · have hcases : i = 0 ∨ i = 1 ∨ i = 2 ∨ i = 3 ∨ i = 4 ∨ i = 5 ∨ i = 6 ∨ i = 7 := by omega
    rcases hcases with rfl | rfl | rfl | rfl | rfl | rfl | rfl | rfl
    · simp only [conforms] at h
      simp only [layout_section]
      rw [if_neg (by simpa using h)]
      exact ⟨_, rfl⟩
    all_goals
      simp only [conforms, expected_shape] at h
      simp only [layout_section, elf_check_name_eq_false]
      rw [if_neg (by simp [h.1, h.2.1, h.2.2])]
      exact ⟨_, rfl⟩

theorem first_loop_conforming_prefix {secs : List (Option Elf_Scn)} {k j : Nat} {s : Elf_Scn}
    (st : convert_state) (hs : secs[j]? = some (some s)) (hj : 8 ≤ k + j)
    (ha : s.sh_flags &&& SHF_ALLOC ≠ 0)
    (hpre : ∀ q, q < j → ∃ t, secs[q]? = some (some t) ∧ conforms (k + q) t) :
    first_loop k secs st = .error UnexpectedExtraSection := by
  induction secs generalizing k j st with
  | nil => simp at hs
  | cons x rest ih =>
    cases j with
    | zero =>
      simp at hs
      subst hs
      simp only [first_loop]
      rw [layout_section_extra st (by omega), if_pos ha]
    | succ j =>
      obtain ⟨t, ht, hc⟩ := hpre 0 (by omega)
      simp at ht
      subst ht
      simp only [first_loop]
      obtain ⟨st1, h1⟩ := layout_section_conforms st hc
      rw [Nat.add_zero] at h1
      rw [h1]
      simp at hs
      refine ih st1 hs (by omega) ?_
      intro q hq
      obtain ⟨u, hu, hcu⟩ := hpre (q + 1) (by omega)
      simp at hu
      exact ⟨u, hu, by rw [show k + 1 + q = k + (q + 1) by omega]; exact hcu⟩

theorem translate_error_of_supported {elf : Elf} {eh : GElf_Ehdr} {e : Failure}
    (he : elf.ehdr = some eh) (hsup : supported eh)
    (hf : ∀ st, first_loop 0 elf.sections st = .error e) : translate elf = .error e := by
  obtain ⟨h1, h2, h3, h4⟩ := hsup
  unfold translate
  rw [he]
  simp only [h1, ne_eq, not_true_eq_false, if_false]
  rw [if_neg (by rcases h2 with h | h <;> simp [h])]
  rw [if_neg (by rcases h3 with h | h <;> simp [h])]
  rcases h4 with h | h | h <;>
    simp [h, machine_cpu, entry_state, EM_386, EM_X86_64, EM_PPC, EM_VAX, EM_68K, EM_MIPS,
      EM_PARISC, EM_ARM, EM_AARCH64, EM_88K, EM_SPARC, EM_860, EM_ALPHA, CPU_TYPE_X86,
      CPU_TYPE_X86_64, CPU_TYPE_POWERPC, CPU_ARCH_ABI64, hf]

/-- C2, as stated, fails: with an allocated ninth section but a first section that is not
of type NULL, `convert` fails with the error of section 0, not with
`UnexpectedExtraSection`. -/
theorem extra_section_error_kind_counterexample :
    sample_elf_extra_bad0.sections[8]? = some sample_extra
      ∧ (∃ s, sample_extra = some s ∧ s.sh_flags &&& SHF_ALLOC ≠ 0)
      ∧ convert sample_elf_extra_bad0 = .error (.thrown_ptr "ELF section 0 is not NULL")
      ∧ convert sample_elf_extra_bad0 ≠ .error UnexpectedExtraSection := by
  have h0 : convert sample_elf_extra_bad0
      = .error (.thrown_ptr "ELF section 0 is not NULL") := rfl
  refine ⟨rfl, ⟨_, rfl, by decide⟩, h0, ?_⟩
  rw [h0]
  simp [UnexpectedExtraSection]

/-- C2, amended: if a section at index 8 or higher has the ALLOC flag set, `convert`
throws an exception and returns no image, whatever the first eight sections are; the
exception is `UnexpectedExtraSection` when the header is supported and every section
before that one passes the check of its position. -/
theorem convert_rejects_extra_section (elf : Elf) (j : Nat) (s : Elf_Scn) (hj : 8 ≤ j)
    (hs : elf.sections[j]? = some (some s)) (ha : s.sh_flags &&& SHF_ALLOC ≠ 0) :
    (∃ msg, convert elf = .error (.thrown_ptr msg)
        ∨ convert elf = .error (.thrown_val msg))
      ∧ ∀ eh, elf.ehdr = some eh → supported eh →
          (∀ q, q < j → ∃ t, elf.sections[q]? = some (some t) ∧ conforms q t) →
          convert elf = .error UnexpectedExtraSection := by
  constructor
  · obtain ⟨msg, h | h⟩ := @translate_error_of_first_loop elf
      (fun st => first_loop_extra st hs (by omega) ha)
    · exact ⟨msg, Or.inl (convert_error_of_translate h)⟩
    · exact ⟨msg, Or.inr (convert_error_of_translate h)⟩
  · intro eh he hsup hpre
    refine convert_error_of_translate (translate_error_of_supported he hsup ?_)
    intro st
    exact first_loop_conforming_prefix st hs (by omega) ha
      (fun q hq => by simpa using hpre q hq)

/-- A witness of amended C2: the small executable with an allocated ninth section. -/
theorem convert_rejects_extra_section_witness :
    convert sample_elf_extra = .error UnexpectedExtraSection := by
  have h := convert_rejects_extra_section sample_elf_extra 8
    ⟨SHT_PROGBITS, 2, some ".eh_frame", 0x5000, 0x3000, 4, 4, [[0, 0, 0, 0]]⟩
    (by decide) rfl (by decide)
  refine h.2 sample_header rfl (by decide) ?_
  intro q hq
  have hq8 : q = 0 ∨ q = 1 ∨ q = 2 ∨ q = 3 ∨ q = 4 ∨ q = 5 ∨ q = 6 ∨ q = 7 := by omega
  rcases hq8 with rfl | rfl | rfl | rfl | rfl | rfl | rfl | rfl <;>
    exact ⟨_, rfl, by decide⟩


theorem layout_section_skeleton {i : Nat} {esh : Elf_Scn} {st st1 : convert_state}
    (h : layout_section i esh st = .ok st1) : st1.skeleton = st.skeleton := by
  unfold layout_section at h
  split at h <;> split at h <;> simp [throw_new] at h <;> subst h <;> rfl

theorem first_loop_skeleton {secs : List (Option Elf_Scn)} {i : Nat} {st st1 : convert_state}
    (h : first_loop i secs st = .ok st1) : st1.skeleton = st.skeleton := by
  induction secs generalizing i st with
  | nil => simp [first_loop] at h; subst h; rfl
  | cons x rest ih =>
    cases x with
    | none => simp [first_loop, throw_new] at h
    | some esh =>
      simp only [first_loop] at h
      split at h
      · cases h
      · next st2 h2 => rw [ih h, layout_section_skeleton h2]

theorem translate_ok {elf : Elf} {st : convert_state} {cs : content_state} {soh : Nat}
    (h : translate elf = .ok (st, cs, soh)) :
    ∃ eh cpu state fsg, elf.ehdr = some eh ∧ machine_cpu eh.e_machine = some cpu
      ∧ entry_state cpu.type (class_bits eh) (data_endian eh) eh.e_entry = some state
      ∧ first_loop 0 elf.sections (initial_state (class_bits eh) (data_endian eh) cpu state)
          = .ok st
      ∧ mach_file_segment.new st.sg_data.fileoff st.sg_data.vmsize [] = .ok fsg
      ∧ (st.image []).size_of_headers = some soh
      ∧ second_loop 0 elf.sections st soh ⟨[], fsg⟩ = .ok cs := by
  unfold translate at h
  simp only [throw_new] at h
  split at h
  · cases h
  next eh he =>
  split at h
  · cases h
  split at h
  · cases h
  split at h
  · cases h
  split at h
  · cases h
  next cpu hcpu =>
  split at h
  · cases h
  next state hstate =>
  split at h
  · cases h
  next st1 hst1 =>
  split at h
  · cases h
  next fsg hfsg =>
  split at h
  · cases h
  next soh1 hsoh =>
  split at h
  · cases h
  next cs1 hcs =>
  simp only [Except.ok.injEq, Prod.mk.injEq] at h
  obtain ⟨rfl, rfl, rfl⟩ := h
  exact ⟨eh, cpu, state, fsg, he, hcpu, hstate, hst1, hfsg, hsoh, hcs⟩

theorem convert_ok {elf : Elf} {m : mach} (h : convert elf = .ok m) :
    ∃ st cs soh origin, translate elf = .ok (st, cs, soh) ∧ st.origin = some origin
      ∧ sub64 st.sc_text.addr origin = soh ∧ m = st.image cs.file_segments := by
  unfold convert at h
  split at h
  · cases h
  next st cs soh ht =>
  split at h
  · cases h
  next origin ho =>
  split at h
  · cases h
  next hne =>
  simp only [Except.ok.injEq] at h
  exact ⟨st, cs, soh, origin, ht, ho, by simpa using hne, h.symm⟩

/-- The state a successful translation ends in keeps the skeleton of the initial state. -/
theorem translate_skeleton {elf : Elf} {st : convert_state} {cs : content_state} {soh : Nat}
    (h : translate elf = .ok (st, cs, soh)) :
    ∃ eh cpu state, elf.ehdr = some eh ∧ machine_cpu eh.e_machine = some cpu
      ∧ entry_state cpu.type (class_bits eh) (data_endian eh) eh.e_entry = some state
      ∧ st.skeleton = initial_state (class_bits eh) (data_endian eh) cpu state := by
  obtain ⟨eh, cpu, state, fsg, he, hcpu, hstate, hfl, -, -, -⟩ := translate_ok h
  exact ⟨eh, cpu, state, he, hcpu, hstate, by rw [first_loop_skeleton hfl]; rfl⟩

/-- The value of `size_of_commands` on an image whose skeleton is the initial one: five
segment headers, seven section records and the thread command. -/
theorem size_of_commands_of_skeleton {st : convert_state} {bits : Nat}
    {endian : mach_endianness} {cpu : mach_cpu} {state : thread_state}
    (h : st.skeleton = initial_state bits endian cpu state)
    (fs : List mach_file_segment) :
    (st.image fs).size_of_commands
      = some ((if bits = 32 then 756 else 920) + 16 + 4 * state.count) := by
  simp only [convert_state.skeleton, segment_command.skeleton, mach_section.skeleton,
    initial_state, convert_state.mk.injEq, segment_command.mk.injEq,
    mach_section.mk.injEq] at h
  obtain ⟨-, -, -, hpz, htx, hsctx, hro, hscro, hda, hscda, hscpi, hscin, hscfi, hbs, hscbs,
    hth, -⟩ := h
  simp only [mach.size_of_commands, convert_state.image, sum_cmdsize, load_command.cmdsize,
    segment_command.cmdsize, segment_command.structsize, mach_section.structsize,
    unixthread_command.cmdsize, unixthread_command.structsize, thread_state.structsize,
    List.foldl, hpz.1, htx.1, hsctx.1, hro.1, hscro.1, hda.1, hscda.1, hscpi.1, hscin.1,
    hscfi.1, hbs.1, hscbs.1, hth]
  by_cases hb : bits = 32 <;> cases state <;> simp [hb, u32, thread_state.count]


/-- The fields of the image that the initial skeleton fixes. -/
theorem skeleton_names {st : convert_state} {bits : Nat} {endian : mach_endianness}
    {cpu : mach_cpu} {state : thread_state}
    (h : st.skeleton = initial_state bits endian cpu state) :
    (st.sg_pgzero.segname = "__PAGEZERO" ∧ st.sg_pgzero.initprot = 0
        ∧ st.sg_pgzero.maxprot = 0)
      ∧ (st.sg_text.segname = "__TEXT" ∧ st.sc_text.sectname = "__text"
        ∧ st.sg_text.initprot = 5 ∧ st.sg_text.maxprot = 7)
      ∧ (st.sg_rodata.segname = "__RODATA" ∧ st.sc_rodata.sectname = "__rodata"
        ∧ st.sg_rodata.initprot = 1 ∧ st.sg_rodata.maxprot = 5)
      ∧ (st.sg_data.segname = "__DATA" ∧ st.sc_data.sectname = "__data"
        ∧ st.sc_pinit.sectname = "__preinit_arr" ∧ st.sc_init.sectname = "__init_arr"
        ∧ st.sc_fini.sectname = "__fini_arr"
        ∧ st.sg_data.initprot = 3 ∧ st.sg_data.maxprot = 7)
      ∧ (st.sg_bss.segname = "__BSS" ∧ st.sc_bss.sectname = "__bss"
        ∧ st.sg_bss.initprot = 3 ∧ st.sg_bss.maxprot = 7)
      ∧ st.th_unix.state = some state ∧ st.endian = endian ∧ st.bits = bits := by
  simp only [convert_state.skeleton, segment_command.skeleton, mach_section.skeleton,
    initial_state, convert_state.mk.injEq, segment_command.mk.injEq,
    mach_section.mk.injEq, unixthread_command.mk.injEq] at h
  obtain ⟨he, hb, -, hpz, htx, hsctx, hro, hscro, hda, hscda, hscpi, hscin, hscfi, hbs, hscbs,
    hth, -⟩ := h
  simp [hpz, htx, hsctx, hro, hscro, hda, hscda, hscpi, hscin, hscfi, hbs, hscbs, hth, he, hb,
    VM_PROT_READ, VM_PROT_WRITE, VM_PROT_EXECUTE]

/-- C4: every image returned by a successful `convert` has exactly six load commands, in
this order: the segment `__PAGEZERO` (no section, protections 0 and 0), `__TEXT` (one
section `__text`, initial 5, maximum 7), `__RODATA` (one section `__rodata`, initial 1,
maximum 5), `__DATA` (sections `__data`, `__preinit_arr`, `__init_arr`, `__fini_arr`,
initial 3, maximum 7), `__BSS` (one section `__bss`, initial 3, maximum 7), then one
thread-state command carrying a state; the header `mach::write` declares has command
count 6. -/
theorem convert_load_commands (elf : Elf) (m : mach) (h : convert elf = .ok m) :
    ∃ pz tx ro da bs th state,
      m.load_commands = [.segment pz, .segment tx, .segment ro, .segment da, .segment bs,
        .unixthread th]
      ∧ (pz.segname = "__PAGEZERO" ∧ pz.sections = [] ∧ pz.initprot = 0 ∧ pz.maxprot = 0)
      ∧ (tx.segname = "__TEXT" ∧ tx.sections.map (fun s => s.sectname) = ["__text"]
        ∧ tx.initprot = 5 ∧ tx.maxprot = 7)
      ∧ (ro.segname = "__RODATA" ∧ ro.sections.map (fun s => s.sectname) = ["__rodata"]
        ∧ ro.initprot = 1 ∧ ro.maxprot = 5)
      ∧ (da.segname = "__DATA"
        ∧ da.sections.map (fun s => s.sectname)
            = ["__data", "__preinit_arr", "__init_arr", "__fini_arr"]
        ∧ da.initprot = 3 ∧ da.maxprot = 7)
      ∧ (bs.segname = "__BSS" ∧ bs.sections.map (fun s => s.sectname) = ["__bss"]
        ∧ bs.initprot = 3 ∧ bs.maxprot = 7)
      ∧ th.state = some state
      ∧ ∃ hd, m.written_header = some hd ∧ hd.ncmds = 6 := by
  obtain ⟨st, cs, soh, origin, ht, -, -, rfl⟩ := convert_ok h
  obtain ⟨eh, cpu, state, -, -, -, hsk⟩ := translate_skeleton ht
  obtain ⟨hpz, htx, hro, hda, hbs, hth, -, -⟩ := skeleton_names hsk
  refine ⟨_, _, _, _, _, _, state, rfl, ?_, ?_, ?_, ?_, ?_, hth, ?_⟩
  · simp [hpz]
  · simp [htx]
  · simp [hro]
  · simp [hda]
  · simp [hbs]
  · simp only [mach.written_header, size_of_commands_of_skeleton hsk]
    exact ⟨_, rfl, by simp [convert_state.image, u32]⟩

/-- A witness of C4: the small x86 executable is translated. -/
theorem convert_load_commands_witness :
    ∃ m, convert sample_elf = .ok m ∧ m.load_commands.length = 6 := by
  obtain ⟨m, hm⟩ := sample_elf_ok
  obtain ⟨pz, tx, ro, da, bs, th, state, hl, -⟩ := convert_load_commands sample_elf m hm
  exact ⟨m, hm, by rw [hl]; rfl⟩

/-! ### The text segment and the header check -/

theorem first_loop_ge_eight {secs : List (Option Elf_Scn)} {i : Nat} {st st1 : convert_state}
    (hi : 8 ≤ i) (h : first_loop i secs st = .ok st1) : st1 = st := by
  induction secs generalizing i st with
  | nil => simp [first_loop] at h; exact h.symm
  | cons x rest ih =>
    cases x with
    | none => simp [first_loop, throw_new] at h
    | some esh =>
      simp only [first_loop] at h
      rw [layout_section_extra st hi] at h
      split at h
      · next e he => cases h
      · next st2 h2 =>
        split at h2
        · cases h2
        · cases h2; exact ih (by omega) h

/-- The objects assigned by the case 1 of the first loop are left alone by the others. -/
theorem layout_section_text {i : Nat} {esh : Elf_Scn} {st st1 : convert_state}
    (hi : i ≠ 1) (h : layout_section i esh st = .ok st1) :
    st1.origin = st.origin ∧ st1.sg_pgzero = st.sg_pgzero ∧ st1.sg_text = st.sg_text
      ∧ st1.sc_text = st.sc_text := by
  unfold layout_section at h
  split at h <;>
    first
    | exact absurd rfl hi
    | (split at h <;> simp [throw_new] at h; subst h; simp)

theorem first_loop_text {secs : List (Option Elf_Scn)} {i : Nat} {st st1 : convert_state}
    (hi : 2 ≤ i) (h : first_loop i secs st = .ok st1) :
    st1.origin = st.origin ∧ st1.sg_pgzero = st.sg_pgzero ∧ st1.sg_text = st.sg_text
      ∧ st1.sc_text = st.sc_text := by
  induction secs generalizing i st with
  | nil => simp [first_loop] at h; subst h; simp
  | cons x rest ih =>
    cases x with
    | none => simp [first_loop, throw_new] at h
    | some esh =>
      simp only [first_loop] at h
      split at h
      · cases h
      · next st2 h2 =>
        have h3 := layout_section_text (by omega) h2
        have h4 := ih (by omega : 2 ≤ i + 1) h
        exact ⟨h4.1.trans h3.1, h4.2.1.trans h3.2.1, h4.2.2.1.trans h3.2.2.1,
          h4.2.2.2.trans h3.2.2.2⟩

theorem layout_section_zero {esh : Elf_Scn} {st st1 : convert_state}
    (h : layout_section 0 esh st = .ok st1) : st1 = st := by
  simp only [layout_section] at h
  split at h
  · cases h
  · cases h; rfl

/-- What the case 1 of the first loop leaves in the state, for a first loop that ends. -/
theorem first_loop_section_one {secs : List (Option Elf_Scn)} {st0 st : convert_state}
    {s1 : Elf_Scn} (hs : secs[1]? = some (some s1)) (h : first_loop 0 secs st0 = .ok st) :
    st.origin = some (sub64 s1.sh_addr s1.sh_offset)
      ∧ st.sg_pgzero = { st0.sg_pgzero with vmsize := sub64 s1.sh_addr s1.sh_offset }
      ∧ st.sg_text = { st0.sg_text with
          vmaddr := sub64 s1.sh_addr s1.sh_offset,
          vmsize := ROUND_TO_2POW MACH_ALIGN s1.sh_size,
          filesize := ROUND_TO_2POW MACH_ALIGN s1.sh_size }
      ∧ st.sc_text = { st0.sc_text with
          addr := s1.sh_addr, size := s1.sh_size, offset := u32 s1.sh_offset,
          align := c_log2 s1.sh_addralign } := by
  match secs, hs with
  | x0 :: x1 :: rest, hs =>
    simp at hs
    subst hs
    cases x0 with
    | none => simp [first_loop, throw_new] at h
    | some s0 =>
      simp only [first_loop] at h
      split at h
      · cases h
      next st1 h1 =>
      have := layout_section_zero h1
      subst this
      split at h
      · cases h
      next st2 h2 =>
      obtain ⟨ho, hpz, htx, hsc⟩ := first_loop_text (by omega) h
      rw [ho, hpz, htx, hsc]
      simp only [layout_section] at h2
      split at h2
      · cases h2
      · cases h2
        exact ⟨rfl, rfl, rfl, rfl⟩

/-- With fewer than two sections the first loop never assigns `origin`. -/
theorem first_loop_short {secs : List (Option Elf_Scn)} {st0 st : convert_state}
    (hs : secs[1]? = none) (h : first_loop 0 secs st0 = .ok st) : st.origin = st0.origin := by
  match secs, hs with
  | [], _ => simp [first_loop] at h; subst h; rfl
  | [none], _ => simp [first_loop, throw_new] at h
  | [some s0], _ =>
    simp only [first_loop] at h
    split at h
    · cases h
    next st1 h1 =>
    cases h
    rw [layout_section_zero h1]
  | _ :: _ :: _, hs => simp at hs

/-- A successful `convert` has read a section 1. -/
theorem convert_ok_section_one {elf : Elf} {m : mach} (h : convert elf = .ok m) :
    ∃ s1, elf.sections[1]? = some (some s1) := by
  obtain ⟨st, cs, soh, origin, ht, ho, -, -⟩ := convert_ok h
  obtain ⟨eh, cpu, state, fsg, -, -, -, hfl, -, -, -⟩ := translate_ok ht
  cases hs : elf.sections[1]? with
  | none =>
    have := first_loop_short hs hfl
    rw [ho] at this
    cases this
  | some x =>
    cases x with
    | some s1 => exact ⟨s1, rfl⟩
    | none =>
      exfalso
      match hsec : elf.sections, hs with
      | x0 :: x1 :: rest, hs =>
        simp at hs
        subst hs
        rw [hsec] at hfl
        cases x0 with
        | none => simp [first_loop, throw_new] at hfl
        | some s0 =>
          simp only [first_loop, throw_new] at hfl
          split at hfl <;> cases hfl

theorem size_of_headers_image (st : convert_state) (fs : List mach_file_segment) :
    (st.image fs).size_of_headers = (st.image []).size_of_headers := rfl

/-- C5: in every image returned by a successful `convert`, `size_of_headers()` equals the
virtual address of section 1 minus the origin (both computed modulo 2^64); and for every
source image that passes all the earlier checks (the translation reaches line 1063 with
the value `soh` of `size_of_headers()`) but for which these two numbers differ, `convert`
throws the header-misalignment exception. -/
theorem convert_header_alignment (elf : Elf) :
    (∀ m, convert elf = .ok m →
        ∃ s1, elf.sections[1]? = some (some s1)
          ∧ m.size_of_headers
              = some (sub64 s1.sh_addr (sub64 s1.sh_addr s1.sh_offset)))
      ∧ (∀ st cs soh s1, translate elf = .ok (st, cs, soh) →
          elf.sections[1]? = some (some s1) →
          (st.image cs.file_segments).size_of_headers = some soh
            ∧ (sub64 s1.sh_addr (sub64 s1.sh_addr s1.sh_offset) ≠ soh →
                convert elf = .error (.thrown_ptr "Mach header misalignment"))) := by
  constructor
  · intro m h
    obtain ⟨s1, hs1⟩ := convert_ok_section_one h
    obtain ⟨st, cs, soh, origin, ht, ho, hcheck, rfl⟩ := convert_ok h
    obtain ⟨eh, cpu, state, fsg, -, -, -, hfl, -, hsoh, -⟩ := translate_ok ht
    obtain ⟨ho1, -, -, hsc⟩ := first_loop_section_one hs1 hfl
    refine ⟨s1, hs1, ?_⟩
    rw [size_of_headers_image, hsoh, ← hcheck]
    rw [ho1] at ho
    cases ho
    rw [hsc]
  · intro st cs soh s1 ht hs1
    obtain ⟨eh, cpu, state, fsg, -, -, -, hfl, -, hsoh, -⟩ := translate_ok ht
    obtain ⟨ho1, -, -, hsc⟩ := first_loop_section_one hs1 hfl
    refine ⟨by rw [size_of_headers_image, hsoh], ?_⟩
    intro hne
    simp only [convert, ht, ho1, hsc, throw_new]
    rw [if_pos hne]

/-- A witness of C5: the small executable is translated with headers of 864 bytes, and
the same executable with its text at file offset 0x400 is rejected. -/
theorem convert_header_alignment_witness :
    (∃ m, convert sample_elf = .ok m ∧ m.size_of_headers = some 864)
      ∧ convert sample_elf_misaligned = .error (.thrown_ptr "Mach header misalignment") := by
  constructor
  · obtain ⟨m, hm⟩ := sample_elf_ok
    obtain ⟨s1, hs1, hsz⟩ := (convert_header_alignment sample_elf).1 m hm
    have e : sample_elf.sections[1]?
        = some (sample_section SHT_PROGBITS 6 ".text" 0x1360 0x360
            [0x31, 0xc0, 0x40, 0xcd, 0x80]) := rfl
    rw [e] at hs1
    cases hs1
    exact ⟨m, hm, hsz.trans (by decide)⟩
  · obtain ⟨st, cs, ht⟩ : ∃ st cs, translate sample_elf_misaligned = .ok (st, cs, 864) :=
      ⟨_, _, rfl⟩
    exact ((convert_header_alignment sample_elf_misaligned).2 st cs 864 _ ht rfl).2
      (by decide)

/-! ### Rounding to a page -/

theorem and_shifted_mask (x k n : Nat) :
    x &&& ((2 ^ n - 1) <<< k) = (x >>> k) % 2 ^ n * 2 ^ k := by
  apply Nat.eq_of_testBit_eq
  intro i
  rw [← Nat.shiftLeft_eq]
  simp only [Nat.testBit_and, Nat.testBit_shiftLeft, Nat.testBit_two_pow_sub_one,
    Nat.testBit_mod_two_pow, Nat.testBit_shiftRight]
  by_cases h : k ≤ i
  · have : k + (i - k) = i := by omega
    simp [h, this]
    cases Nat.testBit x i <;> simp
  · simp [h]

/-- The mask of `ROUND_TO_2POW(MACH_ALIGN, v)` clears the twelve low bits. -/
theorem ROUND_TO_2POW_page (v : Nat) :
    ROUND_TO_2POW MACH_ALIGN v = (v + 4095) % 2 ^ 64 / 4096 * 4096 := by
  have h := and_shifted_mask ((v + 4096 - 1) % 2 ^ 64) 12 52
  have e : (2 ^ 64 - 4096 % 2 ^ 64) % 2 ^ 64 = (2 ^ 52 - 1) <<< 12 := by decide
  simp only [ROUND_TO_2POW, MACH_ALIGN]
  rw [e, h, Nat.shiftRight_eq_div_pow]
  have : (v + 4096 - 1) % 2 ^ 64 / 2 ^ 12 < 2 ^ 52 := by omega
  rw [Nat.mod_eq_of_lt this]
  norm_num

/-- Without wrap-around the rounding yields the least multiple of 4096 not below `v`. -/
theorem ROUND_TO_2POW_page_spec {v : Nat} (hv : v ≤ 2 ^ 64 - 4096) :
    4096 ∣ ROUND_TO_2POW MACH_ALIGN v ∧ v ≤ ROUND_TO_2POW MACH_ALIGN v
      ∧ ROUND_TO_2POW MACH_ALIGN v < v + 4096 := by
  rw [ROUND_TO_2POW_page]
  have h1 : (v + 4095) % 2 ^ 64 = v + 4095 := Nat.mod_eq_of_lt (by omega)
  rw [h1]
  refine ⟨Nat.dvd_mul_left _ _, ?_, ?_⟩ <;> omega

/-- When the sum wraps around the rounding yields 0. -/
theorem ROUND_TO_2POW_page_wrap {v : Nat} (hv : v < 2 ^ 64) (hw : 2 ^ 64 - 4096 < v) :
    ROUND_TO_2POW MACH_ALIGN v = 0 := by
  rw [ROUND_TO_2POW_page]
  omega

theorem ROUND_TO_2POW_page_lt (v : Nat) : ROUND_TO_2POW MACH_ALIGN v < 2 ^ 64 := by
  rw [ROUND_TO_2POW_page]
  omega

/-! ### The second loop -/

theorem mach_file_segment_new_ok {offset size : Nat} {content : List Nat}
    {fs : mach_file_segment} (h : mach_file_segment.new offset size content = .ok fs) :
    size ≤ PTRDIFF_MAX ∧ content.length ≤ size
      ∧ fs = { offset := offset, size := size,
               content := memcpy (List.replicate size 0) 0 content } := by
  unfold mach_file_segment.new at h
  split at h
  · cases h
  split at h
  · cases h
  cases h
  exact ⟨by omega, by omega, rfl⟩

/-- The case 1 of the second loop, when it ends. -/
theorem content_section_one {es : Elf_Scn} {st : convert_state} {soh : Nat}
    {cs cs1 : content_state} (h : content_section 1 es st soh cs = .ok cs1) :
    ∃ ed fs, es.rawdata = [ed] ∧ ed.length ≤ sub64 st.sg_text.vmsize soh
      ∧ mach_file_segment.new st.sc_text.offset (sub64 st.sg_text.vmsize soh) ed = .ok fs
      ∧ cs1 = { cs with file_segments := cs.file_segments ++ [fs] } := by
  simp only [content_section, throw_new] at h
  split at h
  · cases h
  next ed more hraw =>
  split at h
  · cases h
  next hle =>
  split at h
  · cases h
  next fs hfs =>
  split at h
  · cases h
  next hmore =>
  cases h
  simp only [ne_eq, not_not] at hmore
  subst hmore
  exact ⟨ed, fs, hraw, by omega, hfs, rfl⟩

/-- A second loop that ends has gone through the case 1 when there is a section 1. -/
theorem second_loop_section_one {secs : List (Option Elf_Scn)} {st : convert_state}
    {soh : Nat} {cs0 cs : content_state} {s1 : Elf_Scn}
    (hs : secs[1]? = some (some s1)) (h : second_loop 0 secs st soh cs0 = .ok cs) :
    ∃ cs1, content_section 1 s1 st soh cs0 = .ok cs1 := by
  match secs, hs with
  | x0 :: x1 :: rest, hs =>
    simp at hs
    subst hs
    cases x0 with
    | none => simp [second_loop, throw_new] at h
    | some s0 =>
      simp only [second_loop, content_section] at h
      split at h
      · cases h
      next cs1 h1 => exact ⟨cs1, h1⟩

/-- The value of `size_of_headers` on an image whose skeleton is the initial one. -/
theorem size_of_headers_of_skeleton {st : convert_state} {bits : Nat}
    {endian : mach_endianness} {cpu : mach_cpu} {state : thread_state}
    (h : st.skeleton = initial_state bits endian cpu state)
    (fs : List mach_file_segment) :
    (st.image fs).size_of_headers
      = some ((if bits = 32 then 28 else 32)
          + ((if bits = 32 then 756 else 920) + 16 + 4 * state.count)) := by
  have hsoc := size_of_commands_of_skeleton h fs
  simp only [mach.size_of_headers, hsoc, mach_header.structsize]
  simp only [convert_state.skeleton, initial_state, convert_state.mk.injEq] at h
  have hb : (st.image fs).header.bits = bits := by
    simp only [convert_state.image]
    rw [h.2.2.1]
  rw [hb]
  by_cases hb32 : bits = 32 <;> cases state <;> simp [hb32, u32, thread_state.count]

/-- The headers of a translated image take between 864 and 1136 bytes. -/
theorem size_of_headers_bounds {st : convert_state} {bits : Nat}
    {endian : mach_endianness} {cpu : mach_cpu} {state : thread_state}
    (h : st.skeleton = initial_state bits endian cpu state) {soh : Nat}
    (hsoh : (st.image []).size_of_headers = some soh) : 864 ≤ soh ∧ soh ≤ 1136 := by
  rw [size_of_headers_of_skeleton h] at hsoh
  cases hsoh
  by_cases hb32 : bits = 32 <;> cases state <;> simp [hb32, thread_state.count]

/-- In a successful translation the rounding of the text size does not wrap around: the
buffer of the text content could not be allocated otherwise. -/
theorem text_size_no_wrap {elf : Elf} {st : convert_state} {cs : content_state} {soh : Nat}
    {s1 : Elf_Scn} (ht : translate elf = .ok (st, cs, soh))
    (hs1 : elf.sections[1]? = some (some s1)) (hsz : s1.sh_size < 2 ^ 64) :
    s1.sh_size ≤ 2 ^ 64 - 4096 := by
  obtain ⟨eh, cpu, state, fsg, -, -, -, hfl, -, hsoh, hsl⟩ := translate_ok ht
  obtain ⟨-, -, htx, -⟩ := first_loop_section_one hs1 hfl
  obtain ⟨cs1, h1⟩ := second_loop_section_one hs1 hsl
  obtain ⟨ed, fs, -, -, hnew, -⟩ := content_section_one h1
  obtain ⟨hmax, -, -⟩ := mach_file_segment_new_ok hnew
  have hb := size_of_headers_bounds (by rw [first_loop_skeleton hfl]; rfl) hsoh
  by_contra hw
  have h0 := ROUND_TO_2POW_page_wrap hsz (by omega)
  rw [htx] at hmax
  simp only [h0, sub64, PTRDIFF_MAX] at hmax
  omega

/-- C6: in every image returned by a successful `convert`, with `origin` the virtual
address of section 1 minus its file offset modulo 2^64, the segment `__PAGEZERO` (load
command 0) has virtual address 0, virtual size `origin`, file offset 0 and file size 0;
the segment `__TEXT` (load command 1) has virtual address `origin`, file offset 0, and
virtual size = file size = the size of section 1 rounded up to a multiple of 4096 by
`ROUND_TO_2POW`, which for a 64-bit size is the least multiple of 4096 not below it. -/
theorem convert_zero_page_and_text (elf : Elf) (m : mach) (h : convert elf = .ok m) :
    ∃ s1 pz tx, elf.sections[1]? = some (some s1)
      ∧ m.load_commands[0]? = some (.segment pz)
      ∧ m.load_commands[1]? = some (.segment tx)
      ∧ pz.vmaddr = 0 ∧ pz.vmsize = sub64 s1.sh_addr s1.sh_offset
      ∧ pz.fileoff = 0 ∧ pz.filesize = 0
      ∧ tx.vmaddr = sub64 s1.sh_addr s1.sh_offset ∧ tx.fileoff = 0
      ∧ tx.vmsize = ROUND_TO_2POW MACH_ALIGN s1.sh_size ∧ tx.filesize = tx.vmsize
      ∧ (s1.sh_size < 2 ^ 64 →
          4096 ∣ tx.vmsize ∧ s1.sh_size ≤ tx.vmsize ∧ tx.vmsize < s1.sh_size + 4096) := by
  obtain ⟨s1, hs1⟩ := convert_ok_section_one h
  obtain ⟨st, cs, soh, origin, ht, -, -, rfl⟩ := convert_ok h
  obtain ⟨eh, cpu, state, fsg, -, -, -, hfl, -, -, -⟩ := translate_ok ht
  obtain ⟨-, hpz, htx, -⟩ := first_loop_section_one hs1 hfl
  refine ⟨s1, _, _, hs1, rfl, rfl, ?_, ?_, ?_, ?_, ?_, ?_, ?_, ?_, ?_⟩
  · rw [hpz]; rfl
  · rw [hpz]
  · rw [hpz]; rfl
  · rw [hpz]; rfl
  · rw [htx]
  · rw [htx]; rfl
  · rw [htx]
  · rw [htx]
  · intro hsz
    rw [htx]
    exact ROUND_TO_2POW_page_spec (text_size_no_wrap ht hs1 hsz)

/-- A witness of C6: the small executable, loaded at 0x1000 with 5 bytes of text. -/
theorem convert_zero_page_and_text_witness :
    ∃ m pz tx, convert sample_elf = .ok m
      ∧ m.load_commands[0]? = some (.segment pz)
      ∧ m.load_commands[1]? = some (.segment tx)
      ∧ pz.vmsize = 0x1000 ∧ tx.vmaddr = 0x1000 ∧ tx.vmsize = 0x1000 := by
  obtain ⟨m, hm⟩ := sample_elf_ok
  obtain ⟨s1, pz, tx, hs1, hpz, htx, -, h1, -, -, h2, -, h3, -, -⟩ :=
    convert_zero_page_and_text sample_elf m hm
  have e : sample_elf.sections[1]?
      = some (sample_section SHT_PROGBITS 6 ".text" 0x1360 0x360
          [0x31, 0xc0, 0x40, 0xcd, 0x80]) := rfl
  rw [e] at hs1
  cases hs1
  exact ⟨m, pz, tx, hm, hpz, htx, h1.trans (by decide), h2.trans (by decide),
    h3.trans (by decide)⟩

/-! ### The read-only data, data and bss segments -/

theorem first_loop_cons_ok {i : Nat} {s : Elf_Scn} {rest : List (Option Elf_Scn)}
    {st st1 : convert_state} (h : first_loop i (some s :: rest) st = .ok st1) :
    ∃ st2, layout_section i s st = .ok st2 ∧ first_loop (i + 1) rest st2 = .ok st1 := by
  simp only [first_loop] at h
  split at h
  · cases h
  next st2 h2 => exact ⟨st2, h2, h⟩

/-- The sum the cases 3 to 6 of the first loop accumulate, 64 bits wide. -/
theorem data_size_sum (a b c d : Nat) :
    ROUND_TO_2POW MACH_ALIGN (u64 (u64 (u64 (a + b) + c) + d))
      = ROUND_TO_2POW MACH_ALIGN (a + b + c + d) := by
  simp only [ROUND_TO_2POW_page, u64]
  omega

/-- What the cases 2 to 7 of the first loop leave in the state, for a first loop that ends
on a source of eight sections or more. -/
theorem first_loop_eight {s0 s1 s2 s3 s4 s5 s6 s7 : Elf_Scn} {rest : List (Option Elf_Scn)}
    {st0 st : convert_state}
    (h : first_loop 0 (some s0 :: some s1 :: some s2 :: some s3 :: some s4 :: some s5
      :: some s6 :: some s7 :: rest) st0 = .ok st) :
    st.sg_rodata = { st0.sg_rodata with
        vmaddr := s2.sh_addr, vmsize := ROUND_TO_2POW MACH_ALIGN s2.sh_size,
        fileoff := s2.sh_offset, filesize := ROUND_TO_2POW MACH_ALIGN s2.sh_size }
      ∧ st.sg_data = { st0.sg_data with
        vmaddr := s3.sh_addr,
        vmsize := ROUND_TO_2POW MACH_ALIGN (s3.sh_size + s4.sh_size + s5.sh_size + s6.sh_size),
        fileoff := s3.sh_offset,
        filesize :=
          ROUND_TO_2POW MACH_ALIGN (s3.sh_size + s4.sh_size + s5.sh_size + s6.sh_size) }
      ∧ st.sg_bss = { st0.sg_bss with vmaddr := s7.sh_addr, vmsize := s7.sh_size } := by
  obtain ⟨t1, h0, h⟩ := first_loop_cons_ok h
  obtain ⟨t2, h1, h⟩ := first_loop_cons_ok h
  obtain ⟨t3, h2, h⟩ := first_loop_cons_ok h
  obtain ⟨t4, h3, h⟩ := first_loop_cons_ok h
  obtain ⟨t5, h4, h⟩ := first_loop_cons_ok h
  obtain ⟨t6, h5, h⟩ := first_loop_cons_ok h
  obtain ⟨t7, h6, h⟩ := first_loop_cons_ok h
  obtain ⟨t8, h7, h⟩ := first_loop_cons_ok h
  have h8 := first_loop_ge_eight (by omega) h
  subst h8
  simp only [layout_section, throw_new] at h0 h1 h2 h3 h4 h5 h6 h7
  split at h0
  · cases h0
  split at h1
  · cases h1
  split at h2
  · cases h2
  split at h3
  · cases h3
  split at h4
  · cases h4
  split at h5
  · cases h5
  split at h6
  · cases h6
  split at h7
  · cases h7
  cases h0
  cases h1
  cases h2
  cases h3
  cases h4
  cases h5
  cases h6
  cases h7
  refine ⟨rfl, ?_, rfl⟩
  simp only [data_size_sum]

theorem second_loop_cons_ok {i : Nat} {s : Elf_Scn} {rest : List (Option Elf_Scn)}
    {st : convert_state} {soh : Nat} {cs cs1 : content_state}
    (h : second_loop i (some s :: rest) st soh cs = .ok cs1) :
    ∃ cs2, content_section i s st soh cs = .ok cs2
      ∧ second_loop (i + 1) rest st soh cs2 = .ok cs1 := by
  simp only [second_loop] at h
  split at h
  · cases h
  next cs2 h2 => exact ⟨cs2, h2, h⟩

theorem content_section_ge_seven {i : Nat} (hi : 7 ≤ i) (s : Elf_Scn) (st : convert_state)
    (soh : Nat) (cs : content_state) : content_section i s st soh cs = .ok cs := by
  obtain ⟨k, rfl⟩ : ∃ k, i = k + 7 := ⟨i - 7, by omega⟩
  simp [content_section]

theorem second_loop_ge_seven {secs : List (Option Elf_Scn)} {i : Nat} {st : convert_state}
    {soh : Nat} {cs cs1 : content_state} (hi : 7 ≤ i)
    (h : second_loop i secs st soh cs = .ok cs1) : cs1 = cs := by
  induction secs generalizing i cs with
  | nil => simp [second_loop] at h; exact h.symm
  | cons x rest ih =>
    cases x with
    | none => simp [second_loop, throw_new] at h
    | some es =>
      obtain ⟨cs2, h2, h3⟩ := second_loop_cons_ok h
      rw [content_section_ge_seven hi] at h2
      cases h2
      exact ih (by omega) h3

/-- The statements shared by the cases 3 to 6 of the second loop, when they end. -/
theorem copy_to_data_ok {st : convert_state} {sc : mach_section} {ed : List Nat}
    {too_big : String} {cs cs1 : content_state}
    (h : copy_to_data st sc ed too_big cs = .ok cs1) :
    ed.length ≤ sub64 st.sg_data.vmsize sc.offset
      ∧ sub64 sc.offset st.sg_data.fileoff + ed.length ≤ cs.fsg_data.size
      ∧ cs1 = { cs with fsg_data := { cs.fsg_data with
          content := memcpy cs.fsg_data.content (sub64 sc.offset st.sg_data.fileoff) ed } } := by
  simp only [copy_to_data, throw_new] at h
  split at h
  · cases h
  split at h
  · cases h
  cases h
  exact ⟨by omega, by omega, rfl⟩

/-- The case 2 of the second loop, when it ends. -/
theorem content_section_two {es : Elf_Scn} {st : convert_state} {soh : Nat}
    {cs cs1 : content_state} (h : content_section 2 es st soh cs = .ok cs1) :
    ∃ ed fs, es.rawdata = [ed]
      ∧ mach_file_segment.new st.sg_rodata.fileoff st.sg_rodata.vmsize ed = .ok fs
      ∧ cs1 = { cs with file_segments := cs.file_segments ++ [fs] } := by
  simp only [content_section, throw_new] at h
  split at h
  · cases h
  next ed more hraw =>
  split at h
  · cases h
  split at h
  · cases h
  next fs hfs =>
  split at h
  · cases h
  next hmore =>
  cases h
  simp only [ne_eq, not_not] at hmore
  subst hmore
  exact ⟨ed, fs, hraw, hfs, rfl⟩

/-- The cases 3, 4 and 5 of the second loop, when they end. -/
theorem content_section_data {i : Nat} (hi : i = 3 ∨ i = 4 ∨ i = 5) {es : Elf_Scn}
    {st : convert_state} {soh : Nat} {cs cs1 : content_state}
    (h : content_section i es st soh cs = .ok cs1) :
    ∃ ed msg, es.rawdata = [ed]
      ∧ copy_to_data st (if i = 3 then st.sc_data else if i = 4 then st.sc_pinit
          else st.sc_init) ed msg cs = .ok cs1 := by
  rcases hi with rfl | rfl | rfl <;>
  · simp only [content_section, throw_new] at h
    split at h
    · cases h
    next ed more hraw =>
    split at h
    · cases h
    next cs2 h2 =>
    split at h
    · cases h
    next hmore =>
    cases h
    simp only [ne_eq, not_not] at hmore
    subst hmore
    exact ⟨ed, _, hraw, h2⟩

/-- The case 6 of the second loop, when it ends: the data region is registered. -/
theorem content_section_six {es : Elf_Scn} {st : convert_state} {soh : Nat}
    {cs cs1 : content_state} (h : content_section 6 es st soh cs = .ok cs1) :
    ∃ ed msg cs2, es.rawdata = [ed] ∧ copy_to_data st st.sc_fini ed msg cs = .ok cs2
      ∧ cs1 = { cs2 with file_segments := cs2.file_segments ++ [cs2.fsg_data] } := by
  simp only [content_section, throw_new] at h
  split at h
  · cases h
  next ed more hraw =>
  split at h
  · cases h
  next cs2 h2 =>
  split at h
  · cases h
  next hmore =>
  cases h
  simp only [ne_eq, not_not] at hmore
  subst hmore
  exact ⟨ed, _, cs2, hraw, h2, rfl⟩

/-- The second loop on a source of seven sections or more, when it ends: each of the
sections 1 to 6 has one data descriptor, and three content regions are registered, the
third being `fsg_data` after the four copies. -/
theorem second_loop_seven {s0 s1 s2 s3 s4 s5 s6 : Elf_Scn} {rest : List (Option Elf_Scn)}
    {st : convert_state} {soh : Nat} {fsg : mach_file_segment} {cs : content_state}
    (h : second_loop 0 (some s0 :: some s1 :: some s2 :: some s3 :: some s4 :: some s5
      :: some s6 :: rest) st soh ⟨[], fsg⟩ = .ok cs) :
    ∃ d1 d2 d3 d4 d5 d6 fs1 fs2,
      s1.rawdata = [d1] ∧ s2.rawdata = [d2] ∧ s3.rawdata = [d3] ∧ s4.rawdata = [d4]
      ∧ s5.rawdata = [d5] ∧ s6.rawdata = [d6]
      ∧ mach_file_segment.new st.sc_text.offset (sub64 st.sg_text.vmsize soh) d1 = .ok fs1
      ∧ mach_file_segment.new st.sg_rodata.fileoff st.sg_rodata.vmsize d2 = .ok fs2
      ∧ data_pos st st.sc_data + d3.length ≤ fsg.size
      ∧ data_pos st st.sc_pinit + d4.length ≤ fsg.size
      ∧ data_pos st st.sc_init + d5.length ≤ fsg.size
      ∧ data_pos st st.sc_fini + d6.length ≤ fsg.size
      ∧ cs.file_segments = [fs1, fs2,
          { fsg with
            content :=
              memcpy (memcpy (memcpy (memcpy fsg.content (data_pos st st.sc_data) d3)
                (data_pos st st.sc_pinit) d4) (data_pos st st.sc_init) d5)
                (data_pos st st.sc_fini) d6 }] := by
  obtain ⟨c1, h0, h⟩ := second_loop_cons_ok h
  obtain ⟨c2, h1, h⟩ := second_loop_cons_ok h
  obtain ⟨c3, h2, h⟩ := second_loop_cons_ok h
  obtain ⟨c4, h3, h⟩ := second_loop_cons_ok h
  obtain ⟨c5, h4, h⟩ := second_loop_cons_ok h
  obtain ⟨c6, h5, h⟩ := second_loop_cons_ok h
  obtain ⟨c7, h6, h⟩ := second_loop_cons_ok h
  have h7 := second_loop_ge_seven (by omega) h
  subst h7
  simp only [content_section] at h0
  cases h0
  obtain ⟨d1, fs1, hd1, -, hfs1, rfl⟩ := content_section_one h1
  obtain ⟨d2, fs2, hd2, hfs2, rfl⟩ := content_section_two h2
  obtain ⟨d3, m3, hd3, hc3⟩ := content_section_data (Or.inl rfl) h3
  obtain ⟨d4, m4, hd4, hc4⟩ := content_section_data (Or.inr (Or.inl rfl)) h4
  obtain ⟨d5, m5, hd5, hc5⟩ := content_section_data (Or.inr (Or.inr rfl)) h5
  obtain ⟨d6, m6, c8, hd6, hc6, rfl⟩ := content_section_six h6
  obtain ⟨-, hp3, rfl⟩ := copy_to_data_ok hc3
  obtain ⟨-, hp4, rfl⟩ := copy_to_data_ok hc4
  obtain ⟨-, hp5, rfl⟩ := copy_to_data_ok hc5
  obtain ⟨-, hp6, rfl⟩ := copy_to_data_ok hc6
  exact ⟨d1, d2, d3, d4, d5, d6, fs1, fs2, hd1, hd2, hd3, hd4, hd5, hd6, hfs1, hfs2,
    hp3, hp4, hp5, hp6, rfl⟩

/-- C7: in every image returned by a successful `convert` on a source whose first eight
sections are `s0` to `s7`: the segment `__RODATA` (load command 2) has the address and the
file offset of section 2 and virtual size = file size = its size rounded up to 4096; the
segment `__DATA` (load command 3) has the address and the file offset of section 3 and
virtual size = file size = the sum of the sizes of the sections 3 to 6 rounded up to 4096,
the rounding applied once to the total; the segment `__BSS` (load command 4) has the
address of section 7, its size unrounded as virtual size and file size 0; and the image
has exactly three content regions, for the text, the read-only data and the data. The
rounding is that of `ROUND_TO_2POW`, the least multiple of 4096 not below its argument
whenever that argument is at most 2^64 - 4096. -/
theorem convert_rodata_data_bss (elf : Elf) (m : mach)
    (s0 s1 s2 s3 s4 s5 s6 s7 : Elf_Scn) (rest : List (Option Elf_Scn))
    (hsec : elf.sections = some s0 :: some s1 :: some s2 :: some s3 :: some s4 :: some s5
      :: some s6 :: some s7 :: rest)
    (h : convert elf = .ok m) :
    ∃ ro da bs f1 f2 f3,
      m.load_commands[2]? = some (.segment ro) ∧ m.load_commands[3]? = some (.segment da)
      ∧ m.load_commands[4]? = some (.segment bs)
      ∧ (ro.vmaddr = s2.sh_addr ∧ ro.fileoff = s2.sh_offset
        ∧ ro.vmsize = ROUND_TO_2POW MACH_ALIGN s2.sh_size ∧ ro.filesize = ro.vmsize
        ∧ (s2.sh_size ≤ 2 ^ 64 - 4096 →
            4096 ∣ ro.vmsize ∧ s2.sh_size ≤ ro.vmsize ∧ ro.vmsize < s2.sh_size + 4096))
      ∧ (da.vmaddr = s3.sh_addr ∧ da.fileoff = s3.sh_offset
        ∧ da.vmsize
            = ROUND_TO_2POW MACH_ALIGN (s3.sh_size + s4.sh_size + s5.sh_size + s6.sh_size)
        ∧ da.filesize = da.vmsize
        ∧ (s3.sh_size + s4.sh_size + s5.sh_size + s6.sh_size ≤ 2 ^ 64 - 4096 →
            4096 ∣ da.vmsize
              ∧ s3.sh_size + s4.sh_size + s5.sh_size + s6.sh_size ≤ da.vmsize
              ∧ da.vmsize < s3.sh_size + s4.sh_size + s5.sh_size + s6.sh_size + 4096))
      ∧ (bs.vmaddr = s7.sh_addr ∧ bs.vmsize = s7.sh_size ∧ bs.filesize = 0)
      ∧ m.file_segments = [f1, f2, f3]
      ∧ f1.offset = u32 s1.sh_offset
      ∧ (f2.offset = ro.fileoff ∧ f2.size = ro.vmsize)
      ∧ (f3.offset = da.fileoff ∧ f3.size = da.vmsize) := by
  obtain ⟨st, cs, soh, origin, ht, -, -, rfl⟩ := convert_ok h
  obtain ⟨eh, cpu, state, fsg, -, -, -, hfl, hfsg, -, hsl⟩ := translate_ok ht
  rw [hsec] at hfl hsl
  obtain ⟨hro, hda, hbs⟩ := first_loop_eight hfl
  obtain ⟨-, -, -, hsc⟩ := @first_loop_section_one _ _ _ s1 (by simp) hfl
  obtain ⟨d1, d2, d3, d4, d5, d6, fs1, fs2, -, -, -, -, -, -, hfs1, hfs2, -, -, -, -, hfs⟩ :=
    second_loop_seven hsl
  obtain ⟨-, -, rfl⟩ := mach_file_segment_new_ok hfs1
  obtain ⟨-, -, rfl⟩ := mach_file_segment_new_ok hfs2
  obtain ⟨-, -, rfl⟩ := mach_file_segment_new_ok hfsg
  refine ⟨_, _, _, _, _, _, rfl, rfl, rfl, ⟨?_, ?_, ?_, ?_, ?_⟩, ⟨?_, ?_, ?_, ?_, ?_⟩,
    ⟨?_, ?_, ?_⟩, hfs, ?_, ⟨rfl, rfl⟩, ⟨rfl, rfl⟩⟩
  · rw [hro]
  · rw [hro]
  · rw [hro]
  · rw [hro]
  · intro hb
    rw [hro]
    exact ROUND_TO_2POW_page_spec hb
  · rw [hda]
  · rw [hda]
  · rw [hda]
  · rw [hda]
  · intro hb
    rw [hda]
    exact ROUND_TO_2POW_page_spec hb
  · rw [hbs]
  · rw [hbs]
  · rw [hbs]; rfl
  · rw [hsc]

/-- A witness of C7: the small executable, whose data sections hold 4 + 0 + 4 + 4 bytes
and whose bss holds 16. -/
theorem convert_rodata_data_bss_witness :
    ∃ m ro da bs, convert sample_elf = .ok m
      ∧ m.load_commands[2]? = some (.segment ro) ∧ m.load_commands[3]? = some (.segment da)
      ∧ m.load_commands[4]? = some (.segment bs)
      ∧ ro.vmsize = 0x1000 ∧ da.vmsize = 0x1000 ∧ da.fileoff = 0x2000 ∧ bs.vmsize = 16
      ∧ m.file_segments.length = 3 := by
  obtain ⟨m, hm⟩ := sample_elf_ok
  obtain ⟨ro, da, bs, f1, f2, f3, hro, hda, hbs, ⟨-, -, h1, -, -⟩, ⟨-, h2, h3, -, -⟩,
      ⟨-, h4, -⟩, hfs, -⟩ :=
    convert_rodata_data_bss sample_elf m _ _ _ _ _ _ _ _ _ rfl hm
  exact ⟨m, ro, da, bs, hm, hro, hda, hbs, h1.trans (by decide), h3.trans (by decide),
    h2, h4, by rw [hfs]; rfl⟩

/-! ### The content of the data segment -/

theorem memcpy_length {buf src : List Nat} {pos : Nat} (h : pos + src.length ≤ buf.length) :
    (memcpy buf pos src).length = buf.length := by
  simp only [memcpy, List.length_append, List.length_take, List.length_drop]
  omega

theorem memcpy_nil (buf : List Nat) : memcpy buf 0 [] = buf := by
  simp [memcpy]

/-- The bytes of a buffer after `memcpy`: those of the source in the destination range,
the old ones elsewhere. -/
theorem memcpy_getElem? {buf src : List Nat} {pos : Nat}
    (h : pos + src.length ≤ buf.length) (j : Nat) :
    (memcpy buf pos src)[j]?
      = if pos ≤ j ∧ j < pos + src.length then src[j - pos]? else buf[j]? := by
  unfold memcpy
  by_cases h1 : j < pos
  · rw [if_neg (by omega), List.append_assoc, List.getElem?_append_left (by simp; omega)]
    rw [List.getElem?_take]
    simp [h1]
  · by_cases h2 : j < pos + src.length
    · rw [if_pos (by omega), List.append_assoc, List.getElem?_append_right (by simp; omega)]
      have : (List.take pos buf).length = pos := by simp; omega
      rw [this, List.getElem?_append_left (by omega)]
    · rw [if_neg (by omega), List.getElem?_append_right (by simp; omega)]
      rw [List.getElem?_drop]
      congr 1
      simp
      omega

/-- The buffer of the data segment after the four copies of the second loop. -/
theorem four_copies {n p3 p4 p5 p6 : Nat} {d3 d4 d5 d6 : List Nat}
    (h3 : p3 + d3.length ≤ n) (h4 : p4 + d4.length ≤ n) (h5 : p5 + d5.length ≤ n)
    (h6 : p6 + d6.length ≤ n) :
    (memcpy (memcpy (memcpy (memcpy (List.replicate n 0) p3 d3) p4 d4) p5 d5) p6 d6).length
        = n
      ∧ ∀ j, (memcpy (memcpy (memcpy (memcpy (List.replicate n 0) p3 d3) p4 d4) p5 d5)
            p6 d6)[j]?
          = if p6 ≤ j ∧ j < p6 + d6.length then d6[j - p6]?
            else if p5 ≤ j ∧ j < p5 + d5.length then d5[j - p5]?
            else if p4 ≤ j ∧ j < p4 + d4.length then d4[j - p4]?
            else if p3 ≤ j ∧ j < p3 + d3.length then d3[j - p3]?
            else (List.replicate n 0)[j]? := by
  have l0 : (List.replicate n 0).length = n := List.length_replicate _ _
  have l1 : (memcpy (List.replicate n 0) p3 d3).length = n := by
    rw [memcpy_length (by omega), l0]
  have l2 : (memcpy (memcpy (List.replicate n 0) p3 d3) p4 d4).length = n := by
    rw [memcpy_length (by omega), l1]
  have l3 : (memcpy (memcpy (memcpy (List.replicate n 0) p3 d3) p4 d4) p5 d5).length = n := by
    rw [memcpy_length (by omega), l2]
  refine ⟨by rw [memcpy_length (by omega), l3], ?_⟩
  intro j
  rw [memcpy_getElem? (by omega), memcpy_getElem? (by omega), memcpy_getElem? (by omega),
    memcpy_getElem? (by omega)]

/-- C8: in every image returned by a successful `convert` on a source whose first seven
sections are `s0` to `s6`, the data content region (the third one) has the file offset of
the data segment as offset and its page-aligned size as length; each of the sections 3 to
6 has one run of raw bytes, placed inside the buffer at the file offset of its destination
section minus that of the data segment; every byte of the buffer outside these four
placements is zero; and, provided the placements are pairwise disjoint, the buffer holds
at each placement exactly the raw bytes of that section. -/
theorem convert_data_content (elf : Elf) (m : mach)
    (s0 s1 s2 s3 s4 s5 s6 : Elf_Scn) (rest : List (Option Elf_Scn))
    (hsec : elf.sections = some s0 :: some s1 :: some s2 :: some s3 :: some s4 :: some s5
      :: some s6 :: rest)
    (h : convert elf = .ok m) :
    ∃ da sc3 sc4 sc5 sc6 f1 f2 fs d3 d4 d5 d6,
      m.load_commands[3]? = some (.segment da) ∧ da.sections = [sc3, sc4, sc5, sc6]
      ∧ m.file_segments = [f1, f2, fs]
      ∧ s3.rawdata = [d3] ∧ s4.rawdata = [d4] ∧ s5.rawdata = [d5] ∧ s6.rawdata = [d6]
      ∧ fs.offset = da.fileoff ∧ fs.size = da.vmsize ∧ fs.content.length = da.vmsize
      ∧ (sub64 sc3.offset da.fileoff + d3.length ≤ da.vmsize
        ∧ sub64 sc4.offset da.fileoff + d4.length ≤ da.vmsize
        ∧ sub64 sc5.offset da.fileoff + d5.length ≤ da.vmsize
        ∧ sub64 sc6.offset da.fileoff + d6.length ≤ da.vmsize)
      ∧ (∀ j, j < da.vmsize →
          ¬ in_range (sub64 sc3.offset da.fileoff) d3.length j →
          ¬ in_range (sub64 sc4.offset da.fileoff) d4.length j →
          ¬ in_range (sub64 sc5.offset da.fileoff) d5.length j →
          ¬ in_range (sub64 sc6.offset da.fileoff) d6.length j →
          fs.content[j]? = some 0)
      ∧ (disjoint_ranges (sub64 sc3.offset da.fileoff) d3.length
            (sub64 sc4.offset da.fileoff) d4.length →
          disjoint_ranges (sub64 sc3.offset da.fileoff) d3.length
            (sub64 sc5.offset da.fileoff) d5.length →
          disjoint_ranges (sub64 sc3.offset da.fileoff) d3.length
            (sub64 sc6.offset da.fileoff) d6.length →
          disjoint_ranges (sub64 sc4.offset da.fileoff) d4.length
            (sub64 sc5.offset da.fileoff) d5.length →
          disjoint_ranges (sub64 sc4.offset da.fileoff) d4.length
            (sub64 sc6.offset da.fileoff) d6.length →
          disjoint_ranges (sub64 sc5.offset da.fileoff) d5.length
            (sub64 sc6.offset da.fileoff) d6.length →
          holds_at fs.content (sub64 sc3.offset da.fileoff) d3
            ∧ holds_at fs.content (sub64 sc4.offset da.fileoff) d4
            ∧ holds_at fs.content (sub64 sc5.offset da.fileoff) d5
            ∧ holds_at fs.content (sub64 sc6.offset da.fileoff) d6) := by
  obtain ⟨st, cs, soh, origin, ht, -, -, rfl⟩ := convert_ok h
  obtain ⟨eh, cpu, state, fsg, -, -, -, hfl, hfsg, -, hsl⟩ := translate_ok ht
  rw [hsec] at hsl
  obtain ⟨d1, d2, d3, d4, d5, d6, fs1, fs2, -, -, hd3, hd4, hd5, hd6, -, -, hp3, hp4, hp5,
    hp6, hfs⟩ := second_loop_seven hsl
  obtain ⟨-, -, rfl⟩ := mach_file_segment_new_ok hfsg
  simp only [memcpy_nil, data_pos] at hp3 hp4 hp5 hp6 hfs
  obtain ⟨hlen, hget⟩ := four_copies hp3 hp4 hp5 hp6
  refine ⟨_, _, _, _, _, _, _, _, d3, d4, d5, d6, rfl, rfl, hfs, hd3, hd4, hd5, hd6, rfl,
    rfl, hlen, ⟨hp3, hp4, hp5, hp6⟩, ?_, ?_⟩
  · intro j hj n3 n4 n5 n6
    simp only [in_range] at n3 n4 n5 n6
    simp only [data_pos]
    rw [hget j, if_neg n6, if_neg n5, if_neg n4, if_neg n3]
    simp [hj]
  · intro g34 g35 g36 g45 g46 g56
    simp only [disjoint_ranges] at g34 g35 g36 g45 g46 g56
    simp only [holds_at, data_pos]
    refine ⟨?_, ?_, ?_, ?_⟩
    · intro j hj
      rw [hget, if_neg (by omega), if_neg (by omega), if_neg (by omega), if_pos (by omega)]
      congr 1
      omega
    · intro j hj
      rw [hget, if_neg (by omega), if_neg (by omega), if_pos (by omega)]
      congr 1
      omega
    · intro j hj
      rw [hget, if_neg (by omega), if_pos (by omega)]
      congr 1
      omega
    · intro j hj
      rw [hget, if_pos (by omega)]
      congr 1
      omega

theorem sample_elf_data :
    ∃ m da, convert sample_elf = .ok m ∧ m.load_commands[3]? = some (.segment da)
      ∧ da.fileoff = 0x2000 ∧ da.vmsize = 0x1000
      ∧ da.sections.map (fun s => s.offset) = [0x2000, 0x2004, 0x2004, 0x2008] :=
  ⟨_, _, rfl, rfl, rfl, rfl, rfl⟩

/-- A witness of C8: in the small executable `.data` holds 1, 2, 3, 4 at offset 0x2000,
`.preinit_array` is empty, and `.init_array` and `.fini_array` hold one pointer each at
offsets 0x2004 and 0x2008. -/
theorem convert_data_content_witness :
    ∃ m fs, convert sample_elf = .ok m ∧ m.file_segments[2]? = some fs
      ∧ fs.offset = 0x2000 ∧ fs.size = 0x1000
      ∧ holds_at fs.content 0 [1, 2, 3, 4] ∧ holds_at fs.content 4 [0x60, 0x13, 0, 0]
      ∧ holds_at fs.content 8 [0x70, 0x13, 0, 0] ∧ fs.content[12]? = some 0 := by
  obtain ⟨m, da0, hm, hda0, hoff0, hvm0, hsecs0⟩ := sample_elf_data
  obtain ⟨da, sc3, sc4, sc5, sc6, f1, f2, fs, d3, d4, d5, d6, hda, hsc, hfs, hd3, hd4, hd5,
      hd6, hoff, hsize, -, -, hzero, hbytes⟩ :=
    convert_data_content sample_elf m _ _ _ _ _ _ _ _ rfl hm
  rw [hda0] at hda
  cases hda
  rw [hsc] at hsecs0
  simp only [List.map, List.cons.injEq, and_true] at hsecs0
  obtain ⟨e3, e4, e5, e6⟩ := hsecs0
  cases hd3
  cases hd4
  cases hd5
  cases hd6
  rw [e3, e4, e5, e6, hoff0] at hbytes hzero
  have p0 : sub64 0x2000 0x2000 = 0 := by decide
  have p4 : sub64 0x2004 0x2000 = 4 := by decide
  have p8 : sub64 0x2008 0x2000 = 8 := by decide
  rw [p0, p4, p8] at hbytes hzero
  obtain ⟨b3, -, b5, b6⟩ := hbytes (Or.inl (by decide)) (Or.inl (by decide))
    (Or.inl (by decide)) (Or.inl (by decide)) (Or.inl (by decide)) (Or.inl (by decide))
  refine ⟨m, fs, hm, by rw [hfs]; rfl, hoff.trans hoff0, hsize.trans hvm0, b3, b5, b6, ?_⟩
  exact hzero 12 (by rw [hvm0]; decide) (by simp [in_range]) (by simp [in_range])
    (by simp [in_range]) (by simp [in_range])

/-! ### The size check of the data sections -/

/-- C3 fails on the code: the executable without read-only data has a supported header,
eight sections of the expected shape, each with one run of raw bytes (as many as its
size), none further, its text at the file offset of the header size 864, and every data
section inside the 4096 bytes of file the data segment takes from offset 0x1000 on; yet
`convert` throws "ELF .data section too big", because the check compares the 4 bytes of
`.data` with `sg_data->vmsize - sc_data->offset`, which is 0x1000 - 0x1000 = 0. -/
theorem convert_rejects_fitting_data :
    supported sample_header
      ∧ sample_elf_empty_rodata.sections.length = 8
      ∧ (∀ q, q < 8 → ∃ t d, sample_elf_empty_rodata.sections[q]? = some (some t)
          ∧ conforms q t ∧ t.rawdata = [d]
          ∧ (t.sh_type ≠ SHT_NOBITS → d.length = t.sh_size))
      ∧ ((initial_state 32 MACH_LSB ⟨CPU_TYPE_X86, CPU_SUBTYPE_X86_ALL⟩
            (.x86 { bits := 32, endian := MACH_LSB })).image []).size_of_headers = some 0x360
      ∧ ROUND_TO_2POW MACH_ALIGN 5 = 0x1000 ∧ 5 ≤ 0x1000 - 0x360
      ∧ ROUND_TO_2POW MACH_ALIGN 0 = 0
      ∧ ROUND_TO_2POW MACH_ALIGN (4 + 0 + 4 + 4) = 0x1000
      ∧ (0x1000 ≤ 0x1000 ∧ 0x1000 + 4 ≤ 0x1000 + 0x1000)
      ∧ (0x1000 ≤ 0x1004 ∧ 0x1004 + 4 ≤ 0x1000 + 0x1000)
      ∧ (0x1000 ≤ 0x1008 ∧ 0x1008 + 4 ≤ 0x1000 + 0x1000)
      ∧ sub64 0x1000 0x1000 = 0
      ∧ convert sample_elf_empty_rodata
          = .error (.thrown_ptr "ELF .data section too big") := by
  refine ⟨by decide, rfl, ?_, by decide, by decide, by decide, by decide, by decide,
    by decide, by decide, by decide, by decide, rfl⟩
  intro q hq
  have hq8 : q = 0 ∨ q = 1 ∨ q = 2 ∨ q = 3 ∨ q = 4 ∨ q = 5 ∨ q = 6 ∨ q = 7 := by omega
  rcases hq8 with rfl | rfl | rfl | rfl | rfl | rfl | rfl | rfl <;>
    exact ⟨_, _, rfl, by decide, rfl, by decide⟩

/-- C9 fails on the code: in the executable whose `.init_array` lies at file offset
0x3000, behind the 4096 bytes the data segment takes from 0x2000 on, the size check
compares the 4 bytes of the array with `sg_data->vmsize - sc_init->offset`, which wraps
around to 2^64 - 0x2000, so no exception is thrown and `memcpy` writes at position 0x1000
of a buffer of 0x1000 bytes. -/
theorem convert_overflows_data_buffer :
    ROUND_TO_2POW MACH_ALIGN (4 + 0 + 4 + 4) = 0x1000
      ∧ sub64 0x3000 0x2000 = 0x1000
      ∧ sub64 0x1000 0x3000 = 2 ^ 64 - 0x2000
      ∧ convert sample_elf_stray_arrays
          = .error (.undefined "memcpy outside the buffer of fsg_data")
      ∧ ∀ msg, convert sample_elf_stray_arrays ≠ .error (.thrown_ptr msg) := by
  have h : convert sample_elf_stray_arrays
      = .error (.undefined "memcpy outside the buffer of fsg_data") := rfl
  refine ⟨by decide, by decide, by decide, h, ?_⟩
  intro msg
  rw [h]
  simp

/-! ### Integers in the two byte orders -/

/-- The byte of `w` at bit position `s`, left in place. -/
theorem and_byte_mask (w s : Nat) : w &&& (0xff <<< s) = w / 2 ^ s % 256 * 2 ^ s := by
  have h := and_shifted_mask w s 8
  rw [Nat.shiftRight_eq_div_pow] at h
  exact h

theorem or_shifted_byte {a : Nat} (x k : Nat) (h : a < 2 ^ k) :
    a ||| x * 2 ^ k = a + x * 2 ^ k := by
  rw [Nat.lor_comm, Nat.mul_comm, ← Nat.mul_add_lt_is_or h, Nat.add_comm]

theorem or_bytes4 (a b c d : Nat) (ha : a < 256) (hb : b < 256) (hc : c < 256) :
    a * 2 ^ 0 ||| b * 2 ^ 8 ||| c * 2 ^ 16 ||| d * 2 ^ 24
      = a + b * 2 ^ 8 + c * 2 ^ 16 + d * 2 ^ 24 := by
  have h1 : a * 2 ^ 0 ||| b * 2 ^ 8 = a + b * 2 ^ 8 := by
    rw [or_shifted_byte b 8 (by omega)]; omega
  have h2 : a + b * 2 ^ 8 ||| c * 2 ^ 16 = a + b * 2 ^ 8 + c * 2 ^ 16 :=
    or_shifted_byte c 16 (by omega)
  have h3 : a + b * 2 ^ 8 + c * 2 ^ 16 ||| d * 2 ^ 24
      = a + b * 2 ^ 8 + c * 2 ^ 16 + d * 2 ^ 24 := or_shifted_byte d 24 (by omega)
  rw [h1, h2, h3]

theorem or_bytes8 (a b c d e f g h : Nat) (ha : a < 256) (hb : b < 256) (hc : c < 256)
    (hd : d < 256) (he : e < 256) (hf : f < 256) (hg : g < 256) :
    a * 2 ^ 0 ||| b * 2 ^ 8 ||| c * 2 ^ 16 ||| d * 2 ^ 24 ||| e * 2 ^ 32 ||| f * 2 ^ 40
        ||| g * 2 ^ 48 ||| h * 2 ^ 56
      = a + b * 2 ^ 8 + c * 2 ^ 16 + d * 2 ^ 24 + e * 2 ^ 32 + f * 2 ^ 40 + g * 2 ^ 48
        + h * 2 ^ 56 := by
  rw [or_bytes4 a b c d ha hb hc]
  have h4 : a + b * 2 ^ 8 + c * 2 ^ 16 + d * 2 ^ 24 ||| e * 2 ^ 32
      = a + b * 2 ^ 8 + c * 2 ^ 16 + d * 2 ^ 24 + e * 2 ^ 32 :=
    or_shifted_byte e 32 (by omega)
  have h5 : a + b * 2 ^ 8 + c * 2 ^ 16 + d * 2 ^ 24 + e * 2 ^ 32 ||| f * 2 ^ 40
      = a + b * 2 ^ 8 + c * 2 ^ 16 + d * 2 ^ 24 + e * 2 ^ 32 + f * 2 ^ 40 :=
    or_shifted_byte f 40 (by omega)
  have h6 : a + b * 2 ^ 8 + c * 2 ^ 16 + d * 2 ^ 24 + e * 2 ^ 32 + f * 2 ^ 40 ||| g * 2 ^ 48
      = a + b * 2 ^ 8 + c * 2 ^ 16 + d * 2 ^ 24 + e * 2 ^ 32 + f * 2 ^ 40 + g * 2 ^ 48 :=
    or_shifted_byte g 48 (by omega)
  have h7 : a + b * 2 ^ 8 + c * 2 ^ 16 + d * 2 ^ 24 + e * 2 ^ 32 + f * 2 ^ 40 + g * 2 ^ 48
        ||| h * 2 ^ 56
      = a + b * 2 ^ 8 + c * 2 ^ 16 + d * 2 ^ 24 + e * 2 ^ 32 + f * 2 ^ 40 + g * 2 ^ 48
        + h * 2 ^ 56 := or_shifted_byte h 56 (by omega)
  rw [h4, h5, h6, h7]

theorem byteswap32_eq (v : Nat) :
    byteswap32 v = v / 2 ^ 24 % 256 + v / 2 ^ 16 % 256 * 2 ^ 8 + v / 2 ^ 8 % 256 * 2 ^ 16
      + v % 256 * 2 ^ 24 := by
  unfold byteswap32
  have e0 : (0x000000ff : Nat) = 0xff <<< 0 := by rw [Nat.shiftLeft_eq]
  have e1 : (0x0000ff00 : Nat) = 0xff <<< 8 := by rw [Nat.shiftLeft_eq]
  have e2 : (0x00ff0000 : Nat) = 0xff <<< 16 := by rw [Nat.shiftLeft_eq]
  have e3 : (0xff000000 : Nat) = 0xff <<< 24 := by rw [Nat.shiftLeft_eq]
  rw [e0, e1, e2, e3, and_byte_mask, and_byte_mask, and_byte_mask, and_byte_mask]
  rw [or_bytes4 _ _ _ _ (by omega) (by omega) (by omega)]
  simp only [Nat.shiftRight_eq_div_pow, Nat.shiftLeft_eq]
  omega

theorem byteswap64_eq (v : Nat) :
    byteswap64 v = v / 2 ^ 56 % 256 + v / 2 ^ 48 % 256 * 2 ^ 8 + v / 2 ^ 40 % 256 * 2 ^ 16
      + v / 2 ^ 32 % 256 * 2 ^ 24 + v / 2 ^ 24 % 256 * 2 ^ 32 + v / 2 ^ 16 % 256 * 2 ^ 40
      + v / 2 ^ 8 % 256 * 2 ^ 48 + v % 256 * 2 ^ 56 := by
  unfold byteswap64
  have e0 : (0x00000000000000ff : Nat) = 0xff <<< 0 := by rw [Nat.shiftLeft_eq]
  have e1 : (0x000000000000ff00 : Nat) = 0xff <<< 8 := by rw [Nat.shiftLeft_eq]
  have e2 : (0x0000000000ff0000 : Nat) = 0xff <<< 16 := by rw [Nat.shiftLeft_eq]
  have e3 : (0x00000000ff000000 : Nat) = 0xff <<< 24 := by rw [Nat.shiftLeft_eq]
  have e4 : (0x000000ff00000000 : Nat) = 0xff <<< 32 := by rw [Nat.shiftLeft_eq]
  have e5 : (0x0000ff0000000000 : Nat) = 0xff <<< 40 := by rw [Nat.shiftLeft_eq]
  have e6 : (0x00ff000000000000 : Nat) = 0xff <<< 48 := by rw [Nat.shiftLeft_eq]
  have e7 : (0xff00000000000000 : Nat) = 0xff <<< 56 := by rw [Nat.shiftLeft_eq]
  rw [e0, e1, e2, e3, e4, e5, e6, e7, and_byte_mask, and_byte_mask, and_byte_mask,
    and_byte_mask, and_byte_mask, and_byte_mask, and_byte_mask, and_byte_mask]
  rw [or_bytes8 _ _ _ _ _ _ _ _ (by omega) (by omega) (by omega) (by omega) (by omega)
    (by omega) (by omega)]
  simp only [Nat.shiftRight_eq_div_pow, Nat.shiftLeft_eq]
  have t1 : v / 2 ^ 56 / 2 ^ 0 = v / 2 ^ 56 := by omega
  have t2 : v / 2 ^ 40 / 2 ^ 8 = v / 2 ^ 48 := by omega
  have t3 : v / 2 ^ 24 / 2 ^ 16 = v / 2 ^ 40 := by omega
  have t4 : v / 2 ^ 8 / 2 ^ 24 = v / 2 ^ 32 := by omega
  have t5 : v * 2 ^ 8 / 2 ^ 32 = v / 2 ^ 24 := by omega
  have t6 : v * 2 ^ 24 / 2 ^ 40 = v / 2 ^ 16 := by omega
  have t7 : v * 2 ^ 40 / 2 ^ 48 = v / 2 ^ 8 := by omega
  have t8 : v * 2 ^ 56 / 2 ^ 56 = v := by omega
  rw [t1, t2, t3, t4, t5, t6, t7, t8]

theorem le_bytes_length (n v : Nat) : (le_bytes n v).length = n := by
  induction n generalizing v with
  | zero => rfl
  | succ n ih => simp [le_bytes, ih]

theorem le_bytes_sum4 (a b c d : Nat) (ha : a < 256) (hb : b < 256) (hc : c < 256)
    (hd : d < 256) :
    le_bytes 4 (a + b * 2 ^ 8 + c * 2 ^ 16 + d * 2 ^ 24) = [a, b, c, d] := by
  simp only [le_bytes, List.cons.injEq, and_true]
  refine ⟨?_, ?_, ?_, ?_⟩ <;> omega

theorem le_bytes_sum8 (a b c d e f g h : Nat) (ha : a < 256) (hb : b < 256) (hc : c < 256)
    (hd : d < 256) (he : e < 256) (hf : f < 256) (hg : g < 256) (hh : h < 256) :
    le_bytes 8 (a + b * 2 ^ 8 + c * 2 ^ 16 + d * 2 ^ 24 + e * 2 ^ 32 + f * 2 ^ 40
      + g * 2 ^ 48 + h * 2 ^ 56) = [a, b, c, d, e, f, g, h] := by
  simp only [le_bytes, List.cons.injEq, and_true]
  refine ⟨?_, ?_, ?_, ?_, ?_, ?_, ?_, ?_⟩ <;> omega

/-- The bytes of a swapped 32-bit value are those of the value in reverse order. -/
theorem le_bytes_byteswap32 (v : Nat) :
    le_bytes 4 (byteswap32 v) = (le_bytes 4 v).reverse := by
  rw [byteswap32_eq, le_bytes_sum4 _ _ _ _ (by omega) (by omega) (by omega) (by omega)]
  simp only [le_bytes, List.reverse_cons, List.reverse_nil, List.nil_append,
    List.cons_append, List.cons.injEq, and_true]
  refine ⟨?_, ?_, ?_⟩ <;> omega

/-- The bytes of a swapped 64-bit value are those of the value in reverse order. -/
theorem le_bytes_byteswap64 (v : Nat) :
    le_bytes 8 (byteswap64 v) = (le_bytes 8 v).reverse := by
  rw [byteswap64_eq, le_bytes_sum8 _ _ _ _ _ _ _ _ (by omega) (by omega) (by omega)
    (by omega) (by omega) (by omega) (by omega) (by omega)]
  simp only [le_bytes, List.reverse_cons, List.reverse_nil, List.nil_append,
    List.cons_append, List.cons.injEq, and_true]
  refine ⟨?_, ?_, ?_, ?_, ?_, ?_, ?_⟩ <;> omega

/-- What `_write` appends for a 32-bit value does not depend on the host. -/
theorem _write_four (host e : mach_endianness) (v : Nat) :
    _write host e 4 v = if e = MACH_LSB then le_bytes 4 v else (le_bytes 4 v).reverse := by
  cases host <;> cases e <;>
    simp [_write, object_bytes, make_endian, byteswap, le_bytes_byteswap32]

/-- What `_write` appends for a 64-bit value does not depend on the host. -/
theorem _write_eight (host e : mach_endianness) (v : Nat) :
    _write host e 8 v = if e = MACH_LSB then le_bytes 8 v else (le_bytes 8 v).reverse := by
  cases host <;> cases e <;>
    simp [_write, object_bytes, make_endian, byteswap, le_bytes_byteswap64]

theorem _write_length (host e : mach_endianness) (n v : Nat) :
    (_write host e n v).length = n := by
  cases host <;> simp [_write, object_bytes, le_bytes_length]

theorem decode_le_bytes (n v : Nat) : decode MACH_LSB (le_bytes n v) = v % 256 ^ n := by
  induction n generalizing v with
  | zero => simp [decode, le_bytes, Nat.mod_one]
  | succ n ih =>
    have h := ih (v / 256)
    simp only [decode] at h
    simp only [decode, le_bytes, List.foldr_cons, h]
    rw [pow_succ', Nat.mod_mul]

theorem decode_reverse (l : List Nat) : decode MACH_MSB l.reverse = decode MACH_LSB l := by
  simp only [decode, List.foldl_reverse]
  congr 1
  funext b acc
  omega

/-- Decoding, in the byte order of the file, the four bytes `_write` appends. -/
theorem decode_write_four (host e : mach_endianness) (v : Nat) :
    decode e (_write host e 4 v) = v % 2 ^ 32 := by
  rw [_write_four]
  cases e
  · simp only [reduceCtorEq, if_false, decode_reverse, decode_le_bytes]
    norm_num
  · simp only [if_true, decode_le_bytes]
    norm_num

/-- Decoding, in the byte order of the file, the eight bytes `_write` appends. -/
theorem decode_write_eight (host e : mach_endianness) (v : Nat) :
    decode e (_write host e 8 v) = v % 2 ^ 64 := by
  rw [_write_eight]
  cases e
  · simp only [reduceCtorEq, if_false, decode_reverse, decode_le_bytes]
    norm_num
  · simp only [if_true, decode_le_bytes]
    norm_num

/-! ### The entry point -/

theorem drop_write {host e : mach_endianness} {w v n : Nat} {rest : List Nat} (h : w ≤ n) :
    List.drop n (_write host e w v ++ rest) = List.drop (n - w) rest := by
  have h1 : n = (_write host e w v).length + (n - w) := by rw [_write_length]; omega
  conv_lhs => rw [h1]
  rw [List.drop_append]

theorem take_write {host e : mach_endianness} {w v : Nat} {rest : List Nat} :
    List.take w (_write host e w v ++ rest) = _write host e w v :=
  List.take_left' (_write_length host e w v)

/-- The eleventh 32-bit word of the x86 payload is `eip`. -/
theorem thread_state_x86_eip (host : mach_endianness) (s : thread_state_x86) :
    ((s.write host).drop 40).take 4 = _write host s.endian 4 s.eip := by
  simp only [thread_state_x86.write, List.append_assoc]
  simp only [drop_write (show 4 ≤ 40 by decide), drop_write (show 4 ≤ 36 by decide),
    drop_write (show 4 ≤ 32 by decide), drop_write (show 4 ≤ 28 by decide),
    drop_write (show 4 ≤ 24 by decide), drop_write (show 4 ≤ 20 by decide),
    drop_write (show 4 ≤ 16 by decide), drop_write (show 4 ≤ 12 by decide),
    drop_write (show 4 ≤ 8 by decide), drop_write (show 4 ≤ 4 by decide),
    Nat.reduceSub, List.drop_zero, take_write]

/-- The seventeenth 64-bit word of the x86-64 payload is `rip`. -/
theorem thread_state_x86_64_rip (host : mach_endianness) (s : thread_state_x86_64) :
    ((s.write host).drop 128).take 8 = _write host s.endian 8 s.rip := by
  simp only [thread_state_x86_64.write, List.append_assoc]
  simp only [drop_write (show 8 ≤ 128 by decide), drop_write (show 8 ≤ 120 by decide),
    drop_write (show 8 ≤ 112 by decide), drop_write (show 8 ≤ 104 by decide),
    drop_write (show 8 ≤ 96 by decide), drop_write (show 8 ≤ 88 by decide),
    drop_write (show 8 ≤ 80 by decide), drop_write (show 8 ≤ 72 by decide),
    drop_write (show 8 ≤ 64 by decide), drop_write (show 8 ≤ 56 by decide),
    drop_write (show 8 ≤ 48 by decide), drop_write (show 8 ≤ 40 by decide),
    drop_write (show 8 ≤ 32 by decide), drop_write (show 8 ≤ 24 by decide),
    drop_write (show 8 ≤ 16 by decide), drop_write (show 8 ≤ 8 by decide),
    Nat.reduceSub, List.drop_zero, take_write]

/-- The first 32-bit word of the PowerPC payload is `srr0`. -/
theorem thread_state_powerpc_srr0 (host : mach_endianness) (s : thread_state_powerpc) :
    (s.write host).take 4 = _write host s.endian 4 s.srr0 := by
  simp only [thread_state_powerpc.write, List.append_assoc, take_write]

/-- The thread state `convert` attaches, by cpu type. -/
theorem entry_state_cases {cpu_type bits e_entry : Nat} {endian : mach_endianness}
    {state : thread_state} (hs : entry_state cpu_type bits endian e_entry = some state) :
    (cpu_type = CPU_TYPE_X86
        ∧ state = .x86 { bits := bits, endian := endian, eip := u32 e_entry })
      ∨ (cpu_type = CPU_TYPE_X86_64
        ∧ state = .x86_64 { bits := bits, endian := endian, rip := u64 e_entry })
      ∨ (cpu_type = CPU_TYPE_POWERPC
        ∧ state = .powerpc { bits := bits, endian := endian, srr0 := u32 e_entry }) := by
  unfold entry_state at hs
  split at hs
  next g1 => cases hs; exact Or.inl ⟨g1, rfl⟩
  split at hs
  next g2 => cases hs; exact Or.inr (Or.inl ⟨g2, rfl⟩)
  split at hs
  next g3 => cases hs; exact Or.inr (Or.inr ⟨g3, rfl⟩)
  cases hs

/-- C10, as stated, fails: a 64-bit-class source for the x86 machine whose entry point is
0x100000408 is translated, and the `eip` field of the serialized thread state decodes to
0x408. -/
theorem entry_point_truncated_counterexample :
    ∃ m th s, convert sample_elf_high_entry = .ok m
      ∧ m.load_commands[5]? = some (.unixthread th) ∧ th.state = some (.x86 s)
      ∧ decode m.endian (((thread_state.write MACH_LSB (.x86 s)).drop 40).take 4) = 0x408
      ∧ sample_elf_high_entry.ehdr.map (fun eh => eh.e_entry) = some 0x100000408 :=
  ⟨_, _, _, rfl, rfl, rfl, by decide, rfl⟩

/-- C10, amended: for every successful translation, the program-counter field of the
serialized thread-state record (`eip`, the 11th 32-bit word, for x86; `rip`, the 17th
64-bit word, for x86-64; `srr0`, the first 32-bit word, for PowerPC), decoded in the byte
order of the image, equals the entry-point address of the source reduced modulo 2^32 for
x86 and PowerPC and modulo 2^64 for x86-64; so it equals the entry point whenever that is
below 2^32, respectively 2^64. -/
theorem convert_entry_point (host : mach_endianness) (elf : Elf) (m : mach)
    (eh : GElf_Ehdr) (he : elf.ehdr = some eh) (h : convert elf = .ok m) :
    ∃ th state, m.load_commands[5]? = some (.unixthread th) ∧ th.state = some state
      ∧ ((m.header.cpu.type = CPU_TYPE_X86 ∧ (∃ s, state = .x86 s)
          ∧ decode m.endian (((state.write host).drop 40).take 4) = eh.e_entry % 2 ^ 32)
        ∨ (m.header.cpu.type = CPU_TYPE_X86_64 ∧ (∃ s, state = .x86_64 s)
          ∧ decode m.endian (((state.write host).drop 128).take 8) = eh.e_entry % 2 ^ 64)
        ∨ (m.header.cpu.type = CPU_TYPE_POWERPC ∧ (∃ s, state = .powerpc s)
          ∧ decode m.endian ((state.write host).take 4) = eh.e_entry % 2 ^ 32)) := by
  obtain ⟨st, cs, soh, origin, ht, -, -, rfl⟩ := convert_ok h
  obtain ⟨eh1, cpu, state, he1, -, hstate, hsk⟩ := translate_skeleton ht
  rw [he] at he1
  cases he1
  obtain ⟨-, -, -, -, -, hth, hend, -⟩ := skeleton_names hsk
  have hcpu : st.header.cpu = cpu := by
    have := congrArg (fun x => x.header.cpu) hsk
    exact this
  refine ⟨st.th_unix, state, rfl, hth, ?_⟩
  have hme : (st.image cs.file_segments).endian = data_endian eh := hend
  have hmc : (st.image cs.file_segments).header.cpu.type = cpu.type := by
    rw [← hcpu]; rfl
  rw [hme, hmc]
  rcases entry_state_cases hstate with ⟨hc, rfl⟩ | ⟨hc, rfl⟩ | ⟨hc, rfl⟩
  · refine Or.inl ⟨hc, ⟨_, rfl⟩, ?_⟩
    simp only [thread_state.write]
    rw [thread_state_x86_eip, decode_write_four]
    simp [u32]
  · refine Or.inr (Or.inl ⟨hc, ⟨_, rfl⟩, ?_⟩)
    simp only [thread_state.write]
    rw [thread_state_x86_64_rip, decode_write_eight]
    simp [u64]
  · refine Or.inr (Or.inr ⟨hc, ⟨_, rfl⟩, ?_⟩)
    simp only [thread_state.write]
    rw [thread_state_powerpc_srr0, decode_write_four]
    simp [u32]

/-- A witness of amended C10: the small executable, whose entry point is 0x1360. -/
theorem convert_entry_point_witness :
    ∃ m th state, convert sample_elf = .ok m
      ∧ m.load_commands[5]? = some (.unixthread th) ∧ th.state = some state
      ∧ decode m.endian (((state.write MACH_MSB).drop 40).take 4) = 0x1360 := by
  obtain ⟨m, hm, hc⟩ : ∃ m, convert sample_elf = .ok m ∧ m.header.cpu.type = CPU_TYPE_X86 :=
    ⟨_, rfl, rfl⟩
  obtain ⟨th, state, hth, hst, hpc⟩ :=
    convert_entry_point MACH_MSB sample_elf m sample_header rfl hm
  refine ⟨m, th, state, hm, hth, hst, ?_⟩
  rcases hpc with ⟨-, -, hd⟩ | ⟨hc2, -, -⟩ | ⟨hc3, -, -⟩
  · exact hd
  · rw [hc] at hc2; exact absurd hc2 (by decide)
  · rw [hc] at hc3; exact absurd hc3 (by decide)

/-! ### The serializer -/

theorem byteswap16_eq (v : Nat) : byteswap16 v = v / 2 ^ 8 % 256 + v % 256 * 2 ^ 8 := by
  unfold byteswap16
  have e0 : (0x00ff : Nat) = 0xff <<< 0 := by rw [Nat.shiftLeft_eq]
  have e1 : (0xff00 : Nat) = 0xff <<< 8 := by rw [Nat.shiftLeft_eq]
  rw [e0, e1, and_byte_mask, and_byte_mask]
  have h1 : v >>> 8 / 2 ^ 0 % 256 * 2 ^ 0 ||| v <<< 8 / 2 ^ 8 % 256 * 2 ^ 8
      = v >>> 8 / 2 ^ 0 % 256 * 2 ^ 0 + v <<< 8 / 2 ^ 8 % 256 * 2 ^ 8 :=
    or_shifted_byte _ 8 (by omega)
  rw [h1]
  simp only [Nat.shiftRight_eq_div_pow, Nat.shiftLeft_eq]
  omega

theorem le_bytes_sum2 (a b : Nat) (ha : a < 256) (hb : b < 256) :
    le_bytes 2 (a + b * 2 ^ 8) = [a, b] := by
  simp only [le_bytes, List.cons.injEq, and_true]
  refine ⟨?_, ?_⟩ <;> omega

/-- The bytes of a swapped 16-bit value are those of the value in reverse order. -/
theorem le_bytes_byteswap16 (v : Nat) :
    le_bytes 2 (byteswap16 v) = (le_bytes 2 v).reverse := by
  rw [byteswap16_eq, le_bytes_sum2 _ _ (by omega) (by omega)]
  simp only [le_bytes, List.reverse_cons, List.reverse_nil, List.nil_append,
    List.cons_append, List.cons.injEq, and_true]
  omega

/-- What `_write` appends for a 16-bit value does not depend on the host. -/
theorem _write_two (host e : mach_endianness) (v : Nat) :
    _write host e 2 v = if e = MACH_LSB then le_bytes 2 v else (le_bytes 2 v).reverse := by
  cases host <;> cases e <;>
    simp [_write, object_bytes, make_endian, byteswap, le_bytes_byteswap16]

theorem le_bytes_eq_lsb_first (n v : Nat) : le_bytes n v = lsb_first n v := by
  induction n generalizing v with
  | zero => rfl
  | succ n ih =>
    simp only [le_bytes, lsb_first, List.range_succ_eq_map, List.map_cons, List.map_map, ih]
    simp only [byte_of, pow_zero, Nat.div_one, List.cons.injEq, true_and]
    apply List.map_congr_left
    intro i _
    simp only [Function.comp, pow_succ', Nat.div_div_eq_div_mul]

theorem msb_first_eq_reverse (n v : Nat) : msb_first n v = (lsb_first n v).reverse := by
  have h : (List.range n).reverse = (List.range n).map (fun i => n - 1 - i) := by
    conv_lhs => rw [List.range_eq_range', List.reverse_range']
    simp
  simp only [msb_first, lsb_first, ← List.map_reverse, h, List.map_map]
  rfl

theorem byteswap_lt {n : Nat} (hn : n = 2 ∨ n = 4 ∨ n = 8) (v : Nat) :
    byteswap n v < 2 ^ (8 * n) := by
  rcases hn with rfl | rfl | rfl
  · simp only [byteswap, if_true, byteswap16_eq]
    omega
  · simp only [byteswap, show ¬ (4 = 2) by decide, if_false, if_true, byteswap32_eq]
    omega
  · simp only [byteswap, show ¬ (8 = 2) by decide, show ¬ (8 = 4) by decide, if_false,
      byteswap64_eq]
    have h0 := Nat.mod_lt (v / 2 ^ 56) (show 256 > 0 by decide)
    have h1 := Nat.mod_lt (v / 2 ^ 48) (show 256 > 0 by decide)
    have h2 := Nat.mod_lt (v / 2 ^ 40) (show 256 > 0 by decide)
    have h3 := Nat.mod_lt (v / 2 ^ 32) (show 256 > 0 by decide)
    have h4 := Nat.mod_lt (v / 2 ^ 24) (show 256 > 0 by decide)
    have h5 := Nat.mod_lt (v / 2 ^ 16) (show 256 > 0 by decide)
    have h6 := Nat.mod_lt (v / 2 ^ 8) (show 256 > 0 by decide)
    have h7 := Nat.mod_lt v (show 256 > 0 by decide)
    generalize v / 2 ^ 56 % 256 = a0 at *
    generalize v / 2 ^ 48 % 256 = a1 at *
    generalize v / 2 ^ 40 % 256 = a2 at *
    generalize v / 2 ^ 32 % 256 = a3 at *
    generalize v / 2 ^ 24 % 256 = a4 at *
    generalize v / 2 ^ 16 % 256 = a5 at *
    generalize v / 2 ^ 8 % 256 = a6 at *
    generalize v % 256 = a7 at *
    omega

/-- Converting to the signed type and back leaves a bit pattern unchanged. -/
theorem to_unsigned_to_signed {n : Nat} (hn : n = 2 ∨ n = 4 ∨ n = 8) {u : Nat}
    (hu : u < 2 ^ (8 * n)) : to_unsigned n (to_signed n u) = u := by
  rcases hn with rfl | rfl | rfl <;>
  · simp only [to_unsigned, to_signed] at *
    norm_num at *
    split <;> omega

/-- Converting a representable signed value to the unsigned type and back leaves it
unchanged. -/
theorem to_signed_to_unsigned {n : Nat} (hn : n = 2 ∨ n = 4 ∨ n = 8) {s : Int}
    (h1 : -(2 ^ (8 * n - 1)) ≤ s) (h2 : s < 2 ^ (8 * n - 1)) :
    to_signed n (to_unsigned n s) = s := by
  rcases hn with rfl | rfl | rfl <;>
  · simp only [to_unsigned, to_signed] at *
    norm_num at *
    split <;> omega

theorem to_unsigned_lt {n : Nat} (hn : n = 2 ∨ n = 4 ∨ n = 8) (s : Int) :
    to_unsigned n s < 2 ^ (8 * n) := by
  rcases hn with rfl | rfl | rfl <;>
  · simp only [to_unsigned]
    norm_num
    omega

/-- A signed overload of `byteswap` returns the bit pattern the unsigned overload returns
on the bit pattern of its argument. -/
theorem to_unsigned_byteswap_signed {n : Nat} (hn : n = 2 ∨ n = 4 ∨ n = 8) (s : Int) :
    to_unsigned n (byteswap_signed n s) = byteswap n (to_unsigned n s) :=
  to_unsigned_to_signed hn (byteswap_lt hn _)

/-- The bytes `_write` appends for a signed value are those it appends for the unsigned
value with the same bit pattern. -/
theorem _write_signed_eq {n : Nat} (hn : n = 2 ∨ n = 4 ∨ n = 8) (host e : mach_endianness)
    (s : Int) : _write_signed host e n s = _write host e n (to_unsigned n s) := by
  cases host <;> cases e <;>
    simp [_write_signed, _write, make_endian_signed, make_endian,
      to_unsigned_byteswap_signed hn]

theorem le_bytes_byteswap {n : Nat} (hn : n = 2 ∨ n = 4 ∨ n = 8) (v : Nat) :
    le_bytes n (byteswap n v) = (le_bytes n v).reverse := by
  rcases hn with rfl | rfl | rfl
  · simp only [byteswap, if_true, le_bytes_byteswap16]
  · simp only [byteswap, show ¬ (4 = 2) by decide, if_false, if_true, le_bytes_byteswap32]
  · simp only [byteswap, show ¬ (8 = 2) by decide, show ¬ (8 = 4) by decide, if_false,
      le_bytes_byteswap64]

theorem _write_eq {n : Nat} (hn : n = 2 ∨ n = 4 ∨ n = 8) (host e : mach_endianness)
    (v : Nat) :
    _write host e n v = if e = MACH_LSB then le_bytes n v else (le_bytes n v).reverse := by
  cases host <;> cases e <;>
    simp [_write, object_bytes, make_endian, le_bytes_byteswap hn]

theorem byteswap_byteswap {n : Nat} (hn : n = 2 ∨ n = 4 ∨ n = 8) {v : Nat}
    (hv : v < 2 ^ (8 * n)) : byteswap n (byteswap n v) = v := by
  have h : le_bytes n (byteswap n (byteswap n v)) = le_bytes n v := by
    rw [le_bytes_byteswap hn, le_bytes_byteswap hn, List.reverse_reverse]
  have h1 := congrArg (decode MACH_LSB) h
  rw [decode_le_bytes, decode_le_bytes] at h1
  have e : (256 : Nat) ^ n = 2 ^ (8 * n) := by
    rw [show (256 : Nat) = 2 ^ 8 by norm_num, ← pow_mul]
  rw [e, Nat.mod_eq_of_lt (byteswap_lt hn _), Nat.mod_eq_of_lt hv] at h1
  exact h1

/-- C11: for every integer type of 2, 4 or 8 bytes (16, 32 or 64 bits), every value `v`
of it and either target byte order, `_write` appends exactly that many bytes: with
`MACH_MSB` the bytes of `v` from the most significant to the least significant, with
`MACH_LSB` from the least significant to the most significant, whatever the byte order of
the host; for a signed value `s` the bytes are those of its bit pattern. -/
theorem _write_integer (host e : mach_endianness) (n : Nat)
    (hn : n = 2 ∨ n = 4 ∨ n = 8) (v : Nat) (s : Int) :
    (_write host e n v).length = n
      ∧ (e = MACH_MSB → _write host e n v = msb_first n v)
      ∧ (e = MACH_LSB → _write host e n v = lsb_first n v)
      ∧ _write MACH_LSB e n v = _write MACH_MSB e n v
      ∧ _write_signed host e n s = _write host e n (to_unsigned n s) := by
  refine ⟨_write_length host e n v, ?_, ?_, ?_, _write_signed_eq hn host e s⟩
  · rintro rfl
    rw [_write_eq hn, msb_first_eq_reverse, le_bytes_eq_lsb_first]
    simp
  · rintro rfl
    rw [_write_eq hn, le_bytes_eq_lsb_first]
    simp
  · rw [_write_eq hn, _write_eq hn]

/-- A witness of C11: the magic number of a 32-bit image written for a big-endian
target, and the value -2 of type `int16_t` written for a little-endian one. -/
theorem _write_integer_witness :
    _write MACH_LSB MACH_MSB 4 0xfeedface = [0xfe, 0xed, 0xfa, 0xce]
      ∧ _write_signed MACH_MSB MACH_LSB 2 (-2) = [0xfe, 0xff] := by
  obtain ⟨-, h1, -, -, h2⟩ :=
    _write_integer MACH_LSB MACH_MSB 4 (Or.inr (Or.inl rfl)) 0xfeedface 0
  obtain ⟨-, -, h3, -, h4⟩ := _write_integer MACH_MSB MACH_LSB 2 (Or.inl rfl) 0xfffe (-2)
  refine ⟨(h1 rfl).trans (by decide), ?_⟩
  rw [h4, show to_unsigned 2 (-2) = 0xfffe by decide, h3 rfl]
  decide

/-- C12: for each width (2, 4 or 8 bytes) `byteswap` reverses the order of the bytes of
its argument, so that `byteswap(byteswap(v)) = v` for every value `v` of that width, and
each signed overload returns the bit pattern the unsigned overload returns on the bit
pattern of its argument (hence is an involution on the signed values as well). -/
theorem byteswap_reverses_bytes (n : Nat) (hn : n = 2 ∨ n = 4 ∨ n = 8) (v : Nat)
    (hv : v < 2 ^ (8 * n)) (s : Int) (hs1 : -(2 ^ (8 * n - 1)) ≤ s)
    (hs2 : s < 2 ^ (8 * n - 1)) :
    lsb_first n (byteswap n v) = (lsb_first n v).reverse
      ∧ byteswap n v < 2 ^ (8 * n)
      ∧ byteswap n (byteswap n v) = v
      ∧ to_unsigned n (byteswap_signed n s) = byteswap n (to_unsigned n s)
      ∧ byteswap_signed n (byteswap_signed n s) = s := by
  refine ⟨?_, byteswap_lt hn v, byteswap_byteswap hn hv, to_unsigned_byteswap_signed hn s, ?_⟩
  · rw [← le_bytes_eq_lsb_first, ← le_bytes_eq_lsb_first, le_bytes_byteswap hn]
  · conv_lhs => rw [byteswap_signed, to_unsigned_byteswap_signed hn]
    rw [byteswap_byteswap hn (to_unsigned_lt hn s), to_signed_to_unsigned hn hs1 hs2]

/-- A witness of C12: a 32-bit value and the `int16_t` value -2. -/
theorem byteswap_reverses_bytes_witness :
    byteswap 4 0x11223344 = 0x44332211 ∧ byteswap 4 (byteswap 4 0x11223344) = 0x11223344
      ∧ byteswap_signed 4 (-2) = -16777217 := by
  obtain ⟨-, -, h, -, -⟩ := byteswap_reverses_bytes 4 (Or.inr (Or.inl rfl)) 0x11223344
    (by norm_num) (-2) (by norm_num) (by norm_num)
  exact ⟨by decide, h, by decide⟩

theorem _write_str_length (str : List Nat) (size : Nat) :
    (_write_str str size).length = size := by
  unfold _write_str
  split
  · simp only [List.length_take]; omega
  · simp only [List.length_append, List.length_replicate]; omega

/-- C13: for every string `s` and slot size `n`, the text-field `_write` appends exactly
`n` bytes: byte `i` is `s[i]` for `i < min(|s|, n)` and zero for `min(|s|, n) <= i < n`. -/
theorem _write_str_bytes (s : List Nat) (n : Nat) :
    (_write_str s n).length = n
      ∧ (∀ i, i < min s.length n → (_write_str s n)[i]? = s[i]?)
      ∧ (∀ i, min s.length n ≤ i → i < n → (_write_str s n)[i]? = some 0) := by
  refine ⟨_write_str_length s n, ?_, ?_⟩
  · intro i hi
    unfold _write_str
    split
    · rw [List.getElem?_take]; simp; omega
    · rw [List.getElem?_append_left (by omega)]
  · intro i hi1 hi2
    unfold _write_str
    split
    · omega
    · rw [List.getElem?_append_right (by omega), List.getElem?_replicate,
        if_pos (by omega)]

/-- A witness of C13: the name `__TEXT` in a slot of 16 bytes, and a name of 17 bytes. -/
theorem _write_str_bytes_witness :
    _write_str (string_bytes "__TEXT") 16
        = [95, 95, 84, 69, 88, 84, 0, 0, 0, 0, 0, 0, 0, 0, 0, 0]
      ∧ (_write_str (string_bytes "__a_very_long_name") 16).length = 16
      ∧ (_write_str (string_bytes "__TEXT") 16)[5]? = some 84
      ∧ (_write_str (string_bytes "__TEXT") 16)[6]? = some 0 := by
  obtain ⟨-, h1, h2⟩ := _write_str_bytes (string_bytes "__TEXT") 16
  exact ⟨by decide, (_write_str_bytes _ 16).1, (h1 5 (by decide)).trans (by decide),
    h2 6 (by decide) (by decide)⟩

/-! ### Sizes of the serialized structures -/

theorem mach_header_write_length (host : mach_endianness) (h : mach_header)
    (hb : h.bits = 32 ∨ h.bits = 64) : (h.write host).length = h.structsize := by
  rcases hb with hb | hb <;>
    simp [mach_header.write, mach_header.structsize, hb, _write_length]

theorem mach_section_write_length {host : mach_endianness} {s : mach_section}
    {out : List Nat} (hb : s.bits = 32 ∨ s.bits = 64) (h : s.write host = some out) :
    out.length = s.structsize := by
  unfold mach_section.write at h
  split at h
  · cases h
  · cases h
    rcases hb with hb | hb <;>
      simp [mach_section.structsize, hb, _write_length, _write_str_length]

theorem write_sections_length {host : mach_endianness} {segname : String} {bits : Nat}
    (hb : bits = 32 ∨ bits = 64) {secs : List mach_section} {out : List Nat}
    (hs : ∀ s ∈ secs, s.bits = bits) (h : write_sections host segname secs = some out) :
    out.length = secs.length * (if bits = 32 then 68 else 80) := by
  induction secs generalizing out with
  | nil => simp [write_sections] at h; subst h; simp
  | cons s rest ih =>
    simp only [write_sections] at h
    split at h
    · cases h
    next b hb1 =>
    split at h
    · cases h
    next bs hbs =>
    cases h
    have h1 : b.length = (if bits = 32 then 68 else 80) := by
      have hsb : s.bits = bits := hs s (List.mem_cons_self _ _)
      rw [mach_section_write_length (s := { s with segname := segname })
        (by simpa [hsb] using hb) hb1]
      simp [mach_section.structsize, hsb]
    rw [List.length_append, h1, ih (fun t ht => hs t (List.mem_cons_of_mem _ ht)) hbs,
      List.length_cons]
    ring

theorem cmdsize_loop (k : Nat) (secs : List mach_section)
    (hs : ∀ s ∈ secs, s.structsize = k) (init : Nat) (hi : init < 2 ^ 32) :
    secs.foldl (fun ts s => u32 (ts + s.structsize)) init
      = (init + secs.length * k) % 2 ^ 32 := by
  induction secs generalizing init with
  | nil => simp [Nat.mod_eq_of_lt (show init < 4294967296 from hi)]
  | cons s rest ih =>
    have h1 : u32 (init + s.structsize) < 2 ^ 32 := Nat.mod_lt _ (by norm_num)
    rw [List.foldl_cons, ih (fun t ht => hs t (List.mem_cons_of_mem _ ht)) _ h1,
      hs s (List.mem_cons_self _ _), List.length_cons]
    simp only [u32]
    rw [Nat.add_mod, Nat.mod_mod, ← Nat.add_mod]
    congr 1
    ring

/-- The value `cmdsize()` returns for a segment whose sections have its word width. -/
theorem segment_cmdsize_eq {c : segment_command} (hs : ∀ s ∈ c.sections, s.bits = c.bits) :
    c.cmdsize = ((if c.bits = 32 then 56 else 72)
      + c.sections.length * (if c.bits = 32 then 68 else 80)) % 2 ^ 32 := by
  unfold segment_command.cmdsize
  rw [cmdsize_loop (if c.bits = 32 then 68 else 80) c.sections
    (fun s h => by simp [mach_section.structsize, hs s h])]
  · rfl
  · simp only [segment_command.structsize]; split <;> norm_num

theorem segment_cmdsize_lt (c : segment_command) : c.cmdsize < 2 ^ 32 := by
  unfold segment_command.cmdsize
  have h : ∀ (secs : List mach_section) (init : Nat), init < 2 ^ 32 →
      secs.foldl (fun ts s => u32 (ts + s.structsize)) init < 2 ^ 32 := by
    intro secs
    induction secs with
    | nil => intro init hi; simpa using hi
    | cons s rest ih =>
      intro init _
      rw [List.foldl_cons]
      exact ih _ (Nat.mod_lt _ (by norm_num))
  apply h
  simp only [segment_command.structsize]; split <;> norm_num

/-- The bytes of a segment are its fixed fields followed by its section records. -/
theorem segment_write_eq {host : mach_endianness} {c : segment_command} {out : List Nat}
    (h : c.write host = some out) :
    (c.bits = 32 → c.vmaddr ≤ 0xffffffff ∧ c.vmsize ≤ 0xffffffff
      ∧ c.fileoff ≤ 0xffffffff ∧ c.filesize ≤ 0xffffffff)
    ∧ ∃ secs, write_sections host c.segname c.sections = some secs
      ∧ out = c.fixed_fields host ++ secs := by
  unfold segment_command.write at h
  split at h
  · cases h
  next hr =>
  split at h
  · cases h
  next secs hsecs =>
  cases h
  refine ⟨fun hb => ?_, secs, hsecs, by simp [segment_command.fixed_fields]⟩
  by_contra hc
  exact hr ⟨hb, hc⟩

theorem segment_write_of_sections {host : mach_endianness} {c : segment_command}
    {secs : List Nat}
    (hr : c.bits = 32 → c.vmaddr ≤ 0xffffffff ∧ c.vmsize ≤ 0xffffffff
      ∧ c.fileoff ≤ 0xffffffff ∧ c.filesize ≤ 0xffffffff)
    (h : write_sections host c.segname c.sections = some secs) :
    c.write host = some (c.fixed_fields host ++ secs) := by
  unfold segment_command.write
  rw [if_neg (fun hc => hc.2 (hr hc.1)), h]
  simp [segment_command.fixed_fields]

theorem fixed_fields_length (host : mach_endianness) (c : segment_command) :
    (c.fixed_fields host).length = c.structsize := by
  by_cases hb : c.bits = 32 <;>
    simp [segment_command.fixed_fields, segment_command.structsize, hb, _write_length,
      _write_str_length]

theorem segment_write_length {host : mach_endianness} {c : segment_command} {out : List Nat}
    (hb : c.bits = 32 ∨ c.bits = 64) (hs : ∀ s ∈ c.sections, s.bits = c.bits)
    (h : c.write host = some out) :
    out.length = (if c.bits = 32 then 56 else 72)
      + c.sections.length * (if c.bits = 32 then 68 else 80) := by
  obtain ⟨-, secs, hsecs, rfl⟩ := segment_write_eq h
  rw [List.length_append, fixed_fields_length, write_sections_length hb hs hsecs]
  rfl

/-- The sections are written when each of them passes its own range assertions. -/
theorem write_sections_of_range (host : mach_endianness) (segname : String)
    (secs : List mach_section)
    (hs : ∀ s ∈ secs, s.bits = 32 → s.addr ≤ 0xffffffff ∧ s.size ≤ 0xffffffff) :
    ∃ out, write_sections host segname secs = some out := by
  induction secs with
  | nil => exact ⟨[], rfl⟩
  | cons s rest ih =>
    obtain ⟨bs, hbs⟩ := ih (fun t ht => hs t (List.mem_cons_of_mem _ ht))
    have h1 := hs s (List.mem_cons_self _ _)
    simp only [write_sections, hbs, mach_section.write]
    rw [if_neg (fun hc => hc.2 (h1 hc.1))]
    exact ⟨_, rfl⟩

/-- The second word a segment writes is the value of `cmdsize()`. -/
theorem segment_write_cmdsize_field {host : mach_endianness} {c : segment_command}
    {out : List Nat} (h : c.write host = some out) :
    decode c.endian ((out.drop 4).take 4) = c.cmdsize := by
  obtain ⟨-, secs, -, rfl⟩ := segment_write_eq h
  have h1 : ∀ rest, (((if c.bits = 32 then _write host c.endian 4 LC_SEGMENT
      else _write host c.endian 4 LC_SEGMENT_64) ++ rest).drop 4) = rest := by
    intro rest
    split <;> rw [drop_write (le_refl _)] <;> rfl
  simp only [segment_command.fixed_fields, List.append_assoc, h1, take_write]
  rw [decode_write_four, Nat.mod_eq_of_lt (segment_cmdsize_lt c)]

/-- The segment `sample_vast_segment` is written, in 2^32 + 72 bytes, while its
`cmdsize()` is 72. -/
theorem sample_vast_segment_write :
    ∃ out, sample_vast_segment.write MACH_LSB = some out
      ∧ out.length = 4294967368
      ∧ sample_vast_segment.cmdsize = 72
      ∧ decode MACH_LSB ((out.drop 4).take 4) = 72 := by
  have hsec : ∀ s ∈ sample_vast_segment.sections,
      s = ({ bits := 32, endian := MACH_LSB } : mach_section) :=
    fun s hs => List.eq_of_mem_replicate hs
  have hbits : ∀ s ∈ sample_vast_segment.sections, s.bits = sample_vast_segment.bits :=
    fun s hs => by rw [hsec s hs]; rfl
  have hlen : sample_vast_segment.sections.length = 63161284 := List.length_replicate _ _
  obtain ⟨secs, hsecs⟩ := write_sections_of_range MACH_LSB sample_vast_segment.segname
    sample_vast_segment.sections (fun s hs _ => by rw [hsec s hs]; exact ⟨by decide, by decide⟩)
  have hw := @segment_write_of_sections MACH_LSB sample_vast_segment secs
    (fun _ => ⟨by decide, by decide, by decide, by decide⟩) hsecs
  have hc : sample_vast_segment.cmdsize = 72 := by
    rw [segment_cmdsize_eq hbits, hlen]
    rfl
  refine ⟨_, hw, ?_, hc, ?_⟩
  · rw [segment_write_length (Or.inl rfl) hbits hw, hlen]
    rfl
  · have h := segment_write_cmdsize_field hw
    rw [hc] at h
    exact h

/-- C14, counterexample: for the 32-bit segment `sample_vast_segment`, whose 63161284
sections all pass the range assertions, `segment_command::write` appends
56 + 63161284 x 68 = 4294967368 bytes, while `cmdsize()`, a `uint32_t` sum, returns 72,
which is also the value written in the `cmdsize` field. -/
theorem segment_cmdsize_wraps_counterexample :
    ∃ out, sample_vast_segment.write MACH_LSB = some out
      ∧ out.length ≠ sample_vast_segment.cmdsize
      ∧ out.length = 4294967368
      ∧ sample_vast_segment.cmdsize = 72
      ∧ decode MACH_LSB ((out.drop 4).take 4) = 72 := by
  obtain ⟨out, h1, h2, h3, h4⟩ := sample_vast_segment_write
  exact ⟨out, h1, by rw [h2, h3]; decide, h2, h3, h4⟩

/-- C14: for word width 32 and 64, `mach_header::write` appends `structsize()` = 28 / 32
bytes; a `section::write` whose assertions pass appends `structsize()` = 68 / 80 bytes; and
a `segment_command::write` whose assertions pass, for a segment whose sections have its word
width, appends (56 / 72) + (number of sections) x (68 / 80) bytes, a number of which
`cmdsize()` and the `cmdsize` field written hold the residue modulo 2^32, hence that very
number when it is below 2^32. -/
theorem write_appends_declared_size (host : mach_endianness) (h : mach_header)
    (s : mach_section) (c : segment_command) (sout cout : List Nat)
    (hh : h.bits = 32 ∨ h.bits = 64) (hs : s.bits = 32 ∨ s.bits = 64)
    (hsw : s.write host = some sout) (hc : c.consistent)
    (hcw : c.write host = some cout) :
    ((h.write host).length = h.structsize
      ∧ h.structsize = if h.bits = 32 then 28 else 32)
    ∧ (sout.length = s.structsize ∧ s.structsize = if s.bits = 32 then 68 else 80)
    ∧ cout.length = (if c.bits = 32 then 56 else 72)
        + c.sections.length * (if c.bits = 32 then 68 else 80)
    ∧ c.cmdsize = cout.length % 2 ^ 32
    ∧ decode c.endian ((cout.drop 4).take 4) = c.cmdsize
    ∧ (cout.length < 2 ^ 32 →
        c.cmdsize = cout.length ∧ decode c.endian ((cout.drop 4).take 4) = cout.length) := by
  have hbits : ∀ t ∈ c.sections, t.bits = c.bits := fun t ht => (hc.2 t ht).1
  have hlen := segment_write_length hc.1 hbits hcw
  have hcs : c.cmdsize = cout.length % 2 ^ 32 := by rw [hlen, segment_cmdsize_eq hbits]
  have hf := segment_write_cmdsize_field hcw
  refine ⟨⟨mach_header_write_length host h hh, rfl⟩,
    ⟨mach_section_write_length hs hsw, rfl⟩, hlen, hcs, hf, fun hlt => ?_⟩
  rw [hf, hcs, Nat.mod_eq_of_lt hlt]
  exact ⟨rfl, rfl⟩

theorem write_appends_declared_size_witness :
    ∃ sout cout, sample_mach_section.write MACH_LSB = some sout
      ∧ sample_segment.write MACH_LSB = some cout
      ∧ (sample_mach_header.write MACH_LSB).length = 28
      ∧ sout.length = 80 ∧ cout.length = 192 ∧ sample_segment.cmdsize = 192 := by
  have hs : ∃ sout, sample_mach_section.write MACH_LSB = some sout := ⟨_, rfl⟩
  have hc : ∃ cout, sample_segment.write MACH_LSB = some cout := ⟨_, rfl⟩
  obtain ⟨sout, hs⟩ := hs
  obtain ⟨cout, hc⟩ := hc
  have hcons : sample_segment.consistent :=
    ⟨Or.inl rfl, by simp [sample_segment]⟩
  obtain ⟨⟨h1, h2⟩, ⟨h3, h4⟩, h5, -, -, h6⟩ :=
    write_appends_declared_size MACH_LSB sample_mach_header sample_mach_section
      sample_segment sout cout (Or.inl rfl) (Or.inr rfl) hs hcons hc
  have h7 : cout.length = 192 := by rw [h5]; rfl
  refine ⟨sout, cout, hs, hc, by rw [h1, h2]; rfl, by rw [h3, h4]; rfl, h7, ?_⟩
  rw [(h6 (by rw [h7]; norm_num)).1, h7]

/-! ### The thread command -/

theorem flatten_write_length (host e : mach_endianness) (f : Nat → Nat) (n : Nat) :
    (((List.range n).map (fun i => _write host e 4 (f i))).flatten).length = 4 * n := by
  induction n with
  | zero => rfl
  | succ n ih =>
    rw [List.range_succ, List.map_append, List.flatten_append, List.length_append, ih]
    simp [_write_length]
    omega

theorem thread_state_write_length (host : mach_endianness) (s : thread_state) :
    (s.write host).length = 4 * s.count := by
  cases s with
  | x86 s => simp [thread_state.write, thread_state_x86.write, thread_state.count, _write_length]
  | x86_64 s =>
    simp [thread_state.write, thread_state_x86_64.write, thread_state.count, _write_length]
  | powerpc s =>
    simp only [thread_state.write, thread_state_powerpc.write, thread_state.count,
      List.length_append, _write_length, flatten_write_length]

theorem thread_state_count_cases (s : thread_state) :
    s.count = 16 ∨ s.count = 42 ∨ s.count = 40 := by
  cases s <;> simp [thread_state.count]

theorem unixthread_cmdsize_eq {c : unixthread_command} {s : thread_state}
    (h : c.state = some s) : c.cmdsize = some (16 + 4 * s.count) := by
  simp only [unixthread_command.cmdsize, h, unixthread_command.structsize,
    thread_state.structsize, u32]
  rcases thread_state_count_cases s with h1 | h1 | h1 <;> rw [h1] <;> rfl

theorem unixthread_write_eq (host : mach_endianness) {c : unixthread_command}
    {s : thread_state} (h : c.state = some s) :
    c.write host = some (_write host c.endian 4 LC_UNIXTHREAD
      ++ _write host c.endian 4 (16 + 4 * s.count)
      ++ _write host c.endian 4 s.flavor ++ _write host c.endian 4 s.count
      ++ s.write host) := by
  simp only [unixthread_command.write, unixthread_cmdsize_eq h, h]

/-- C15: each of the three register-state payloads writes 4 x `count()` bytes (x86: count
16, flavor 1; x86-64: count 42, flavor 4; PowerPC: count 40, flavor 1), and a thread command
holding the payload `s` writes `cmdsize()` = 16 + 4 x `count()` bytes: the tag
`LC_UNIXTHREAD`, that size, the flavor and the count of the payload, then the payload. -/
theorem unixthread_write_layout (host : mach_endianness) (c : unixthread_command)
    (s : thread_state) (h : c.state = some s) :
    (s.write host).length = 4 * s.count
    ∧ (∀ x, s = .x86 x → s.count = 16 ∧ s.flavor = 1 ∧ (s.write host).length = 64)
    ∧ (∀ x, s = .x86_64 x → s.count = 42 ∧ s.flavor = 4 ∧ (s.write host).length = 168)
    ∧ (∀ x, s = .powerpc x → s.count = 40 ∧ s.flavor = 1 ∧ (s.write host).length = 160)
    ∧ c.cmdsize = some (16 + 4 * s.count)
    ∧ c.write host = some (_write host c.endian 4 LC_UNIXTHREAD
        ++ _write host c.endian 4 (16 + 4 * s.count)
        ++ _write host c.endian 4 s.flavor ++ _write host c.endian 4 s.count
        ++ s.write host)
    ∧ (∀ out, c.write host = some out → out.length = 16 + 4 * s.count) := by
  have hl := thread_state_write_length host s
  refine ⟨hl, ?_, ?_, ?_, unixthread_cmdsize_eq h, unixthread_write_eq host h, ?_⟩
  · rintro x rfl
    exact ⟨rfl, rfl, hl⟩
  · rintro x rfl
    exact ⟨rfl, rfl, hl⟩
  · rintro x rfl
    exact ⟨rfl, rfl, hl⟩
  · intro out hout
    rw [unixthread_write_eq host h] at hout
    cases hout
    simp only [List.length_append, _write_length, hl]

theorem unixthread_write_layout_witness :
    sample_unixthread.cmdsize = some 184
      ∧ ∃ out, sample_unixthread.write MACH_MSB = some out ∧ out.length = 184
        ∧ out.take 16 = [0x05, 0, 0, 0, 184, 0, 0, 0, 4, 0, 0, 0, 42, 0, 0, 0] := by
  obtain ⟨-, -, -, -, h5, h6, h7⟩ := unixthread_write_layout MACH_MSB sample_unixthread
    (.x86_64 { bits := 64, endian := MACH_LSB, rip := 0x1000 }) rfl
  exact ⟨h5, _, h6, h7 _ h6, by decide⟩

/-! ### The section records of a segment -/

theorem write_sections_records {host : mach_endianness} {segname : String}
    {secs : List mach_section} {out : List Nat}
    (h : write_sections host segname secs = some out) :
    ∃ recs : List (List Nat), out = recs.flatten ∧ recs.length = secs.length
      ∧ ∀ (i : Nat) (s : mach_section), secs[i]? = some s → ∃ r, recs[i]? = some r
          ∧ mach_section.write host { s with segname := segname } = some r := by
  induction secs generalizing out with
  | nil =>
    simp only [write_sections, Option.some.injEq] at h
    subst h
    exact ⟨[], rfl, rfl, fun i s hs => by simp at hs⟩
  | cons s rest ih =>
    simp only [write_sections] at h
    split at h
    · cases h
    next b hb =>
    split at h
    · cases h
    next bs hbs =>
    cases h
    obtain ⟨recs, h1, h2, h3⟩ := ih hbs
    refine ⟨b :: recs, by rw [List.flatten_cons, h1], by simp [h2], ?_⟩
    intro i t ht
    cases i with
    | zero =>
      simp only [List.getElem?_cons_zero, Option.some.injEq] at ht
      subst ht
      exact ⟨b, List.getElem?_cons_zero, hb⟩
    | succ i =>
      simp only [List.getElem?_cons_succ] at ht ⊢
      exact h3 i t ht

/-- The two name fields at the head of a section record. -/
theorem mach_section_write_names {host : mach_endianness} {s : mach_section}
    {r : List Nat} (h : s.write host = some r) :
    r.take 16 = _write_str (string_bytes s.sectname) 16
      ∧ (r.drop 16).take 16 = _write_str (string_bytes s.segname) 16 := by
  unfold mach_section.write at h
  split at h
  · cases h
  · cases h
    simp only [List.append_assoc]
    constructor
    · exact List.take_left' (_write_str_length _ _)
    · rw [List.drop_left' (_write_str_length _ _)]
      exact List.take_left' (_write_str_length _ _)

/-- The name field of a segment, after its two first words. -/
theorem fixed_fields_name (host : mach_endianness) (c : segment_command) :
    ((c.fixed_fields host).drop 8).take 16 = _write_str (string_bytes c.segname) 16 := by
  have h1 : ∀ rest, (((if c.bits = 32 then _write host c.endian 4 LC_SEGMENT
      else _write host c.endian 4 LC_SEGMENT_64) ++ rest).drop 8) = rest.drop 4 := by
    intro rest
    split <;> rw [drop_write (by norm_num)]
  simp only [segment_command.fixed_fields, List.append_assoc, h1]
  rw [drop_write (le_refl _)]
  exact List.take_left' (_write_str_length _ _)

theorem write_sections_rename (host : mach_endianness) (segname : String)
    (f : mach_section → String) (secs : List mach_section) :
    write_sections host segname (secs.map (fun s => { s with segname := f s }))
      = write_sections host segname secs := by
  induction secs with
  | nil => rfl
  | cons s rest ih => simp only [List.map_cons, write_sections, ih]

theorem segment_write_rename (host : mach_endianness) (c : segment_command)
    (f : mach_section → String) :
    segment_command.write host
        { c with sections := c.sections.map (fun s => { s with segname := f s }) }
      = c.write host := by
  simp only [segment_command.write, segment_command.cmdsize, segment_command.structsize,
    write_sections_rename, List.length_map, List.foldl_map, mach_section.structsize]

/-- C17: the bytes `segment_command::write` appends are the fixed fields of the segment
followed by one record per section, in the order of the sections; the record of a section
starts with the name of the section, and its parent-segment field, the next 16 bytes, is the
16-byte name field of the segment; the names `f s` the sections held as their parent before
have no effect on the bytes written. -/
theorem segment_write_sections (host : mach_endianness) (c : segment_command)
    (out : List Nat) (h : c.write host = some out) (f : mach_section → String) :
    ∃ recs : List (List Nat),
      out = c.fixed_fields host ++ recs.flatten
      ∧ recs.length = c.sections.length
      ∧ ((out.drop 8).take 16 = _write_str (string_bytes c.segname) 16)
      ∧ (∀ (i : Nat) (s : mach_section), c.sections[i]? = some s → ∃ r, recs[i]? = some r
          ∧ mach_section.write host { s with segname := c.segname } = some r
          ∧ r.take 16 = _write_str (string_bytes s.sectname) 16
          ∧ (r.drop 16).take 16 = (out.drop 8).take 16)
      ∧ segment_command.write host
          { c with sections := c.sections.map (fun s => { s with segname := f s }) }
          = some out := by
  obtain ⟨-, secs, hsecs, rfl⟩ := segment_write_eq h
  obtain ⟨recs, rfl, h2, h3⟩ := write_sections_records hsecs
  have hname : ((c.fixed_fields host ++ recs.flatten).drop 8).take 16
      = _write_str (string_bytes c.segname) 16 := by
    have hl : 24 ≤ (c.fixed_fields host).length := by
      rw [fixed_fields_length]
      simp only [segment_command.structsize]
      split <;> norm_num
    rw [List.drop_append_of_le_length (by omega), List.take_append_of_le_length
      (by rw [List.length_drop]; omega)]
    exact fixed_fields_name host c
  refine ⟨recs, rfl, h2, hname, ?_, by rw [segment_write_rename]; exact h⟩
  intro i s hs
  obtain ⟨r, hr, hw⟩ := h3 i s hs
  obtain ⟨n1, n2⟩ := mach_section_write_names hw
  exact ⟨r, hr, hw, n1, by rw [hname]; exact n2⟩

theorem segment_write_sections_witness :
    ∃ out r, sample_segment.write MACH_LSB = some out
      ∧ (out.drop 56).take 68 = r
      ∧ r.take 16 = _write_str (string_bytes "__data") 16
      ∧ (r.drop 16).take 16 = _write_str (string_bytes "__DATA") 16 := by
  have hc : ∃ cout, sample_segment.write MACH_LSB = some cout := ⟨_, rfl⟩
  obtain ⟨out, hc⟩ := hc
  obtain ⟨recs, h1, -, h3, h4, -⟩ :=
    segment_write_sections MACH_LSB sample_segment out hc (fun _ => "")
  obtain ⟨r, hr, hw, n1, n2⟩ := h4 0 _ rfl
  refine ⟨out, (out.drop 56).take 68, hc, rfl, ?_⟩
  have e1 : ((out.drop 56).take 68) = r := by
    have hlen : r.length = 68 := by
      rw [mach_section_write_length (Or.inl rfl) hw]; rfl
    have hf : (sample_segment.fixed_fields MACH_LSB).length = 56 := by
      rw [fixed_fields_length]; rfl
    cases recs with
    | nil => simp at hr
    | cons r0 rest =>
      simp only [List.getElem?_cons_zero, Option.some.injEq] at hr
      subst hr
      rw [h1, List.drop_left' hf, List.flatten_cons, List.take_left' hlen]
  rw [e1]
  exact ⟨n1, by rw [n2, h3]; rfl⟩

/-! ### The range assertions -/

theorem and_mask32 {v : Nat} (h : v ≤ 0xffffffff) : v &&& 0xffffffff = v := by
  have h1 := Nat.and_pow_two_sub_one_eq_mod v 32
  norm_num at h1
  rw [h1]
  exact Nat.mod_eq_of_lt (by omega)

theorem drop_of_length {l rest : List Nat} {w n : Nat} (hl : l.length = w) (h : w ≤ n) :
    (l ++ rest).drop n = rest.drop (n - w) := by
  have h1 : n = l.length + (n - w) := by omega
  conv_lhs => rw [h1]
  rw [List.drop_append]

theorem mach_section_write_none {host : mach_endianness} {s : mach_section}
    (hb : s.bits = 32) (h : 0xffffffff < s.addr ∨ 0xffffffff < s.size) :
    s.write host = none := by
  unfold mach_section.write
  rw [if_pos ⟨hb, fun hc => by omega⟩]

theorem segment_write_none {host : mach_endianness} {c : segment_command}
    (hb : c.bits = 32)
    (h : 0xffffffff < c.vmaddr ∨ 0xffffffff < c.vmsize ∨ 0xffffffff < c.fileoff
      ∨ 0xffffffff < c.filesize) :
    c.write host = none := by
  unfold segment_command.write
  rw [if_pos ⟨hb, fun hc => by omega⟩]

/-- The address and size fields of a 32-bit section record. -/
theorem mach_section_write_fields32 {host : mach_endianness} {s : mach_section}
    (hb : s.bits = 32) (h1 : s.addr ≤ 0xffffffff) (h2 : s.size ≤ 0xffffffff) :
    ∃ r, s.write host = some r
      ∧ decode s.endian ((r.drop 32).take 4) = s.addr
      ∧ decode s.endian ((r.drop 36).take 4) = s.size := by
  unfold mach_section.write
  rw [if_neg (fun hc => hc.2 ⟨h1, h2⟩)]
  refine ⟨_, rfl, ?_, ?_⟩
  · simp only [if_pos hb, List.append_assoc]
    rw [drop_of_length (_write_str_length _ _) (by norm_num),
      drop_of_length (_write_str_length _ _) (by norm_num)]
    simp only [Nat.reduceSub, List.drop_zero, take_write]
    rw [decode_write_four, and_mask32 h1]
    exact Nat.mod_eq_of_lt (by omega)
  · simp only [if_pos hb, List.append_assoc]
    rw [drop_of_length (_write_str_length _ _) (by norm_num),
      drop_of_length (_write_str_length _ _) (by norm_num),
      drop_write (by norm_num)]
    simp only [Nat.reduceSub, List.drop_zero, take_write]
    rw [decode_write_four, and_mask32 h2]
    exact Nat.mod_eq_of_lt (by omega)

/-- The four address and size fields of a 32-bit segment. -/
theorem fixed_fields32 (host : mach_endianness) {c : segment_command}
    (hb : c.bits = 32) (h1 : c.vmaddr ≤ 0xffffffff) (h2 : c.vmsize ≤ 0xffffffff)
    (h3 : c.fileoff ≤ 0xffffffff) (h4 : c.filesize ≤ 0xffffffff) (rest : List Nat) :
    decode c.endian (((c.fixed_fields host ++ rest).drop 24).take 4) = c.vmaddr
      ∧ decode c.endian (((c.fixed_fields host ++ rest).drop 28).take 4) = c.vmsize
      ∧ decode c.endian (((c.fixed_fields host ++ rest).drop 32).take 4) = c.fileoff
      ∧ decode c.endian (((c.fixed_fields host ++ rest).drop 36).take 4) = c.filesize := by
  simp only [segment_command.fixed_fields, if_pos hb, List.append_assoc]
  refine ⟨?_, ?_, ?_, ?_⟩
  · rw [drop_write (by norm_num), drop_write (by norm_num),
      drop_of_length (_write_str_length _ _) (by norm_num)]
    simp only [Nat.reduceSub, List.drop_zero, take_write]
    rw [decode_write_four, and_mask32 h1]
    exact Nat.mod_eq_of_lt (by omega)
  · rw [drop_write (by norm_num), drop_write (by norm_num),
      drop_of_length (_write_str_length _ _) (by norm_num), drop_write (by norm_num)]
    simp only [Nat.reduceSub, List.drop_zero, take_write]
    rw [decode_write_four, and_mask32 h2]
    exact Nat.mod_eq_of_lt (by omega)
  · rw [drop_write (by norm_num), drop_write (by norm_num),
      drop_of_length (_write_str_length _ _) (by norm_num), drop_write (by norm_num),
      drop_write (by norm_num)]
    simp only [Nat.reduceSub, List.drop_zero, take_write]
    rw [decode_write_four, and_mask32 h3]
    exact Nat.mod_eq_of_lt (by omega)
  · rw [drop_write (by norm_num), drop_write (by norm_num),
      drop_of_length (_write_str_length _ _) (by norm_num), drop_write (by norm_num),
      drop_write (by norm_num), drop_write (by norm_num)]
    simp only [Nat.reduceSub, List.drop_zero, take_write]
    rw [decode_write_four, and_mask32 h4]
    exact Nat.mod_eq_of_lt (by omega)

/-- C18: with word width 32, `segment_command::write` fails on an assertion when the
virtual address, virtual size, file offset or file size of the segment exceeds 0xffffffff,
and `section::write` fails when the address or size of the section does; when the values of
the segment and of its 32-bit sections are at most 0xffffffff the segment is written and its
four 32-bit fields hold the values, as do the two of a section; with word width 64 the
section, and the segment of 64-bit sections, is written whatever the values. -/
theorem write_range_assertions (host : mach_endianness) (c : segment_command)
    (s : mach_section) :
    (c.bits = 32 → (0xffffffff < c.vmaddr ∨ 0xffffffff < c.vmsize ∨ 0xffffffff < c.fileoff
        ∨ 0xffffffff < c.filesize) → c.write host = none)
    ∧ (s.bits = 32 → (0xffffffff < s.addr ∨ 0xffffffff < s.size) → s.write host = none)
    ∧ (c.bits = 32 → (∃ t ∈ c.sections, t.bits = 32
        ∧ (0xffffffff < t.addr ∨ 0xffffffff < t.size)) → c.write host = none)
    ∧ (s.bits = 32 → s.addr ≤ 0xffffffff → s.size ≤ 0xffffffff →
        ∃ r, s.write host = some r
          ∧ decode s.endian ((r.drop 32).take 4) = s.addr
          ∧ decode s.endian ((r.drop 36).take 4) = s.size)
    ∧ (c.bits = 32 → c.vmaddr ≤ 0xffffffff → c.vmsize ≤ 0xffffffff
        → c.fileoff ≤ 0xffffffff → c.filesize ≤ 0xffffffff
        → (∀ t ∈ c.sections, t.bits = 32 → t.addr ≤ 0xffffffff ∧ t.size ≤ 0xffffffff) →
        ∃ out, c.write host = some out
          ∧ decode c.endian ((out.drop 24).take 4) = c.vmaddr
          ∧ decode c.endian ((out.drop 28).take 4) = c.vmsize
          ∧ decode c.endian ((out.drop 32).take 4) = c.fileoff
          ∧ decode c.endian ((out.drop 36).take 4) = c.filesize)
    ∧ (s.bits = 64 → ∃ r, s.write host = some r)
    ∧ (c.bits = 64 → (∀ t ∈ c.sections, t.bits = 64) → ∃ out, c.write host = some out) := by
  refine ⟨segment_write_none, mach_section_write_none, ?_, mach_section_write_fields32,
    ?_, ?_, ?_⟩
  · rintro - ⟨t, ht, hb, hr⟩
    cases hw : c.write host with
    | none => rfl
    | some out =>
      exfalso
      obtain ⟨-, secs, hsecs, -⟩ := segment_write_eq hw
      obtain ⟨recs, -, -, h3⟩ := write_sections_records hsecs
      obtain ⟨i, hi⟩ := List.getElem?_of_mem ht
      obtain ⟨r, -, hr2⟩ := h3 i t hi
      rw [@mach_section_write_none host { t with segname := c.segname } hb hr] at hr2
      cases hr2
  · intro hb h1 h2 h3 h4 hs
    obtain ⟨secs, hsecs⟩ := write_sections_of_range host c.segname c.sections hs
    exact ⟨_, segment_write_of_sections (fun _ => ⟨h1, h2, h3, h4⟩) hsecs,
      fixed_fields32 host hb h1 h2 h3 h4 secs⟩
  · intro hb
    unfold mach_section.write
    rw [if_neg (fun hc => by rw [hb] at hc; exact absurd hc.1 (by decide))]
    exact ⟨_, rfl⟩
  · intro hb hs
    obtain ⟨secs, hsecs⟩ := write_sections_of_range host c.segname c.sections
      (fun t ht h32 => by rw [hs t ht] at h32; exact absurd h32 (by decide))
    exact ⟨_, segment_write_of_sections
      (fun h32 => by rw [hb] at h32; exact absurd h32 (by decide)) hsecs⟩

theorem write_range_assertions_witness :
    sample_segment_wide.write MACH_LSB = none
      ∧ sample_section_wide.write MACH_LSB = none
      ∧ (∃ out, sample_segment.write MACH_MSB = some out
          ∧ decode MACH_LSB ((out.drop 24).take 4) = 0x3000
          ∧ decode MACH_LSB ((out.drop 28).take 4) = 0x2000)
      ∧ ∃ out, sample_segment_64.write MACH_LSB = some out :=
  ⟨(write_range_assertions MACH_LSB sample_segment_wide sample_section_wide).1 rfl
      (Or.inr (Or.inl (by decide))),
    (write_range_assertions MACH_LSB sample_segment_wide sample_section_wide).2.1 rfl
      (Or.inl (by decide)),
    by
      obtain ⟨out, h, h1, h2, -⟩ :=
        (write_range_assertions MACH_MSB sample_segment sample_section_wide).2.2.2.2.1 rfl
          (by decide) (by decide) (by decide) (by decide) (by decide)
      exact ⟨out, h, h1, h2⟩,
    (write_range_assertions MACH_LSB sample_segment_64 sample_section_wide).2.2.2.2.2.2 rfl
      (by decide)⟩

/-! ### The header of the image -/

/-- For a load command as the constructors build it, `cmdsize()` is the number of bytes
`write` appends, reduced modulo 2^32. -/
theorem load_command_cmdsize_eq {host : mach_endianness} {c : load_command} {b : List Nat}
    (hc : c.consistent) (h : c.write host = some b) :
    c.cmdsize = some (b.length % 2 ^ 32) := by
  cases c with
  | segment c =>
    have hbits : ∀ t ∈ c.sections, t.bits = c.bits := fun t ht => (hc.2 t ht).1
    simp only [load_command.cmdsize, Option.some.injEq]
    rw [segment_write_length hc.1 hbits h, segment_cmdsize_eq hbits]
  | unixthread c =>
    simp only [load_command.write] at h
    cases hs : c.state with
    | none => simp [unixthread_command.write, hs] at h
    | some s =>
      rw [unixthread_write_eq host hs] at h
      cases h
      simp only [load_command.cmdsize, unixthread_cmdsize_eq hs, List.length_append,
        _write_length, thread_state_write_length, Option.some.injEq]
      rcases thread_state_count_cases s with h1 | h1 | h1 <;> rw [h1] <;> rfl

theorem write_commands_records {host : mach_endianness} {cmds : List load_command}
    {out : List Nat} (h : write_commands host cmds = some out) :
    ∃ recs : List (List Nat), out = recs.flatten ∧ recs.length = cmds.length
      ∧ ∀ (i : Nat) (c : load_command), cmds[i]? = some c →
          ∃ r, recs[i]? = some r ∧ c.write host = some r := by
  induction cmds generalizing out with
  | nil =>
    simp only [write_commands, Option.some.injEq] at h
    subst h
    exact ⟨[], rfl, rfl, fun i s hs => by simp at hs⟩
  | cons s rest ih =>
    simp only [write_commands] at h
    split at h
    · cases h
    next b hb =>
    split at h
    · cases h
    next bs hbs =>
    cases h
    obtain ⟨recs, h1, h2, h3⟩ := ih hbs
    refine ⟨b :: recs, by rw [List.flatten_cons, h1], by simp [h2], ?_⟩
    intro i t ht
    cases i with
    | zero =>
      simp only [List.getElem?_cons_zero, Option.some.injEq] at ht
      subst ht
      exact ⟨b, List.getElem?_cons_zero, hb⟩
    | succ i =>
      simp only [List.getElem?_cons_succ] at ht ⊢
      exact h3 i t ht

/-- The `uint32_t` sum of `size_of_commands` is the number of bytes of the serialized
load commands, reduced modulo 2^32. -/
theorem sum_cmdsize_eq {host : mach_endianness} {cmds : List load_command}
    {out : List Nat} (hc : ∀ c ∈ cmds, c.consistent)
    (h : write_commands host cmds = some out) (soc : Nat) (hsoc : soc < 2 ^ 32) :
    sum_cmdsize cmds soc = some ((soc + out.length) % 2 ^ 32) := by
  induction cmds generalizing out soc with
  | nil =>
    simp only [write_commands, Option.some.injEq] at h
    subst h
    simp only [sum_cmdsize, List.length_nil, Nat.add_zero, Option.some.injEq]
    exact (Nat.mod_eq_of_lt hsoc).symm
  | cons c rest ih =>
    simp only [write_commands] at h
    split at h
    · cases h
    next b hb =>
    split at h
    · cases h
    next bs hbs =>
    cases h
    have hrest := ih (fun t ht => hc t (List.mem_cons_of_mem _ ht)) hbs
      (u32 (soc + b.length % 2 ^ 32)) (Nat.mod_lt _ (by norm_num))
    simp only [sum_cmdsize, load_command_cmdsize_eq (hc c (List.mem_cons_self _ _)) hb]
    rw [hrest, List.length_append]
    simp only [u32, Option.some.injEq]
    omega

theorem write_file_segments_prefix {fs : List mach_file_segment} {acc out : List Nat}
    (h : write_file_segments fs acc = some out) : ∃ rest, out = acc ++ rest := by
  induction fs generalizing acc with
  | nil =>
    simp only [write_file_segments, Option.some.injEq] at h
    exact ⟨[], by rw [← h, List.append_nil]⟩
  | cons s rest ih =>
    simp only [write_file_segments] at h
    split at h
    · obtain ⟨r, hr⟩ := ih h
      exact ⟨s.write ++ r, by rw [hr, List.append_assoc]⟩
    · cases h

/-- What `mach::write` appends: the completed header, the load commands, then the content
regions. -/
theorem mach_write_eq {host : mach_endianness} {m : mach} {startpos : Nat} {out : List Nat}
    (h : m.write host startpos = some out) :
    ∃ soc cmds rest, m.size_of_commands = some soc
      ∧ write_commands host m.load_commands = some cmds
      ∧ out = mach_header.write host
          { m.header with ncmds := u32 m.load_commands.length, sizeofcmds := soc }
          ++ cmds ++ rest := by
  unfold mach.write at h
  split at h
  · cases h
  · cases hs : m.size_of_commands with
    | none => simp [mach.written_header, hs] at h
    | some soc =>
      cases hw : write_commands host m.load_commands with
      | none => simp [mach.written_header, hs, hw] at h
      | some cmds =>
        simp only [mach.written_header, hs, hw] at h
        split at h
        · cases h
        next o ho =>
        split at h
        · cases h
          obtain ⟨rest, hr⟩ := write_file_segments_prefix ho
          exact ⟨soc, cmds, rest, rfl, rfl, hr⟩
        · cases h

theorem mach_write_of {host : mach_endianness} {m : mach} {startpos soc : Nat}
    {cmds : List Nat} {c : load_command} {cs : List load_command} {fs : mach_file_segment}
    (hl : m.load_commands = c :: cs) (hf : m.file_segments = [fs])
    (hs : m.size_of_commands = some soc)
    (hw : write_commands host m.load_commands = some cmds)
    (ho : fs.offset = (mach_header.write host
      { m.header with ncmds := u32 m.load_commands.length, sizeofcmds := soc }
      ++ cmds).length)
    (hp : 4096 ≤ startpos + (mach_header.write host
      { m.header with ncmds := u32 m.load_commands.length, sizeofcmds := soc }
      ++ cmds ++ fs.write).length) :
    m.write host startpos = some (mach_header.write host
      { m.header with ncmds := u32 m.load_commands.length, sizeofcmds := soc }
      ++ cmds ++ fs.write) := by
  unfold mach.write
  rw [if_neg (by rw [hl, hf]; simp)]
  simp only [mach.written_header, hs, hw, hf, write_file_segments, if_pos ho]
  rw [if_pos hp]

/-- The words of the header, in the order `mach_header::write` sends them. -/
theorem mach_header_write_words (host : mach_endianness) (h : mach_header)
    (hb : h.bits = 32 ∨ h.bits = 64) :
    h.write host = _write host h.endian 4 (if h.bits = 32 then MH_MAGIC else MH_MAGIC_64)
      ++ _write host h.endian 4 h.cpu.type
      ++ _write host h.endian 4 h.cpu.subtype
      ++ _write host h.endian 4 h.filetype
      ++ _write host h.endian 4 h.ncmds
      ++ _write host h.endian 4 h.sizeofcmds
      ++ _write host h.endian 4 h.flags
      ++ (if h.bits = 64 then _write host h.endian 4 0 else []) := by
  rcases hb with hb | hb <;> simp [mach_header.write, hb]

theorem mach_write_header_fields (host : mach_endianness) (m : mach) (startpos a b : Nat) :
    mach.write host { m with header := { m.header with ncmds := a, sizeofcmds := b } }
      startpos = m.write host startpos := rfl

theorem sum_cmdsize_lt {cmds : List load_command} {soc v : Nat} (hsoc : soc < 2 ^ 32)
    (h : sum_cmdsize cmds soc = some v) : v < 2 ^ 32 := by
  induction cmds generalizing soc with
  | nil =>
    simp only [sum_cmdsize, Option.some.injEq] at h
    omega
  | cons c rest ih =>
    simp only [sum_cmdsize] at h
    split at h
    · cases h
    · exact ih (Nat.mod_lt _ (by norm_num)) h

theorem mach_header_fields_decode (host : mach_endianness) (h : mach_header)
    (hb : h.bits = 32 ∨ h.bits = 64) (tail : List Nat) :
    decode h.endian (((h.write host ++ tail).drop 16).take 4) = h.ncmds % 2 ^ 32
      ∧ decode h.endian (((h.write host ++ tail).drop 20).take 4)
          = h.sizeofcmds % 2 ^ 32 := by
  rw [mach_header_write_words host h hb]
  simp only [List.append_assoc]
  constructor
  · rw [drop_write (by norm_num), drop_write (by norm_num), drop_write (by norm_num),
      drop_write (by norm_num)]
    simp only [Nat.reduceSub, List.drop_zero, take_write]
    exact decode_write_four _ _ _
  · rw [drop_write (by norm_num), drop_write (by norm_num), drop_write (by norm_num),
      drop_write (by norm_num), drop_write (by norm_num)]
    simp only [Nat.reduceSub, List.drop_zero, take_write]
    exact decode_write_four _ _ _

/-- Without wrap-around the values `cmdsize()` add up to the number of bytes written. -/
theorem cmdsize_total_eq {host : mach_endianness} {cmds : List load_command}
    {out : List Nat} (hc : ∀ c ∈ cmds, c.consistent)
    (h : write_commands host cmds = some out) (hlt : out.length < 2 ^ 32) :
    cmdsize_total cmds = out.length := by
  induction cmds generalizing out with
  | nil =>
    simp only [write_commands, Option.some.injEq] at h
    subst h
    rfl
  | cons c rest ih =>
    simp only [write_commands] at h
    split at h
    · cases h
    next b hb =>
    split at h
    · cases h
    next bs hbs =>
    cases h
    rw [List.length_append] at hlt
    have h1 := ih (fun t ht => hc t (List.mem_cons_of_mem _ ht)) hbs (by omega)
    simp only [cmdsize_total] at h1
    simp only [cmdsize_total, List.map_cons, List.sum_cons, h1,
      load_command_cmdsize_eq (hc c (List.mem_cons_self _ _)) hb, Option.getD_some,
      List.length_append]
    rw [Nat.mod_eq_of_lt (by omega)]

theorem write_commands_single {host : mach_endianness} {c : load_command} {b : List Nat}
    (h : c.write host = some b) : write_commands host [c] = some (b ++ []) := by
  simp only [write_commands, h]

theorem size_of_commands_single {m : mach} {c : segment_command}
    (h : m.load_commands = [.segment c]) :
    m.size_of_commands = some (u32 (0 + c.cmdsize)) := by
  simp only [mach.size_of_commands, h, sum_cmdsize, load_command.cmdsize]

/-- C16, counterexample: `mach::write` serializes the image `sample_vast_image`; its load
commands occupy 4294967368 bytes, while the sum of their `cmdsize()`, and the total command
size written in the header, is 72. -/
theorem mach_sizeofcmds_wraps_counterexample :
    ∃ out cmds, sample_vast_image.write MACH_LSB 0 = some out
      ∧ write_commands MACH_LSB sample_vast_image.load_commands = some cmds
      ∧ (out.drop 28).take cmds.length = cmds
      ∧ cmds.length = 4294967368
      ∧ sample_vast_image.size_of_commands = some 72
      ∧ decode MACH_LSB ((out.drop 20).take 4) = 72 := by
  obtain ⟨b, hb, hlen, hc, -⟩ := sample_vast_segment_write
  have hl : sample_vast_image.load_commands = [.segment sample_vast_segment] := rfl
  have hw : write_commands MACH_LSB sample_vast_image.load_commands = some (b ++ []) := by
    rw [hl]
    exact write_commands_single hb
  have hs : sample_vast_image.size_of_commands = some 72 := by
    rw [size_of_commands_single hl, hc]
    rfl
  have hh : (mach_header.write MACH_LSB { sample_vast_image.header with
      ncmds := u32 sample_vast_image.load_commands.length, sizeofcmds := 72 }).length
      = 28 := by
    rw [mach_header_write_length _ _ (Or.inl rfl)]
    rfl
  have hwr := @mach_write_of MACH_LSB sample_vast_image 0 72 (b ++ [])
    (.segment sample_vast_segment) [] { offset := 4294967396, size := 0, content := [] }
    hl rfl hs hw
    (by rw [List.length_append, hh, List.length_append, hlen]; rfl)
    (by rw [List.length_append, List.length_append, hh, List.length_append, hlen]
        show 4096 ≤ 0 + (28 + (4294967368 + 0) + 0)
        norm_num)
  have hd := mach_header_fields_decode MACH_LSB { sample_vast_image.header with
    ncmds := u32 sample_vast_image.load_commands.length, sizeofcmds := 72 } (Or.inl rfl)
    (b ++ [] ++ mach_file_segment.write { offset := 4294967396, size := 0, content := [] })
  refine ⟨_, _, hwr, hw, ?_, by rw [List.length_append, hlen]; rfl, hs, ?_⟩
  · rw [List.append_assoc, List.drop_left' hh]
    exact List.take_left' rfl
  · rw [List.append_assoc]
    exact hd.2

/-- C16: for an image as the constructors build it, what `mach::write` appends begins with
the header words in the byte order of the image: the magic (0xfeedface for 32-bit,
0xfeedfacf for 64-bit), the cpu type and subtype, the file kind, the command count, the
total command size, the flags and, for 64-bit only, one zero word; then come the load
commands in insertion order. The count written is the number of load commands modulo 2^32
and the size written is the `uint32_t` sum `soc` of their `cmdsize()`, whatever numbers
`a` and `b` the two header fields held before; `soc` is the number of bytes of the
serialized load commands modulo 2^32, hence that number itself, and the sum of the values
`cmdsize()`, when it is below 2^32. -/
theorem mach_write_header (host : mach_endianness) (m : mach) (startpos : Nat)
    (out : List Nat) (hm : m.consistent) (h : m.write host startpos = some out)
    (a b : Nat) :
    ∃ (soc : Nat) (recs : List (List Nat)) (rest : List Nat),
      m.size_of_commands = some soc
      ∧ out = _write host m.endian 4 (if m.bits = 32 then MH_MAGIC else MH_MAGIC_64)
          ++ _write host m.endian 4 m.header.cpu.type
          ++ _write host m.endian 4 m.header.cpu.subtype
          ++ _write host m.endian 4 m.header.filetype
          ++ _write host m.endian 4 (m.load_commands.length % 2 ^ 32)
          ++ _write host m.endian 4 soc
          ++ _write host m.endian 4 m.header.flags
          ++ (if m.bits = 64 then _write host m.endian 4 0 else [])
          ++ recs.flatten ++ rest
      ∧ recs.length = m.load_commands.length
      ∧ (∀ (i : Nat) (c : load_command), m.load_commands[i]? = some c →
          ∃ r, recs[i]? = some r ∧ c.write host = some r
            ∧ c.cmdsize = some (r.length % 2 ^ 32))
      ∧ decode m.endian ((out.drop 16).take 4) = m.load_commands.length % 2 ^ 32
      ∧ decode m.endian ((out.drop 20).take 4) = soc
      ∧ soc = recs.flatten.length % 2 ^ 32
      ∧ (recs.flatten.length < 2 ^ 32 →
          soc = recs.flatten.length ∧ soc = cmdsize_total m.load_commands)
      ∧ mach.write host { m with header := { m.header with ncmds := a, sizeofcmds := b } }
          startpos = some out := by
  obtain ⟨hb, hhb, hhe, hcs⟩ := hm
  have hcons : ∀ c ∈ m.load_commands, c.consistent := fun c hc => (hcs c hc).1
  obtain ⟨soc, cmds, rest, hsoc, hcmds, hout⟩ := mach_write_eq h
  obtain ⟨recs, hflat, hlen, hrec⟩ := write_commands_records hcmds
  have hsum := sum_cmdsize_eq hcons hcmds 0 (by norm_num)
  rw [Nat.zero_add] at hsum
  have hsoc2 : soc = cmds.length % 2 ^ 32 := by
    rw [mach.size_of_commands, hsum] at hsoc
    exact (Option.some.inj hsoc).symm
  have hhb3 : ∀ x y : Nat,
      mach_header.bits { m.header with ncmds := x, sizeofcmds := y } = 32
        ∨ mach_header.bits { m.header with ncmds := x, sizeofcmds := y } = 64 := by
    intro x y
    show m.header.bits = 32 ∨ m.header.bits = 64
    rw [hhb]
    exact hb
  have hhb2 := hhb3 (u32 m.load_commands.length) soc
  have hd := mach_header_fields_decode host
    { m.header with ncmds := u32 m.load_commands.length, sizeofcmds := soc } hhb2
    (cmds ++ rest)
  rw [← List.append_assoc, ← hout] at hd
  refine ⟨soc, recs, rest, hsoc, ?_, hlen, ?_, ?_, ?_, by rw [← hflat]; exact hsoc2, ?_,
    h⟩
  · rw [hout, mach_header_write_words host _ hhb2, ← hflat]
    simp only [hhb, hhe, u32]
  · intro i c hc
    obtain ⟨r, hr, hw⟩ := hrec i c hc
    exact ⟨r, hr, hw, load_command_cmdsize_eq (hcons c (List.mem_iff_getElem?.2 ⟨i, hc⟩)) hw⟩
  · have h1 := hd.1
    simp only [hhe, u32, Nat.mod_mod] at h1
    exact h1
  · have h2 := hd.2
    simp only [hhe] at h2
    rw [h2, hsoc2, Nat.mod_mod]
  · intro hlt
    rw [← hflat] at hlt
    rw [← hflat, hsoc2, Nat.mod_eq_of_lt hlt]
    exact ⟨rfl, (cmdsize_total_eq hcons hcmds hlt).symm⟩

set_option maxRecDepth 8000 in
theorem mach_write_header_witness :
    ∃ out, sample_image.write MACH_LSB 4096 = some out
      ∧ out.take 32 = [0xfe, 0xed, 0xfa, 0xcf, 1, 0, 0, 7, 0, 0, 0, 3, 0, 0, 0, 2,
          0, 0, 0, 2, 0, 0, 1, 0, 0, 0, 0, 0x21, 0, 0, 0, 0]
      ∧ sample_image.size_of_commands = some 256
      ∧ cmdsize_total sample_image.load_commands = 256 := by
  have hw : ∃ out, sample_image.write MACH_LSB 4096 = some out := ⟨_, rfl⟩
  obtain ⟨out, hw⟩ := hw
  have hc : sample_image.consistent := by
    refine ⟨Or.inr rfl, rfl, rfl, ?_⟩
    intro c hc
    simp only [sample_image, List.mem_cons, List.mem_singleton, List.not_mem_nil,
      or_false] at hc
    rcases hc with rfl | rfl
    · exact ⟨⟨Or.inr rfl, fun s hs => by simp at hs⟩, rfl, rfl⟩
    · refine ⟨?_, rfl, rfl⟩
      intro s hs
      simp only [Option.some.injEq] at hs
      subst hs
      rfl
  obtain ⟨soc, recs, rest, h1, h2, h3, h4, h5, h6, h7, h8, -⟩ :=
    mach_write_header MACH_LSB sample_image 4096 out hc hw 0 0
  have hs : sample_image.size_of_commands = some 256 := by decide
  have hsoc : soc = 256 := by
    rw [hs] at h1
    exact (Option.some.inj h1).symm
  refine ⟨out, hw, ?_, hs, ?_⟩
  · rw [h2, hsoc, List.append_assoc]
    refine (List.take_left' ?_).trans ?_ <;> decide
  · have hlt : recs.flatten.length < 2 ^ 32 := by
      have h9 : out.length = 296 := by
        have : some out.length = (sample_image.write MACH_LSB 4096).map List.length := by
          rw [hw]; rfl
        have h10 : (sample_image.write MACH_LSB 4096).map List.length = some 296 := by
          decide
        rw [h10] at this
        exact Option.some.inj this
      have h11 : recs.flatten.length ≤ out.length := by
        rw [h2]
        simp only [List.length_append]
        omega
      omega
    rw [← (h8 hlt).2, hsoc]

/-! ### The checks of the source header -/

theorem translate_header_ok {elf : Elf} {x : convert_state × content_state × Nat}
    (h : translate elf = .ok x) :
    ∃ eh, elf.ehdr = some eh ∧ eh.e_type = ET_EXEC
      ∧ (eh.ei_class = ELFCLASS32 ∨ eh.ei_class = ELFCLASS64)
      ∧ (eh.ei_data = ELFDATA2LSB ∨ eh.ei_data = ELFDATA2MSB) := by
  unfold translate at h
  simp only [throw_new] at h
  split at h
  · cases h
  next eh he =>
  split at h
  · cases h
  next h1 =>
  split at h
  · cases h
  next h2 =>
  split at h
  · cases h
  next h3 =>
  refine ⟨eh, he, by simpa using h1, ?_, ?_⟩
  · by_contra hc
    exact h2 ⟨fun a => hc (Or.inl a), fun a => hc (Or.inr a)⟩
  · by_contra hc
    exact h3 ⟨fun a => hc (Or.inl a), fun a => hc (Or.inr a)⟩

/-- The three checks of the header that follow the check of the file type end in a thrown
exception. -/
theorem translate_error_of_header {elf : Elf} {eh : GElf_Ehdr} (he : elf.ehdr = some eh)
    (h : (eh.ei_class ≠ ELFCLASS32 ∧ eh.ei_class ≠ ELFCLASS64)
      ∨ (eh.ei_data ≠ ELFDATA2LSB ∧ eh.ei_data ≠ ELFDATA2MSB)
      ∨ machine_cpu eh.e_machine = none) :
    ∃ msg, translate elf = .error (.thrown_ptr msg) := by
  unfold translate
  simp only [throw_new, he]
  split
  · exact ⟨_, rfl⟩
  split
  · exact ⟨_, rfl⟩
  next h1 =>
  split
  · exact ⟨_, rfl⟩
  next h2 =>
  rcases h with h | h | h
  · exact absurd h h1
  · exact absurd h h2
  · rw [h]
    exact ⟨_, rfl⟩

theorem machine_cpu_none {e : Nat} (h : ∀ k ∈ table_machines, e ≠ k) :
    machine_cpu e = none := by
  simp only [table_machines, List.mem_cons, List.mem_singleton, List.not_mem_nil, or_false,
    forall_eq_or_imp, forall_eq] at h
  obtain ⟨h1, h2, h3, h4, h5, h6, h7, h8, h9, h10, h11, h12, h13, h14⟩ := h
  simp only [machine_cpu, if_neg h1, if_neg h2, if_neg h3, if_neg h4, if_neg h5, if_neg h6,
    if_neg h7, if_neg h8, if_neg h9, if_neg h10, if_neg h11, if_neg h12, if_neg h13,
    if_neg h14]

/-- C19: `convert` fails with a thrown exception when the class of the source is neither
32- nor 64-bit, when its byte order is neither little- nor big-endian, and when its machine
identifier is none of the lookup table; when `convert` returns an image, the class and the
byte order of the source are supported ones and are the word width and the byte order of
the image and of its header, the cpu type and subtype of the image are the pair of the table
for the machine (386: (7, 3), x86-64: (0x01000007, 3), PowerPC: (18, 0)), its file kind is
`MH_EXECUTE` = 2 and its flags are `MH_NOUNDEFS | MH_SPLIT_SEGS` = 0x21. -/
theorem convert_header_checks (elf : Elf) (eh : GElf_Ehdr) (he : elf.ehdr = some eh) :
    ((eh.ei_class ≠ ELFCLASS32 ∧ eh.ei_class ≠ ELFCLASS64) →
        ∃ msg, convert elf = .error (.thrown_ptr msg))
    ∧ ((eh.ei_data ≠ ELFDATA2LSB ∧ eh.ei_data ≠ ELFDATA2MSB) →
        ∃ msg, convert elf = .error (.thrown_ptr msg))
    ∧ ((∀ k ∈ table_machines, eh.e_machine ≠ k) →
        machine_cpu eh.e_machine = none ∧ ∃ msg, convert elf = .error (.thrown_ptr msg))
    ∧ (∀ m, convert elf = .ok m →
        ((eh.ei_class = ELFCLASS32 ∧ m.bits = 32) ∨ (eh.ei_class = ELFCLASS64 ∧ m.bits = 64))
        ∧ ((eh.ei_data = ELFDATA2LSB ∧ m.endian = MACH_LSB)
          ∨ (eh.ei_data = ELFDATA2MSB ∧ m.endian = MACH_MSB))
        ∧ m.header.bits = m.bits ∧ m.header.endian = m.endian
        ∧ machine_cpu eh.e_machine = some m.header.cpu
        ∧ m.header.filetype = 2 ∧ m.header.flags = 0x21)
    ∧ (machine_cpu EM_386 = some ⟨7, 3⟩ ∧ machine_cpu EM_X86_64 = some ⟨0x01000007, 3⟩
        ∧ machine_cpu EM_PPC = some ⟨18, 0⟩)
    ∧ (EM_386 = 3 ∧ EM_X86_64 = 62 ∧ EM_PPC = 20 ∧ ELFCLASS32 = 1 ∧ ELFCLASS64 = 2
        ∧ ELFDATA2LSB = 1 ∧ ELFDATA2MSB = 2) := by
  refine ⟨fun h => ?_, fun h => ?_, fun h => ?_, ?_, ⟨rfl, rfl, rfl⟩,
    ⟨rfl, rfl, rfl, rfl, rfl, rfl, rfl⟩⟩
  · obtain ⟨msg, hm⟩ := translate_error_of_header he (Or.inl h)
    exact ⟨msg, convert_error_of_translate hm⟩
  · obtain ⟨msg, hm⟩ := translate_error_of_header he (Or.inr (Or.inl h))
    exact ⟨msg, convert_error_of_translate hm⟩
  · have hn := machine_cpu_none h
    obtain ⟨msg, hm⟩ := translate_error_of_header he (Or.inr (Or.inr hn))
    exact ⟨hn, msg, convert_error_of_translate hm⟩
  · intro m hm
    obtain ⟨st, cs, soh, origin, ht, -, -, rfl⟩ := convert_ok hm
    obtain ⟨eh1, cpu, state, he1, hcpu, -, hsk⟩ := translate_skeleton ht
    obtain ⟨eh2, he2, -, hcl, hda⟩ := translate_header_ok ht
    rw [he] at he1 he2
    cases he1
    cases he2
    have hbits : st.bits = class_bits eh := congrArg (fun x => x.bits) hsk
    have hend : st.endian = data_endian eh := congrArg (fun x => x.endian) hsk
    have hhdr : st.header = (initial_state (class_bits eh) (data_endian eh) cpu state).header :=
      congrArg (fun x => x.header) hsk
    have hmb : (st.image cs.file_segments).bits = class_bits eh := hbits
    have hme : (st.image cs.file_segments).endian = data_endian eh := hend
    have hmh : (st.image cs.file_segments).header
        = (initial_state (class_bits eh) (data_endian eh) cpu state).header := hhdr
    rw [hmb, hme, hmh]
    refine ⟨?_, ?_, rfl, rfl, hcpu, rfl, rfl⟩
    · rcases hcl with h | h
      · exact Or.inl ⟨h, by simp [class_bits, h]⟩
      · exact Or.inr ⟨h, by simp [class_bits, h, ELFCLASS32, ELFCLASS64]⟩
    · rcases hda with h | h
      · exact Or.inl ⟨h, by simp [data_endian, h]⟩
      · exact Or.inr ⟨h, by simp [data_endian, h, ELFDATA2LSB, ELFDATA2MSB]⟩

theorem convert_header_checks_witness :
    (∃ msg, convert sample_elf_no_class = .error (.thrown_ptr msg))
      ∧ (∃ msg, convert sample_elf_no_order = .error (.thrown_ptr msg))
      ∧ (∃ msg, convert sample_elf_riscv = .error (.thrown_ptr msg))
      ∧ ∃ m, convert sample_elf = .ok m ∧ m.bits = 32 ∧ m.endian = MACH_LSB
          ∧ m.header.cpu = ⟨7, 3⟩ ∧ m.header.filetype = 2 ∧ m.header.flags = 0x21 := by
  refine ⟨(convert_header_checks sample_elf_no_class _ rfl).1 (by decide),
    (convert_header_checks sample_elf_no_order _ rfl).2.1 (by decide),
    ((convert_header_checks sample_elf_riscv _ rfl).2.2.1 (by decide)).2, ?_⟩
  obtain ⟨m, hm⟩ := sample_elf_ok
  obtain ⟨h1, h2, -, -, h5, h6, h7⟩ :=
    (convert_header_checks sample_elf sample_header rfl).2.2.2.1 m hm
  refine ⟨m, hm, ?_, ?_, ?_, h6, h7⟩
  · rcases h1 with h | h
    · exact h.2
    · exact absurd h.1 (by decide)
  · rcases h2 with h | h
    · exact h.2
    · exact absurd h.1 (by decide)
  · have h8 : machine_cpu sample_header.e_machine = some ⟨7, 3⟩ := rfl
    rw [h8] at h5
    exact (Option.some.inj h5).symm

/-! ### Sections out of position -/

/-- C20, counterexample: the sections 2 and 3 of the small executable, which `convert`
translates, both have the type tag `SHT_PROGBITS`; exchanging their type tags changes
nothing, and `convert` returns an image. -/
theorem exchange_types_counterexample :
    (∃ m, convert sample_elf = .ok m)
      ∧ exchange_types sample_elf = sample_elf
      ∧ ∃ m, convert (exchange_types sample_elf) = .ok m :=
  ⟨⟨_, rfl⟩, rfl, ⟨_, rfl⟩⟩

theorem conforms_two {s : Elf_Scn} (h : conforms 2 s) :
    s.sh_type = SHT_PROGBITS ∧ s.sh_flags = SHF_ALLOC ∧ s.name = some ".rodata" := h

theorem conforms_three {s : Elf_Scn} (h : conforms 3 s) :
    s.sh_type = SHT_PROGBITS ∧ s.sh_flags = SHF_ALLOC ||| SHF_WRITE
      ∧ s.name = some ".data" := h

/-- C20, amended: for a source image with a supported header whose sections 0 to 3 have the
shapes their positions require, exchanging the type tags of the sections 2 and 3 changes
nothing, both being `SHT_PROGBITS`; exchanging their type tags, flag bits and names makes
`convert` fail with the `UnexpectedSectionShape` exception of position 2. -/
theorem convert_rejects_exchanged_sections (elf : Elf) (eh : GElf_Ehdr)
    (s0 s1 s2 s3 : Elf_Scn) (rest : List (Option Elf_Scn))
    (he : elf.ehdr = some eh) (hsup : supported eh)
    (hsecs : elf.sections = some s0 :: some s1 :: some s2 :: some s3 :: rest)
    (c0 : conforms 0 s0) (c1 : conforms 1 s1) (c2 : conforms 2 s2) (c3 : conforms 3 s3) :
    exchange_types elf = elf
      ∧ convert (exchange_shapes elf) = .error (.thrown_ptr "ELF section 2 is not .rodata")
      ∧ .thrown_ptr "ELF section 2 is not .rodata" ∈ UnexpectedSectionShape := by
  obtain ⟨t2, f2, n2⟩ := conforms_two c2
  obtain ⟨t3, f3, n3⟩ := conforms_three c3
  refine ⟨?_, ?_, by decide⟩
  · have e2 : s2.with_type s3 = s2 := by
      cases s2
      simp only [Elf_Scn.with_type, t3]
      simp only at t2
      rw [t2]
    have e3 : s3.with_type s2 = s3 := by
      cases s3
      simp only [Elf_Scn.with_type, t2]
      simp only at t3
      rw [t3]
    simp only [exchange_types, hsecs, e2, e3]
    rw [← hsecs]
  · have hx : exchange_shapes elf = Elf.mk elf.ehdr
        (some s0 :: some s1 :: some (s2.with_shape s3) :: some (s3.with_shape s2) :: rest) := by
      simp only [exchange_shapes, hsecs]
    rw [hx]
    refine convert_error_of_translate (@translate_error_of_supported _ eh _ he hsup ?_)
    intro st
    obtain ⟨st1, h1⟩ := layout_section_conforms st c0
    obtain ⟨st2, h2⟩ := layout_section_conforms st1 c1
    simp only [first_loop, h1, h2, Nat.zero_add, Nat.reduceAdd]
    have h3 : layout_section 2 (s2.with_shape s3) st2
        = throw_new "ELF section 2 is not .rodata" := by
      simp only [layout_section]
      rw [if_pos (Or.inr (Or.inl (by simp only [Elf_Scn.with_shape, f3]; decide)))]
    rw [h3]
    rfl

theorem convert_rejects_exchanged_sections_witness :
    convert (exchange_shapes sample_elf)
        = .error (.thrown_ptr "ELF section 2 is not .rodata")
      ∧ (exchange_shapes sample_elf).sections[2]?
        = some (sample_section SHT_PROGBITS 3 ".data" 0x2000 0x1000 [104, 105, 0]) :=
  ⟨(convert_rejects_exchanged_sections sample_elf sample_header _ _ _ _ _ rfl (by decide)
      rfl (by decide) (by decide) (by decide) (by decide)).2.1, rfl⟩


/-! ### The indeterminate origin -/

theorem convert_reading_of_ok {elf : Elf} {m : mach} (h : convert elf = .ok m)
    (garbage : Nat) : convert_reading garbage elf = .ok m := by
  obtain ⟨st, cs, soh, origin, ht, ho, heq, rfl⟩ := convert_ok h
  simp only [convert_reading, ht, ho, Option.getD_some, heq, ne_eq, not_true_eq_false,
    if_false]

/-- C28 fails on the code: on the executable without section headers the variable `origin`
is read while uninitialized, and whether `convert` returns an image or throws depends on
the value the read yields (an image for 2^64 - 864, the header-misalignment exception for
0); on a source for which `convert` returns an image while `origin` is assigned, that image
is returned whatever the value. -/
theorem convert_outcome_depends_on_origin :
    (∃ m, convert_reading (2 ^ 64 - 864) sample_elf_no_sections = .ok m)
      ∧ convert_reading 0 sample_elf_no_sections
          = .error (.thrown_ptr "Mach header misalignment")
      ∧ convert sample_elf_no_sections
          = .error (.undefined "read of the uninitialized variable origin")
      ∧ ∀ elf m, convert elf = .ok m → ∀ garbage, convert_reading garbage elf = .ok m :=
  ⟨⟨_, rfl⟩, rfl, rfl, fun _ _ h g => convert_reading_of_ok h g⟩

/-! ### The 32-bit range -/

/-- C30 fails on the code: the small 32-bit executable with its text at the address 0x100
and the file offset 0x360 has every field below 2^32; `convert` returns an image for it, in
which the zero page has the virtual size, and the text segment the virtual address,
2^64 - 0x260, so that `mach::write` fails on the range assertion of the first segment. -/
theorem convert_leaves_range_unchecked :
    fields_below sample_elf_low_text (2 ^ 32)
      ∧ ∃ m pz tx, convert sample_elf_low_text = .ok m ∧ m.bits = 32
          ∧ m.load_commands[0]? = some (.segment pz)
          ∧ m.load_commands[1]? = some (.segment tx)
          ∧ pz.vmsize = 2 ^ 64 - 0x260 ∧ tx.vmaddr = 2 ^ 64 - 0x260
          ∧ 0xffffffff < tx.vmaddr
          ∧ (∀ host, pz.write host = none)
          ∧ ∀ host startpos, m.write host startpos = none := by
  constructor
  · constructor
    · intro eh he
      cases he
      decide
    · intro s hs
      simp only [sample_elf_low_text, sample_sections, List.take, List.set, List.mem_cons,
        List.mem_singleton, List.not_mem_nil, or_false, sample_null, sample_bss,
        sample_section, Option.some.injEq] at hs
      rcases hs with rfl | rfl | rfl | rfl | rfl | rfl | rfl | rfl <;> decide
  · refine ⟨_, _, _, rfl, rfl, rfl, rfl, rfl, rfl, by decide, fun host => rfl,
      fun host startpos => rfl⟩

/-! ### The content of the text and read-only data segments -/

theorem memcpy_zero (size : Nat) (content : List Nat) :
    memcpy (List.replicate size 0) 0 content
      = content ++ List.replicate (size - content.length) 0 := by
  simp only [memcpy, List.take_zero, List.nil_append, Nat.zero_add, List.drop_replicate]

theorem memcpy_zero_length {size : Nat} {content : List Nat} (h : content.length ≤ size) :
    (memcpy (List.replicate size 0) 0 content).length = size := by
  rw [memcpy_zero, List.length_append, List.length_replicate]
  omega

/-- A step of the second loop keeps the content regions registered before it. -/
theorem content_section_prefix {i : Nat} {es : Elf_Scn} {st : convert_state} {soh : Nat}
    {cs cs1 : content_state} (h : content_section i es st soh cs = .ok cs1) :
    ∃ more, cs1.file_segments = cs.file_segments ++ more := by
  match i, h with
  | 0, h =>
    simp only [content_section] at h
    cases h
    exact ⟨[], by simp⟩
  | 1, h =>
    obtain ⟨ed, fs, -, -, -, rfl⟩ := content_section_one h
    exact ⟨[fs], rfl⟩
  | 2, h =>
    obtain ⟨ed, fs, -, -, rfl⟩ := content_section_two h
    exact ⟨[fs], rfl⟩
  | 3, h =>
    obtain ⟨ed, msg, -, hc⟩ := content_section_data (Or.inl rfl) h
    obtain ⟨-, -, rfl⟩ := copy_to_data_ok hc
    exact ⟨[], by simp⟩
  | 4, h =>
    obtain ⟨ed, msg, -, hc⟩ := content_section_data (Or.inr (Or.inl rfl)) h
    obtain ⟨-, -, rfl⟩ := copy_to_data_ok hc
    exact ⟨[], by simp⟩
  | 5, h =>
    obtain ⟨ed, msg, -, hc⟩ := content_section_data (Or.inr (Or.inr rfl)) h
    obtain ⟨-, -, rfl⟩ := copy_to_data_ok hc
    exact ⟨[], by simp⟩
  | 6, h =>
    obtain ⟨ed, msg, cs2, -, hc, rfl⟩ := content_section_six h
    obtain ⟨-, -, rfl⟩ := copy_to_data_ok hc
    exact ⟨_, rfl⟩
  | n + 7, h =>
    rw [content_section_ge_seven (by omega)] at h
    cases h
    exact ⟨[], by simp⟩

theorem second_loop_prefix {secs : List (Option Elf_Scn)} {i : Nat} {st : convert_state}
    {soh : Nat} {cs cs1 : content_state} (h : second_loop i secs st soh cs = .ok cs1) :
    ∃ more, cs1.file_segments = cs.file_segments ++ more := by
  induction secs generalizing i cs with
  | nil =>
    simp only [second_loop] at h
    cases h
    exact ⟨[], by simp⟩
  | cons x rest ih =>
    cases x with
    | none => simp [second_loop, throw_new] at h
    | some s =>
      obtain ⟨cs2, h1, h2⟩ := second_loop_cons_ok h
      obtain ⟨m1, e1⟩ := content_section_prefix h1
      obtain ⟨m2, e2⟩ := ih h2
      exact ⟨m1 ++ m2, by rw [e2, e1, List.append_assoc]⟩

/-- The first step of the second loop, at a section 0 that could be read, changes nothing. -/
theorem second_loop_two {secs : List (Option Elf_Scn)} {st : convert_state} {soh : Nat}
    {cs0 cs : content_state} {s1 : Elf_Scn} (hs : secs[1]? = some (some s1))
    (h : second_loop 0 secs st soh cs0 = .ok cs) :
    ∃ cs1 rest, content_section 1 s1 st soh cs0 = .ok cs1
      ∧ secs.drop 2 = rest ∧ second_loop 2 rest st soh cs1 = .ok cs := by
  match secs, hs, h with
  | [], hs, _ => simp at hs
  | [_], hs, _ => simp at hs
  | none :: _ :: _, _, h => simp [second_loop, throw_new] at h
  | some s0 :: x :: rest, hs, h =>
    simp only [List.getElem?_cons_succ, List.getElem?_cons_zero, Option.some.injEq] at hs
    subst hs
    obtain ⟨csa, ha, hb⟩ := second_loop_cons_ok h
    simp only [content_section] at ha
    cases ha
    obtain ⟨csb, hc, hd⟩ := second_loop_cons_ok hb
    exact ⟨csb, rest, hc, rfl, hd⟩

/-- The virtual size of the read-only data segment is assigned by the case 2 only. -/
theorem layout_section_rodata {i : Nat} {esh : Elf_Scn} {st st1 : convert_state}
    (hi : i ≠ 2) (h : layout_section i esh st = .ok st1) :
    st1.sg_rodata = st.sg_rodata := by
  unfold layout_section at h
  split at h <;>
    first
    | exact absurd rfl hi
    | (split at h <;> simp [throw_new] at h; subst h; simp)

theorem first_loop_rodata {secs : List (Option Elf_Scn)} {i : Nat} {st st1 : convert_state}
    (hi : 3 ≤ i) (h : first_loop i secs st = .ok st1) : st1.sg_rodata = st.sg_rodata := by
  induction secs generalizing i st with
  | nil => simp [first_loop] at h; subst h; rfl
  | cons x rest ih =>
    cases x with
    | none => simp [first_loop, throw_new] at h
    | some esh =>
      obtain ⟨st2, h2, h3⟩ := first_loop_cons_ok h
      rw [ih (by omega : 3 ≤ i + 1) h3, layout_section_rodata (by omega) h2]

theorem first_loop_section_two {secs : List (Option Elf_Scn)} {st0 st : convert_state}
    {s2 : Elf_Scn} (hs : secs[2]? = some (some s2)) (h : first_loop 0 secs st0 = .ok st) :
    st.sg_rodata.vmsize = ROUND_TO_2POW MACH_ALIGN s2.sh_size := by
  match secs, hs, h with
  | none :: _, _, h => simp [first_loop, throw_new] at h
  | [some _], hs, _ => simp at hs
  | some _ :: none :: _, _, h =>
    obtain ⟨st1, -, h1⟩ := first_loop_cons_ok h
    simp [first_loop, throw_new] at h1
  | some s0 :: some s1 :: x :: rest, hs, h =>
    simp only [List.getElem?_cons_succ, List.getElem?_cons_zero, Option.some.injEq] at hs
    subst hs
    obtain ⟨st1, -, h1⟩ := first_loop_cons_ok h
    obtain ⟨st2, -, h2⟩ := first_loop_cons_ok h1
    obtain ⟨st3, h3, h4⟩ := first_loop_cons_ok h2
    rw [first_loop_rodata (by omega) h4]
    simp only [layout_section, throw_new] at h3
    split at h3
    · cases h3
    · cases h3
      rfl

/-- The content region made by the constructor: the bytes given, then zero bytes. -/
theorem mach_file_segment_new_content {offset size : Nat} {content : List Nat}
    {fs : mach_file_segment} (h : mach_file_segment.new offset size content = .ok fs) :
    fs.offset = offset ∧ fs.size = size ∧ content.length ≤ size ∧ size ≤ PTRDIFF_MAX
      ∧ fs.content = content ++ List.replicate (size - content.length) 0
      ∧ fs.content.length = size ∧ fs.write = fs.content := by
  obtain ⟨h1, h2, rfl⟩ := mach_file_segment_new_ok h
  refine ⟨rfl, rfl, h2, h1, memcpy_zero _ _, memcpy_zero_length h2, ?_⟩
  simp only [mach_file_segment.write]
  exact List.take_of_length_le (by rw [memcpy_zero_length h2])

/-- C29, counterexample: in the image of the small executable the text segment has the
virtual size 4096, while the content region registered for it has 4096 - 864 = 3232
bytes. -/
theorem text_content_size_counterexample :
    ∃ m f1 tx, convert sample_elf = .ok m
      ∧ m.load_commands[1]? = some (.segment tx) ∧ tx.vmsize = 4096
      ∧ m.file_segments[0]? = some f1 ∧ f1.size = 3232 ∧ f1.content.length = 3232 := by
  have h : ∃ m tx, convert sample_elf = .ok m
      ∧ m.load_commands[1]? = some (.segment tx) ∧ tx.vmsize = 4096
      ∧ m.file_segments[0]? = some (mach_file_segment.mk 864 3232
          (memcpy (List.replicate 3232 0) 0 [0x31, 0xc0, 0x40, 0xcd, 0x80])) :=
    ⟨_, _, rfl, rfl, rfl, rfl⟩
  obtain ⟨m, tx, h1, h2, h3, h4⟩ := h
  exact ⟨m, _, tx, h1, h2, h3, h4, rfl, memcpy_zero_length (by decide)⟩

/-- C29, amended: in every image returned by a successful `convert`, the content region
registered for the text segment has the length of the virtual size of that segment less
`size_of_headers()`, and the one registered for the read-only data segment, when the source
has a section 2, the length of the page-aligned virtual size of that segment; each consists
of the raw bytes of the single source section followed by zero bytes. -/
theorem convert_text_rodata_content (elf : Elf) (m : mach) (h : convert elf = .ok m) :
    (∃ s1 d1 f1 tx soh, elf.sections[1]? = some (some s1) ∧ s1.rawdata = [d1]
      ∧ m.load_commands[1]? = some (.segment tx) ∧ m.size_of_headers = some soh
      ∧ m.file_segments[0]? = some f1
      ∧ soh ≤ tx.vmsize ∧ f1.size = tx.vmsize - soh ∧ f1.content.length = tx.vmsize - soh
      ∧ f1.content = d1 ++ List.replicate (f1.size - d1.length) 0
      ∧ f1.write = f1.content)
    ∧ ∀ s2, elf.sections[2]? = some (some s2) →
        ∃ d2 f2 ro, s2.rawdata = [d2] ∧ m.load_commands[2]? = some (.segment ro)
          ∧ m.file_segments[1]? = some f2
          ∧ ro.vmsize = ROUND_TO_2POW MACH_ALIGN s2.sh_size
          ∧ f2.size = ro.vmsize ∧ f2.content.length = ro.vmsize
          ∧ f2.content = d2 ++ List.replicate (f2.size - d2.length) 0
          ∧ f2.write = f2.content := by
  obtain ⟨st, cs, soh, origin, ht, -, -, rfl⟩ := convert_ok h
  obtain ⟨eh, cpu, state, fsg, -, -, -, hfl, -, hsoh, hsl⟩ := translate_ok ht
  obtain ⟨eh1, cpu1, state1, -, -, -, hsk⟩ := translate_skeleton ht
  obtain ⟨s1, hs1⟩ := convert_ok_section_one h
  obtain ⟨-, -, htx, -⟩ := first_loop_section_one hs1 hfl
  obtain ⟨cs1, rest, hc1, hrest, hl2⟩ := second_loop_two hs1 hsl
  obtain ⟨d1, f1, hd1, -, hnew1, rfl⟩ := content_section_one hc1
  obtain ⟨-, hsz1, -, hmax1, hcont1, hlen1, hw1⟩ := mach_file_segment_new_content hnew1
  have hvm : st.sg_text.vmsize < 2 ^ 64 := by
    rw [htx]
    exact ROUND_TO_2POW_page_lt _
  obtain ⟨-, hsohle⟩ := size_of_headers_bounds hsk hsoh
  have hsub : soh ≤ st.sg_text.vmsize ∧ sub64 st.sg_text.vmsize soh = st.sg_text.vmsize - soh := by
    have hp : sub64 st.sg_text.vmsize soh ≤ 2 ^ 63 - 1 := hmax1
    simp only [sub64] at hp ⊢
    rw [Nat.mod_eq_of_lt hvm, Nat.mod_eq_of_lt (show soh < 2 ^ 64 by omega)] at hp ⊢
    constructor <;> omega
  refine ⟨?_, ?_⟩
  · obtain ⟨more, hmore⟩ := second_loop_prefix hl2
    refine ⟨s1, d1, f1, { st.sg_text with sections := [st.sc_text] }, soh, hs1, hd1, rfl,
      hsoh, ?_, hsub.1, by rw [hsz1]; exact hsub.2, by rw [hlen1]; exact hsub.2,
      by rw [hsz1]; exact hcont1, hw1⟩
    rw [hmore]
    simp [convert_state.image]
  · intro s2 hs2
    have hr0 : rest[0]? = some (some s2) := by
      rw [← hrest, List.getElem?_drop]
      exact hs2
    match rest, hr0, hl2 with
    | [], hr0, _ => simp at hr0
    | x :: rest2, hr0, hl2 =>
      simp only [List.getElem?_cons_zero, Option.some.injEq] at hr0
      subst hr0
      obtain ⟨cs2, hc2, hl3⟩ := second_loop_cons_ok hl2
      obtain ⟨d2, f2, hd2, hnew2, rfl⟩ := content_section_two hc2
      obtain ⟨-, hsz2, -, -, hcont2, hlen2, hw2⟩ := mach_file_segment_new_content hnew2
      obtain ⟨more, hmore⟩ := second_loop_prefix hl3
      have hro : st.sg_rodata.vmsize = ROUND_TO_2POW MACH_ALIGN s2.sh_size :=
        first_loop_section_two hs2 hfl
      refine ⟨d2, f2, { st.sg_rodata with sections := [st.sc_rodata] }, hd2, rfl, ?_,
        hro, hsz2, hlen2, by rw [hsz2]; exact hcont2, hw2⟩
      rw [hmore]
      simp [convert_state.image]

theorem convert_text_rodata_content_witness :
    ∃ m f1 f2, convert sample_elf = .ok m
      ∧ m.file_segments[0]? = some f1 ∧ f1.content.length = 3232
      ∧ f1.content.take 6 = [0x31, 0xc0, 0x40, 0xcd, 0x80, 0]
      ∧ m.file_segments[1]? = some f2 ∧ f2.content.length = 4096
      ∧ f2.content.take 4 = [104, 105, 0, 0] := by
  have h : ∃ m tx, convert sample_elf = .ok m
      ∧ m.load_commands[1]? = some (.segment tx) ∧ tx.vmsize = 4096
      ∧ m.size_of_headers = some 864 := ⟨_, _, rfl, rfl, rfl, rfl⟩
  obtain ⟨m, tx0, hm, htx0, hvm0, hsoh0⟩ := h
  obtain ⟨⟨s1, d1, f1, tx, soh, hs1, hd1, htx, hsoh, hf1, -, hsz, hlen, hc, -⟩, h2⟩ :=
    convert_text_rodata_content sample_elf m hm
  obtain ⟨d2, f2, ro, hd2, -, hf2, hvm, hsz2, hlen2, hc2, -⟩ := h2 _ rfl
  rw [htx0] at htx
  cases htx
  rw [hsoh0] at hsoh
  cases hsoh
  cases hs1
  cases hd1
  cases hd2
  rw [hvm0] at hlen hsz
  have hro : ro.vmsize = 4096 := by rw [hvm]; decide
  rw [hro] at hlen2 hsz2
  refine ⟨m, f1, f2, hm, hf1, hlen, ?_, hf2, hlen2, ?_⟩
  · rw [hc, hsz]
    rfl
  · rw [hc2, hsz2]
    rfl

/-! ### Writes at a position of the output file -/

theorem FAT_HEADER_POS_eq (i : Nat) : FAT_HEADER_POS i = 8 + 20 * i := by
  unfold FAT_HEADER_POS
  omega

theorem stream_write_length {file bytes : List Nat} (pos : Nat) (hb : bytes.length ≠ 0) :
    (stream_write file pos bytes).length = max file.length (pos + bytes.length) := by
  simp only [stream_write, if_neg hb, List.length_append, List.length_take,
    List.length_replicate, List.length_drop]
  omega

theorem stream_write_before {file bytes : List Nat} {pos p : Nat} (hp : p < pos)
    (hf : p < file.length) : (stream_write file pos bytes)[p]? = file[p]? := by
  unfold stream_write
  split
  · rfl
  · rw [List.append_assoc, List.getElem?_append_left
      (by simp only [List.length_take, List.length_append, List.length_replicate]; omega),
      List.getElem?_take_of_lt hp, List.getElem?_append_left hf]

theorem stream_write_at {file bytes : List Nat} {pos k : Nat} (hk : k < bytes.length) :
    (stream_write file pos bytes)[pos + k]? = bytes[k]? := by
  unfold stream_write
  rw [if_neg (by omega), List.append_assoc, List.getElem?_append_right
    (by simp only [List.length_take, List.length_append, List.length_replicate]; omega)]
  have hl : ((file ++ List.replicate (pos - file.length) 0).take pos).length = pos := by
    simp only [List.length_take, List.length_append, List.length_replicate]
    omega
  rw [hl, Nat.add_sub_cancel_left, List.getElem?_append_left hk]

theorem stream_write_after {file bytes : List Nat} {pos p : Nat}
    (hp : pos + bytes.length ≤ p) : (stream_write file pos bytes)[p]? = file[p]? := by
  unfold stream_write
  split
  · rfl
  · have hl : ((file ++ List.replicate (pos - file.length) 0).take pos).length = pos := by
      simp only [List.length_take, List.length_append, List.length_replicate]
      omega
    rw [List.append_assoc, List.getElem?_append_right (by omega), hl,
      List.getElem?_append_right (by omega), List.getElem?_drop]
    congr 1
    omega

/-- A slice of a list, given byte by byte. -/
theorem slice_eq_of_getElem? {l bytes : List Nat} {pos : Nat}
    (h : ∀ k, k < bytes.length → l[pos + k]? = bytes[k]?) :
    (l.drop pos).take bytes.length = bytes := by
  apply List.ext_getElem?
  intro k
  by_cases hk : k < bytes.length
  · rw [List.getElem?_take_of_lt hk, List.getElem?_drop, h k hk]
  · rw [List.getElem?_eq_none (by simp only [List.length_take]; omega),
      List.getElem?_eq_none (by omega)]

/-! ### The loop of the fat assembler -/

theorem fat_record_length (host : mach_endianness) (m : mach) (last size : Nat) :
    (fat_record host m last size).length = 20 := by
  simp only [fat_record, List.length_append, _write_length]

theorem mach_header_write_length_ge (host : mach_endianness) (h : mach_header) :
    28 ≤ (h.write host).length := by
  unfold mach_header.write
  simp only [List.length_append, _write_length]
  split <;> simp only [_write_length] <;> omega

/-- An image is written in at least the 28 bytes of its header. -/
theorem mach_write_length_ge {host : mach_endianness} {m : mach} {startpos : Nat}
    {body : List Nat} (h : m.write host startpos = some body) : 28 ≤ body.length := by
  obtain ⟨soc, cmds, rest, -, -, rfl⟩ := mach_write_eq h
  rw [List.length_append, List.length_append]
  exact Nat.le_trans (mach_header_write_length_ge host _)
    (Nat.le_trans (Nat.le_add_right _ _) (Nat.le_add_right _ _))

/-- The bytes `mach::write` appends depend on the position of the stream through its last
assertion only. -/
theorem mach_write_startpos {host : mach_endianness} {m : mach} {p q : Nat}
    {out : List Nat} (h : m.write host p = some out) (hq : 4096 ≤ q + out.length) :
    m.write host q = some out := by
  unfold mach.write at h ⊢
  split at h
  · cases h
  next hne =>
  rw [if_neg hne]
  cases hA : m.written_header with
  | none => simp [hA] at h
  | some hd =>
    cases hB : write_commands host m.load_commands with
    | none => simp [hA, hB] at h
    | some cmds =>
      simp only [hA, hB] at h ⊢
      cases hC : write_file_segments m.file_segments (hd.write host ++ cmds) with
      | none => simp [hC] at h
      | some o =>
        simp only [hC] at h ⊢
        split at h
        · cases h
          rw [if_pos hq]
        · cases h

theorem fat_loop_cons {host : mach_endianness} {m : mach} {rest : List mach}
    {i last : Nat} {file out : List Nat}
    (h : fat_loop host (m :: rest) i last file = .ok out) :
    ∃ body, m.write host last = some body ∧ FAT_HEADER_POS i ≤ INT_MAX
      ∧ fat_loop host rest (i + 1) (ROUND_TO_2POW MACH_ALIGN (last + body.length))
          (stream_write (stream_write file last body) (FAT_HEADER_POS i)
            (fat_record host m last body.length)) = .ok out := by
  simp only [fat_loop] at h
  split at h
  · cases h
  next body hb =>
  split at h
  · cases h
  next hi =>
  exact ⟨body, hb, by omega, h⟩

theorem fat_placements_cons {host : mach_endianness} {m : mach} {rest : List mach}
    {last : Nat} {ps : List (Nat × List Nat)}
    (h : fat_placements host (m :: rest) last = some ps) :
    ∃ body ps1, m.write host last = some body
      ∧ fat_placements host rest (ROUND_TO_2POW MACH_ALIGN (last + body.length)) = some ps1
      ∧ ps = (last, body) :: ps1 := by
  simp only [fat_placements] at h
  split at h
  · cases h
  next body hb =>
  split at h
  · cases h
  next ps1 hps =>
  cases h
  exact ⟨body, ps1, hb, hps, rfl⟩

/-- A loop that ends has placed every image. -/
theorem fat_loop_placements {host : mach_endianness} {arches : List mach}
    {i last : Nat} {file out : List Nat} (h : fat_loop host arches i last file = .ok out) :
    ∃ ps, fat_placements host arches last = some ps := by
  induction arches generalizing i last file with
  | nil => exact ⟨[], rfl⟩
  | cons m rest ih =>
    obtain ⟨body, hb, -, hrest⟩ := fat_loop_cons h
    obtain ⟨ps, hps⟩ := ih hrest
    exact ⟨(last, body) :: ps, by simp only [fat_placements, hb, hps]⟩

/-- One turn of the loop: the next offset lies a page or more after `last`, and the two
writes leave alone the bytes before the record and those between the records and `last`. -/
theorem fat_step {host : mach_endianness} {m : mach} {i last : Nat} {file body : List Nat}
    (hb : m.write host last = some body) (hnw : last + body.length ≤ 2 ^ 64 - 4096)
    (hlast : FAT_HEADER_POS i + 20 ≤ last) :
    FAT_HEADER_POS (i + 1) + 20 ≤ ROUND_TO_2POW MACH_ALIGN (last + body.length)
      ∧ last + body.length ≤ ROUND_TO_2POW MACH_ALIGN (last + body.length)
      ∧ last + body.length ≤ (stream_write (stream_write file last body) (FAT_HEADER_POS i)
          (fat_record host m last body.length)).length
      ∧ file.length ≤ (stream_write (stream_write file last body) (FAT_HEADER_POS i)
          (fat_record host m last body.length)).length
      ∧ (∀ p, p < file.length → p < last →
          (p < FAT_HEADER_POS i ∨ FAT_HEADER_POS (i + 1) ≤ p) →
          (stream_write (stream_write file last body) (FAT_HEADER_POS i)
            (fat_record host m last body.length))[p]? = file[p]?)
      ∧ (∀ k, k < 20 →
          (stream_write (stream_write file last body) (FAT_HEADER_POS i)
            (fat_record host m last body.length))[FAT_HEADER_POS i + k]?
            = (fat_record host m last body.length)[k]?)
      ∧ (∀ k, k < body.length →
          (stream_write (stream_write file last body) (FAT_HEADER_POS i)
            (fat_record host m last body.length))[last + k]? = body[k]?) := by
  have hlen := mach_write_length_ge hb
  obtain ⟨-, hr1, -⟩ := @ROUND_TO_2POW_page_spec (last + body.length) hnw
  have hP : FAT_HEADER_POS (i + 1) = FAT_HEADER_POS i + 20 := by
    rw [FAT_HEADER_POS_eq, FAT_HEADER_POS_eq]
    omega
  have hrl := fat_record_length host m last body.length
  have hl1 : (stream_write file last body).length = max file.length (last + body.length) :=
    stream_write_length last (by omega)
  have hl2 : (stream_write (stream_write file last body) (FAT_HEADER_POS i)
      (fat_record host m last body.length)).length
      = max (stream_write file last body).length (FAT_HEADER_POS i + 20) := by
    rw [stream_write_length _ (by omega), hrl]
  refine ⟨by omega, hr1, by omega, by omega, ?_, ?_, ?_⟩
  · intro p hp hpl hpos
    rcases hpos with h1 | h1
    · rw [stream_write_before h1 (by omega), stream_write_before hpl hp]
    · rw [stream_write_after (by omega), stream_write_before hpl hp]
  · intro k hk
    exact stream_write_at (by omega)
  · intro k hk
    rw [stream_write_after (by omega), stream_write_at hk]

/-- The rest of the loop leaves alone the bytes below `last` that lie outside the records
still to be written. -/
theorem fat_loop_frame {host : mach_endianness} {arches : List mach} {i last : Nat}
    {file out : List Nat} {ps : List (Nat × List Nat)}
    (h : fat_loop host arches i last file = .ok out)
    (hps : fat_placements host arches last = some ps)
    (hnw : ∀ q ∈ ps, q.1 + q.2.length ≤ 2 ^ 64 - 4096)
    (hlast : FAT_HEADER_POS i + 20 ≤ last) :
    file.length ≤ out.length
      ∧ ∀ p, p < file.length → p < last →
          (p < FAT_HEADER_POS i ∨ FAT_HEADER_POS (i + arches.length) ≤ p) →
          out[p]? = file[p]? := by
  induction arches generalizing i last file ps with
  | nil =>
    simp only [fat_loop] at h
    cases h
    exact ⟨le_refl _, fun _ _ _ _ => rfl⟩
  | cons m rest ih =>
    obtain ⟨body, hb, -, hrest⟩ := fat_loop_cons h
    obtain ⟨body1, ps1, hb1, hps1, rfl⟩ := fat_placements_cons hps
    rw [hb] at hb1
    cases hb1
    have hnw0 : last + body.length ≤ 2 ^ 64 - 4096 := hnw (last, body) (List.mem_cons_self _ _)
    obtain ⟨s1, s2, s3, s4, s5, -, -⟩ := @fat_step host m i last file body hb hnw0 hlast
    obtain ⟨i1, i2⟩ := ih hrest hps1 (fun q hq => hnw q (List.mem_cons_of_mem _ hq)) s1
    refine ⟨Nat.le_trans s4 i1, ?_⟩
    intro p hp hpl hpos
    have e1 : FAT_HEADER_POS (i + 1 + rest.length) = FAT_HEADER_POS (i + (m :: rest).length) := by
      rw [List.length_cons]
      congr 1
      omega
    have e2 : FAT_HEADER_POS (i + 1) ≤ FAT_HEADER_POS (i + (m :: rest).length) := by
      rw [FAT_HEADER_POS_eq, FAT_HEADER_POS_eq, List.length_cons]
      omega
    have e3 : FAT_HEADER_POS i ≤ FAT_HEADER_POS (i + 1) := by
      rw [FAT_HEADER_POS_eq, FAT_HEADER_POS_eq]
      omega
    rw [i2 p (by omega) (by omega) (by rw [e1]; rcases hpos with h1 | h1 <;> omega)]
    exact s5 p hp hpl (by rcases hpos with h1 | h1 <;> omega)

/-- In the output of the loop the 20 bytes at `FAT_HEADER_POS(i + j)` are the record of the
image `j`. -/
theorem fat_loop_records {host : mach_endianness} {arches : List mach} {i last : Nat}
    {file out : List Nat} {ps : List (Nat × List Nat)}
    (h : fat_loop host arches i last file = .ok out)
    (hps : fat_placements host arches last = some ps)
    (hnw : ∀ q ∈ ps, q.1 + q.2.length ≤ 2 ^ 64 - 4096)
    (hlast : FAT_HEADER_POS i + 20 ≤ last) :
    ∀ (j : Nat) (m : mach) (o : Nat) (body : List Nat), arches[j]? = some m →
      ps[j]? = some (o, body) → ∀ k, k < 20 →
      out[FAT_HEADER_POS (i + j) + k]? = (fat_record host m o body.length)[k]? := by
  induction arches generalizing i last file ps with
  | nil =>
    intro j m o body hm
    simp at hm
  | cons m0 rest ih =>
    obtain ⟨body0, hb, -, hrest⟩ := fat_loop_cons h
    obtain ⟨body1, ps1, hb1, hps1, rfl⟩ := fat_placements_cons hps
    rw [hb] at hb1
    cases hb1
    have hnw0 : last + body0.length ≤ 2 ^ 64 - 4096 :=
      hnw (last, body0) (List.mem_cons_self _ _)
    have hnw1 : ∀ q ∈ ps1, q.1 + q.2.length ≤ 2 ^ 64 - 4096 :=
      fun q hq => hnw q (List.mem_cons_of_mem _ hq)
    obtain ⟨s1, s2, s3, s4, -, s6, -⟩ := @fat_step host m0 i last file body0 hb hnw0 hlast
    intro j m o body hm hp k hk
    cases j with
    | zero =>
      simp only [List.getElem?_cons_zero, Option.some.injEq, Prod.mk.injEq] at hm hp
      subst hm
      obtain ⟨rfl, rfl⟩ := hp
      have hlen := mach_write_length_ge hb
      have e3 : FAT_HEADER_POS (i + 1) = FAT_HEADER_POS i + 20 := by
        rw [FAT_HEADER_POS_eq, FAT_HEADER_POS_eq]
        omega
      rw [Nat.add_zero, (fat_loop_frame hrest hps1 hnw1 s1).2 _ (by omega) (by omega)
        (Or.inl (by omega))]
      exact s6 k hk
    | succ j =>
      simp only [List.getElem?_cons_succ] at hm hp
      have := ih hrest hps1 hnw1 s1 j m o body hm hp k hk
      rw [show i + (j + 1) = i + 1 + j by omega]
      exact this

/-- When the records still to be written end before `last`, the output of the loop holds
every image at its offset. -/
theorem fat_loop_bodies {host : mach_endianness} {arches : List mach} {i last : Nat}
    {file out : List Nat} {ps : List (Nat × List Nat)}
    (h : fat_loop host arches i last file = .ok out)
    (hps : fat_placements host arches last = some ps)
    (hnw : ∀ q ∈ ps, q.1 + q.2.length ≤ 2 ^ 64 - 4096)
    (hlast : FAT_HEADER_POS i + 20 ≤ last)
    (hrec : FAT_HEADER_POS (i + arches.length) ≤ last) :
    ∀ (j o : Nat) (body : List Nat), ps[j]? = some (o, body) → ∀ k, k < body.length →
      out[o + k]? = body[k]? := by
  induction arches generalizing i last file ps with
  | nil =>
    intro j o body hp
    simp only [fat_placements, Option.some.injEq] at hps
    subst hps
    simp at hp
  | cons m0 rest ih =>
    obtain ⟨body0, hb, -, hrest⟩ := fat_loop_cons h
    obtain ⟨body1, ps1, hb1, hps1, rfl⟩ := fat_placements_cons hps
    rw [hb] at hb1
    cases hb1
    have hnw0 : last + body0.length ≤ 2 ^ 64 - 4096 :=
      hnw (last, body0) (List.mem_cons_self _ _)
    have hnw1 : ∀ q ∈ ps1, q.1 + q.2.length ≤ 2 ^ 64 - 4096 :=
      fun q hq => hnw q (List.mem_cons_of_mem _ hq)
    obtain ⟨s1, s2, s3, s4, -, -, s7⟩ := @fat_step host m0 i last file body0 hb hnw0 hlast
    have e1 : FAT_HEADER_POS (i + 1 + rest.length) = FAT_HEADER_POS (i + (m0 :: rest).length) := by
      rw [List.length_cons]
      congr 1
      omega
    intro j o body hp k hk
    cases j with
    | zero =>
      simp only [List.getElem?_cons_zero, Option.some.injEq, Prod.mk.injEq] at hp
      obtain ⟨rfl, rfl⟩ := hp
      rw [(fat_loop_frame hrest hps1 hnw1 s1).2 _ (by omega) (by omega)
        (Or.inr (by rw [e1]; omega))]
      exact s7 k hk
    | succ j =>
      simp only [List.getElem?_cons_succ] at hp
      exact ih hrest hps1 hnw1 s1 (by rw [e1]; omega) j o body hp k hk

/-- The placements: the first offset is `last`, each next one is the end of the image before
it rounded up to a page, and each image is what `mach::write` appends at its offset. -/
theorem fat_placements_layout {host : mach_endianness} {arches : List mach} {last : Nat}
    {ps : List (Nat × List Nat)} (hps : fat_placements host arches last = some ps)
    (hnw : ∀ q ∈ ps, q.1 + q.2.length ≤ 2 ^ 64 - 4096) (hal : 4096 ∣ last) :
    ps.length = arches.length
      ∧ (∀ (j o : Nat) (body : List Nat), ps[j]? = some (o, body) →
          4096 ∣ o ∧ last + 4096 * j ≤ o ∧ 28 ≤ body.length
            ∧ ∃ m, arches[j]? = some m ∧ m.write host o = some body)
      ∧ (∀ (o : Nat) (body : List Nat), ps[0]? = some (o, body) → o = last)
      ∧ (∀ (j o : Nat) (body : List Nat) (o1 : Nat) (body1 : List Nat),
          ps[j]? = some (o, body) → ps[j + 1]? = some (o1, body1) →
          o1 = ROUND_TO_2POW MACH_ALIGN (o + body.length) ∧ o + body.length ≤ o1
            ∧ o1 < o + body.length + 4096 ∧ o < o1) := by
  induction arches generalizing last ps with
  | nil =>
    simp only [fat_placements, Option.some.injEq] at hps
    subst hps
    exact ⟨rfl, fun j o body h => by simp at h, fun o body h => by simp at h,
      fun j o body o1 body1 h => by simp at h⟩
  | cons m0 rest ih =>
    obtain ⟨body0, ps1, hb, hps1, rfl⟩ := fat_placements_cons hps
    have hnw0 : last + body0.length ≤ 2 ^ 64 - 4096 :=
      hnw (last, body0) (List.mem_cons_self _ _)
    have hnw1 : ∀ q ∈ ps1, q.1 + q.2.length ≤ 2 ^ 64 - 4096 :=
      fun q hq => hnw q (List.mem_cons_of_mem _ hq)
    obtain ⟨r1, r2, r3⟩ := @ROUND_TO_2POW_page_spec (last + body0.length) hnw0
    have hlen := mach_write_length_ge hb
    obtain ⟨i1, i2, i3, i4⟩ := ih hps1 hnw1 r1
    refine ⟨by simp [i1], ?_, ?_, ?_⟩
    · intro j o body hp
      cases j with
      | zero =>
        simp only [List.getElem?_cons_zero, Option.some.injEq, Prod.mk.injEq] at hp
        obtain ⟨rfl, rfl⟩ := hp
        exact ⟨hal, by omega, hlen, m0, List.getElem?_cons_zero, hb⟩
      | succ j =>
        simp only [List.getElem?_cons_succ] at hp
        obtain ⟨a1, a2, a3, a4⟩ := i2 j o body hp
        obtain ⟨c, hc⟩ := hal
        obtain ⟨d, hd⟩ := r1
        have hdc : last + 4096 ≤ ROUND_TO_2POW MACH_ALIGN (last + body0.length) := by
          omega
        exact ⟨a1, by omega, a3, by simpa using a4⟩
    · intro o body hp
      simp only [List.getElem?_cons_zero, Option.some.injEq, Prod.mk.injEq] at hp
      exact hp.1.symm
    · intro j o body o1 body1 hp hp1
      cases j with
      | zero =>
        simp only [List.getElem?_cons_zero, Option.some.injEq, Prod.mk.injEq,
          Nat.zero_add, List.getElem?_cons_succ] at hp hp1
        obtain ⟨rfl, rfl⟩ := hp
        have := i3 o1 body1 hp1
        subst this
        exact ⟨rfl, r2, r3, by omega⟩
      | succ j =>
        simp only [List.getElem?_cons_succ] at hp hp1
        exact i4 j o body o1 body1 hp hp1

/-! ### The single image and the empty list -/

/-- The first word of a serialized image is its magic number, in the byte order of its
header. -/
theorem mach_write_magic {host : mach_endianness} {m : mach} {startpos : Nat}
    {body : List Nat} (h : m.write host startpos = some body) :
    body.take 4 = _write host m.header.endian 4
      (if m.header.bits = 32 then MH_MAGIC else MH_MAGIC_64) := by
  obtain ⟨soc, cmds, rest, -, -, rfl⟩ := mach_write_eq h
  simp only [mach_header.write, List.append_assoc]
  split
  · exact take_write
  · exact take_write

theorem magic_bytes (host e : mach_endianness) (bits : Nat) :
    _write host e 4 (if bits = 32 then MH_MAGIC else MH_MAGIC_64) = [0xfe, 0xed, 0xfa, 0xce]
      ∨ _write host e 4 (if bits = 32 then MH_MAGIC else MH_MAGIC_64)
          = [0xce, 0xfa, 0xed, 0xfe]
      ∨ _write host e 4 (if bits = 32 then MH_MAGIC else MH_MAGIC_64)
          = [0xfe, 0xed, 0xfa, 0xcf]
      ∨ _write host e 4 (if bits = 32 then MH_MAGIC else MH_MAGIC_64)
          = [0xcf, 0xfa, 0xed, 0xfe] := by
  rw [_write_four]
  by_cases hb : bits = 32
  · rw [if_pos hb]
    cases e
    · exact Or.inl (by decide)
    · exact Or.inr (Or.inl (by decide))
  · rw [if_neg hb]
    cases e
    · exact Or.inr (Or.inr (Or.inl (by decide)))
    · exact Or.inr (Or.inr (Or.inr (by decide)))

theorem fat_magic_bytes (host : mach_endianness) :
    _write host MACH_MSB 4 FAT_MAGIC = [0xca, 0xfe, 0xba, 0xbe] := by
  rw [_write_four]
  decide

/-- C22: for every image `m`, `make_fat` on the list `[m]` writes the bytes `m.write`
appends to a stream at position 0, and stops on the same assertion when `m.write` does; the
output starts with the magic number of the image (0xfeedface or 0xfeedfacf) in the byte
order of its header, which is that of the image for one made by the constructor, and never
with the fat magic 0xcafebabe. -/
theorem make_fat_single_image (host : mach_endianness) (m : mach) :
    (∀ out, m.write host 0 = some out → make_fat host [m] = .written out)
      ∧ (m.write host 0 = none → make_fat host [m] = .aborted (.assertion "mach::write"))
      ∧ ∀ file, make_fat host [m] = .written file →
          m.write host 0 = some file
            ∧ file.take 4 = _write host m.header.endian 4
                (if m.header.bits = 32 then MH_MAGIC else MH_MAGIC_64)
            ∧ (file.take 4 = [0xfe, 0xed, 0xfa, 0xce] ∨ file.take 4 = [0xce, 0xfa, 0xed, 0xfe]
              ∨ file.take 4 = [0xfe, 0xed, 0xfa, 0xcf]
              ∨ file.take 4 = [0xcf, 0xfa, 0xed, 0xfe])
            ∧ file.take 4 ≠ _write host MACH_MSB 4 FAT_MAGIC
            ∧ (m.consistent → file.take 4 = _write host m.endian 4
                (if m.bits = 32 then MH_MAGIC else MH_MAGIC_64)) := by
  refine ⟨fun out h => by simp only [make_fat, h], fun h => by simp only [make_fat, h], ?_⟩
  intro file h
  cases hw : m.write host 0 with
  | none => simp [make_fat, hw] at h
  | some out =>
    simp only [make_fat, hw, fat_result.written.injEq] at h
    subst h
    have hm := mach_write_magic hw
    have hb := magic_bytes host m.header.endian m.header.bits
    rw [← hm] at hb
    refine ⟨rfl, hm, hb, ?_, ?_⟩
    · rw [fat_magic_bytes]
      rcases hb with hb | hb | hb | hb <;> rw [hb] <;> decide
    · intro hc
      rw [hm, hc.2.1, hc.2.2.1]

set_option maxRecDepth 8000 in
theorem sample_image_page_write :
    ∃ out, sample_image_page.write MACH_LSB 0 = some out ∧ out.length = 4096 := by
  have hcmds : ∃ cmds, write_commands MACH_LSB sample_image_page.load_commands = some cmds
      ∧ cmds.length = 256 := ⟨_, rfl, rfl⟩
  obtain ⟨cmds, hc, hcl⟩ := hcmds
  have hs : sample_image_page.size_of_commands = some 256 := rfl
  have hh : (mach_header.write MACH_LSB { sample_image_page.header with
      ncmds := u32 sample_image_page.load_commands.length, sizeofcmds := 256 }).length
      = 32 := by
    rw [mach_header_write_length _ _ (Or.inr rfl)]
    rfl
  have hfl : (mach_file_segment.write
      { offset := 288, size := 3808, content := List.replicate 3808 0 }).length = 3808 := by
    simp only [mach_file_segment.write, List.length_take, List.length_replicate,
      Nat.min_self]
  have hl : sample_image_page.load_commands = _ :: _ := rfl
  have hwr := @mach_write_of MACH_LSB sample_image_page 0 256 cmds _ _
    { offset := 288, size := 3808, content := List.replicate 3808 0 } hl rfl hs hc
    (by rw [List.length_append, hh, hcl])
    (by rw [List.length_append, List.length_append, hh, hcl, hfl])
  refine ⟨_, hwr, ?_⟩
  rw [List.length_append, List.length_append, hh, hcl, hfl]

theorem make_fat_single_image_witness :
    ∃ file, make_fat MACH_LSB [sample_image_page] = .written file
      ∧ file.take 4 = [0xfe, 0xed, 0xfa, 0xcf] ∧ file.length = 4096 := by
  obtain ⟨out, hw, hlen⟩ := sample_image_page_write
  have h := (make_fat_single_image MACH_LSB sample_image_page).1 out hw
  obtain ⟨-, h4, -⟩ := (make_fat_single_image MACH_LSB sample_image_page).2.2 out h
  refine ⟨out, h, ?_, hlen⟩
  rw [h4, _write_four]
  decide

theorem make_fat_not_opened {host : mach_endianness} {arches : List mach} {e : Failure}
    (h : make_fat host arches = .not_opened e) :
    arches = [] ∧ e = .thrown_ptr "no binares to merge" := by
  match arches, h with
  | [], h =>
    simp only [make_fat, fat_result.not_opened.injEq] at h
    exact ⟨rfl, h.symm⟩
  | [m], h =>
    simp only [make_fat] at h
    split at h <;> cases h
  | _ :: _ :: _, h =>
    simp only [make_fat] at h
    split at h <;> cases h

/-- C25: `make_fat` applied to the empty list throws the exception of the missing images,
"no binares to merge", before the output file is opened; it is the only list for which the
file is not opened. -/
theorem make_fat_no_images (host : mach_endianness) :
    make_fat host [] = .not_opened (.thrown_ptr "no binares to merge")
      ∧ ∀ arches e, make_fat host arches = .not_opened e →
          arches = [] ∧ e = .thrown_ptr "no binares to merge" :=
  ⟨rfl, fun _ _ h => make_fat_not_opened h⟩

/-! ### The index of the fat file -/

theorem make_fat_many (host : mach_endianness) {arches : List mach}
    (hn : 2 ≤ arches.length) :
    make_fat host arches
      = match fat_loop host arches 0 MACH_ALIGN
          (_write host MACH_MSB 4 FAT_MAGIC ++ _write host MACH_MSB 4 (u32 arches.length)) with
        | .error e => .aborted e
        | .ok file => .written file := by
  match arches, hn with
  | _ :: _ :: _, _ => rfl

theorem make_fat_written {host : mach_endianness} {arches : List mach} {file : List Nat}
    (hn : 2 ≤ arches.length) (h : make_fat host arches = .written file) :
    fat_loop host arches 0 MACH_ALIGN
      (_write host MACH_MSB 4 FAT_MAGIC ++ _write host MACH_MSB 4 (u32 arches.length))
      = .ok file := by
  rw [make_fat_many host hn] at h
  split at h
  · cases h
  next f hf =>
  cases h
  exact hf

theorem make_fat_of_loop {host : mach_endianness} {arches : List mach} {file : List Nat}
    (hn : 2 ≤ arches.length)
    (h : fat_loop host arches 0 MACH_ALIGN
      (_write host MACH_MSB 4 FAT_MAGIC ++ _write host MACH_MSB 4 (u32 arches.length))
      = .ok file) : make_fat host arches = .written file := by
  rw [make_fat_many host hn, h]

theorem _write_msb (host : mach_endianness) (v : Nat) :
    _write host MACH_MSB 4 v = msb_first 4 v := by
  rw [_write_eq (Or.inr (Or.inl rfl)), msb_first_eq_reverse, le_bytes_eq_lsb_first]
  rfl

theorem msb_first_length (n v : Nat) : (msb_first n v).length = n := by
  simp [msb_first]

theorem decode_msb_first (v : Nat) : decode MACH_MSB (msb_first 4 v) = v % 2 ^ 32 := by
  rw [← _write_msb MACH_LSB, decode_write_four]

theorem fat_record_eq (host : mach_endianness) (m : mach) (last size : Nat) :
    fat_record host m last size
      = msb_first 4 m.header.cpu.type ++ (msb_first 4 m.header.cpu.subtype
          ++ (msb_first 4 (u32 last) ++ (msb_first 4 (u32 size) ++ msb_first 4 0))) := by
  simp only [fat_record, _write_msb, List.append_assoc]

theorem slice_of_slice (l : List Nat) {P a b n : Nat} (h : a + b ≤ n) :
    (l.drop (P + a)).take b = (((l.drop P).take n).drop a).take b := by
  apply List.ext_getElem?
  intro k
  by_cases hk : k < b
  · rw [List.getElem?_take_of_lt hk, List.getElem?_take_of_lt hk, List.getElem?_drop,
      List.getElem?_drop, List.getElem?_take_of_lt (by omega), List.getElem?_drop]
    congr 1
    omega
  · rw [List.getElem?_eq_none (by simp only [List.length_take]; omega),
      List.getElem?_eq_none (by simp only [List.length_take]; omega)]

/-- The first eight bytes and the records of the output of `make_fat` for two images or
more. -/
theorem make_fat_layout {host : mach_endianness} {arches : List mach} {file : List Nat}
    {ps : List (Nat × List Nat)} (hn : 2 ≤ arches.length)
    (h : make_fat host arches = .written file)
    (hps : fat_placements host arches MACH_ALIGN = some ps)
    (hnw : ∀ q ∈ ps, q.1 + q.2.length ≤ 2 ^ 64 - 4096) :
    file.take 8 = msb_first 4 FAT_MAGIC ++ msb_first 4 (u32 arches.length)
      ∧ (∀ (i : Nat) (m : mach) (o : Nat) (body : List Nat), arches[i]? = some m →
          ps[i]? = some (o, body) →
          (file.drop (FAT_HEADER_POS i)).take 20 = fat_record host m o body.length)
      ∧ (arches.length ≤ 204 → ∀ (i o : Nat) (body : List Nat), ps[i]? = some (o, body) →
          (file.drop o).take body.length = body) := by
  have hloop := make_fat_written hn h
  have hlast : FAT_HEADER_POS 0 + 20 ≤ MACH_ALIGN := by decide
  refine ⟨?_, ?_, ?_⟩
  · obtain ⟨-, hf⟩ := fat_loop_frame hloop hps hnw hlast
    have h8 : (msb_first 4 FAT_MAGIC ++ msb_first 4 (u32 arches.length)).length = 8 := by
      rw [List.length_append, msb_first_length, msb_first_length]
    have := @slice_eq_of_getElem? file
      (msb_first 4 FAT_MAGIC ++ msb_first 4 (u32 arches.length)) 0 (by
        intro k hk
        rw [h8] at hk
        rw [Nat.zero_add, hf k (by simp only [List.length_append, _write_length]; omega)
          (by simp only [MACH_ALIGN]; omega) (Or.inl (by rw [FAT_HEADER_POS_eq]; omega)),
          _write_msb, _write_msb])
    rw [h8, List.drop_zero] at this
    exact this
  · intro i m o body hm hp
    have hr := fat_loop_records hloop hps hnw hlast i m o body hm hp
    have := @slice_eq_of_getElem? file (fat_record host m o body.length)
      (FAT_HEADER_POS i) (by
        intro k hk
        rw [fat_record_length] at hk
        have := hr k hk
        rw [Nat.zero_add] at this
        exact this)
    rw [fat_record_length] at this
    exact this
  · intro h204 i o body hp
    have hb := fat_loop_bodies hloop hps hnw hlast
      (by rw [FAT_HEADER_POS_eq]; simp only [MACH_ALIGN]; omega) i o body hp
    exact slice_eq_of_getElem? hb

theorem fat_record_offset_word {file : List Nat} {P : Nat} {host : mach_endianness}
    {m : mach} {o size : Nat} (h : (file.drop P).take 20 = fat_record host m o size) :
    (file.drop (P + 8)).take 4 = msb_first 4 (u32 o)
      ∧ (file.drop (P + 12)).take 4 = msb_first 4 (u32 size) := by
  rw [fat_record_eq] at h
  constructor
  · rw [@slice_of_slice file P 8 4 20 (by omega), h,
      drop_of_length (msb_first_length 4 _) (by omega),
      drop_of_length (msb_first_length 4 _) (by omega)]
    exact List.take_left' (msb_first_length 4 _)
  · rw [@slice_of_slice file P 12 4 20 (by omega), h,
      drop_of_length (msb_first_length 4 _) (by omega),
      drop_of_length (msb_first_length 4 _) (by omega),
      drop_of_length (msb_first_length 4 _) (by omega)]
    exact List.take_left' (msb_first_length 4 _)

theorem fat_placements_mem {ps : List (Nat × List Nat)} {i o : Nat} {body : List Nat}
    (h : ps[i]? = some (o, body)) : (o, body) ∈ ps :=
  List.mem_iff_getElem?.2 ⟨i, h⟩

/-- C23, amended: for every list of two images or more that `make_fat` writes with every
image ending below 2^32, the output begins with the big-endian words 0xcafebabe and the
number of images, and for each index `i` the 20 bytes at the position 8 + 20 `i` are the
five big-endian words cpu type and cpu subtype of image `i`, offset and size of the bytes of
image `i`, and 0, whatever the byte order of the image; `o` is the offset `make_fat` writes
the image at and `body` the bytes `mach::write` appends there. -/
theorem make_fat_index (host : mach_endianness) (arches : List mach) (file : List Nat)
    (ps : List (Nat × List Nat)) (hn : 2 ≤ arches.length)
    (h : make_fat host arches = .written file)
    (hps : fat_placements host arches MACH_ALIGN = some ps)
    (hfit : ∀ q ∈ ps, q.1 + q.2.length < 2 ^ 32) :
    arches.length < 2 ^ 32
      ∧ file.take 8 = [0xca, 0xfe, 0xba, 0xbe] ++ msb_first 4 arches.length
      ∧ decode MACH_MSB (msb_first 4 arches.length) = arches.length
      ∧ ∀ (i : Nat) (m : mach) (o : Nat) (body : List Nat), arches[i]? = some m →
          ps[i]? = some (o, body) →
          m.write host o = some body
            ∧ (file.drop (8 + 20 * i)).take 20
                = msb_first 4 m.header.cpu.type ++ (msb_first 4 m.header.cpu.subtype
                  ++ (msb_first 4 o ++ (msb_first 4 body.length ++ [0, 0, 0, 0])))
            ∧ decode MACH_MSB (msb_first 4 o) = o
            ∧ decode MACH_MSB (msb_first 4 body.length) = body.length
            ∧ (arches.length ≤ 204 → (file.drop o).take body.length = body) := by
  have hnw : ∀ q ∈ ps, q.1 + q.2.length ≤ 2 ^ 64 - 4096 := fun q hq => by
    have := hfit q hq
    omega
  obtain ⟨l1, l2, -, -⟩ := fat_placements_layout hps hnw (by decide : 4096 ∣ MACH_ALIGN)
  obtain ⟨f1, f2, f3⟩ := make_fat_layout hn h hps hnw
  have hlt : arches.length < 2 ^ 32 := by
    have hj : arches.length - 1 < ps.length := by omega
    have hp : ps[arches.length - 1]? = some ps[arches.length - 1] :=
      List.getElem?_eq_getElem hj
    obtain ⟨-, a2, -, -⟩ := l2 (arches.length - 1) _ _ hp
    have := hfit _ (fat_placements_mem hp)
    simp only [MACH_ALIGN] at a2
    omega
  have hu : u32 arches.length = arches.length := Nat.mod_eq_of_lt hlt
  refine ⟨hlt, ?_, ?_, ?_⟩
  · rw [f1, hu]
    rfl
  · rw [decode_msb_first, Nat.mod_eq_of_lt hlt]
  · intro i m o body hm hp
    have hq := hfit _ (fat_placements_mem hp)
    simp only at hq
    obtain ⟨-, -, -, m1, hm1, hw⟩ := l2 i o body hp
    rw [hm] at hm1
    cases hm1
    have hr := f2 i m o body hm hp
    rw [FAT_HEADER_POS_eq, fat_record_eq, u32, u32, Nat.mod_eq_of_lt (by omega),
      Nat.mod_eq_of_lt (by omega)] at hr
    refine ⟨hw, hr, ?_, ?_, fun h204 => f3 h204 i o body hp⟩
    · rw [decode_msb_first, Nat.mod_eq_of_lt (by omega)]
    · rw [decode_msb_first, Nat.mod_eq_of_lt (by omega)]

/-! ### The placement of the images -/

/-- C24, amended: for every list of two images or more that `make_fat` writes with every
image ending below 2^32, image 0 is placed at the offset 4096 and image `i` + 1 at the least
multiple of 4096 that is not less than the end of image `i`; every offset is a multiple of
4096, the offsets increase strictly, the images do not overlap, and the offset and the size
stored in the record `i` are the offset and the length of the bytes written for image `i`,
which the output holds from that offset on when the images are 204 at most. -/
theorem make_fat_offsets (host : mach_endianness) (arches : List mach) (file : List Nat)
    (ps : List (Nat × List Nat)) (hn : 2 ≤ arches.length)
    (h : make_fat host arches = .written file)
    (hps : fat_placements host arches MACH_ALIGN = some ps)
    (hfit : ∀ q ∈ ps, q.1 + q.2.length < 2 ^ 32) :
    ps.length = arches.length
      ∧ (∃ body0, ps[0]? = some (4096, body0))
      ∧ (∀ (i o : Nat) (body : List Nat), ps[i]? = some (o, body) → 4096 ∣ o ∧ 4096 ≤ o)
      ∧ (∀ (i o : Nat) (body : List Nat) (o1 : Nat) (body1 : List Nat),
          ps[i]? = some (o, body) → ps[i + 1]? = some (o1, body1) →
          4096 ∣ o1 ∧ o + body.length ≤ o1 ∧ o < o1
            ∧ ∀ x, 4096 ∣ x → o + body.length ≤ x → o1 ≤ x)
      ∧ ∀ (i : Nat) (m : mach) (o : Nat) (body : List Nat), arches[i]? = some m →
          ps[i]? = some (o, body) →
          m.write host o = some body
            ∧ decode MACH_MSB ((file.drop (8 + 20 * i + 8)).take 4) = o
            ∧ decode MACH_MSB ((file.drop (8 + 20 * i + 12)).take 4) = body.length
            ∧ (arches.length ≤ 204 → (file.drop o).take body.length = body) := by
  have hnw : ∀ q ∈ ps, q.1 + q.2.length ≤ 2 ^ 64 - 4096 := fun q hq => by
    have := hfit q hq
    omega
  obtain ⟨l1, l2, l3, l4⟩ := fat_placements_layout hps hnw (by decide : 4096 ∣ MACH_ALIGN)
  obtain ⟨-, f2, f3⟩ := make_fat_layout hn h hps hnw
  refine ⟨l1, ?_, ?_, ?_, ?_⟩
  · cases hps0 : ps[0]? with
    | none =>
      rw [List.getElem?_eq_none_iff] at hps0
      omega
    | some q =>
      obtain ⟨o, b⟩ := q
      have := l3 o b hps0
      subst this
      exact ⟨b, rfl⟩
  · intro i o body hp
    obtain ⟨a1, a2, -, -⟩ := l2 i o body hp
    simp only [MACH_ALIGN] at a2
    exact ⟨a1, by omega⟩
  · intro i o body o1 body1 hp hp1
    obtain ⟨b1, b2, b3, b4⟩ := l4 i o body o1 body1 hp hp1
    obtain ⟨c1, -, -, -⟩ := l2 (i + 1) o1 body1 hp1
    refine ⟨c1, b2, b4, ?_⟩
    intro x hx hle
    obtain ⟨c, hc⟩ := c1
    obtain ⟨d, hd⟩ := hx
    omega
  · intro i m o body hm hp
    have hq := hfit _ (fat_placements_mem hp)
    simp only at hq
    obtain ⟨-, -, -, m1, hm1, hw⟩ := l2 i o body hp
    rw [hm] at hm1
    cases hm1
    have hr := f2 i m o body hm hp
    rw [FAT_HEADER_POS_eq] at hr
    obtain ⟨w1, w2⟩ := fat_record_offset_word hr
    refine ⟨hw, ?_, ?_, fun h204 => f3 h204 i o body hp⟩
    · rw [w1, decode_msb_first, u32, Nat.mod_mod, Nat.mod_eq_of_lt (by omega)]
    · rw [w2, decode_msb_first, u32, Nat.mod_mod, Nat.mod_eq_of_lt (by omega)]

/-! ### Sample lists of images -/

/-- The loop ends when every image is placed and the positions of the records fit the type
`int`. -/
theorem fat_loop_ok {host : mach_endianness} {arches : List mach} {last : Nat}
    {ps : List (Nat × List Nat)} (hps : fat_placements host arches last = some ps)
    (i : Nat) (file : List Nat) (hint : FAT_HEADER_POS (i + arches.length) ≤ INT_MAX) :
    ∃ out, fat_loop host arches i last file = .ok out := by
  induction arches generalizing i last file ps with
  | nil => exact ⟨file, rfl⟩
  | cons m rest ih =>
    obtain ⟨body, ps1, hb, hps1, -⟩ := fat_placements_cons hps
    have hi : ¬ INT_MAX < FAT_HEADER_POS i := by
      rw [FAT_HEADER_POS_eq] at hint ⊢
      rw [List.length_cons] at hint
      omega
    simp only [fat_loop, hb, if_neg hi]
    exact ih hps1 (i + 1) _ (by
      rw [List.length_cons] at hint
      rw [show i + 1 + rest.length = i + (rest.length + 1) by omega]
      exact hint)

/-- The placements of `n` copies of an image of one page at most: a page apart. -/
theorem fat_placements_replicate {host : mach_endianness} {m : mach} {out : List Nat}
    (hm : ∀ q, 4096 ≤ q → m.write host q = some out) (hlen : out.length ≤ 4096)
    (n last : Nat) (hal : 4096 ∣ last) (h1 : 4096 ≤ last)
    (h2 : last + 4096 * n ≤ 2 ^ 63) :
    fat_placements host (List.replicate n m) last
      = some ((List.range n).map (fun j => (last + 4096 * j, out))) := by
  induction n generalizing last with
  | zero => rfl
  | succ n ih =>
    have hb := hm last h1
    have hl := mach_write_length_ge hb
    obtain ⟨r1, r2, r3⟩ := @ROUND_TO_2POW_page_spec (last + out.length) (by omega)
    have hr : ROUND_TO_2POW MACH_ALIGN (last + out.length) = last + 4096 := by
      obtain ⟨c, hc⟩ := hal
      obtain ⟨d, hd⟩ := r1
      omega
    rw [List.replicate_succ, List.range_succ_eq_map]
    simp only [fat_placements, hb, hr, List.map_cons, List.map_map, Nat.mul_zero,
      Nat.add_zero]
    rw [ih (last + 4096) (Dvd.dvd.add hal (dvd_refl _)) (by omega) (by omega)]
    simp only [Option.some.injEq, List.cons.injEq, true_and]
    apply List.map_congr_left
    intro j _
    simp only [Function.comp, Prod.mk.injEq, and_true]
    omega

set_option maxRecDepth 8000 in
theorem sample_image_write :
    ∃ out, out.length = 296 ∧ ∀ q, 4096 ≤ q → sample_image.write MACH_LSB q = some out := by
  have hw : ∃ out, sample_image.write MACH_LSB 4096 = some out
      ∧ (sample_image.write MACH_LSB 4096).map List.length = some 296 := ⟨_, rfl, rfl⟩
  obtain ⟨out, hw, hl⟩ := hw
  rw [hw] at hl
  have hlen : out.length = 296 := Option.some.inj hl
  exact ⟨out, hlen, fun q hq => mach_write_startpos hw (by omega)⟩

/-- The output of `make_fat` for `n` copies of `sample_image`, 2 at least. -/
theorem sample_fat (n : Nat) (hn : 2 ≤ n) (hmax : n ≤ 1000) :
    ∃ file out, out.length = 296
      ∧ (∀ q, 4096 ≤ q → sample_image.write MACH_LSB q = some out)
      ∧ make_fat MACH_LSB (List.replicate n sample_image) = .written file
      ∧ fat_placements MACH_LSB (List.replicate n sample_image) MACH_ALIGN
          = some ((List.range n).map (fun j => (4096 + 4096 * j, out))) := by
  obtain ⟨out, hlen, hw⟩ := sample_image_write
  have hps := fat_placements_replicate hw (by omega) n 4096 (dvd_refl _) (le_refl _)
    (by omega)
  have hl : (List.replicate n sample_image).length = n := List.length_replicate _ _
  obtain ⟨file, hf⟩ := fat_loop_ok hps 0
    (_write MACH_LSB MACH_MSB 4 FAT_MAGIC
      ++ _write MACH_LSB MACH_MSB 4 (u32 (List.replicate n sample_image).length))
    (by rw [FAT_HEADER_POS_eq, hl]; simp only [INT_MAX]; omega)
  exact ⟨file, out, hlen, hw, make_fat_of_loop (by omega) hf, hps⟩

theorem make_fat_index_witness :
    ∃ file, make_fat MACH_LSB [sample_image, sample_image] = .written file
      ∧ file.take 8 = [0xca, 0xfe, 0xba, 0xbe, 0, 0, 0, 2]
      ∧ (file.drop 28).take 20
          = [1, 0, 0, 7, 0, 0, 0, 3, 0, 0, 0x20, 0, 0, 0, 1, 0x28, 0, 0, 0, 0] := by
  obtain ⟨file, out, hlen, hw, hf, hps⟩ := sample_fat 2 (le_refl _) (by decide)
  have hps1 : fat_placements MACH_LSB [sample_image, sample_image] MACH_ALIGN
      = some [(4096, out), (8192, out)] := hps
  obtain ⟨-, h8, -, hrec⟩ := make_fat_index MACH_LSB [sample_image, sample_image] file
    [(4096, out), (8192, out)] (by decide) hf hps1 (by
      intro q hq
      simp only [List.mem_cons, List.mem_singleton, List.not_mem_nil, or_false] at hq
      rcases hq with rfl | rfl <;> simp only [hlen] <;> decide)
  obtain ⟨-, hr, -, -, -⟩ := hrec 1 sample_image 8192 out rfl rfl
  rw [hlen] at hr
  exact ⟨file, hf, h8, hr⟩

theorem make_fat_offsets_witness :
    ∃ file out, make_fat MACH_LSB [sample_image, sample_image, sample_image] = .written file
      ∧ fat_placements MACH_LSB [sample_image, sample_image, sample_image] MACH_ALIGN
          = some [(4096, out), (8192, out), (12288, out)]
      ∧ decode MACH_MSB ((file.drop (8 + 20 * 2 + 8)).take 4) = 12288
      ∧ decode MACH_MSB ((file.drop (8 + 20 * 2 + 12)).take 4) = 296
      ∧ (file.drop 12288).take 296 = out := by
  obtain ⟨file, out, hlen, hw, hf, hps⟩ := sample_fat 3 (by decide) (by decide)
  have hps1 : fat_placements MACH_LSB [sample_image, sample_image, sample_image] MACH_ALIGN
      = some [(4096, out), (8192, out), (12288, out)] := hps
  obtain ⟨-, -, -, -, hrec⟩ := make_fat_offsets MACH_LSB
    [sample_image, sample_image, sample_image] file
    [(4096, out), (8192, out), (12288, out)] (by decide) hf hps1 (by
      intro q hq
      simp only [List.mem_cons, List.mem_singleton, List.not_mem_nil, or_false] at hq
      rcases hq with rfl | rfl | rfl <;> simp only [hlen] <;> decide)
  obtain ⟨-, h1, h2, h3⟩ := hrec 2 sample_image 12288 out rfl rfl
  rw [hlen] at h2 h3
  exact ⟨file, out, hf, hps1, h1, h2, h3 (by decide)⟩

/-- The image `sample_wide_image` is written, at any position, in 84 + 2^32 bytes. -/
theorem sample_wide_image_write :
    ∃ body, body.length = 4294967380
      ∧ ∀ q, sample_wide_image.write MACH_LSB q = some body := by
  have hcmds : ∃ cmds, write_commands MACH_LSB sample_wide_image.load_commands = some cmds
      ∧ cmds.length = 56 := ⟨_, rfl, rfl⟩
  obtain ⟨cmds, hc, hcl⟩ := hcmds
  have hs : sample_wide_image.size_of_commands = some 56 := rfl
  have hh : (mach_header.write MACH_LSB { sample_wide_image.header with
      ncmds := u32 sample_wide_image.load_commands.length, sizeofcmds := 56 }).length
      = 28 := by
    rw [mach_header_write_length _ _ (Or.inl rfl)]
    rfl
  have hfl : sample_wide_content.write.length = 4294967296 := by
    simp only [mach_file_segment.write, sample_wide_content, List.length_take,
      List.length_replicate, Nat.min_self]
  have hl : sample_wide_image.load_commands = _ :: _ := rfl
  refine ⟨_, ?_, fun q => @mach_write_of MACH_LSB sample_wide_image q 56 cmds _ _
    sample_wide_content hl rfl hs hc
    (by rw [List.length_append, hh, hcl]; rfl)
    (by rw [List.length_append, List.length_append, hh, hcl, hfl]; omega)⟩
  rw [List.length_append, List.length_append, hh, hcl, hfl]

theorem fat_placements_pair {host : mach_endianness} {m0 m1 : mach} {last : Nat}
    {b0 b1 : List Nat} (h0 : m0.write host last = some b0)
    (h1 : m1.write host (ROUND_TO_2POW MACH_ALIGN (last + b0.length)) = some b1) :
    fat_placements host [m0, m1] last
      = some [(last, b0), (ROUND_TO_2POW MACH_ALIGN (last + b0.length), b1)] := by
  simp only [fat_placements, h0, h1]

/-- The output of `make_fat` for `sample_wide_image` followed by `sample_image`. -/
theorem sample_wide_fat :
    ∃ file body0 body1, body0.length = 4294967380 ∧ body1.length = 296
      ∧ make_fat MACH_LSB [sample_wide_image, sample_image] = .written file
      ∧ fat_placements MACH_LSB [sample_wide_image, sample_image] MACH_ALIGN
          = some [(4096, body0), (4294975488, body1)]
      ∧ (file.drop (FAT_HEADER_POS 0)).take 20
          = fat_record MACH_LSB sample_wide_image 4096 body0.length
      ∧ (file.drop (FAT_HEADER_POS 1)).take 20
          = fat_record MACH_LSB sample_image 4294975488 body1.length
      ∧ (file.drop 4096).take body0.length = body0
      ∧ (file.drop 4294975488).take body1.length = body1 := by
  obtain ⟨body0, hlen0, hw0⟩ := sample_wide_image_write
  obtain ⟨body1, hlen1, hw1⟩ := sample_image_write
  have hr : ROUND_TO_2POW MACH_ALIGN (MACH_ALIGN + body0.length) = 4294975488 := by
    rw [hlen0]
    decide
  have hps : fat_placements MACH_LSB [sample_wide_image, sample_image] MACH_ALIGN
      = some [(4096, body0), (4294975488, body1)] := by
    have := fat_placements_pair (hw0 MACH_ALIGN)
      (hw1 (ROUND_TO_2POW MACH_ALIGN (MACH_ALIGN + body0.length)) (by rw [hr]; omega))
    rw [hr] at this
    exact this
  have hnw : ∀ q ∈ [(4096, body0), (4294975488, body1)],
      q.1 + q.2.length ≤ 2 ^ 64 - 4096 := by
    intro q hq
    simp only [List.mem_cons, List.mem_singleton, List.not_mem_nil, or_false] at hq
    rcases hq with rfl | rfl
    · simp only [hlen0]
      omega
    · simp only [hlen1]
      omega
  have h2 : 2 ≤ [sample_wide_image, sample_image].length := le_refl _
  obtain ⟨file, hf⟩ := fat_loop_ok hps 0
    (_write MACH_LSB MACH_MSB 4 FAT_MAGIC
      ++ _write MACH_LSB MACH_MSB 4 (u32 [sample_wide_image, sample_image].length))
    (by rw [FAT_HEADER_POS_eq]; simp only [INT_MAX, List.length_cons, List.length_nil]; omega)
  have hm := make_fat_of_loop h2 hf
  obtain ⟨-, f2, f3⟩ := make_fat_layout h2 hm hps hnw
  exact ⟨file, body0, body1, hlen0, hlen1, hm, hps,
    f2 0 sample_wide_image 4096 body0 rfl rfl, f2 1 sample_image 4294975488 body1 rfl rfl,
    f3 (by simp only [List.length_cons, List.length_nil]; omega) 0 4096 body0 rfl,
    f3 (by simp only [List.length_cons, List.length_nil]; omega) 1 4294975488 body1 rfl⟩

/-- C23, counterexample: `make_fat` writes `sample_wide_image`, of 2^32 + 84 bytes, at the
offset 4096 and `sample_image` after it at the offset 2^32 + 8192; the third word of the
record of the second image, at the position 8 + 20 + 8, is 8192, not that offset. -/
theorem fat_record_offset_counterexample :
    ∃ file body0 body1, make_fat MACH_LSB [sample_wide_image, sample_image] = .written file
      ∧ fat_placements MACH_LSB [sample_wide_image, sample_image] MACH_ALIGN
          = some [(4096, body0), (4294975488, body1)]
      ∧ (file.drop 4294975488).take body1.length = body1
      ∧ (file.drop (8 + 20 * 1 + 8)).take 4 = [0, 0, 0x20, 0]
      ∧ decode MACH_MSB ((file.drop (8 + 20 * 1 + 8)).take 4) = 8192 := by
  obtain ⟨file, body0, body1, -, -, hm, hps, -, r1, -, b1⟩ := sample_wide_fat
  obtain ⟨w1, -⟩ := fat_record_offset_word r1
  have e : (file.drop (8 + 20 * 1 + 8)).take 4 = [0, 0, 0x20, 0] := by
    have : FAT_HEADER_POS 1 + 8 = 8 + 20 * 1 + 8 := rfl
    rw [← this, w1]
    decide
  exact ⟨file, body0, body1, hm, hps, b1, e, by rw [e]; decide⟩

/-- C24, counterexample: `make_fat` writes `sample_wide_image` at the offset 4096 in
2^32 + 84 bytes, which the output holds from that offset on; the size stored in its record,
the word at the position 8 + 12, is 84. -/
theorem fat_record_size_counterexample :
    ∃ file body0 body1, make_fat MACH_LSB [sample_wide_image, sample_image] = .written file
      ∧ fat_placements MACH_LSB [sample_wide_image, sample_image] MACH_ALIGN
          = some [(4096, body0), (4294975488, body1)]
      ∧ body0.length = 4294967380
      ∧ (file.drop 4096).take body0.length = body0
      ∧ decode MACH_MSB ((file.drop (8 + 20 * 0 + 12)).take 4) = 84 := by
  obtain ⟨file, body0, body1, hlen0, -, hm, hps, r0, -, b0, -⟩ := sample_wide_fat
  obtain ⟨-, w2⟩ := fat_record_offset_word r0
  have e : (file.drop (8 + 20 * 0 + 12)).take 4 = [0, 0, 0, 84] := by
    have : FAT_HEADER_POS 0 + 12 = 8 + 20 * 0 + 12 := rfl
    rw [← this, w2, hlen0]
    decide
  exact ⟨file, body0, body1, hm, hps, hlen0, b0, by rw [e]; decide⟩

/-! ### The records and the images -/

theorem msb_first_last_byte (v : Nat) : (msb_first 4 v)[3]? = some (v % 256) := by
  simp [msb_first, byte_of]

theorem fat_record_byte_eleven (host : mach_endianness) (m : mach) {o : Nat} (size : Nat)
    (ho : 4096 ∣ o) : (fat_record host m o size)[11]? = some 0 := by
  rw [fat_record_eq, List.getElem?_append_right (by rw [msb_first_length]; omega),
    msb_first_length, List.getElem?_append_right (by rw [msb_first_length]; omega),
    msb_first_length, List.getElem?_append_left (by rw [msb_first_length]; omega)]
  rw [show 11 - 4 - 4 = 3 from rfl, msb_first_last_byte]
  obtain ⟨c, hc⟩ := ho
  simp only [u32, Option.some.injEq]
  omega

theorem mach_write_fourth_byte {host : mach_endianness} {m : mach} {startpos : Nat}
    {body : List Nat} (h : m.write host startpos = some body) : body[3]? ≠ some 0 := by
  have hm := mach_write_magic h
  have hb := magic_bytes host m.header.endian m.header.bits
  rw [← hm] at hb
  rw [← List.getElem?_take_of_lt (show 3 < 4 by omega)]
  rcases hb with hb | hb | hb | hb <;> rw [hb] <;> decide

/-- C26 fails on the code for 205 images or more: for every list of two images or more
that `make_fat` writes, none ending beyond 2^64 - 4096, with 204 images at most the records
end before the offset 4096 of the first image, lie apart from every image, and the output
holds every image at its offset; with 205 images or more the records reach into the first
image, and the record of index 204, written at the position 4088 after that image, replaces
its first bytes: the byte at the position 4099 is then 0, which is not the fourth byte of
the magic number of the image. -/
theorem make_fat_records_and_images (host : mach_endianness) (arches : List mach)
    (file : List Nat) (ps : List (Nat × List Nat)) (hn : 2 ≤ arches.length)
    (h : make_fat host arches = .written file)
    (hps : fat_placements host arches MACH_ALIGN = some ps)
    (hnw : ∀ q ∈ ps, q.1 + q.2.length ≤ 2 ^ 64 - 4096) :
    (arches.length ≤ 204 →
        ∀ (i o : Nat) (body : List Nat), ps[i]? = some (o, body) →
          disjoint_ranges 8 (20 * arches.length) o body.length
            ∧ (file.drop o).take body.length = body)
      ∧ (205 ≤ arches.length →
          ∃ body0 m o body, ps[0]? = some (4096, body0) ∧ arches[204]? = some m
            ∧ ps[204]? = some (o, body)
            ∧ ¬ disjoint_ranges 8 (20 * arches.length) 4096 body0.length
            ∧ (file.drop 4088).take 20 = fat_record host m o body.length
            ∧ file[4099]? = some 0 ∧ body0[3]? ≠ some 0
            ∧ (file.drop 4096).take body0.length ≠ body0) := by
  obtain ⟨l1, l2, l3, -⟩ := fat_placements_layout hps hnw (by decide : 4096 ∣ MACH_ALIGN)
  obtain ⟨-, f2, f3⟩ := make_fat_layout hn h hps hnw
  constructor
  · intro h204 i o body hp
    obtain ⟨-, a2, -, -⟩ := l2 i o body hp
    simp only [MACH_ALIGN] at a2
    exact ⟨Or.inl (by omega), f3 h204 i o body hp⟩
  · intro h205
    have hloop := make_fat_written hn h
    have hlast : FAT_HEADER_POS 0 + 20 ≤ MACH_ALIGN := by decide
    cases hp0 : ps[0]? with
    | none =>
      rw [List.getElem?_eq_none_iff] at hp0
      omega
    | some q0 =>
    cases hp4 : ps[204]? with
    | none =>
      rw [List.getElem?_eq_none_iff] at hp4
      omega
    | some q4 =>
    obtain ⟨o0, body0⟩ := q0
    obtain ⟨o, body⟩ := q4
    have := l3 o0 body0 hp0
    subst this
    obtain ⟨-, -, hlen0, m0, -, hw0⟩ := l2 0 _ body0 hp0
    obtain ⟨ho, -, -, m, hm, -⟩ := l2 204 o body hp4
    have hr := f2 204 m o body hm hp4
    have hbyte : file[4099]? = some 0 := by
      have := fat_loop_records hloop hps hnw hlast 204 m o body hm hp4 11 (by omega)
      rw [fat_record_byte_eleven host m body.length ho] at this
      exact this
    have hb3 := mach_write_fourth_byte hw0
    refine ⟨body0, m, o, body, rfl, hm, rfl, ?_, hr, hbyte, hb3, ?_⟩
    · simp only [disjoint_ranges]
      omega
    · intro heq
      apply hb3
      rw [← heq, List.getElem?_take_of_lt (by omega), List.getElem?_drop]
      exact hbyte

theorem make_fat_records_and_images_witness :
    (∃ file, make_fat MACH_LSB (List.replicate 205 sample_image) = .written file
        ∧ file[4099]? = some 0)
      ∧ ∃ file out, make_fat MACH_LSB [sample_image, sample_image] = .written file
          ∧ (file.drop 8192).take 296 = out
          ∧ sample_image.write MACH_LSB 8192 = some out := by
  constructor
  · obtain ⟨file, out, hlen, hw, hf, hps⟩ := sample_fat 205 (by decide) (by decide)
    have hl : (List.replicate 205 sample_image).length = 205 := List.length_replicate _ _
    obtain ⟨-, h2⟩ := make_fat_records_and_images MACH_LSB (List.replicate 205 sample_image)
      file _ (by rw [hl]; decide) hf hps (by
        intro q hq
        obtain ⟨j, hj, rfl⟩ := List.mem_map.1 hq
        rw [List.mem_range] at hj
        simp only [hlen]
        omega)
    obtain ⟨body0, m, o, body, -, -, -, -, -, hb, -, -⟩ := h2 (by rw [hl])
    exact ⟨file, hf, hb⟩
  · obtain ⟨file, out, hlen, hw, hf, hps⟩ := sample_fat 2 (le_refl _) (by decide)
    have hps1 : fat_placements MACH_LSB [sample_image, sample_image] MACH_ALIGN
        = some [(4096, out), (8192, out)] := hps
    obtain ⟨h1, -⟩ := make_fat_records_and_images MACH_LSB [sample_image, sample_image]
      file [(4096, out), (8192, out)] (by decide) hf hps1 (by
        intro q hq
        simp only [List.mem_cons, List.mem_singleton, List.not_mem_nil, or_false] at hq
        rcases hq with rfl | rfl <;> simp only [hlen] <;> decide)
    obtain ⟨-, hb⟩ := h1 (by decide) 1 8192 out rfl
    rw [hlen] at hb
    exact ⟨file, out, hf, hb, hw 8192 (by decide)⟩

/-! ### The batch of inputs -/

/-- The loop of `main` when every failure of `convert` is an exception thrown as a pointer:
the images are collected in the order of the inputs and the status records a failure. -/
theorem translate_batch_caught (inputs : List Elf) (arches : List mach) (r : Nat)
    (hc : ∀ elf ∈ inputs, ∀ f, convert elf = .error f → ∃ msg, f = .thrown_ptr msg) :
    translate_batch inputs arches r
      = .ok (arches ++ translated inputs, if all_translated inputs then r else 1) := by
  induction inputs generalizing arches r with
  | nil => simp [translate_batch, translated, all_translated]
  | cons elf rest ih =>
    have hrest : ∀ e ∈ rest, ∀ f, convert e = .error f → ∃ msg, f = .thrown_ptr msg :=
      fun e he => hc e (List.mem_cons_of_mem _ he)
    cases hcv : convert elf with
    | ok m =>
      simp only [translate_batch, hcv, ih _ _ hrest, translated, all_translated,
        List.filterMap_cons, List.all_cons, Bool.true_and, List.append_assoc,
        List.singleton_append]
    | error f =>
      obtain ⟨msg, rfl⟩ := hc elf (List.mem_cons_self _ _) f hcv
      simp only [translate_batch, hcv, ih _ _ hrest, translated, all_translated,
        List.filterMap_cons, List.all_cons, Bool.false_and, if_true]
      simp

/-- C27 fails on the code: for the machine of the ARM, which the lookup table holds,
`convert` throws the exception "unimplemented CPU type support" by value, which the handler
of `main`, for pointers, does not catch; on the batch of that input followed by the small
executable, which `convert` translates, the program ends there, and nothing is handed to
`make_fat`. For a batch in which every failure of `convert` is an exception thrown as a
pointer, `main`, when it returns, has handed the translated images to `make_fat` in the
order of the inputs and returns a non-zero status exactly when some input failed or no
image was translated. -/
theorem main_stops_at_uncaught_exception (host : mach_endianness) :
    convert sample_elf_arm = .error (.thrown_val "unimplemented CPU type support")
      ∧ (∃ m, convert sample_elf = .ok m)
      ∧ main host [sample_elf_arm, sample_elf]
          = .terminated (.thrown_val "unimplemented CPU type support")
      ∧ ∀ inputs : List Elf,
          (∀ elf ∈ inputs, ∀ f, convert elf = .error f → ∃ msg, f = .thrown_ptr msg) →
          translate_batch inputs [] 0
              = .ok (translated inputs, if all_translated inputs then 0 else 1)
            ∧ ∀ status arches output, main host inputs = .exited status arches output →
                inputs ≠ [] → arches = some (translated inputs)
                  ∧ (status ≠ 0 ↔ (all_translated inputs = false ∨ translated inputs = [])) := by
  refine ⟨rfl, ⟨_, rfl⟩, rfl, ?_⟩
  intro inputs hc
  have hb := translate_batch_caught inputs [] 0 hc
  rw [List.nil_append] at hb
  refine ⟨hb, ?_⟩
  intro status arches output hmain hne
  have hlen : ¬ inputs.length = 0 := fun h0 => hne (List.length_eq_zero.1 h0)
  simp only [main, if_neg hlen, hb] at hmain
  cases hf : make_fat host (translated inputs) with
  | not_opened e =>
    obtain ⟨hnil, rfl⟩ := make_fat_not_opened hf
    simp only [hf, run_result.exited.injEq] at hmain
    obtain ⟨rfl, rfl, -⟩ := hmain
    exact ⟨rfl, by simp [hnil]⟩
  | aborted e => simp [hf] at hmain
  | written file =>
    simp only [hf, run_result.exited.injEq] at hmain
    obtain ⟨rfl, rfl, -⟩ := hmain
    have hnn : translated inputs ≠ [] := by
      intro hnil
      rw [hnil] at hf
      cases hf
    refine ⟨rfl, ?_⟩
    cases hall : all_translated inputs <;> simp [hnn]

/-! ### The least multiple of the page size -/

/-- C31: for every 64-bit `v` with `v ≤ 2^64 - 4096`, `ROUND_TO_2POW(4096, v)` is the
least multiple of 4096 that is not below `v`: it is a multiple of 4096, it is at least `v`,
every multiple of 4096 that is at least `v` is at least it, it equals `v` when `v` is a
multiple of 4096 and is below `v + 4096` otherwise; for a larger 64-bit `v` the sum wraps
and the result is 0. -/
theorem ROUND_TO_2POW_least_multiple (v : Nat) (hv : v < 2 ^ 64) :
    (v ≤ 2 ^ 64 - 4096 →
        4096 ∣ ROUND_TO_2POW MACH_ALIGN v ∧ v ≤ ROUND_TO_2POW MACH_ALIGN v
          ∧ (∀ k, 4096 ∣ k → v ≤ k → ROUND_TO_2POW MACH_ALIGN v ≤ k)
          ∧ (4096 ∣ v → ROUND_TO_2POW MACH_ALIGN v = v)
          ∧ (¬ 4096 ∣ v → ROUND_TO_2POW MACH_ALIGN v < v + 4096))
      ∧ (2 ^ 64 - 4096 < v → ROUND_TO_2POW MACH_ALIGN v = 0) := by
  rw [ROUND_TO_2POW_page]
  refine ⟨fun hle => ?_, fun hgt => ?_⟩
  · have hm : (v + 4095) % 2 ^ 64 = v + 4095 := Nat.mod_eq_of_lt (by omega)
    rw [hm]
    refine ⟨Nat.dvd_mul_left _ _, by omega, ?_, ?_, by omega⟩
    · rintro k ⟨q, rfl⟩ hk
      have : (v + 4095) / 4096 ≤ q := by omega
      omega
    · rintro ⟨q, rfl⟩
      omega
  · have hm : (v + 4095) % 2 ^ 64 = v + 4095 - 2 ^ 64 := by omega
    rw [hm]
    omega

theorem ROUND_TO_2POW_least_multiple_witness :
    ROUND_TO_2POW MACH_ALIGN 5 = 4096 ∧ ROUND_TO_2POW MACH_ALIGN 8192 = 8192
      ∧ ROUND_TO_2POW MACH_ALIGN (2 ^ 64 - 1) = 0 := by
  obtain ⟨h1, -⟩ := ROUND_TO_2POW_least_multiple 5 (by decide)
  obtain ⟨h2, -⟩ := ROUND_TO_2POW_least_multiple 8192 (by decide)
  obtain ⟨-, h3⟩ := ROUND_TO_2POW_least_multiple (2 ^ 64 - 1) (by decide)
  obtain ⟨⟨q, hq⟩, hge, -, -, hlt⟩ := h1 (by decide)
  have hlt := hlt (by decide)
  exact ⟨by omega, (h2 (by decide)).2.2.2.1 (by decide), h3 (by decide)⟩

/-! ### The geometry of the sections -/

/-- The halving loop of the logarithm finds the exponent of a power of two. -/
theorem log2_floor_pow {fuel k : Nat} (h : k < fuel) : log2_floor fuel (2 ^ k) = k := by
  induction fuel generalizing k with
  | zero => omega
  | succ n ih =>
    cases k with
    | zero => simp [log2_floor]
    | succ j =>
      have h2 : ¬ 2 ^ (j + 1) < 2 := by
        have : 0 < 2 ^ j := Nat.two_pow_pos j
        rw [Nat.pow_succ]
        omega
      have hd : 2 ^ (j + 1) / 2 = 2 ^ j := by
        rw [Nat.pow_succ]
        exact Nat.mul_div_cancel _ (by decide)
      simp only [log2_floor, if_neg h2, hd]
      rw [ih (by omega)]

/-- The alignment field for an alignment of `2^k` that a 64-bit field holds. -/
theorem c_log2_pow {k : Nat} (h : k < 64) : c_log2 (2 ^ k) = k := by
  simp only [c_log2, log2_floor_pow h, u32]
  omega

/-- The seven destination sections after the first loop has read the eight sections of the
inventory. -/
theorem first_loop_eight_sections {s0 s1 s2 s3 s4 s5 s6 s7 : Elf_Scn}
    {rest : List (Option Elf_Scn)} {st0 st : convert_state}
    (h : first_loop 0 (some s0 :: some s1 :: some s2 :: some s3 :: some s4 :: some s5
      :: some s6 :: some s7 :: rest) st0 = .ok st) :
    st.sc_text = { st0.sc_text with
        addr := s1.sh_addr, size := s1.sh_size, offset := u32 s1.sh_offset,
        align := c_log2 s1.sh_addralign }
      ∧ st.sc_rodata = { st0.sc_rodata with
        addr := s2.sh_addr, size := s2.sh_size, offset := u32 s2.sh_offset,
        align := c_log2 s2.sh_addralign }
      ∧ st.sc_data = { st0.sc_data with
        addr := s3.sh_addr, size := s3.sh_size, offset := u32 s3.sh_offset,
        align := c_log2 s3.sh_addralign }
      ∧ st.sc_pinit = { st0.sc_pinit with
        addr := s4.sh_addr, size := s4.sh_size, offset := u32 s4.sh_offset,
        align := c_log2 s4.sh_addralign }
      ∧ st.sc_init = { st0.sc_init with
        addr := s5.sh_addr, size := s5.sh_size, offset := u32 s5.sh_offset,
        align := c_log2 s5.sh_addralign }
      ∧ st.sc_fini = { st0.sc_fini with
        addr := s6.sh_addr, size := s6.sh_size, offset := u32 s6.sh_offset,
        align := c_log2 s6.sh_addralign }
      ∧ st.sc_bss = { st0.sc_bss with
        addr := s7.sh_addr, size := s7.sh_size, align := c_log2 s7.sh_addralign } := by
  obtain ⟨t1, h0, h⟩ := first_loop_cons_ok h
  obtain ⟨t2, h1, h⟩ := first_loop_cons_ok h
  obtain ⟨t3, h2, h⟩ := first_loop_cons_ok h
  obtain ⟨t4, h3, h⟩ := first_loop_cons_ok h
  obtain ⟨t5, h4, h⟩ := first_loop_cons_ok h
  obtain ⟨t6, h5, h⟩ := first_loop_cons_ok h
  obtain ⟨t7, h6, h⟩ := first_loop_cons_ok h
  obtain ⟨t8, h7, h⟩ := first_loop_cons_ok h
  have h8 := first_loop_ge_eight (by omega) h
  subst h8
  simp only [layout_section, throw_new] at h0 h1 h2 h3 h4 h5 h6 h7
  split at h0
  · cases h0
  split at h1
  · cases h1
  split at h2
  · cases h2
  split at h3
  · cases h3
  split at h4
  · cases h4
  split at h5
  · cases h5
  split at h6
  · cases h6
  split at h7
  · cases h7
  cases h0
  cases h1
  cases h2
  cases h3
  cases h4
  cases h5
  cases h6
  cases h7
  exact ⟨rfl, rfl, rfl, rfl, rfl, rfl, rfl⟩

/-- The geometry of a destination section assigned from the source section `s`. -/
theorem carries_geometry_of (c : mach_section) (s : Elf_Scn) (off : Nat) :
    carries_geometry { c with
      addr := s.sh_addr, size := s.sh_size, offset := off,
      align := c_log2 s.sh_addralign } s := by
  refine ⟨rfl, rfl, fun k hk ha => ?_⟩
  show c_log2 s.sh_addralign = k
  rw [ha, c_log2_pow hk]

/-- C32: in every image returned by a successful `convert` on a source whose first eight
sections are `s0` to `s7`, the seven destination sections (one in each of the segments
`__TEXT`, `__RODATA` and `__BSS`, four in `__DATA`) carry the geometry of the source
sections 1 to 7: the address is the source virtual address and the size the source size for
all seven; the file offset is the source file offset reduced modulo 2^32 for the six
sections with bytes in the file, and 0 for `__bss`; the alignment field is `k` whenever the
source alignment is `2^k`, `k < 64`. -/
theorem convert_section_geometry (elf : Elf) (m : mach)
    (s0 s1 s2 s3 s4 s5 s6 s7 : Elf_Scn) (rest : List (Option Elf_Scn))
    (hsec : elf.sections = some s0 :: some s1 :: some s2 :: some s3 :: some s4 :: some s5
      :: some s6 :: some s7 :: rest)
    (h : convert elf = .ok m) :
    ∃ tx ro da bs c1 c2 c3 c4 c5 c6 c7,
      m.load_commands[1]? = some (.segment tx) ∧ tx.sections = [c1]
      ∧ m.load_commands[2]? = some (.segment ro) ∧ ro.sections = [c2]
      ∧ m.load_commands[3]? = some (.segment da) ∧ da.sections = [c3, c4, c5, c6]
      ∧ m.load_commands[4]? = some (.segment bs) ∧ bs.sections = [c7]
      ∧ (carries_geometry c1 s1 ∧ c1.offset = s1.sh_offset % 2 ^ 32)
      ∧ (carries_geometry c2 s2 ∧ c2.offset = s2.sh_offset % 2 ^ 32)
      ∧ (carries_geometry c3 s3 ∧ c3.offset = s3.sh_offset % 2 ^ 32)
      ∧ (carries_geometry c4 s4 ∧ c4.offset = s4.sh_offset % 2 ^ 32)
      ∧ (carries_geometry c5 s5 ∧ c5.offset = s5.sh_offset % 2 ^ 32)
      ∧ (carries_geometry c6 s6 ∧ c6.offset = s6.sh_offset % 2 ^ 32)
      ∧ (carries_geometry c7 s7 ∧ c7.offset = 0) := by
  obtain ⟨st, cs, soh, origin, ht, -, -, rfl⟩ := convert_ok h
  obtain ⟨eh, cpu, state, fsg, -, -, -, hfl, -, -, -⟩ := translate_ok ht
  rw [hsec] at hfl
  obtain ⟨e1, e2, e3, e4, e5, e6, e7⟩ := first_loop_eight_sections hfl
  refine ⟨_, _, _, _, st.sc_text, st.sc_rodata, st.sc_data, st.sc_pinit, st.sc_init,
    st.sc_fini, st.sc_bss, rfl, rfl, rfl, rfl, rfl, rfl, rfl, rfl, ?_, ?_, ?_, ?_, ?_, ?_, ?_⟩
  · rw [e1]; exact ⟨carries_geometry_of _ _ _, rfl⟩
  · rw [e2]; exact ⟨carries_geometry_of _ _ _, rfl⟩
  · rw [e3]; exact ⟨carries_geometry_of _ _ _, rfl⟩
  · rw [e4]; exact ⟨carries_geometry_of _ _ _, rfl⟩
  · rw [e5]; exact ⟨carries_geometry_of _ _ _, rfl⟩
  · rw [e6]; exact ⟨carries_geometry_of _ _ _, rfl⟩
  · rw [e7]
    exact ⟨carries_geometry_of _ _ _, rfl⟩

theorem convert_section_geometry_witness :
    ∃ m tx c1, convert sample_elf = .ok m ∧ m.load_commands[1]? = some (.segment tx)
      ∧ tx.sections = [c1] ∧ c1.addr = 0x1360 ∧ c1.size = 5 ∧ c1.offset = 0x360
      ∧ c1.align = 2 := by
  obtain ⟨m, hm⟩ : ∃ m, convert sample_elf = .ok m := ⟨_, rfl⟩
  obtain ⟨tx, ro, da, bs, c1, c2, c3, c4, c5, c6, c7, htx, hc1, -, -, -, -, -, -,
      ⟨⟨ha, hs, hal⟩, ho⟩, -⟩ :=
    convert_section_geometry sample_elf m _ _ _ _ _ _ _ _ [] rfl hm
  exact ⟨m, tx, c1, hm, htx, hc1, ha, hs, ho, hal 2 (by decide) rfl⟩

/-! ### The size of the headers -/

/-- The difference of the address of section 1 and the origin, in 64-bit arithmetic, is
the file offset of the section. -/
theorem sub64_origin (a o : Nat) : sub64 a (sub64 a o) = o % 2 ^ 64 := by
  simp only [sub64]
  omega

/-- The number of 32-bit words of the payload, by cpu type. -/
theorem entry_state_count {cpu_type bits e_entry : Nat} {endian : mach_endianness}
    {state : thread_state} (hs : entry_state cpu_type bits endian e_entry = some state) :
    state.count = if cpu_type = CPU_TYPE_X86 then 16
      else if cpu_type = CPU_TYPE_X86_64 then 42 else 40 := by
  rcases entry_state_cases hs with ⟨hc, rfl⟩ | ⟨hc, rfl⟩ | ⟨hc, rfl⟩
  · rw [if_pos hc]
    rfl
  · rw [hc, if_neg (by decide), if_pos rfl]
    rfl
  · rw [hc, if_neg (by decide), if_neg (by decide)]
    rfl

/-- The size of the headers of an image built by `convert`, from its word width and its
cpu type. -/
theorem convert_headers_size {elf : Elf} {m : mach} (h : convert elf = .ok m) :
    (m.bits = 32 ∨ m.bits = 64) ∧ m.header.bits = m.bits
      ∧ ∃ th state, m.load_commands[5]? = some (.unixthread th) ∧ th.state = some state
        ∧ state.count = (if m.header.cpu.type = CPU_TYPE_X86 then 16
            else if m.header.cpu.type = CPU_TYPE_X86_64 then 42 else 40)
        ∧ m.size_of_headers = some ((if m.bits = 32 then 28 else 32)
            + ((if m.bits = 32 then 756 else 920) + 16 + 4 * state.count)) := by
  obtain ⟨st, cs, soh, origin, ht, -, -, rfl⟩ := convert_ok h
  obtain ⟨eh, cpu, state, -, -, hstate, hsk⟩ := translate_skeleton ht
  obtain ⟨-, -, -, -, -, hth, -, hbits⟩ := skeleton_names hsk
  have hcpu : st.header.cpu = cpu := congrArg (fun x => x.header.cpu) hsk
  have hhb : st.header.bits = class_bits eh := congrArg (fun x => x.header.bits) hsk
  have hmb : (st.image cs.file_segments).bits = class_bits eh := hbits
  have hmh : (st.image cs.file_segments).header = st.header := rfl
  have hcb : class_bits eh = 32 ∨ class_bits eh = 64 := by
    unfold class_bits
    split
    · exact Or.inl rfl
    · exact Or.inr rfl
  rw [hmb, hmh, hhb, hcpu]
  exact ⟨hcb, rfl, st.th_unix, state, rfl, hth, entry_state_count hstate,
    size_of_headers_of_skeleton hsk _⟩

/-- C33: for every image built by `convert`, `size_of_headers()` is the size of the header,
of five segment headers, of seven section records and of the thread command (16 bytes and
4 bytes for each of the `count` words of its payload); it depends on the word width and the
cpu type only, and is 864 for 32-bit x86, 960 for 32-bit PowerPC and 1136 for 64-bit
x86-64. It is the file offset of the source section 1 modulo 2^64: `convert` succeeds only
on a source whose section 1 starts at exactly that file offset. -/
theorem convert_size_of_headers (elf : Elf) (m : mach) (h : convert elf = .ok m) :
    ∃ soh s1 th state, m.size_of_headers = some soh
      ∧ elf.sections[1]? = some (some s1)
      ∧ m.load_commands[5]? = some (.unixthread th) ∧ th.state = some state
      ∧ soh = m.header.structsize + 5 * (if m.bits = 32 then 56 else 72)
          + 7 * (if m.bits = 32 then 68 else 80) + 16 + 4 * state.count
      ∧ (m.bits = 32 → m.header.cpu.type = CPU_TYPE_X86 → soh = 864)
      ∧ (m.bits = 32 → m.header.cpu.type = CPU_TYPE_POWERPC → soh = 960)
      ∧ (m.bits = 64 → m.header.cpu.type = CPU_TYPE_X86_64 → soh = 1136)
      ∧ s1.sh_offset % 2 ^ 64 = soh
      ∧ (s1.sh_offset < 2 ^ 64 → s1.sh_offset = soh)
      ∧ ∀ elf2 m2, convert elf2 = .ok m2 → m2.bits = m.bits →
          m2.header.cpu.type = m.header.cpu.type → m2.size_of_headers = some soh := by
  obtain ⟨hb, hhb, th, state, hth, hst, hcount, hsoh⟩ := convert_headers_size h
  obtain ⟨s1, hs1⟩ := convert_ok_section_one h
  have hoff : m.size_of_headers = some (s1.sh_offset % 2 ^ 64) := by
    obtain ⟨st, cs, soh, origin, ht, ho, hchk, rfl⟩ := convert_ok h
    obtain ⟨eh, cpu, state1, fsg, -, -, -, hfl, -, hsoh1, -⟩ := translate_ok ht
    obtain ⟨ho1, -, -, hsc⟩ := first_loop_section_one hs1 hfl
    rw [ho1] at ho
    cases ho
    rw [hsc] at hchk
    rw [size_of_headers_image, hsoh1, ← hchk]
    exact congrArg some (sub64_origin _ _)
  have hoff2 := hoff
  rw [hsoh] at hoff2
  simp only [Option.some.injEq] at hoff2
  refine ⟨_, s1, th, state, hsoh, hs1, hth, hst, ?_, ?_, ?_, ?_, hoff2.symm, ?_, ?_⟩
  · simp only [mach_header.structsize, hhb]
    rcases hb with hb | hb <;> simp [hb] <;> omega
  · intro h32 hc
    rw [hcount, hc, h32]
    rfl
  · intro h32 hc
    rw [hcount, hc, h32]
    rfl
  · intro h64 hc
    rw [hcount, hc, h64]
    rfl
  · intro hlt
    rw [hoff2, Nat.mod_eq_of_lt hlt]
  · intro elf2 m2 h2 hbits hcpu
    obtain ⟨-, -, th2, state2, -, -, hcount2, hsoh2⟩ := convert_headers_size h2
    rw [hsoh2, hcount2, hcount, hbits, hcpu]

theorem convert_size_of_headers_witness :
    ∃ m, convert sample_elf = .ok m ∧ m.size_of_headers = some 864 := by
  obtain ⟨m, hm, hb, hc⟩ : ∃ m, convert sample_elf = .ok m ∧ m.bits = 32
      ∧ m.header.cpu.type = CPU_TYPE_X86 := ⟨_, rfl, rfl, rfl⟩
  obtain ⟨soh, s1, th, state, hsoh, -, -, -, -, h864, -⟩ :=
    convert_size_of_headers sample_elf m hm
  rw [h864 hb hc] at hsoh
  exact ⟨m, hm, hsoh⟩

/-! ### The content regions and the positions of the writes -/

/-- The buffer of the text: once it is allocated, the virtual size of the text segment is a
whole number of pages, at least one, and its difference with the size of the headers does
not wrap. -/
theorem text_region_size {off x soh : Nat} {d : List Nat} {fs : mach_file_segment}
    (h1 : 864 ≤ soh) (h2 : soh ≤ 1136)
    (h : mach_file_segment.new off (sub64 (ROUND_TO_2POW MACH_ALIGN x) soh) d = .ok fs) :
    4096 ≤ ROUND_TO_2POW MACH_ALIGN x
      ∧ fs.offset = off ∧ fs.size = ROUND_TO_2POW MACH_ALIGN x - soh
      ∧ fs.write.length = ROUND_TO_2POW MACH_ALIGN x - soh
      ∧ d.length ≤ ROUND_TO_2POW MACH_ALIGN x - soh := by
  obtain ⟨ho, hsz, hd, hmax, -, hlen, hw⟩ := mach_file_segment_new_content h
  have hlt := ROUND_TO_2POW_page_lt x
  have hq : ROUND_TO_2POW MACH_ALIGN x = (x + 4095) % 2 ^ 64 / 4096 * 4096 :=
    ROUND_TO_2POW_page x
  generalize (x + 4095) % 2 ^ 64 / 4096 = q at hq
  generalize ROUND_TO_2POW MACH_ALIGN x = vm at *
  have hp : sub64 vm soh ≤ 2 ^ 63 - 1 := hmax
  have hsub : 4096 ≤ vm ∧ sub64 vm soh = vm - soh := by
    simp only [sub64] at hp ⊢
    rw [Nat.mod_eq_of_lt hlt, Nat.mod_eq_of_lt (show soh < 2 ^ 64 by omega)] at hp ⊢
    constructor <;> omega
  rw [hw, hlen, hsz]
  rw [hsub.2] at hd
  exact ⟨hsub.1, ho, hsub.2, hsub.2, hd⟩

/-- The file offset recorded for the text section is the size of the headers when the
header check passes. -/
theorem text_offset_eq {off soh : Nat} (h : off % 2 ^ 64 = soh) (h2 : soh ≤ 1136) :
    u32 off = soh := by
  simp only [u32]
  omega

/-- The text of an image returned by `convert`: the segment, the content region and the
raw bytes of the source section 1. -/
theorem convert_text_region {elf : Elf} {m : mach} (h : convert elf = .ok m) :
    ∃ s1 d1 f1 more tx soh, elf.sections[1]? = some (some s1) ∧ s1.rawdata = [d1]
      ∧ m.size_of_headers = some soh ∧ m.file_segments = f1 :: more
      ∧ m.load_commands[1]? = some (.segment tx)
      ∧ tx.vmsize = ROUND_TO_2POW MACH_ALIGN s1.sh_size ∧ tx.filesize = tx.vmsize
      ∧ tx.fileoff = 0
      ∧ 864 ≤ soh ∧ soh ≤ 1136 ∧ 4096 ≤ tx.vmsize
      ∧ f1.offset = soh ∧ f1.size = tx.vmsize - soh ∧ f1.write.length = tx.vmsize - soh
      ∧ d1.length ≤ tx.vmsize - soh := by
  obtain ⟨st, cs, soh, origin, ht, ho, hchk, rfl⟩ := convert_ok h
  obtain ⟨eh, cpu, state, fsg, -, -, -, hfl, -, hsoh, hsl⟩ := translate_ok ht
  obtain ⟨eh1, cpu1, state1, -, -, -, hsk⟩ := translate_skeleton ht
  obtain ⟨s1, hs1⟩ := convert_ok_section_one h
  obtain ⟨ho1, -, htx, hsc⟩ := first_loop_section_one hs1 hfl
  obtain ⟨cs1, rest, hc1, -, hl2⟩ := second_loop_two hs1 hsl
  obtain ⟨d1, f1, hd1, -, hnew1, rfl⟩ := content_section_one hc1
  obtain ⟨hlo, hhi⟩ := size_of_headers_bounds hsk hsoh
  have hvm : st.sg_text.vmsize = ROUND_TO_2POW MACH_ALIGN s1.sh_size := by rw [htx]
  have hfs : st.sg_text.filesize = ROUND_TO_2POW MACH_ALIGN s1.sh_size := by rw [htx]
  have hfo : st.sg_text.fileoff = 0 := by rw [htx]; rfl
  rw [hvm] at hnew1
  obtain ⟨hpage, hoff, hsz, hwl, hdl⟩ := text_region_size hlo hhi hnew1
  have hoff2 : st.sc_text.offset = soh := by
    rw [ho1] at ho
    cases ho
    rw [hsc] at hchk ⊢
    rw [sub64_origin] at hchk
    exact text_offset_eq hchk hhi
  obtain ⟨more, hmore⟩ := second_loop_prefix hl2
  refine ⟨s1, d1, f1, more, { st.sg_text with sections := [st.sc_text] }, soh, hs1, hd1,
    hsoh, ?_, rfl, hvm, by rw [hfs, hvm], hfo, hlo, hhi, by rw [hvm]; exact hpage,
    by rw [hoff, hoff2], by rw [hvm]; exact hsz, by rw [hvm]; exact hwl,
    by rw [hvm]; exact hdl⟩
  rw [show (st.image cs.file_segments).file_segments = cs.file_segments from rfl, hmore]
  rfl

/-- What `mach::write` does on an image of three content regions: each is found where the
stream stands, and the bytes appended are the headers and the three regions. -/
theorem mach_write_three {host : mach_endianness} {m : mach} {p : Nat} {out : List Nat}
    {f1 f2 f3 : mach_file_segment} (hf : m.file_segments = [f1, f2, f3])
    (h : m.write host p = some out) :
    ∃ hdr, f1.offset = hdr.length ∧ f2.offset = hdr.length + f1.write.length
      ∧ f3.offset = hdr.length + f1.write.length + f2.write.length
      ∧ out = hdr ++ f1.write ++ f2.write ++ f3.write := by
  unfold mach.write at h
  split at h
  · cases h
  · cases hs : m.size_of_commands with
    | none => simp [mach.written_header, hs] at h
    | some soc =>
      cases hw : write_commands host m.load_commands with
      | none => simp [mach.written_header, hs, hw] at h
      | some cmds =>
        simp only [mach.written_header, hs, hw] at h
        split at h
        · cases h
        next o ho =>
        split at h
        · cases h
          rw [hf] at ho
          simp only [write_file_segments] at ho
          split at ho
          next e1 =>
            split at ho
            next e2 =>
              split at ho
              next e3 =>
                cases ho
                refine ⟨_, e1, ?_, ?_, rfl⟩
                · rw [e2, List.length_append]
                · rw [e3, List.length_append, List.length_append]
              · cases ho
            · cases ho
          · cases ho
        · cases h

/-- A buffer keeps its length under a copy that fits in it, and `mach_file_segment::write`
then sends `size` bytes. -/
theorem data_region_length {fsg : mach_file_segment} {p3 p4 p5 p6 : Nat}
    {d3 d4 d5 d6 : List Nat} (hlen : fsg.content.length = fsg.size)
    (h3 : p3 + d3.length ≤ fsg.size) (h4 : p4 + d4.length ≤ fsg.size)
    (h5 : p5 + d5.length ≤ fsg.size) (h6 : p6 + d6.length ≤ fsg.size) :
    (mach_file_segment.write { fsg with
      content := memcpy (memcpy (memcpy (memcpy fsg.content p3 d3) p4 d4) p5 d5) p6 d6 }).length
      = fsg.size := by
  have e3 : (memcpy fsg.content p3 d3).length = fsg.size := by
    rw [memcpy_length (by rw [hlen]; exact h3), hlen]
  have e4 : (memcpy (memcpy fsg.content p3 d3) p4 d4).length = fsg.size := by
    rw [memcpy_length (by rw [e3]; exact h4), e3]
  have e5 : (memcpy (memcpy (memcpy fsg.content p3 d3) p4 d4) p5 d5).length = fsg.size := by
    rw [memcpy_length (by rw [e4]; exact h5), e4]
  have e6 : (memcpy (memcpy (memcpy (memcpy fsg.content p3 d3) p4 d4) p5 d5) p6 d6).length
      = fsg.size := by
    rw [memcpy_length (by rw [e5]; exact h6), e5]
  simp only [mach_file_segment.write, List.length_take, e6, Nat.min_self]

/-- The three content regions of an image returned by `convert` on a source of eight
sections or more, with the file extents of the three segments they belong to. -/
theorem convert_three_regions {elf : Elf} {m : mach} {s0 s1 s2 s3 s4 s5 s6 s7 : Elf_Scn}
    {rest : List (Option Elf_Scn)}
    (hsec : elf.sections = some s0 :: some s1 :: some s2 :: some s3 :: some s4 :: some s5
      :: some s6 :: some s7 :: rest)
    (h : convert elf = .ok m) :
    ∃ f1 f2 f3 tx ro da soh, m.file_segments = [f1, f2, f3] ∧ m.size_of_headers = some soh
      ∧ m.load_commands[1]? = some (.segment tx) ∧ m.load_commands[2]? = some (.segment ro)
      ∧ m.load_commands[3]? = some (.segment da)
      ∧ tx.filesize = ROUND_TO_2POW MACH_ALIGN s1.sh_size
      ∧ ro.filesize = ROUND_TO_2POW MACH_ALIGN s2.sh_size
      ∧ da.filesize
          = ROUND_TO_2POW MACH_ALIGN (s3.sh_size + s4.sh_size + s5.sh_size + s6.sh_size)
      ∧ tx.fileoff = 0 ∧ ro.fileoff = s2.sh_offset ∧ da.fileoff = s3.sh_offset
      ∧ 4096 ≤ tx.filesize
      ∧ f1.offset = soh ∧ soh + f1.write.length = tx.filesize
      ∧ f2.offset = ro.fileoff ∧ f2.write.length = ro.filesize
      ∧ f3.offset = da.fileoff ∧ f3.write.length = da.filesize := by
  obtain ⟨t1, d1, f1, more, tx, soh, hs1, hd1, hsoh, hfs, htx, hvm, hfsz, hfo, hlo, hhi,
    hpage, hoff, hsz, hwl, hdl⟩ := convert_text_region h
  have hs1' : elf.sections[1]? = some (some s1) := by rw [hsec]; rfl
  rw [hs1'] at hs1
  cases hs1
  obtain ⟨st, cs, soh1, origin, ht, -, -, rfl⟩ := convert_ok h
  obtain ⟨eh, cpu, state, fsg, -, -, -, hfl, hnew, -, hsl⟩ := translate_ok ht
  rw [hsec] at hfl hsl
  obtain ⟨hro, hda, -⟩ := first_loop_eight hfl
  obtain ⟨e1, e2, e3, e4, e5, e6, g1, g2, -, -, -, -, -, -, hn1, hn2, hp3, hp4, hp5, hp6,
    hcs⟩ :=
    second_loop_seven hsl
  obtain ⟨ho2, hsz2, -, -, -, hlen2, hw2⟩ := mach_file_segment_new_content hn2
  obtain ⟨ho3, hsz3, -, -, -, hlen3, -⟩ := mach_file_segment_new_content hnew
  have hfs' : cs.file_segments = f1 :: more := hfs
  rw [hcs] at hfs'
  simp only [List.cons.injEq] at hfs'
  obtain ⟨rfl, -⟩ := hfs'
  have htx' : tx = { st.sg_text with sections := [st.sc_text] } := by
    have : (st.image cs.file_segments).load_commands[1]?
        = some (.segment { st.sg_text with sections := [st.sc_text] }) := rfl
    rw [this] at htx
    cases htx
    rfl
  refine ⟨g1, g2, _, tx, { st.sg_rodata with sections := [st.sc_rodata] },
    { st.sg_data with sections := [st.sc_data, st.sc_pinit, st.sc_init, st.sc_fini] }, soh,
    hcs, hsoh, htx, rfl, rfl, by rw [hfsz, hvm], by rw [hro], by rw [hda], hfo,
    by rw [hro], by rw [hda], by rw [hfsz]; exact hpage, hoff, ?_, ?_, ?_, ?_, ?_⟩
  · rw [hwl, hfsz]
    omega
  · rw [ho2, hro]
  · rw [hw2, hlen2, hro]
  · rw [ho3, hda]
  · rw [data_region_length (by rw [hlen3, hsz3]) hp3 hp4 hp5 hp6, hsz3, hda]

/-- The method `mach::write` completes on an image of three content regions when the
headers can be written and each region is recorded where the stream stands. -/
theorem mach_write_three_of {host : mach_endianness} {m : mach} {p : Nat} {hd : mach_header}
    {cmds : List Nat} {f1 f2 f3 : mach_file_segment} (hl : m.load_commands.length ≠ 0)
    (hf : m.file_segments = [f1, f2, f3]) (hh : m.written_header = some hd)
    (hw : write_commands host m.load_commands = some cmds)
    (h1 : f1.offset = (hd.write host ++ cmds).length)
    (h2 : f2.offset = f1.offset + f1.write.length)
    (h3 : f3.offset = f2.offset + f2.write.length)
    (hp : 4096 ≤ p + (f3.offset + f3.write.length)) :
    m.write host p = some (hd.write host ++ cmds ++ f1.write ++ f2.write ++ f3.write) := by
  have e2 : f2.offset = (hd.write host ++ cmds ++ f1.write).length := by
    rw [h2, h1, List.length_append _ f1.write]
  have e3 : f3.offset = (hd.write host ++ cmds ++ f1.write ++ f2.write).length := by
    rw [h3, e2, List.length_append _ f2.write]
  unfold mach.write
  rw [if_neg (by rw [hf]; simp [hl])]
  simp only [hh, hw, hf, write_file_segments, if_pos h1, if_pos e2, if_pos e3]
  rw [if_pos]
  rw [List.length_append _ f3.write, ← e3]
  exact hp

set_option maxRecDepth 8000 in
theorem sample_elf_write :
    ∃ m out, convert sample_elf = .ok m ∧ m.write MACH_LSB 0 = some out := by
  obtain ⟨m, hd, cmds, hm, hl, hh, hw, hlen, hs⟩ : ∃ m hd cmds, convert sample_elf = .ok m
      ∧ m.load_commands.length ≠ 0 ∧ m.written_header = some hd
      ∧ write_commands MACH_LSB m.load_commands = some cmds
      ∧ (hd.write MACH_LSB ++ cmds).length = 864 ∧ m.size_of_headers = some 864 :=
    ⟨_, _, _, rfl, by decide, rfl, rfl, by decide, rfl⟩
  obtain ⟨f1, f2, f3, tx, ro, da, soh, hf, hsoh, -, -, -, htx, hro, hda, -, hrof, hdaf, -,
    ho1, hw1, ho2, hw2, ho3, hw3⟩ := @convert_three_regions sample_elf m _ _ _ _ _ _ _ _ []
      rfl hm
  rw [hs] at hsoh
  cases hsoh
  have htx' : tx.filesize = 4096 := by rw [htx]; decide
  have hro' : ro.filesize = 4096 := by rw [hro]; decide
  have hda' : da.filesize = 4096 := by rw [hda]; decide
  have hrof' : ro.fileoff = 4096 := hrof
  have hdaf' : da.fileoff = 8192 := hdaf
  exact ⟨m, _, hm, mach_write_three_of hl hf hh hw (by rw [ho1, hlen]) (by omega) (by omega)
    (by omega)⟩

/-! ### The layout assertions of the serializer -/

/-- C34 fails on the code: `convert` returns an image for the small executable with its
read-only data at the file offset 0x1800, and `mach::write` fails on that image, for either
host and at every stream position, on the assertion that the second content region,
recorded at 0x1800, starts where the stream stands, at 864 + 3232 = 4096. In general, for a
source of eight sections or more, when `mach::write` completes on the image `convert`
returns, the file offset of section 2 is the size of section 1 rounded up to a page, and
that of section 3 follows the read-only data segment; no statement of `convert` checks
either. -/
theorem write_rejects_converted_image :
    (∃ m f1 f2, convert sample_elf_gap = .ok m ∧ m.size_of_headers = some 864
        ∧ m.file_segments[0]? = some f1 ∧ m.file_segments[1]? = some f2
        ∧ f1.offset = 864 ∧ f1.write.length = 3232 ∧ f2.offset = 0x1800
        ∧ ∀ host p, m.write host p = none)
      ∧ ∀ (host : mach_endianness) (p : Nat) (elf : Elf) (m : mach)
          (s0 s1 s2 s3 s4 s5 s6 s7 : Elf_Scn) (rest : List (Option Elf_Scn)) (out : List Nat),
          elf.sections = some s0 :: some s1 :: some s2 :: some s3 :: some s4 :: some s5
            :: some s6 :: some s7 :: rest →
          convert elf = .ok m → m.write host p = some out →
          s2.sh_offset = ROUND_TO_2POW MACH_ALIGN s1.sh_size
            ∧ s3.sh_offset = ROUND_TO_2POW MACH_ALIGN s1.sh_size
                + ROUND_TO_2POW MACH_ALIGN s2.sh_size := by
  have gen : ∀ (host : mach_endianness) (p : Nat) (elf : Elf) (m : mach)
      (s0 s1 s2 s3 s4 s5 s6 s7 : Elf_Scn) (rest : List (Option Elf_Scn)) (out : List Nat),
      elf.sections = some s0 :: some s1 :: some s2 :: some s3 :: some s4 :: some s5
        :: some s6 :: some s7 :: rest →
      convert elf = .ok m → m.write host p = some out →
      s2.sh_offset = ROUND_TO_2POW MACH_ALIGN s1.sh_size
        ∧ s3.sh_offset = ROUND_TO_2POW MACH_ALIGN s1.sh_size
            + ROUND_TO_2POW MACH_ALIGN s2.sh_size := by
    intro host p elf m s0 s1 s2 s3 s4 s5 s6 s7 rest out hsec h hw
    obtain ⟨f1, f2, f3, tx, ro, da, soh, hf, -, -, -, -, htx, hro, -, -, hrof, hdaf, -,
      ho1, hw1, ho2, hw2, ho3, -⟩ := convert_three_regions hsec h
    obtain ⟨hdr, e1, e2, e3, -⟩ := mach_write_three hf hw
    constructor <;> omega
  refine ⟨?_, gen⟩
  obtain ⟨m, hm, hs⟩ : ∃ m, convert sample_elf_gap = .ok m ∧ m.size_of_headers = some 864 :=
    ⟨_, rfl, rfl⟩
  obtain ⟨f1, f2, f3, tx, ro, da, soh, hf, hsoh, -, -, -, htx, -, -, -, hrof, -, -,
    ho1, hw1, ho2, -⟩ := @convert_three_regions sample_elf_gap m _ _ _ _ _ _ _ _ [] rfl hm
  rw [hs] at hsoh
  cases hsoh
  have htx' : tx.filesize = 4096 := by rw [htx]; decide
  have hrof' : ro.fileoff = 0x1800 := hrof
  refine ⟨m, f1, f2, hm, hs, by rw [hf]; rfl, by rw [hf]; rfl, ho1, by omega,
    by rw [ho2, hrof'], ?_⟩
  intro host p
  cases hw : m.write host p with
  | none => rfl
  | some out =>
    obtain ⟨hdr, e1, e2, -⟩ := mach_write_three hf hw
    omega

theorem write_rejects_converted_image_witness :
    ∃ m out, convert sample_elf = .ok m ∧ m.write MACH_LSB 0 = some out
      ∧ (0x1000 : Nat) = ROUND_TO_2POW MACH_ALIGN 5 := by
  obtain ⟨m, out, hm, hw⟩ := sample_elf_write
  exact ⟨m, out, hm, hw,
    (write_rejects_converted_image.2 MACH_LSB 0 sample_elf m _ _ _ _ _ _ _ _ [] out rfl hm
      hw).1⟩

/-! ### The number of bytes of a serialized image -/

/-- C35: for every image returned by a successful `convert` on a source of eight sections
or more (section 1 cannot be empty then), whenever `mach::write` completes, the number of
bytes it appended is the sum of the file sizes of the text, read-only data and data
segments; it is a multiple of 4096 and at least 4096. -/
theorem mach_write_length_of_convert (host : mach_endianness) (p : Nat) (elf : Elf)
    (m : mach) (s0 s1 s2 s3 s4 s5 s6 s7 : Elf_Scn) (rest : List (Option Elf_Scn))
    (out : List Nat)
    (hsec : elf.sections = some s0 :: some s1 :: some s2 :: some s3 :: some s4 :: some s5
      :: some s6 :: some s7 :: rest)
    (h : convert elf = .ok m) (hw : m.write host p = some out) :
    ∃ tx ro da, m.load_commands[1]? = some (.segment tx)
      ∧ m.load_commands[2]? = some (.segment ro) ∧ m.load_commands[3]? = some (.segment da)
      ∧ out.length = tx.filesize + ro.filesize + da.filesize
      ∧ 4096 ∣ out.length ∧ 4096 ≤ out.length := by
  obtain ⟨f1, f2, f3, tx, ro, da, soh, hf, -, htx, hro, hda, etx, ero, eda, -, -, -, hpage,
    ho1, hw1, -, hw2, -, hw3⟩ := convert_three_regions hsec h
  obtain ⟨hdr, e1, -, -, rfl⟩ := mach_write_three hf hw
  have hlen : (hdr ++ f1.write ++ f2.write ++ f3.write).length
      = tx.filesize + ro.filesize + da.filesize := by
    simp only [List.length_append]
    omega
  have d1 : 4096 ∣ tx.filesize := by
    rw [etx, ROUND_TO_2POW_page]
    exact Nat.dvd_mul_left _ _
  have d2 : 4096 ∣ ro.filesize := by
    rw [ero, ROUND_TO_2POW_page]
    exact Nat.dvd_mul_left _ _
  have d3 : 4096 ∣ da.filesize := by
    rw [eda, ROUND_TO_2POW_page]
    exact Nat.dvd_mul_left _ _
  refine ⟨tx, ro, da, htx, hro, hda, hlen, ?_, ?_⟩
  · rw [hlen]
    exact Nat.dvd_add (Nat.dvd_add d1 d2) d3
  · rw [hlen]
    omega

theorem mach_write_length_of_convert_witness :
    ∃ m out, convert sample_elf = .ok m ∧ m.write MACH_LSB 0 = some out
      ∧ out.length = 12288 := by
  obtain ⟨m, out, hm, hw⟩ := sample_elf_write
  obtain ⟨tx0, ro0, da0, h1, h2, h3, e1, e2, e3⟩ : ∃ tx ro da,
      m.load_commands[1]? = some (.segment tx) ∧ m.load_commands[2]? = some (.segment ro)
      ∧ m.load_commands[3]? = some (.segment da) ∧ tx.filesize = 4096 ∧ ro.filesize = 4096
      ∧ da.filesize = 4096 := by
    obtain ⟨f1, f2, f3, tx, ro, da, soh, -, -, htx, hro, hda, etx, ero, eda, -⟩ :=
      @convert_three_regions sample_elf m _ _ _ _ _ _ _ _ [] rfl hm
    exact ⟨tx, ro, da, htx, hro, hda, by rw [etx]; decide, by rw [ero]; decide,
      by rw [eda]; decide⟩
  obtain ⟨tx, ro, da, htx, hro, hda, hlen, -, -⟩ :=
    mach_write_length_of_convert MACH_LSB 0 sample_elf m _ _ _ _ _ _ _ _ [] out rfl hm hw
  rw [h1] at htx
  rw [h2] at hro
  rw [h3] at hda
  cases htx
  cases hro
  cases hda
  exact ⟨m, out, hm, hw, by omega⟩

/-! ### The file extent of the text segment -/

/-- C37: for every source image on which `convert` succeeds (its section 1 cannot be
empty then), the text content region is recorded at the offset `size_of_headers()` with
the length of the virtual size of the text segment less `size_of_headers()`; the
subtraction does not wrap, as `size_of_headers()` is at most 1136 and the virtual size at
least 4096; the headers followed by the text content fill the file extent of the text
segment, from 0 to its file size; and the raw bytes of the source section 1 are no more
than that length. -/
theorem convert_text_region_extent (elf : Elf) (m : mach) (h : convert elf = .ok m) :
    ∃ s1 d1 f1 tx soh, elf.sections[1]? = some (some s1) ∧ s1.rawdata = [d1]
      ∧ m.size_of_headers = some soh ∧ m.file_segments[0]? = some f1
      ∧ m.load_commands[1]? = some (.segment tx)
      ∧ tx.vmsize = ROUND_TO_2POW MACH_ALIGN s1.sh_size
      ∧ soh ≤ 1136 ∧ 4096 ≤ tx.vmsize
      ∧ f1.offset = soh ∧ f1.size = tx.vmsize - soh ∧ f1.write.length = tx.vmsize - soh
      ∧ tx.fileoff = 0 ∧ f1.offset + f1.write.length = tx.fileoff + tx.filesize
      ∧ d1.length ≤ f1.size := by
  obtain ⟨s1, d1, f1, more, tx, soh, hs1, hd1, hsoh, hfs, htx, hvm, hfsz, hfo, -, hhi,
    hpage, hoff, hsz, hwl, hdl⟩ := convert_text_region h
  refine ⟨s1, d1, f1, tx, soh, hs1, hd1, hsoh,
    by rw [hfs]; exact List.getElem?_cons_zero, htx, hvm, hhi, hpage, hoff,
    hsz, hwl, hfo, ?_, by rw [hsz]; exact hdl⟩
  rw [hoff, hwl, hfo, hfsz]
  omega

theorem convert_text_region_extent_witness :
    ∃ m f1, convert sample_elf = .ok m ∧ m.file_segments[0]? = some f1
      ∧ f1.offset = 864 ∧ f1.write.length = 3232 := by
  obtain ⟨m, hm, hs, tx0, h1, e1⟩ : ∃ m, convert sample_elf = .ok m
      ∧ m.size_of_headers = some 864
      ∧ ∃ tx, m.load_commands[1]? = some (.segment tx) ∧ tx.vmsize = 4096 :=
    ⟨_, rfl, rfl, _, rfl, rfl⟩
  obtain ⟨s1, d1, f1, tx, soh, -, -, hsoh, hf1, htx, -, -, -, hoff, -, hwl, -⟩ :=
    convert_text_region_extent sample_elf m hm
  rw [hs] at hsoh
  cases hsoh
  rw [h1] at htx
  cases htx
  exact ⟨m, f1, hm, hf1, hoff, by rw [hwl, e1]⟩

/-! ### Machines without a thread state -/

/-- The switch on the cpu type takes its `default` label for every cpu type but the three
it names. -/
theorem entry_state_none {cpu_type : Nat} (bits : Nat) (endian : mach_endianness)
    (e_entry : Nat) (h1 : cpu_type ≠ CPU_TYPE_X86) (h2 : cpu_type ≠ CPU_TYPE_X86_64)
    (h3 : cpu_type ≠ CPU_TYPE_POWERPC) : entry_state cpu_type bits endian e_entry = none := by
  simp only [entry_state, if_neg h1, if_neg h2, if_neg h3]

/-- Each of the eleven machines has a pair in the lookup table, whose cpu type is none of
the three for which `convert` creates a thread state. -/
theorem unimplemented_machines_cpu {e : Nat} (h : e ∈ unimplemented_machines) :
    ∃ cpu, machine_cpu e = some cpu ∧ cpu.type ≠ CPU_TYPE_X86 ∧ cpu.type ≠ CPU_TYPE_X86_64
      ∧ cpu.type ≠ CPU_TYPE_POWERPC := by
  have key : ∀ k ∈ unimplemented_machines,
      (machine_cpu k).map (fun cpu => decide (cpu.type ≠ CPU_TYPE_X86
        ∧ cpu.type ≠ CPU_TYPE_X86_64 ∧ cpu.type ≠ CPU_TYPE_POWERPC)) = some true := by
    decide
  have hk := key e h
  cases hc : machine_cpu e with
  | none => rw [hc] at hk; cases hk
  | some cpu =>
    rw [hc] at hk
    simp only [Option.map_some', Option.some.injEq, decide_eq_true_eq] at hk
    exact ⟨cpu, rfl, hk⟩

/-- A header that passes the checks of the type, the class and the byte order, for a
machine of the table without a thread state: the exception is thrown by value before any
section is read. -/
theorem translate_unimplemented {elf : Elf} {eh : GElf_Ehdr} {cpu : mach_cpu}
    (he : elf.ehdr = some eh) (ht : eh.e_type = ET_EXEC)
    (hc : eh.ei_class = ELFCLASS32 ∨ eh.ei_class = ELFCLASS64)
    (hd : eh.ei_data = ELFDATA2LSB ∨ eh.ei_data = ELFDATA2MSB)
    (hm : machine_cpu eh.e_machine = some cpu)
    (hs : entry_state cpu.type (class_bits eh) (data_endian eh) eh.e_entry = none) :
    translate elf = .error (.thrown_val "unimplemented CPU type support") := by
  unfold translate
  simp only [throw_new, he]
  rw [if_neg (by simpa using ht), if_neg (by intro hx; rcases hc with h | h
                                             · exact hx.1 h
                                             · exact hx.2 h),
    if_neg (by intro hx; rcases hd with h | h
               · exact hx.1 h
               · exact hx.2 h)]
  simp only [hm, hs]

/-- C36, as stated, fails: a relocatable object for the ARM, a machine of the lookup table
without a thread state, makes `convert` fail with the error of the check of the file type,
not with "unimplemented CPU type support". -/
theorem unimplemented_cpu_counterexample :
    (∃ eh, sample_elf_arm_object.ehdr = some eh ∧ eh.e_machine ∈ unimplemented_machines
        ∧ machine_cpu eh.e_machine = some ⟨CPU_TYPE_ARM, CPU_SUBTYPE_ARM_ALL⟩)
      ∧ convert sample_elf_arm_object = .error (.thrown_ptr "ELF is not an executable")
      ∧ convert sample_elf_arm_object
          ≠ .error (.thrown_val "unimplemented CPU type support") := by
  refine ⟨⟨_, rfl, by decide, rfl⟩, rfl, ?_⟩
  rw [show convert sample_elf_arm_object = .error (.thrown_ptr "ELF is not an executable")
    from rfl]
  simp

/-- C36, amended: for every source image whose machine identifier is one of the eleven of
the lookup table that map to a cpu type other than x86, x86-64 and 32-bit PowerPC,
`convert` returns no image, whatever the sections are; when the header is that of an
executable of class 32 or 64 and of either byte order, the failure is the exception
"unimplemented CPU type support", which is thrown by value. -/
theorem convert_rejects_unimplemented_cpu (elf : Elf) (eh : GElf_Ehdr)
    (he : elf.ehdr = some eh) (hm : eh.e_machine ∈ unimplemented_machines) :
    (∃ cpu, machine_cpu eh.e_machine = some cpu ∧ cpu.type ≠ CPU_TYPE_X86
        ∧ cpu.type ≠ CPU_TYPE_X86_64 ∧ cpu.type ≠ CPU_TYPE_POWERPC)
      ∧ (∀ m, convert elf ≠ .ok m)
      ∧ (eh.e_type = ET_EXEC → (eh.ei_class = ELFCLASS32 ∨ eh.ei_class = ELFCLASS64) →
          (eh.ei_data = ELFDATA2LSB ∨ eh.ei_data = ELFDATA2MSB) →
          convert elf = .error (.thrown_val "unimplemented CPU type support")) := by
  obtain ⟨cpu, hcpu, h1, h2, h3⟩ := unimplemented_machines_cpu hm
  have hs := entry_state_none (class_bits eh) (data_endian eh) eh.e_entry h1 h2 h3
  refine ⟨⟨cpu, hcpu, h1, h2, h3⟩, ?_, ?_⟩
  · intro m hok
    obtain ⟨st, cs, soh, origin, ht, -, -, -⟩ := convert_ok hok
    obtain ⟨eh1, he1, htype, hclass, hdata⟩ := translate_header_ok ht
    rw [he] at he1
    cases he1
    rw [translate_unimplemented he htype hclass hdata hcpu hs] at ht
    cases ht
  · intro htype hclass hdata
    exact convert_error_of_translate (translate_unimplemented he htype hclass hdata hcpu hs)

theorem convert_rejects_unimplemented_cpu_witness :
    convert sample_elf_arm = .error (.thrown_val "unimplemented CPU type support") :=
  (convert_rejects_unimplemented_cpu sample_elf_arm
    { sample_header with e_machine := EM_ARM } rfl (by decide)).2.2 rfl (Or.inl rfl)
    (Or.inl rfl)

/-! ### Sections without the ALLOC flag beyond the inventory -/

/-- From the index 8 on, the first loop passes over sections without the ALLOC flag. -/
theorem first_loop_unallocated {ext : List (Option Elf_Scn)} {i : Nat} (st : convert_state)
    (hi : 8 ≤ i) (hext : ∀ x ∈ ext, ∃ s, x = some s ∧ s.sh_flags &&& SHF_ALLOC = 0) :
    first_loop i ext st = .ok st := by
  induction ext generalizing i with
  | nil => rfl
  | cons x rest ih =>
    obtain ⟨s, rfl, hs⟩ := hext x (List.mem_cons_self _ _)
    simp only [first_loop]
    rw [layout_section_extra st hi, if_neg (by simp [hs])]
    exact ih (by omega) (fun y hy => hext y (List.mem_cons_of_mem _ hy))

/-- The first loop does on a list followed by such sections what it does on the list. -/
theorem first_loop_append {secs ext : List (Option Elf_Scn)} {i : Nat} (st : convert_state)
    (hi : 8 ≤ i + secs.length)
    (hext : ∀ x ∈ ext, ∃ s, x = some s ∧ s.sh_flags &&& SHF_ALLOC = 0) :
    first_loop i (secs ++ ext) st = first_loop i secs st := by
  induction secs generalizing i st with
  | nil =>
    rw [List.nil_append, first_loop_unallocated st (by simpa using hi) hext]
    rfl
  | cons x rest ih =>
    cases x with
    | none => rfl
    | some s =>
      simp only [List.cons_append, first_loop]
      cases layout_section i s st with
      | error e => rfl
      | ok st1 =>
        simp only
        exact ih st1 (by simp only [List.length_cons] at hi; omega)

/-- From the index 7 on, the second loop passes over every section it can read. -/
theorem second_loop_readable {ext : List (Option Elf_Scn)} {i : Nat} (st : convert_state)
    (soh : Nat) (cs : content_state) (hi : 7 ≤ i) (hext : ∀ x ∈ ext, ∃ s, x = some s) :
    second_loop i ext st soh cs = .ok cs := by
  induction ext generalizing i with
  | nil => rfl
  | cons x rest ih =>
    obtain ⟨s, rfl⟩ := hext x (List.mem_cons_self _ _)
    simp only [second_loop]
    rw [content_section_ge_seven hi]
    exact ih (by omega) (fun y hy => hext y (List.mem_cons_of_mem _ hy))

/-- The second loop does on a list followed by readable sections what it does on the
list. -/
theorem second_loop_append {secs ext : List (Option Elf_Scn)} {i : Nat} (st : convert_state)
    (soh : Nat) (cs : content_state) (hi : 7 ≤ i + secs.length)
    (hext : ∀ x ∈ ext, ∃ s, x = some s) :
    second_loop i (secs ++ ext) st soh cs = second_loop i secs st soh cs := by
  induction secs generalizing i cs with
  | nil =>
    rw [List.nil_append, second_loop_readable st soh cs (by simpa using hi) hext]
    rfl
  | cons x rest ih =>
    cases x with
    | none => rfl
    | some s =>
      simp only [List.cons_append, second_loop]
      cases content_section i s st soh cs with
      | error e => rfl
      | ok cs1 =>
        simp only
        exact ih cs1 (by simp only [List.length_cons] at hi; omega)

/-- The translation of an image with such sections after its first eight or more. -/
theorem translate_append (eh : Option GElf_Ehdr) {base ext : List (Option Elf_Scn)}
    (hb : 8 ≤ base.length)
    (hext : ∀ x ∈ ext, ∃ s, x = some s ∧ s.sh_flags &&& SHF_ALLOC = 0) :
    translate { ehdr := eh, sections := base ++ ext }
      = translate { ehdr := eh, sections := base } := by
  have hr : ∀ x ∈ ext, ∃ s, x = some s := fun x hx => by
    obtain ⟨s, hs, -⟩ := hext x hx
    exact ⟨s, hs⟩
  unfold translate
  simp only [first_loop_append _ (show 8 ≤ 0 + base.length by omega) hext,
    second_loop_append _ _ _ (show 7 ≤ 0 + base.length by omega) hr]

/-- The result of `convert` on a handle whose sections, names as read included, are `base`
followed by sections that can be read and do not have the ALLOC flag, `base` holding eight
sections or more: it is the result on `base`. -/
theorem convert_append_unallocated (eh : Option GElf_Ehdr)
    (base ext : List (Option Elf_Scn)) (hb : 8 ≤ base.length)
    (h : ∀ x ∈ ext, ∃ s, x = some s ∧ s.sh_flags &&& SHF_ALLOC = 0) :
    convert { ehdr := eh, sections := base ++ ext }
      = convert { ehdr := eh, sections := base } := by
  unfold convert
  rw [translate_append eh hb h]

/-! ### The registers of the thread state -/

/-- A 32-bit zero is written as four zero bytes, in either byte order. -/
theorem _write_zero_four (host e : mach_endianness) : _write host e 4 0 = [0, 0, 0, 0] := by
  cases host <;> cases e <;> rfl

/-- A 64-bit zero is written as eight zero bytes, in either byte order. -/
theorem _write_zero_eight (host e : mach_endianness) :
    _write host e 8 0 = [0, 0, 0, 0, 0, 0, 0, 0] := by
  cases host <;> cases e <;> rfl

/-- The record of an x86 payload whose only assigned register is `eip`. -/
theorem thread_state_x86_zero (host : mach_endianness) (bits : Nat) (endian : mach_endianness)
    (pc : Nat) :
    thread_state_x86.write host { bits := bits, endian := endian, eip := pc }
      = List.replicate 40 0 ++ _write host endian 4 pc ++ List.replicate 20 0 := by
  simp only [thread_state_x86.write, _write_zero_four]
  simp [List.replicate]

/-- The record of an x86-64 payload whose only assigned register is `rip`. -/
theorem thread_state_x86_64_zero (host : mach_endianness) (bits : Nat)
    (endian : mach_endianness) (pc : Nat) :
    thread_state_x86_64.write host { bits := bits, endian := endian, rip := pc }
      = List.replicate 128 0 ++ _write host endian 8 pc ++ List.replicate 32 0 := by
  simp only [thread_state_x86_64.write, _write_zero_eight]
  simp [List.replicate]

/-- The record of a PowerPC payload whose only assigned register is `srr0`. -/
theorem thread_state_powerpc_zero (host : mach_endianness) (bits : Nat)
    (endian : mach_endianness) (pc : Nat) :
    thread_state_powerpc.write host { bits := bits, endian := endian, srr0 := pc }
      = _write host endian 4 pc ++ List.replicate 156 0 := by
  have hg : ((List.range 32).map
      (fun i => _write host endian 4 ((List.replicate 32 0).getD i 0))).flatten
        = List.replicate 128 0 := by
    cases host <;> cases endian <;> decide
  simp only [thread_state_powerpc.write, hg, _write_zero_four]
  simp [List.replicate]

/-- C39: in every image returned by a successful `convert`, the thread command (load
command 5) carries a payload of one of the three variants in which every register but the
program counter has the value zero, and in the record `unixthread_command::write`
serializes after its four words, every byte outside the field of the program counter is
zero: 40 zero bytes, `eip`, 20 zero bytes for x86; 128 zero bytes, `rip`, 32 zero bytes for
x86-64; `srr0`, then 156 zero bytes for PowerPC. -/
theorem convert_thread_state_registers (host : mach_endianness) (elf : Elf) (m : mach)
    (h : convert elf = .ok m) :
    ∃ th state, m.load_commands[5]? = some (.unixthread th) ∧ th.state = some state
      ∧ th.write host = some (_write host th.endian 4 LC_UNIXTHREAD
          ++ _write host th.endian 4 (16 + 4 * state.count)
          ++ _write host th.endian 4 state.flavor ++ _write host th.endian 4 state.count
          ++ state.write host)
      ∧ ((∃ pc, state = .x86 { bits := m.bits, endian := m.endian, eip := pc }
            ∧ state.write host
                = List.replicate 40 0 ++ _write host m.endian 4 pc ++ List.replicate 20 0)
        ∨ (∃ pc, state = .x86_64 { bits := m.bits, endian := m.endian, rip := pc }
            ∧ state.write host
                = List.replicate 128 0 ++ _write host m.endian 8 pc ++ List.replicate 32 0)
        ∨ (∃ pc, state = .powerpc { bits := m.bits, endian := m.endian, srr0 := pc }
            ∧ state.write host = _write host m.endian 4 pc ++ List.replicate 156 0)) := by
  obtain ⟨st, cs, soh, origin, ht, -, -, rfl⟩ := convert_ok h
  obtain ⟨eh, cpu, state, -, -, hstate, hsk⟩ := translate_skeleton ht
  obtain ⟨-, -, -, -, -, hth, hend, hbits⟩ := skeleton_names hsk
  have hme : (st.image cs.file_segments).endian = data_endian eh := hend
  have hmb : (st.image cs.file_segments).bits = class_bits eh := hbits
  refine ⟨st.th_unix, state, rfl, hth, unixthread_write_eq host hth, ?_⟩
  rw [hme, hmb]
  rcases entry_state_cases hstate with ⟨-, rfl⟩ | ⟨-, rfl⟩ | ⟨-, rfl⟩
  · exact Or.inl ⟨_, rfl, thread_state_x86_zero host _ _ _⟩
  · exact Or.inr (Or.inl ⟨_, rfl, thread_state_x86_64_zero host _ _ _⟩)
  · exact Or.inr (Or.inr ⟨_, rfl, thread_state_powerpc_zero host _ _ _⟩)

theorem convert_thread_state_registers_witness :
    ∃ m th state, convert sample_elf = .ok m
      ∧ m.load_commands[5]? = some (.unixthread th) ∧ th.state = some state
      ∧ state.write MACH_LSB
          = List.replicate 40 0 ++ [0x60, 0x13, 0, 0] ++ List.replicate 20 0 := by
  obtain ⟨m, hm, hth0⟩ : ∃ m, convert sample_elf = .ok m
      ∧ m.load_commands[5]? = some (.unixthread (unixthread_command.mk 32 MACH_LSB
          (some (.x86 (thread_state_x86.mk 32 MACH_LSB 0 0 0 0 0 0 0 0 0x1360 0 0 0 0 0 0 0))))) :=
    ⟨_, rfl, rfl⟩
  obtain ⟨th, state, hth, hst, -, -⟩ :=
    convert_thread_state_registers MACH_LSB sample_elf m hm
  rw [hth0] at hth
  cases hth
  cases hst
  exact ⟨m, _, _, hm, hth0, rfl, by decide⟩

/-! ### The copy of the content of an archive entry -/

/-- A stream that yields fewer bytes than `remain` leaves the first loop through its
`break`, with bytes still to write and `len` equal to 0. -/
theorem copy_loop_short {fuel : Nat} {input : List Nat} {remain : Nat} {len : Option Nat}
    {out : List Nat} {r : Nat} {l : Option Nat} {o : List Nat}
    (hs : input.length < remain)
    (h : copy_loop fuel input remain len out = some (r, l, o)) :
    0 < r ∧ r ≤ remain ∧ l = some 0 := by
  induction fuel generalizing input remain len out with
  | zero => simp [copy_loop] at h
  | succ n ih =>
    simp only [copy_loop] at h
    split at h
    · omega
    · split at h
      · simp only [Option.some.injEq, Prod.mk.injEq] at h
        obtain ⟨rfl, rfl, -⟩ := h
        exact ⟨by omega, Nat.le_refl _, rfl⟩
      · have hm : min remain COPY_BUF_SIZE ≤ remain := Nat.min_le_left _ _
        rcases Nat.le_total input.length (min remain COPY_BUF_SIZE) with hc | hc
        · have hlen : (List.take (min remain COPY_BUF_SIZE) input).length = input.length := by
            rw [List.length_take]
            exact Nat.min_eq_right hc
          rw [hlen] at h
          obtain ⟨h1, h2, h3⟩ := ih (by rw [List.length_drop]; omega) h
          exact ⟨h1, by omega, h3⟩
        · have hlen : (List.take (min remain COPY_BUF_SIZE) input).length
              = min remain COPY_BUF_SIZE := by
            rw [List.length_take]
            exact Nat.min_eq_left hc
          rw [hlen] at h
          obtain ⟨h1, h2, h3⟩ := ih (by rw [List.length_drop]; omega) h
          exact ⟨h1, by omega, h3⟩

/-- With `len` equal to 0 the second loop never ends. -/
theorem fill_loop_zero (fuel : Nat) {remain : Nat} (h0 : 0 < remain) (hr : remain < 2 ^ 64)
    (out : List Nat) : fill_loop fuel remain 0 out = none := by
  induction fuel generalizing out with
  | zero => rfl
  | succ n ih =>
    have hs : sub64 remain 0 = remain := by
      simp only [sub64]
      omega
    simp only [fill_loop]
    rw [if_neg (by omega), hs]
    exact ih _

/-- A stream that yields at least `remain` bytes: the first loop copies `remain` bytes and
ends with nothing left to write, within `remain + 1` turns. -/
theorem copy_loop_full {fuel : Nat} {input : List Nat} {remain : Nat} (len : Option Nat)
    (out : List Nat) (hs : remain ≤ input.length) (hf : remain < fuel) :
    ∃ l, copy_loop fuel input remain len out = some (0, l, out ++ input.take remain) := by
  induction fuel generalizing input remain len out with
  | zero => omega
  | succ n ih =>
    simp only [copy_loop]
    split
    next h0 =>
      subst h0
      exact ⟨len, by simp⟩
    next h0 =>
      have hB : 0 < COPY_BUF_SIZE := by decide
      have hlen : (List.take (min remain COPY_BUF_SIZE) input).length
          = min remain COPY_BUF_SIZE := by
        rw [List.length_take]
        omega
      rw [if_neg (by rw [hlen]; omega), hlen]
      obtain ⟨l, hl⟩ := @ih (input.drop (min remain COPY_BUF_SIZE))
        (remain - min remain COPY_BUF_SIZE) (some (min remain COPY_BUF_SIZE))
        (out ++ input.take (min remain COPY_BUF_SIZE))
        (by rw [List.length_drop]; omega) (by omega)
      refine ⟨l, ?_⟩
      have hsum : min remain COPY_BUF_SIZE + (remain - min remain COPY_BUF_SIZE) = remain := by
        omega
      rw [hl, List.append_assoc, ← List.take_add, hsum]

/-- C40: the method `entry::copy_content_to`, for an entry whose `content_size` is a
64-bit value. When the stream yields fewer than `content_size` bytes from `content_offset`
on, the method does not terminate: the first loop leaves through its `break` with `len`
equal to 0, and the zero-filling loop subtracts `len` from `remain`, which never changes;
no number of turns ends it. When the stream yields at least `content_size` bytes, the
alignment is positive and the padding fits the buffer, the method terminates and appends
the `content_size` bytes of the content followed by `content_size mod alignment` zero
bytes. -/
theorem copy_content_to_short_stream (e : entry) (alignment : Nat)
    (hsz : e.content_size < 2 ^ 64) :
    ((e.stream.drop e.content_offset).length < e.content_size →
        ∀ fuel, e.copy_content_to fuel alignment = none)
      ∧ (e.content_size ≤ (e.stream.drop e.content_offset).length → 1 ≤ alignment →
          e.content_size % alignment ≤ COPY_BUF_SIZE →
          ∀ fuel, e.content_size < fuel →
            e.copy_content_to fuel alignment
                = some (.ok ((e.stream.drop e.content_offset).take e.content_size
                    ++ List.replicate (e.content_size % alignment) 0))
              ∧ ((e.stream.drop e.content_offset).take e.content_size
                    ++ List.replicate (e.content_size % alignment) 0).length
                  = e.content_size + e.content_size % alignment) := by
  refine ⟨fun hs fuel => ?_, fun hs ha hp fuel hf => ⟨?_, ?_⟩⟩
  · unfold entry.copy_content_to
    cases hc : copy_loop fuel (e.stream.drop e.content_offset) e.content_size none [] with
    | none => rfl
    | some x =>
      obtain ⟨r, l, o⟩ := x
      obtain ⟨h0, hle, rfl⟩ := copy_loop_short hs hc
      simp only
      rw [if_neg (by omega), fill_loop_zero fuel h0 (by omega) o]
  · unfold entry.copy_content_to
    obtain ⟨l, hl⟩ := copy_loop_full none [] hs hf
    rw [hl]
    simp only [if_pos, List.nil_append, copy_padding]
    rw [if_neg (by omega)]
    split
    next h0 => rw [h0, List.replicate_zero, List.append_nil]
    next h0 => rw [if_neg (by omega)]
  · rw [List.length_append, List.length_take, List.length_replicate]
    omega

theorem copy_content_to_short_stream_witness :
    (∀ fuel, sample_entry_short.copy_content_to fuel 2 = none)
      ∧ sample_entry.copy_content_to 6 2 = some (.ok [3, 4, 5, 6, 7, 0]) := by
  obtain ⟨h1, -⟩ := copy_content_to_short_stream sample_entry_short 2 (by decide)
  obtain ⟨-, h2⟩ := copy_content_to_short_stream sample_entry 2 (by decide)
  exact ⟨h1 (by decide), (h2 (by decide) (by decide) (by decide) 6 (by decide)).1⟩


/-! ### The section-name string table -/

/-- A string is read only from a section that exists, can be read and is a string table. -/
theorem elf_strptr_some {f : Elf_File} {ndx off : Nat} {n : String}
    (h : elf_strptr f ndx off = some n) :
    ∃ t, f.sections[ndx]? = some (some t) ∧ t.sh_type = SHT_STRTAB := by
  unfold elf_strptr at h
  split at h
  next t ht =>
    split at h
    next hty => exact ⟨t, ht, hty⟩
    · cases h
  · cases h

/-- The string read depends on the file through the section the index names only. -/
theorem elf_strptr_congr {f1 f2 : Elf_File} {n1 n2 : Nat}
    (h : f1.sections[n1]? = f2.sections[n2]?) (off : Nat) :
    elf_strptr f1 n1 off = elf_strptr f2 n2 off := by
  unfold elf_strptr
  rw [h]

/-- Two files with the same section-name string table give the same reading of a section. -/
theorem File_Scn_read_congr {f1 f2 : Elf_File}
    (h : f1.sections[f1.e_shstrndx]? = f2.sections[f2.e_shstrndx]?) (s : File_Scn) :
    File_Scn.read f1 s = File_Scn.read f2 s := by
  simp only [File_Scn.read, elf_strptr_congr h]

/-- The section of index `j` of the handle is the reading of the section `j` of the file. -/
theorem handle_getElem? (f : Elf_File) (j : Nat) :
    f.handle.sections[j]? = (f.sections[j]?).map (Option.map (File_Scn.read f)) := by
  simp only [Elf_File.handle, List.getElem?_map]

/-- When the first loop ends without throwing, each section was read and passed the check
of its position. -/
theorem first_loop_ok_get {secs : List (Option Elf_Scn)} {k j : Nat} {st st1 : convert_state}
    {x : Option Elf_Scn} (h : first_loop k secs st = .ok st1) (hx : secs[j]? = some x) :
    ∃ s sta stb, x = some s ∧ layout_section (k + j) s sta = .ok stb := by
  induction secs generalizing k j st with
  | nil => simp at hx
  | cons y rest ih =>
    cases y with
    | none => simp [first_loop, throw_new] at h
    | some s =>
      obtain ⟨st2, h2, h3⟩ := first_loop_cons_ok h
      cases j with
      | zero =>
        simp only [List.getElem?_cons_zero, Option.some.injEq] at hx
        exact ⟨s, st, st2, hx.symm, h2⟩
      | succ i =>
        simp only [List.getElem?_cons_succ] at hx
        obtain ⟨s', sta, stb, hs', hl⟩ := ih h3 hx
        exact ⟨s', sta, stb, hs', by rw [show k + (i + 1) = k + 1 + i by omega]; exact hl⟩

/-- None of the positions 0 to 7 accepts a section of type `SHT_STRTAB`. -/
theorem layout_section_type {i : Nat} {s : Elf_Scn} {st st1 : convert_state} (hi : i ≤ 7)
    (h : layout_section i s st = .ok st1) : s.sh_type ≠ SHT_STRTAB := by
  intro hty
  have hd : deviates i s := by
    match i, hi with
    | 0, _ => exact Or.inl ⟨rfl, by rw [hty]; decide⟩
    | 1, _ => exact Or.inr ⟨_, _, _, rfl, Or.inl (by rw [hty]; decide)⟩
    | 2, _ => exact Or.inr ⟨_, _, _, rfl, Or.inl (by rw [hty]; decide)⟩
    | 3, _ => exact Or.inr ⟨_, _, _, rfl, Or.inl (by rw [hty]; decide)⟩
    | 4, _ => exact Or.inr ⟨_, _, _, rfl, Or.inl (by rw [hty]; decide)⟩
    | 5, _ => exact Or.inr ⟨_, _, _, rfl, Or.inl (by rw [hty]; decide)⟩
    | 6, _ => exact Or.inr ⟨_, _, _, rfl, Or.inl (by rw [hty]; decide)⟩
    | 7, _ => exact Or.inr ⟨_, _, _, rfl, Or.inl (by rw [hty]; decide)⟩
  obtain ⟨msg, hm⟩ := layout_section_deviates st hd
  rw [hm] at h
  cases h

/-- The position 1 accepts a section only under the name `.text`. -/
theorem layout_section_one_name {s : Elf_Scn} {st st1 : convert_state}
    (h : layout_section 1 s st = .ok st1) : s.name = some ".text" := by
  by_contra hn
  have hd : deviates 1 s := Or.inr ⟨_, _, _, rfl, Or.inr (Or.inr hn)⟩
  obtain ⟨msg, hm⟩ := layout_section_deviates st hd
  rw [hm] at h
  cases h

/-- When the first loop ends without throwing on a file of two sections or more, the
section-name string table is a section of the file at an index of 8 or more, without the
ALLOC flag. -/
theorem first_loop_ok_string_table {f : Elf_File} {st st1 : convert_state}
    (h2 : 2 ≤ f.sections.length) (h : first_loop 0 f.handle.sections st = .ok st1) :
    ∃ t, f.sections[f.e_shstrndx]? = some (some t) ∧ t.sh_type = SHT_STRTAB
      ∧ 8 ≤ f.e_shstrndx ∧ t.sh_flags &&& SHF_ALLOC = 0 := by
  obtain ⟨x, hx⟩ : ∃ x, f.sections[1]? = some x :=
    ⟨_, List.getElem?_eq_getElem (show 1 < f.sections.length by omega)⟩
  have hx' : f.handle.sections[1]? = some (x.map (File_Scn.read f)) := by
    rw [handle_getElem?, hx]
    rfl
  obtain ⟨s, sta, stb, hs, hl⟩ := first_loop_ok_get h hx'
  have hname := layout_section_one_name hl
  cases x with
  | none => cases hs
  | some s1 =>
    simp only [Option.map_some', Option.some.injEq] at hs
    subst hs
    obtain ⟨t, ht, hty⟩ := elf_strptr_some hname
    have ht' : f.handle.sections[f.e_shstrndx]? = some (some (File_Scn.read f t)) := by
      rw [handle_getElem?, ht]
      rfl
    obtain ⟨s2, stc, std, hs2, hl2⟩ := first_loop_ok_get h ht'
    cases hs2
    rw [Nat.zero_add] at hl2
    have h8 : 8 ≤ f.e_shstrndx := by
      by_contra hlt
      exact layout_section_type (by omega) hl2 hty
    refine ⟨t, ht, hty, h8, ?_⟩
    rw [layout_section_extra stc h8] at hl2
    by_contra hne
    have hne' : (File_Scn.read f t).sh_flags &&& SHF_ALLOC ≠ 0 := hne
    rw [if_pos hne'] at hl2
    cases hl2

/-- The sections of the small executable, names included, are what `convert` reads of the
first eight sections of its file. -/
theorem sample_file_reads_sample_sections :
    sample_file.handle.ehdr = sample_elf.ehdr
      ∧ sample_file.handle.sections.take 8 = sample_elf.sections := ⟨rfl, by decide⟩

/-! ### Short inventories -/

/-- An image is returned only for a file of nine sections or more: the eight of the
inventory and, at an index of 8 or more, the section-name string table, without the ALLOC
flag. -/
theorem convert_ok_string_table {f : Elf_File} {m : mach} (h : convert f.handle = .ok m) :
    ∃ t, f.sections[f.e_shstrndx]? = some (some t) ∧ t.sh_type = SHT_STRTAB
      ∧ 8 ≤ f.e_shstrndx ∧ t.sh_flags &&& SHF_ALLOC = 0 ∧ 9 ≤ f.sections.length := by
  obtain ⟨st, cs, soh, origin, ht, -, -, -⟩ := convert_ok h
  obtain ⟨eh, cpu, state, fsg, -, -, -, hfl, -, -, -⟩ := translate_ok ht
  obtain ⟨s1, hs1⟩ := convert_ok_section_one h
  have h2 : 2 ≤ f.sections.length := by
    have hlt : 1 < f.handle.sections.length := by
      by_contra hge
      rw [List.getElem?_eq_none (by omega)] at hs1
      cases hs1
    simpa [Elf_File.handle] using hlt
  obtain ⟨t, ht1, hty, h8, hfl1⟩ := first_loop_ok_string_table h2 hfl
  refine ⟨t, ht1, hty, h8, hfl1, ?_⟩
  by_contra hlt
  rw [List.getElem?_eq_none (by omega)] at ht1
  cases ht1

/-- C21, on the code: for every source file of two to eight sections `convert` fails with
a thrown exception and returns no image, as the claim says, since the names are read from a
string table that is itself a section and none of the positions 0 to 7 accepts its type;
an image is returned only for a file of nine sections or more. The claim fails on a file
without section headers, and on one with the null section only: no statement assigns the
variable `origin`, and `convert`, instead of failing with an error, reads it at line 1063,
which is undefined behaviour. -/
theorem convert_short_inventory :
    (∀ f : Elf_File, 2 ≤ f.sections.length → f.sections.length ≤ 8 →
        ∃ msg, convert f.handle = .error (.thrown_ptr msg)
          ∨ convert f.handle = .error (.thrown_val msg))
      ∧ (∀ (f : Elf_File) (m : mach), convert f.handle = .ok m → 9 ≤ f.sections.length)
      ∧ (sample_file_no_sections.sections.length = 0
        ∧ convert sample_file_no_sections.handle
            = .error (.undefined "read of the uninitialized variable origin"))
      ∧ (sample_file_null_only.sections.length = 1
        ∧ convert sample_file_null_only.handle
            = .error (.undefined "read of the uninitialized variable origin")) := by
  refine ⟨?_, fun f m h => ?_, ⟨rfl, rfl⟩, ⟨rfl, rfl⟩⟩
  · intro f h2 h8
    have hfl : ∀ st, ∃ msg, first_loop 0 f.handle.sections st = .error (.thrown_ptr msg) := by
      intro st
      cases hc : first_loop 0 f.handle.sections st with
      | error e =>
        obtain ⟨msg, rfl⟩ := first_loop_error hc
        exact ⟨msg, rfl⟩
      | ok st1 =>
        obtain ⟨t, ht, -, hge, -⟩ := first_loop_ok_string_table h2 hc
        rw [List.getElem?_eq_none (by omega)] at ht
        cases ht
    obtain ⟨msg, hm⟩ := translate_error_of_first_loop hfl
    rcases hm with hm | hm
    · exact ⟨msg, Or.inl (convert_error_of_translate hm)⟩
    · exact ⟨msg, Or.inr (convert_error_of_translate hm)⟩
  · obtain ⟨t, -, -, -, -, h9⟩ := convert_ok_string_table h
    exact h9

theorem convert_short_inventory_witness :
    sample_file_three.sections.length = 3
      ∧ ∃ msg, convert sample_file_three.handle = .error (.thrown_ptr msg)
          ∨ convert sample_file_three.handle = .error (.thrown_val msg) :=
  ⟨rfl, convert_short_inventory.1 sample_file_three (by decide) (by decide)⟩

/-! ### Sections without the ALLOC flag and the string table -/

/-- C38, as stated, fails: the file of the small executable has nine sections, the ninth
being the section-name string table, at the index 8 and without the ALLOC flag, and
`convert` returns an image for it; with that section removed, whatever value is left in
`e_shstrndx`, no name can be read and `convert` fails with "ELF section 1 is not .text". -/
theorem removed_string_table_counterexample :
    (∃ m, convert sample_file.handle = .ok m)
      ∧ sample_file.sections = sample_file_sections ++ [sample_shstrtab]
      ∧ sample_file_sections.length = 8
      ∧ (∃ s, sample_shstrtab = some s ∧ s.sh_flags &&& SHF_ALLOC = 0)
      ∧ ∀ ndx, (sample_file_stripped ndx).ehdr = sample_file.ehdr
          ∧ (sample_file_stripped ndx).sections = sample_file_sections
          ∧ convert (sample_file_stripped ndx).handle
              = .error (.thrown_ptr "ELF section 1 is not .text") := by
  refine ⟨⟨_, rfl⟩, rfl, rfl, ⟨_, rfl, by decide⟩, fun ndx => ⟨rfl, rfl, ?_⟩⟩
  match ndx with
  | 0 | 1 | 2 | 3 | 4 | 5 | 6 | 7 => rfl
  | n + 8 => rfl

/-- C38, amended: sections at index 8 or higher that can be read and do not have the ALLOC
flag are ignored by the two loops, and the result of `convert` depends on them through the
section-name string table only. Two source files with the same header and the same
sections up to an index of 8 or more, followed in each by any number of such sections, and
whose section-name string table (the section `e_shstrndx` names) is the same section, have
the same result of `convert`: the same image, field by field and byte by byte, or the same
failure. Every file for which an image is returned has such a string table, at an index of
8 or more and without the ALLOC flag. -/
theorem convert_ignores_unallocated_sections (f1 f2 : Elf_File)
    (base ext1 ext2 : List (Option File_Scn)) (hh : f1.ehdr = f2.ehdr)
    (h1 : f1.sections = base ++ ext1) (h2 : f2.sections = base ++ ext2)
    (hb : 8 ≤ base.length)
    (he1 : ∀ x ∈ ext1, ∃ s, x = some s ∧ s.sh_flags &&& SHF_ALLOC = 0)
    (he2 : ∀ x ∈ ext2, ∃ s, x = some s ∧ s.sh_flags &&& SHF_ALLOC = 0)
    (hs : f1.sections[f1.e_shstrndx]? = f2.sections[f2.e_shstrndx]?) :
    convert f1.handle = convert f2.handle
      ∧ ∀ m, convert f1.handle = .ok m →
          ∃ t, f1.sections[f1.e_shstrndx]? = some (some t) ∧ t.sh_type = SHT_STRTAB
            ∧ 8 ≤ f1.e_shstrndx ∧ t.sh_flags &&& SHF_ALLOC = 0 := by
  refine ⟨?_, fun m hm => ?_⟩
  · have hr : File_Scn.read f1 = File_Scn.read f2 := funext (File_Scn_read_congr hs)
    have hext : ∀ (ext : List (Option File_Scn)),
        (∀ x ∈ ext, ∃ s, x = some s ∧ s.sh_flags &&& SHF_ALLOC = 0) →
        ∀ y ∈ ext.map (Option.map (File_Scn.read f2)),
          ∃ s, y = some s ∧ s.sh_flags &&& SHF_ALLOC = 0 := by
      intro ext he y hy
      obtain ⟨x, hx, rfl⟩ := List.mem_map.1 hy
      obtain ⟨s, rfl, hfl⟩ := he x hx
      exact ⟨File_Scn.read f2 s, rfl, hfl⟩
    have e1 : f1.handle = Elf.mk f2.ehdr (base.map (Option.map (File_Scn.read f2))
        ++ ext1.map (Option.map (File_Scn.read f2))) := by
      simp only [Elf_File.handle, h1, hh, hr, List.map_append]
    have e2 : f2.handle = Elf.mk f2.ehdr (base.map (Option.map (File_Scn.read f2))
        ++ ext2.map (Option.map (File_Scn.read f2))) := by
      simp only [Elf_File.handle, h2, List.map_append]
    rw [e1, e2, convert_append_unallocated _ _ _ (by rw [List.length_map]; exact hb)
      (hext ext1 he1), convert_append_unallocated _ _ _ (by rw [List.length_map]; exact hb)
      (hext ext2 he2)]
  · obtain ⟨t, ht, hty, h8, hfl, -⟩ := convert_ok_string_table hm
    exact ⟨t, ht, hty, h8, hfl⟩

theorem convert_ignores_unallocated_sections_witness :
    sample_file_comments.sections.length = 11
      ∧ convert sample_file.handle = convert sample_file_comments.handle :=
  ⟨rfl, (convert_ignores_unallocated_sections sample_file sample_file_comments
    (sample_file_sections ++ [sample_shstrtab]) [] _ rfl rfl rfl (by decide) (by decide)
    (by decide) rfl).1⟩


end Elf2Macho
